import Mathlib

/-!
# BTreeDatabase: a shallow embedding of the B-tree engine

The embedding follows `BTreeDB.cpp`, `TreeNode.cpp` and the headers of the
repository.  A `TreeNode` of the source is a heap object reached through
reference-counted pointers; here a node is a value that owns its children,
and a pointer to a node (`parent`, the first component of a `NodeKeyLocn`)
is represented by the `fpos` of the node it points to.  `_allocateNode` is the
only source of nodes in a session that created its file, it hands out
`fpos = _filelength`, and the file only grows, so `fpos` identifies a node.

Scope of the value model: one session on a database whose file was created by
`open()`, for as long as no node of the tree is unloaded.  In such a session
every node is created by `_allocateNode` with `loaded = true`, `loadChild`
does not read the disk and returns `children[childNo]` as it is, and `write`
does not change the in-memory image; these three are therefore not part of
the state.

The value model has no reference counts.  In the source a node is deleted when
the last `Ptr` to it goes, and `~TreeNode` then calls `unload()` on every
child the node lists.  `_merge` leaves the children of `c2` listed in `c2` and
their `parent` pointing to `c2`, and the root collapse of `del` leaves the new
root listed in the old root and its `parent` pointing there, so such a node
stays alive until a later `_split`, `_insert` or `_delete` releases the last
of these pointers, and its destructor then unloads nodes of the tree.  The
value model follows the source up to the first such release: in a run of
`put` calls no node is deleted, and in a `del` after `put` calls only leaves
that list no child are deleted.  The section on the session with its
reference counts (`Mem`) models the heap, the counts, the destructor and
`unload`, and holds the runs on which the source leaves the value model.

`objCount` and `objects.size()` are kept equal by every statement of the
source that changes one of them (`setCount`, and the paired
`resize`/assignment in `_merge` and in case 3a of `_delete`), so `objCount`
is the length of `objects`.  A leaf holds only null child pointers; its
`children` list is empty here.

Vector reads use total list operations.  Where the source would index a
vector out of range (which it only does on trees that break the shape
invariant, or in the cursor, where it is reported as `SeqResult.fault`), the
embedding yields a default value.

The bytes of the data file are followed in the section on the data file: each
algorithm that writes has a companion that returns the file after its writes.
A session that opens an existing file has nodes that are read from their
pages on demand; its nodes are the type `LNode`, which has the fields `loaded`
and `objCount` and a null pointer.
-/

namespace Database

/-! ## Data model -/

/-- Bytes of a `DbObj`: the blob `_data[0 .. _size)`, each byte as an unsigned value. -/
abbrev DbObj := List Nat

/-- Type `compareFn`: `int (*)(const DbObjPtr&, const DbObjPtr&)`. -/
abbrev compareFn := DbObj → DbObj → Int

/-- Value of `(size_t)-1`. -/
def SIZE_MAX : Nat := 18446744073709551615

/-- Value of `n - 1` in `size_t` arithmetic, for `n` in the range of the type. -/
def decr (n : Nat) : Nat := if n = 0 then SIZE_MAX else n - 1

/-- Enumeration `EChildPos` of TreeNode.h. -/
inductive EChildPos where
  | ECP_INTHIS
  | ECP_INLEFT
  | ECP_INRIGHT
  | ECP_NONE
  deriving DecidableEq, Repr

/-- Pair `OBJECTPOS`: `std::pair<size_t, EChildPos>`. -/
abbrev OBJECTPOS := Nat × EChildPos

/-- Class `TreeNode` (TreeNode.h) as a value: a loaded node that owns its children.  `parent`
holds the `fpos` of the node the source pointer refers to, `none` for the null
pointer.  The count `_crefs`, the flag `loaded` and the children that a node
no longer in the tree still lists are not part of the value; `Mem.Cell` has
them. -/
inductive TreeNode where
  | mk (childNo : Nat) (isLeaf : Bool) (fpos : Nat) (objects : List DbObj)
       (children : List TreeNode) (parent : Option Nat)

/-- Pair `NodeKeyLocn`: `std::pair<TreeNodePtr, size_t>`, the node given by its `fpos`. -/
abbrev NodeKeyLocn := Option Nat × Nat

namespace TreeNode

/-- Field `childNo`. -/
def childNo : TreeNode → Nat
  | mk c _ _ _ _ _ => c

/-- Field `isLeaf`. -/
def isLeaf : TreeNode → Bool
  | mk _ l _ _ _ _ => l

/-- Field `fpos`. -/
def fpos : TreeNode → Nat
  | mk _ _ f _ _ _ => f

/-- Field `objects`. -/
def objects : TreeNode → List DbObj
  | mk _ _ _ os _ _ => os

/-- Field `children`. -/
def children : TreeNode → List TreeNode
  | mk _ _ _ _ cs _ => cs

/-- Field `parent`. -/
def parent : TreeNode → Option Nat
  | mk _ _ _ _ _ p => p

/-- Field `objCount`. -/
def objCount (n : TreeNode) : Nat := n.objects.length

/-- Assignment to `childNo`. -/
def setChildNo : TreeNode → Nat → TreeNode
  | mk _ l f os cs p, c => mk c l f os cs p

/-- Assignment to `isLeaf`. -/
def setIsLeaf : TreeNode → Bool → TreeNode
  | mk c _ f os cs p, l => mk c l f os cs p

/-- Assignment to `objects`. -/
def setObjects : TreeNode → List DbObj → TreeNode
  | mk c l f _ cs p, os => mk c l f os cs p

/-- Assignment to `children`. -/
def setChildren : TreeNode → List TreeNode → TreeNode
  | mk c l f os _ p, cs => mk c l f os cs p

/-- Assignment to `parent`. -/
def setParent : TreeNode → Option Nat → TreeNode
  | mk c l f os cs _, p => mk c l f os cs p

end TreeNode

/-- Constructor `TreeNode::TreeNode()`: `childNo = (size_t)-1`, no objects, a
leaf, no parent.  The `fpos` of the source is `-1`; every node of the
embedding gets its `fpos` from `_allocateNode`. -/
def TreeNode.new : TreeNode := TreeNode.mk SIZE_MAX true 0 [] [] none

instance : Inhabited TreeNode := ⟨TreeNode.new⟩

namespace TreeNode

mutual
/-- Number of levels of the subtree (a leaf has height 1). It bounds every descent. -/
def height : TreeNode → Nat
  | mk _ _ _ _ cs _ => heightList cs + 1
/-- Largest height among a list of nodes. -/
def heightList : List TreeNode → Nat
  | [] => 0
  | c :: cs => max (height c) (heightList cs)
end

mutual
/-- Number of nodes of the subtree. -/
def size : TreeNode → Nat
  | mk _ _ _ _ cs _ => sizeList cs + 1
/-- Number of nodes in the subtrees of a list. -/
def sizeList : List TreeNode → Nat
  | [] => 0
  | c :: cs => size c + sizeList cs
end

mutual
/-- Records of the subtree in the order `_traverse` visits them when the
callback never stops it: for each `ctr < objCount` the subtree `children[ctr]`
and then `objects[ctr]`, and last the subtree `children[objCount]`. -/
def inorder : TreeNode → List DbObj
  | mk _ l _ os cs _ => if l then os else inorderKids cs os
/-- Interleaving of the child subtrees with the records of the node. -/
def inorderKids : List TreeNode → List DbObj → List DbObj
  | [], os => os
  | c :: _, [] => inorder c
  | c :: cs, o :: os => inorder c ++ o :: inorderKids cs os
end

mutual
/-- Dereference of a node pointer: the node of the subtree with the given `fpos`. -/
def findNode : TreeNode → Nat → Option TreeNode
  | mk c l f os cs p, a => if f = a then some (mk c l f os cs p) else findNodeList cs a
/-- Search of a list of subtrees for the node with the given `fpos`. -/
def findNodeList : List TreeNode → Nat → Option TreeNode
  | [], _ => none
  | c :: cs, a =>
    match findNode c a with
    | some n => some n
    | none => findNodeList cs a
end

mutual
/-- Store through a node pointer: `node->objects[slot] = rec` for the node with the given `fpos`. -/
def storeObject : TreeNode → Nat → Nat → DbObj → TreeNode
  | mk c l f os cs p, a, slot, r =>
    if f = a then mk c l f (os.set slot r) cs p
    else mk c l f os (storeObjectList cs a slot r) p
/-- Store through a node pointer, in a list of subtrees. -/
def storeObjectList : List TreeNode → Nat → Nat → DbObj → List TreeNode
  | [], _, _, _ => []
  | c :: cs, a, slot, r => storeObject c a slot r :: storeObjectList cs a slot r
end

/-- Loop of `TreeNode::findPos` over `objects`, `ctr` being the index of the head. -/
def findPosLoop (key : DbObj) (cfn : compareFn) (leaf : Bool) : List DbObj → Nat → OBJECTPOS
  | [], ctr =>
    if leaf then (SIZE_MAX, EChildPos.ECP_NONE)
    else (decr ctr, EChildPos.ECP_INRIGHT)
  | o :: os, ctr =>
    if cfn key o = 0 then (ctr, EChildPos.ECP_INTHIS)
    else if cfn key o < 0 then
      (if leaf then (SIZE_MAX, EChildPos.ECP_NONE) else (ctr, EChildPos.ECP_INLEFT))
    else findPosLoop key cfn leaf os (ctr + 1)

/-- Method `TreeNode::findPos`. -/
def findPos (n : TreeNode) (key : DbObj) (cfn : compareFn) : OBJECTPOS :=
  findPosLoop key cfn n.isLeaf n.objects 0

/-- Method `TreeNode::delFromLeaf`. -/
def delFromLeaf (n : TreeNode) (objNo : Nat) : TreeNode × Bool :=
  if n.isLeaf then (n.setObjects (n.objects.eraseIdx objNo), true) else (n, false)

/-- Statement `children[ctr]->childNo = ctr` applied to consecutive slots starting at `start`. -/
def renumber : Nat → List TreeNode → List TreeNode
  | _, [] => []
  | start, c :: cs => c.setChildNo start :: renumber (start + 1) cs

end TreeNode

/-- Comparison `memcmp(p, q, n)`; the sign is that of the first differing pair of bytes. -/
def memcmp : List Nat → List Nat → Nat → Int
  | a :: p, b :: q, n + 1 => if a = b then memcmp p q n else (a : Int) - (b : Int)
  | _, _, _ => 0

/-- Static method `BTreeDB::_defaultCompare`. -/
def _defaultCompare (obj1 obj2 : DbObj) : Int :=
  memcmp obj1 obj2 (min obj1.length obj2.length)

/-- Size of `size_t` in bytes on the LLP64 target of the `io.h` calls the source uses. -/
def sizeofSizeT : Nat := 8

/-- Size of `long` in bytes on the same target. -/
def sizeofLong : Nat := 4

/-- Size of `SFileHeader`: a `long`, padding to the alignment of `size_t`, three `size_t`. -/
def sizeofHeader : Nat := 4 * sizeofSizeT

/-- Class `BTreeDB`: the data members that a session on a created file uses.
`fileLen` is the length of `_dataFile`, which `_allocateNode` reads and extends. -/
structure BTreeDB where
  /-- size of the records to be stored -/
  _recSize : Nat
  /-- number of bytes that comprise the key -/
  _keySize : Nat
  /-- comparison function in use -/
  _compFunc : compareFn
  /-- minimum degree `t` -/
  _minDegree : Nat
  /-- root node -/
  _root : TreeNode
  /-- size of a node page -/
  _nodeSize : Nat
  /-- length of the data file -/
  fileLen : Nat

/-! ## Algorithms of `BTreeDB.cpp` -/

/-- Method `BTreeDB::_allocateNode`: a fresh node at the end of the file, and the new file length. -/
def _allocateNode (nodeSize fileLen : Nat) : TreeNode × Nat :=
  (TreeNode.mk SIZE_MAX true fileLen [] [] none, fileLen + nodeSize)

/-- Method `BTreeDB::_search`.  The recursive calls of the source pass no
comparator, so below the first node `_compFunc` is used. -/
def _search (compFunc : compareFn) : Nat → TreeNode → DbObj → Option compareFn → NodeKeyLocn
  | 0, _, _, _ => (none, SIZE_MAX)
  | fuel + 1, node, key, cfn =>
    let op := node.findPos key (cfn.getD compFunc)
    if op.1 ≠ SIZE_MAX then
      match op.2 with
      | EChildPos.ECP_INTHIS => (some node.fpos, op.1)
      | EChildPos.ECP_INLEFT => _search compFunc fuel (node.children.getD op.1 default) key none
      | EChildPos.ECP_INRIGHT =>
        _search compFunc fuel (node.children.getD (op.1 + 1) default) key none
      | EChildPos.ECP_NONE => (none, SIZE_MAX)
    else (none, SIZE_MAX)

/-- Method `BTreeDB::_split` on values: the parent after the split and the new file length.
`child` is `parent.children[childNum]`.  The assignments `mover->parent = newChild`
release the former parents of the movers; the value model takes these to stay
alive (`Mem._split` counts them). -/
def _split (t nodeSize fileLen : Nat) (parent : TreeNode) (childNum : Nat) (child : TreeNode) :
    TreeNode × Nat :=
  let a := _allocateNode nodeSize fileLen
  let newKids := if child.isLeaf then [] else
    (TreeNode.renumber 0 ((child.children.drop t).take t)).map
      (fun m => m.setParent (some a.1.fpos))
  let newChild := TreeNode.mk (childNum + 1) child.isLeaf a.1.fpos
    ((child.objects.drop t).take (t - 1)) newKids (some parent.fpos)
  let saveObj := child.objects.getD (t - 1) []
  let child1 := (child.setObjects (child.objects.take (t - 1))).setChildren (child.children.take t)
  let kids := parent.children.take childNum ++ child1 :: newChild ::
    TreeNode.renumber (childNum + 2) (parent.children.drop (childNum + 1))
  let objs := parent.objects.take childNum ++ saveObj :: parent.objects.drop childNum
  ((parent.setObjects objs).setChildren kids, a.2)

/-- Method `BTreeDB::_merge` on values: the parent after the merge, and the merged child `c1`
(which is also `children[objNo]` of the returned parent).  The node `c2` drops
out of the tree; what its destruction at the return, or later, does to the
children it still lists is not part of the value model (`Mem._merge` has
it). -/
def _merge (t : Nat) (parent : TreeNode) (objNo : Nat) : TreeNode × TreeNode :=
  let c1 := parent.children.getD objNo default
  let c2 := parent.children.getD (objNo + 1) default
  let objs := c1.objects.take (t - 1) ++ parent.objects.getD objNo [] :: c2.objects.take (t - 1)
  let kids := if c2.isLeaf then c1.children else
    c1.children.take t ++ TreeNode.renumber t (c2.children.take t)
  let c1m := (c1.setObjects objs).setChildren kids
  let pkids := parent.children.take objNo ++ c1m ::
    TreeNode.renumber (objNo + 1) (parent.children.drop (objNo + 2))
  ((parent.setObjects (parent.objects.eraseIdx objNo)).setChildren pkids, c1m)

/-- Right-to-left scan of `_insertNonFull`: starting at `ctr = objCount`, step down
while `key` compares below `objects[ctr - 1]`.  The leaf loop and the loop of
the internal case stop at the same `ctr`. -/
def scanPos (cfn : compareFn) (key : DbObj) (objects : List DbObj) : Nat → Nat
  | 0 => 0
  | ctr + 1 => if cfn key (objects.getD ctr []) < 0 then scanPos cfn key objects ctr else ctr + 1

/-- Method `BTreeDB::_insertNonFull`: the node after the insertion and the new file length. -/
def _insertNonFull (cfn : compareFn) (t nodeSize : Nat) :
    Nat → Nat → TreeNode → DbObj → TreeNode × Nat
  | 0, fileLen, node, _ => (node, fileLen)
  | fuel + 1, fileLen, node, key =>
    let ctr := scanPos cfn key node.objects node.objCount
    if node.isLeaf then
      (node.setObjects (node.objects.take ctr ++ key :: node.objects.drop ctr), fileLen)
    else
      let child := node.children.getD ctr default
      if child.objCount = t * 2 - 1 then
        let s := _split t nodeSize fileLen node ctr child
        let ctr1 := if cfn key (s.1.objects.getD ctr []) > 0 then ctr + 1 else ctr
        let r := _insertNonFull cfn t nodeSize fuel s.2 (s.1.children.getD ctr1 default) key
        (s.1.setChildren (s.1.children.set ctr1 r.1), r.2)
      else
        let r := _insertNonFull cfn t nodeSize fuel fileLen child key
        (node.setChildren (node.children.set ctr r.1), r.2)

/-- Method `BTreeDB::_insert` on values: the new root and the new file length.  The
assignment `oldRoot->parent = _root` releases the former parent of the root,
which is null unless a root collapse has left one; the value model takes it
to stay alive (`Mem._insert` counts it). -/
def _insert (cfn : compareFn) (t nodeSize fileLen : Nat) (root : TreeNode) (key : DbObj) :
    TreeNode × Nat :=
  if root.objCount = t * 2 - 1 then
    let a := _allocateNode nodeSize fileLen
    let oldRoot := (root.setChildNo 0).setParent (some a.1.fpos)
    let newRoot := (a.1.setIsLeaf false).setChildren [oldRoot]
    let s := _split t nodeSize a.2 newRoot 0 oldRoot
    _insertNonFull cfn t nodeSize (root.height + 1) s.2 s.1 key
  else
    _insertNonFull cfn t nodeSize root.height fileLen root key

/-- Loop `while (!child->isLeaf) child = child->loadChild(child->objCount)`: the
right-most leaf below `node`. -/
def rightmostLeaf : Nat → TreeNode → TreeNode
  | 0, node => node
  | fuel + 1, node =>
    if node.isLeaf then node else rightmostLeaf fuel (node.children.getD node.objCount default)

/-- Loop `while (!child->isLeaf) child = child->loadChild(0)`: the left-most leaf below `node`. -/
def leftmostLeaf : Nat → TreeNode → TreeNode
  | 0, node => node
  | fuel + 1, node =>
    if node.isLeaf then node else leftmostLeaf fuel (node.children.getD 0 default)

/-- Method `BTreeDB::_findPred`: the right-most leaf below `node` and its last slot.
The caller reads the record at once, so the leaf itself is returned. -/
def _findPred (fuel : Nat) (node : TreeNode) : TreeNode × Nat :=
  (rightmostLeaf fuel node, decr (rightmostLeaf fuel node).objCount)

/-- Method `BTreeDB::_findSucc`: the left-most leaf below `node` and slot 0. -/
def _findSucc (fuel : Nat) (node : TreeNode) : TreeNode × Nat :=
  (leftmostLeaf fuel node, 0)

/-- Case 3a of `_delete`, left sibling: the statements from `childNode->setCount(_minDegree)`
up to the recursive call, as the node they leave.  The statement
`childNode->childNo = ctr + 1` of the shifting loop assigns to the child node
itself; the loop runs for `ctr = t-1, ..., 1`, so its last assignment is `2`,
and it does not run when `t - 1 = 0`.  The child that moves over keeps its
`childNo` and `parent`. -/
def borrowLeft (t : Nat) (node : TreeNode) (keyChildPos : Nat) : TreeNode :=
  let childNode := node.children.getD keyChildPos default
  let leftSib := node.children.getD (keyChildPos - 1) default
  let child1 := TreeNode.mk (if 0 < t - 1 then 2 else childNode.childNo)
    childNode.isLeaf childNode.fpos
    (node.objects.getD (keyChildPos - 1) [] :: childNode.objects.take (t - 1))
    (if leftSib.isLeaf then childNode.children.take 1 ++ childNode.children.take t
     else leftSib.children.getD leftSib.objCount default :: childNode.children.take t)
    childNode.parent
  let left1 := (leftSib.setObjects (leftSib.objects.take (leftSib.objCount - 1))).setChildren
    (if leftSib.isLeaf then leftSib.children else leftSib.children.take leftSib.objCount)
  let objs := node.objects.set (keyChildPos - 1) (leftSib.objects.getD (leftSib.objCount - 1) [])
  (node.setObjects objs).setChildren
    ((node.children.set (keyChildPos - 1) left1).set keyChildPos child1)

/-- Case 3a of `_delete`, right sibling: the statements from `childNode->setCount(_minDegree)`
up to the recursive call, as the node they leave.  `objNo` is `op.first`, the
slot of the separator.  The child that moves over keeps its `childNo` and
`parent`, and so do the children that shift inside the sibling. -/
def borrowRight (t : Nat) (node : TreeNode) (keyChildPos objNo : Nat) : TreeNode :=
  let childNode := node.children.getD keyChildPos default
  let rightSib := node.children.getD (keyChildPos + 1) default
  let child1 := (childNode.setObjects
    (childNode.objects.take (t - 1) ++ [node.objects.getD objNo []])).setChildren
    (if rightSib.isLeaf then childNode.children.take (t + 1)
     else childNode.children.take t ++ [rightSib.children.getD 0 default])
  let right1 := (rightSib.setObjects (rightSib.objects.drop 1)).setChildren
    (if rightSib.isLeaf then rightSib.children.take rightSib.objCount
     else (rightSib.children.drop 1).take rightSib.objCount)
  let objs := node.objects.set objNo (rightSib.objects.getD 0 [])
  (node.setObjects objs).setChildren
    ((node.children.set (keyChildPos + 1) right1).set keyChildPos child1)

/-- Method `BTreeDB::_delete` on values: the node after the call and the returned flag.
The local pointers `childNode`, `leftSib`, `rightSib` and `mergedChild` are
not part of the value model; the destruction of a merged-away node when they
go out of scope is in `Mem._delete`. -/
def _delete (cfn : compareFn) (t : Nat) : Nat → TreeNode → DbObj → TreeNode × Bool
  | 0, node, _ => (node, false)
  | fuel + 1, node, key =>
    let op := node.findPos key cfn
    if op.1 = SIZE_MAX then (node, false)
    else
      match op.2 with
      | EChildPos.ECP_INTHIS =>
        if node.isLeaf then ((node.delFromLeaf op.1).1, true)
        else if t ≤ (node.children.getD op.1 default).objCount then
          let childNode := node.children.getD op.1 default
          let locn := _findPred fuel childNode
          let childObj := locn.1.objects.getD locn.2 []
          let r := _delete cfn t fuel childNode childObj
          ((node.setChildren (node.children.set op.1 r.1)).setObjects
            (node.objects.set op.1 childObj), r.2)
        else if t ≤ (node.children.getD (op.1 + 1) default).objCount then
          let childNode := node.children.getD (op.1 + 1) default
          let locn := _findSucc fuel childNode
          let childObj := locn.1.objects.getD locn.2 []
          let r := _delete cfn t fuel childNode childObj
          ((node.setChildren (node.children.set (op.1 + 1) r.1)).setObjects
            (node.objects.set op.1 childObj), r.2)
        else
          let m := _merge t node op.1
          let r := _delete cfn t fuel m.2 key
          (m.1.setChildren (m.1.children.set op.1 r.1), r.2)
      | EChildPos.ECP_NONE => (node, false)
      | pos =>
        let keyChildPos := if pos = EChildPos.ECP_INLEFT then op.1 else op.1 + 1
        let childNode := node.children.getD keyChildPos default
        if t ≤ childNode.objCount then
          let r := _delete cfn t fuel childNode key
          (node.setChildren (node.children.set keyChildPos r.1), r.2)
        else
          let leftCount :=
            if 0 < keyChildPos then (node.children.getD (keyChildPos - 1) default).objCount else 0
          let rightCount :=
            if keyChildPos < node.objCount then
              (node.children.getD (keyChildPos + 1) default).objCount
            else 0
          if t ≤ leftCount ∨ t ≤ rightCount then
            let node1 :=
              if t ≤ leftCount then borrowLeft t node keyChildPos
              else borrowRight t node keyChildPos op.1
            let r := _delete cfn t fuel (node1.children.getD keyChildPos default) key
            (node1.setChildren (node1.children.set keyChildPos r.1), r.2)
          else
            let m := _merge t node op.1
            let r := _delete cfn t fuel m.2 key
            (m.1.setChildren (m.1.children.set op.1 r.1), r.2)

namespace BTreeDB

/-- Constructor `BTreeDB::BTreeDB` followed by `open()` on a file that does not
exist yet (the creating branch, with the three sizes supplied): the header is
written, `_nodeSize` is computed and the root is allocated as a leaf right
behind the header.  A null `cfn` selects `_defaultCompare`. -/
def create (recSize keySize minDegree : Nat) (cfn : Option compareFn) : BTreeDB :=
  let nodeSize := sizeofSizeT + (minDegree * 2 - 1) * recSize + minDegree * 2 * sizeofLong + 1
  let a := _allocateNode nodeSize sizeofHeader
  { _recSize := recSize, _keySize := keySize, _compFunc := cfn.getD _defaultCompare,
    _minDegree := minDegree, _root := a.1.setIsLeaf true, _nodeSize := nodeSize, fileLen := a.2 }

/-- Accessor `getRecSize`. -/
def getRecSize (db : BTreeDB) : Nat := db._recSize

/-- Method `BTreeDB::search`. -/
def search (db : BTreeDB) (key : DbObj) (cfn : Option compareFn) : NodeKeyLocn :=
  _search db._compFunc db._root.height db._root key cfn

/-- Method `BTreeDB::get(const NodeKeyLocn&, DbObjPtr&)`: `some rec` when the source
returns true and stores `rec`, `none` when it returns false. -/
def getAt (db : BTreeDB) (locn : NodeKeyLocn) : Option DbObj :=
  match locn.1 with
  | none => none
  | some a =>
    if locn.2 = SIZE_MAX then none
    else some (((db._root.findNode a).getD default).objects.getD locn.2 [])

/-- Method `BTreeDB::get(const DbObjPtr&, DbObjPtr&)`. -/
def get (db : BTreeDB) (key : DbObj) : Option DbObj :=
  db.getAt (_search db._compFunc db._root.height db._root key none)

/-- Method `BTreeDB::put` on values: the database after the call and the returned flag.  It
follows the source as long as `_insert` and `_split` release no last pointer
to a node (`Mem.put` is the method with the counts). -/
def put (db : BTreeDB) (rec : DbObj) : BTreeDB × Bool :=
  if rec.length ≠ db.getRecSize then (db, false)
  else
    let locn := _search db._compFunc db._root.height db._root rec none
    match locn.1 with
    | none =>
      let r := _insert db._compFunc db._minDegree db._nodeSize db.fileLen db._root rec
      ({ db with _root := r.1, fileLen := r.2 }, true)
    | some a =>
      if locn.2 = SIZE_MAX then
        let r := _insert db._compFunc db._minDegree db._nodeSize db.fileLen db._root rec
        ({ db with _root := r.1, fileLen := r.2 }, true)
      else ({ db with _root := db._root.storeObject a locn.2 rec }, true)

/-- Method `BTreeDB::del` on values: the database after the call and the returned flag.
The `flush()` of the root collapse writes nodes and reports whether the
writes succeeded; writes do not fail here, so it yields true.  It follows the
source as long as `_delete` and `_merge` delete no node that lists a child
(`Mem.del` is the method with the counts). -/
def del (db : BTreeDB) (key : DbObj) : BTreeDB × Bool :=
  if db._root.objCount = 0 then (db, false)
  else
    let r := _delete db._compFunc db._minDegree db._root.height db._root key
    if r.2 = true ∧ r.1.objCount = 0 ∧ r.1.isLeaf = false then
      ({ db with _root := r.1.children.getD 0 default }, true)
    else ({ db with _root := r.1 }, r.2)

/-- Records in the order the public `traverse` visits them with no callback. -/
def records (db : BTreeDB) : List DbObj := db._root.inorder

end BTreeDB

/-- Enumeration `BTreeDB::ESeqDirection`. -/
inductive ESeqDirection where
  | ESD_FORWARD
  | ESD_BACKWARD
  deriving DecidableEq, Repr

/-- Outcome of one call of `seq`. -/
inductive SeqResult where
  /-- the call returned true, with the new location and the record -/
  | found (locn : NodeKeyLocn) (rec : DbObj)
  /-- the call returned false; the location is unchanged -/
  | done
  /-- the call read `objects` out of range, which the language leaves undefined -/
  | fault
  /-- the call followed a pointer to a node that is no longer part of the tree,
  or its climb did not end within as many steps as the tree has nodes -/
  | lost
  deriving DecidableEq, Repr

/-- Climb of `_seqNext` and `_seqPrev`: `while (node != 0 && childNo >= node->objCount)`
step to the parent.  Yields the node reached (by its `fpos`) with the `childNo`
it was reached through, `some none` at the null pointer. -/
def climb (root : TreeNode) : Nat → Nat → Option Nat → Option (Option (TreeNode × Nat))
  | 0, _, _ => none
  | _ + 1, _, none => some none
  | fuel + 1, childNo, some a =>
    match root.findNode a with
    | none => none
    | some node =>
      if node.objCount ≤ childNo then climb root fuel node.childNo node.parent
      else some (some (node, childNo))

namespace BTreeDB

/-- Method `BTreeDB::_seqNext`. -/
def _seqNext (db : BTreeDB) (locn : NodeKeyLocn) : SeqResult :=
  match locn.1 with
  | none =>
    let node := leftmostLeaf db._root.height db._root
    if 0 < node.objCount then SeqResult.found (some node.fpos, 0) (node.objects.getD 0 [])
    else SeqResult.fault
  | some a =>
    match db._root.findNode a with
    | none => SeqResult.lost
    | some node =>
      if node.isLeaf then
        if locn.2 < decr node.objCount then
          if locn.2 + 1 < node.objCount then
            SeqResult.found (some a, locn.2 + 1) (node.objects.getD (locn.2 + 1) [])
          else SeqResult.fault
        else if locn.2 = decr node.objCount then
          match climb db._root (db._root.size + 1) node.childNo node.parent with
          | none => SeqResult.lost
          | some none => SeqResult.done
          | some (some (up, childNo)) =>
            SeqResult.found (some up.fpos, childNo) (up.objects.getD childNo [])
        else SeqResult.done
      else
        let child := node.children.getD (locn.2 + 1) default
        let leaf := leftmostLeaf child.height child
        if 0 < leaf.objCount then SeqResult.found (some leaf.fpos, 0) (leaf.objects.getD 0 [])
        else SeqResult.fault

/-- Method `BTreeDB::_seqPrev`. -/
def _seqPrev (db : BTreeDB) (locn : NodeKeyLocn) : SeqResult :=
  match locn.1 with
  | none =>
    let node := rightmostLeaf db._root.height db._root
    if 0 < node.objCount then
      SeqResult.found (some node.fpos, node.objCount - 1) (node.objects.getD (node.objCount - 1) [])
    else SeqResult.fault
  | some a =>
    match db._root.findNode a with
    | none => SeqResult.lost
    | some node =>
      if node.isLeaf then
        if 0 < locn.2 then
          if locn.2 - 1 < node.objCount then
            SeqResult.found (some a, locn.2 - 1) (node.objects.getD (locn.2 - 1) [])
          else SeqResult.fault
        else
          match climb db._root (db._root.size + 1) node.childNo node.parent with
          | none => SeqResult.lost
          | some none => SeqResult.done
          | some (some (up, childNo)) =>
            if 0 < childNo then
              SeqResult.found (some up.fpos, childNo - 1) (up.objects.getD (childNo - 1) [])
            else SeqResult.fault
      else
        let child := node.children.getD locn.2 default
        let leaf := rightmostLeaf child.height child
        if 0 < leaf.objCount then
          SeqResult.found (some leaf.fpos, leaf.objCount - 1)
            (leaf.objects.getD (leaf.objCount - 1) [])
        else SeqResult.fault

/-- Method `BTreeDB::seq`. -/
def seq (db : BTreeDB) (locn : NodeKeyLocn) (sdir : ESeqDirection) : SeqResult :=
  match sdir with
  | ESeqDirection.ESD_FORWARD => db._seqNext locn
  | ESeqDirection.ESD_BACKWARD => db._seqPrev locn

/-- Outcomes of up to `n` successive calls of `seq`, each call continuing from the
location the previous one left; the calls stop with the first that does not
return true. -/
def seqCalls (db : BTreeDB) (sdir : ESeqDirection) : Nat → NodeKeyLocn → List SeqResult
  | 0, _ => []
  | n + 1, locn =>
    match db.seq locn sdir with
    | SeqResult.found locn1 rec => SeqResult.found locn1 rec :: seqCalls db sdir n locn1
    | r => [r]

end BTreeDB

/-- Record a call of `seq` emitted, `none` for a call that did not return true. -/
def SeqResult.rec? : SeqResult → Option DbObj
  | SeqResult.found _ rec => some rec
  | _ => none

/-- One public operation that changes the database. -/
inductive Op where
  | put (rec : DbObj)
  | del (key : DbObj)

namespace BTreeDB

/-- Database after one operation, the returned flag dropped. -/
def step (db : BTreeDB) : Op → BTreeDB
  | Op.put rec => (db.put rec).1
  | Op.del key => (db.del key).1

/-- Database after a sequence of operations. -/
def run (db : BTreeDB) (ops : List Op) : BTreeDB := ops.foldl step db

end BTreeDB

/-! ## Invariants of the data model -/

namespace TreeNode

mutual
/-- All nodes of the subtree, the root first. -/
def nodes : TreeNode → List TreeNode
  | mk c l f os cs p => mk c l f os cs p :: nodesList cs
/-- All nodes of a list of subtrees. -/
def nodesList : List TreeNode → List TreeNode
  | [] => []
  | c :: cs => nodes c ++ nodesList cs
end

mutual
/-- Shape of a subtree for minimum degree `t`: the node holds at most `2t-1`
records, a leaf has no children and sits `h = 0` levels above the leaves, an
internal node has `objCount + 1` children, each holding at least `t-1`
records and each the root of a shaped subtree whose leaves are `h - 1` levels
below it. -/
def Shaped (t : Nat) : TreeNode → Nat → Prop
  | mk _ l _ os cs _, h =>
    os.length ≤ 2 * t - 1 ∧
      (if l then cs = [] ∧ h = 0
       else cs.length = os.length + 1 ∧ 0 < h ∧ ShapedKids t cs (h - 1))
/-- Shape of the children of a node. -/
def ShapedKids (t : Nat) : List TreeNode → Nat → Prop
  | [], _ => True
  | c :: cs, h => t - 1 ≤ c.objCount ∧ Shaped t c h ∧ ShapedKids t cs h
end

mutual
/-- Depths of the leaves of the subtree, the root of the subtree being at depth `d`. -/
def leafDepths : TreeNode → Nat → List Nat
  | mk _ l _ _ cs _, d => if l then [d] else leafDepthsList cs (d + 1)
/-- Depths of the leaves below a list of nodes that sit at depth `d`. -/
def leafDepthsList : List TreeNode → Nat → List Nat
  | [], _ => []
  | c :: cs, d => leafDepths c d ++ leafDepthsList cs d
end

/-- In-order records of the pairs `children[j], objects[j]`: each child subtree
followed by the record to its right. -/
def kidsBefore : List TreeNode → List DbObj → List DbObj
  | c :: cs, o :: os => inorder c ++ o :: kidsBefore cs os
  | _, _ => []

/-- In-order records of the pairs `objects[j], children[j+1]`: each record
followed by the child subtree to its right. -/
def kidsAfter : List DbObj → List TreeNode → List DbObj
  | o :: os, c :: cs => o :: (inorder c ++ kidsAfter os cs)
  | _, _ => []

/-- Invariant 3 of the data model at one node: `objects[i]` is above every record
below `children[i]` and below every record below `children[i+1]`. -/
def Separates (cmp : compareFn) (n : TreeNode) : Prop :=
  ∀ i, i < n.objCount →
    (∀ r ∈ (n.children.getD i default).inorder, cmp r (n.objects.getD i []) < 0) ∧
    (∀ r ∈ (n.children.getD (i + 1) default).inorder, cmp (n.objects.getD i []) r < 0)

/-- Invariant 3 (order) of the data model, at every internal node of the tree. -/
def OrderInv (cmp : compareFn) (root : TreeNode) : Prop :=
  ∀ n ∈ root.nodes, n.isLeaf = false → n.Separates cmp

/-- Invariant 4 of the data model: the records within every node are ascending. -/
def NodesSorted (cmp : compareFn) (root : TreeNode) : Prop :=
  ∀ n ∈ root.nodes, n.objects.Pairwise (fun a b => cmp a b < 0)

/-- Shape invariant of the tree (invariants 1 and 2 and the bound on the root):
all leaves at one depth, every node but the root with `t-1` to `2t-1` records,
the root with at most `2t-1`. -/
def ShapeInv (t : Nat) (root : TreeNode) : Prop := ∃ h, root.Shaped t h

end TreeNode

/-- Comparator that is a total order on the records satisfying `D`, with
`cmp a b = 0` as its equivalence: the sign flips with the arguments, and
`cmp a b ≤ 0` is transitive. -/
structure TotalOrderOn (D : DbObj → Prop) (cmp : compareFn) : Prop where
  /-- the sign flips with the arguments -/
  flip : ∀ a b, D a → D b → (cmp a b < 0 ↔ 0 < cmp b a)
  /-- `cmp a b ≤ 0` is transitive -/
  trans : ∀ a b c, D a → D b → D c → cmp a b ≤ 0 → cmp b c ≤ 0 → cmp a c ≤ 0

/-- Strictly ascending list of records under the comparator. -/
def Ascending (cmp : compareFn) (l : List DbObj) : Prop :=
  l.Pairwise (fun a b => cmp a b < 0)

instance (cmp : compareFn) (n : TreeNode) : Decidable (n.Separates cmp) := by
  unfold TreeNode.Separates
  infer_instance

instance (cmp : compareFn) (root : TreeNode) : Decidable (root.OrderInv cmp) := by
  unfold TreeNode.OrderInv
  infer_instance

instance (cmp : compareFn) (root : TreeNode) : Decidable (root.NodesSorted cmp) := by
  unfold TreeNode.NodesSorted
  infer_instance

/-- Valid B-tree state of the data model: minimum degree at least 2, a comparator
that is a total order on records of `recSize` bytes, invariants 1 and 2
(shape), 3 (order) and 4 (sorted nodes), records of exactly `recSize` bytes,
and a root that is a leaf or holds at least one record.  Every node is in
memory, as everywhere in this embedding. -/
structure BTreeDB.Valid (db : BTreeDB) : Prop where
  /-- minimum degree `t ≥ 2` -/
  degree : 2 ≤ db._minDegree
  /-- the comparator is a total order on records of `recSize` bytes -/
  order : TotalOrderOn (fun r => r.length = db._recSize) db._compFunc
  /-- invariants 1 and 2 -/
  shape : db._root.ShapeInv db._minDegree
  /-- invariant 3 -/
  sep : db._root.OrderInv db._compFunc
  /-- invariant 4 -/
  sorted : db._root.NodesSorted db._compFunc
  /-- every stored record has `recSize` bytes -/
  sizes : ∀ r ∈ db.records, r.length = db._recSize
  /-- the root is a leaf or holds at least one record -/
  root : db._root.isLeaf = true ∨ 0 < db._root.objCount

/-- Four-byte record whose first byte is `k`: the image of the integer `k < 256`
on a little-endian machine. -/
def rec4 (k : Nat) : DbObj := [k, 0, 0, 0]

/-- Database of the end-to-end scenarios (`t = 2`, `recSize = keySize = 4`, default
comparator) after the given operations. -/
def scenario (ops : List Op) : BTreeDB := (BTreeDB.create 4 4 2 none).run ops


/-! ## Node pointers and the cursor -/

namespace TreeNode

/-- File positions of all nodes of the subtree, the root first. -/
def fposs (n : TreeNode) : List Nat := n.nodes.map fpos

/-- File positions of all nodes of a list of subtrees. -/
def fpossList (cs : List TreeNode) : List Nat := (nodesList cs).map fpos

mutual
/-- Back pointers below a node: every child names the node as its `parent` and
carries its own index as `childNo`, and so on below each child. -/
def Linked : TreeNode → Prop
  | mk _ _ f _ cs _ => LinkedKids f 0 cs
/-- Back pointers of the children from index `i` on of the node at `pf`. -/
def LinkedKids (pf : Nat) : Nat → List TreeNode → Prop
  | _, [] => True
  | i, c :: cs => c.parent = some pf ∧ c.childNo = i ∧ Linked c ∧ LinkedKids pf (i + 1) cs
end

/-- Locations of the records of a leaf at `f`, from slot `i` on, each with its record. -/
def leafVisits (f : Nat) : Nat → List DbObj → List (NodeKeyLocn × DbObj)
  | _, [] => []
  | i, o :: os => ((some f, i), o) :: leafVisits f (i + 1) os

mutual
/-- Locations of the records of the subtree in the order of `inorder`, each with
its record. -/
def visits : TreeNode → List (NodeKeyLocn × DbObj)
  | mk _ l f os cs _ => if l then leafVisits f 0 os else visitsKids f 0 cs os
/-- Locations below the children from index `i` on of the node at `f`, interleaved
with the locations in the node itself. -/
def visitsKids (f : Nat) : Nat → List TreeNode → List DbObj → List (NodeKeyLocn × DbObj)
  | i, [], os => leafVisits f i os
  | _, c :: _, [] => visits c
  | i, c :: cs, o :: os => visits c ++ ((some f, i), o) :: visitsKids f (i + 1) cs os
end

end TreeNode

/-- Outcome of the forward step that ends a climb: the record at the node and slot
the climb reached, or end of sequence at the null pointer. -/
def SeqResult.ofClimb : Option (TreeNode × Nat) → SeqResult
  | none => SeqResult.done
  | some (up, childNo) => SeqResult.found (some up.fpos, childNo) (up.objects.getD childNo [])

/-- Forward steps along a list of locations: `_seqNext` leads from each location to
the next one of the list, and from the last one to `next`. -/
def Chained (db : BTreeDB) : List (NodeKeyLocn × DbObj) → SeqResult → Prop
  | [], _ => True
  | [v], next => db._seqNext v.1 = next
  | v :: w :: rest, next =>
    db._seqNext v.1 = SeqResult.found w.1 w.2 ∧ Chained db (w :: rest) next

/-- State that `put` keeps: the shape invariant, an ascending in-order sequence of
records of `recSize` bytes under a comparator that is a total order on them,
a root that is a leaf or holds a record, and nodes at pairwise different file
positions below the end of the file. -/
structure BTreeDB.Sound (db : BTreeDB) : Prop where
  /-- minimum degree `t ≥ 2` -/
  degree : 2 ≤ db._minDegree
  /-- the capacity `2t - 1` of a node is a value of `size_t` -/
  fit : 2 * db._minDegree - 1 ≤ SIZE_MAX
  /-- the comparator is a total order on records of `recSize` bytes -/
  order : TotalOrderOn (fun r => r.length = db._recSize) db._compFunc
  /-- invariants 1 and 2 -/
  shape : db._root.ShapeInv db._minDegree
  /-- the in-order sequence is strictly ascending -/
  asc : Ascending db._compFunc db._root.inorder
  /-- every stored record has `recSize` bytes -/
  sizes : ∀ r ∈ db._root.inorder, r.length = db._recSize
  /-- the root is a leaf or holds at least one record -/
  root : db._root.isLeaf = true ∨ 0 < db._root.objCount
  /-- a node page is not empty -/
  page : 1 ≤ db._nodeSize
  /-- no two nodes share a file position -/
  nodup : db._root.fposs.Nodup
  /-- every node lies below the end of the file -/
  bound : ∀ a ∈ db._root.fposs, a < db.fileLen

/-! ## Traversal with a callback -/

/-- Type `BTreeDB::traverseCallback` for a reference object that holds a value of `σ`:
the call gets the record, the reference object and the depth, and yields the
reference object as the call leaves it together with the returned flag. -/
abbrev traverseCallback (σ : Type) := DbObj → σ → Nat → σ × Bool

/-- Call `cbfn ? cbfn(obj, ref, depth) : true`. -/
def callBack {σ : Type} (cbfn : Option (traverseCallback σ)) (obj : DbObj) (ref : σ)
    (depth : Nat) : σ × Bool :=
  match cbfn with
  | none => (ref, true)
  | some cb => cb obj ref depth

/-- Loop `for ( ; ctr < node->objCount && shouldContinue; ctr++)` of `_traverse`, `objs`
being `objects[ctr ..]` and `down` the recursive call on a child: the reference
object and `shouldContinue` when the loop ends. -/
def traverseLoop {σ : Type} (down : TreeNode → σ → σ) (cbfn : Option (traverseCallback σ))
    (node : TreeNode) (depth : Nat) : List DbObj → Nat → σ → σ × Bool
  | [], _, ref => (ref, true)
  | o :: objs, ctr, ref =>
    let ref1 := if node.isLeaf then ref else down (node.children.getD ctr default) ref
    let r := callBack cbfn o ref1 depth
    if r.2 then traverseLoop down cbfn node depth objs (ctr + 1) r.1 else (r.1, false)

/-- Method `BTreeDB::_traverse`: the reference object after the call. -/
def _traverse {σ : Type} (cbfn : Option (traverseCallback σ)) : Nat → TreeNode → σ → Nat → σ
  | 0, _, ref, _ => ref
  | fuel + 1, node, ref, depth =>
    let r := traverseLoop (fun c s => _traverse cbfn fuel c s (depth + 1)) cbfn node depth
      node.objects 0 ref
    if r.2 = true ∧ node.isLeaf = false then
      _traverse cbfn fuel (node.children.getD node.objCount default) r.1 (depth + 1)
    else r.1

/-- Method `BTreeDB::traverse`. -/
def BTreeDB.traverse {σ : Type} (db : BTreeDB) (ref : σ) (cbfn : Option (traverseCallback σ)) :
    σ :=
  _traverse cbfn db._root.height db._root ref 0

namespace TreeNode

mutual
/-- Records of the subtree in in-order, each with the depth of the node that holds
it, the root of the subtree being at depth `d`. -/
def depthVisits : TreeNode → Nat → List (DbObj × Nat)
  | mk _ l _ os cs _, d => if l then os.map (fun o => (o, d)) else depthVisitsKids cs os d
/-- Records below the children of a node at depth `d`, interleaved with the records of
the node. -/
def depthVisitsKids : List TreeNode → List DbObj → Nat → List (DbObj × Nat)
  | [], os, d => os.map (fun o => (o, d))
  | c :: _, [], d => depthVisits c (d + 1)
  | c :: cs, o :: os, d => depthVisits c (d + 1) ++ (o, d) :: depthVisitsKids cs os d
end

end TreeNode

/-- Structure `SearchData`: `pVect` stands for the vector it points to. -/
structure SearchData where
  /-- a match has been seen -/
  started : Bool
  /-- number of matches -/
  counter : Nat
  /-- the search pattern -/
  pKey : DbObj
  /-- the vector of results -/
  pVect : List DbObj

/-- Static method `BTreeDB::_searchCallback`. -/
def _searchCallback : traverseCallback SearchData := fun obj sd _ =>
  if memcmp obj sd.pKey (min obj.length sd.pKey.length) = 0 then
    ({ sd with pVect := sd.pVect ++ [obj], started := true, counter := sd.counter + 1 }, true)
  else if sd.started then (sd, false)
  else (sd, true)

/-- Method `BTreeDB::findAll`: the vector `results` after the call. -/
def BTreeDB.findAll (db : BTreeDB) (key : DbObj) (_results : List DbObj) : List DbObj :=
  (db.traverse { started := false, counter := 0, pKey := key, pVect := [] }
    (some _searchCallback)).pVect

/-! ## Reference descent and bookkeeping for sequences of operations -/

/-- Reference descent of the specification for `search(key, cfn)`: `findPos(key, cfn)`
at the node and at every child the descent recurses into. -/
def searchUniform (cfn : compareFn) : Nat → TreeNode → DbObj → NodeKeyLocn
  | 0, _, _ => (none, SIZE_MAX)
  | fuel + 1, node, key =>
    let op := node.findPos key cfn
    if op.1 ≠ SIZE_MAX then
      match op.2 with
      | EChildPos.ECP_INTHIS => (some node.fpos, op.1)
      | EChildPos.ECP_INLEFT => searchUniform cfn fuel (node.children.getD op.1 default) key
      | EChildPos.ECP_INRIGHT =>
        searchUniform cfn fuel (node.children.getD (op.1 + 1) default) key
      | EChildPos.ECP_NONE => (none, SIZE_MAX)
    else (none, SIZE_MAX)

/-- Flag one operation returns. -/
def BTreeDB.flag (db : BTreeDB) : Op → Bool
  | Op.put rec => (db.put rec).2
  | Op.del key => (db.del key).2

/-- Flags a sequence of operations returns, one after the other. -/
def BTreeDB.flags (db : BTreeDB) : List Op → List Bool
  | [] => []
  | op :: ops => db.flag op :: (db.step op).flags ops

/-- State in which `del` of a stored key works: the shape invariant, an ascending
in-order sequence of records of `recSize` bytes under a comparator that is a
total order on them, and a root that is a leaf or holds a record. -/
structure BTreeDB.Ordered (db : BTreeDB) : Prop where
  /-- minimum degree `t ≥ 2` -/
  degree : 2 ≤ db._minDegree
  /-- the capacity `2t - 1` of a node is a value of `size_t` -/
  fit : 2 * db._minDegree - 1 ≤ SIZE_MAX
  /-- the comparator is a total order on records of `recSize` bytes -/
  order : TotalOrderOn (fun r => r.length = db._recSize) db._compFunc
  /-- invariants 1 and 2 -/
  shape : db._root.ShapeInv db._minDegree
  /-- the in-order sequence is strictly ascending -/
  asc : Ascending db._compFunc db._root.inorder
  /-- every stored record has `recSize` bytes -/
  sizes : ∀ r ∈ db._root.inorder, r.length = db._recSize
  /-- the root is a leaf or holds at least one record -/
  root : db._root.isLeaf = true ∨ 0 < db._root.objCount

/-- The records of a list that satisfy `m` form one run, none of them before it when
`started`: after a record that does not satisfy `m` and comes after one that
does (or when `started`), no record satisfies `m`. -/
def OneRun (m : DbObj → Bool) : Bool → List DbObj → Prop
  | _, [] => True
  | started, x :: l =>
    if m x then OneRun m true l
    else if started then ∀ y ∈ l, m y = false
    else OneRun m false l

/-- Reference object of `findAll` after the callback has seen every record of a list. -/
def SearchData.scan (m : DbObj → Bool) (sd : SearchData) (l : List DbObj) : SearchData :=
  { sd with pVect := sd.pVect ++ l.filter m, started := sd.started || l.any m,
            counter := sd.counter + (l.filter m).length }

/-! ## The data file

The file is the list of its bytes.  `size_t` is 8 bytes and `long` is 4 bytes,
least significant byte first; `SFileHeader` is a `long` followed by four bytes
of padding and three `size_t`.  The `fwrite` calls of the source go through a
stdio buffer that `close()` empties with `fflush`, so the file at the time of
`close()` holds every byte written; the definitions below apply a write when
it is made.  `_filelength` and `_chsize` act on the length of the file, which
only `_chsize` changes as long as a page image fits its page.  As in the
algorithms, offsets and `_nodeSize` are natural numbers: the sizes are taken
small enough for the offsets of the file to be values of `long`. -/

/-- Content of the data file. -/
abbrev File := List Nat

/-- Bytes of the `w`-byte unsigned integer `v`, least significant first. -/
def leBytes : Nat → Nat → List Nat
  | 0, _ => []
  | w + 1, v => v % 256 :: leBytes w (v / 256)

/-- Unsigned value of a run of bytes, least significant first. -/
def leValue : List Nat → Nat
  | [] => 0
  | b :: bs => b + 256 * leValue bs

/-- Value of the four bytes of a `long` (two's complement). -/
def longValue (bs : List Nat) : Int :=
  if leValue bs < 2 ^ 31 then (leValue bs : Int) else (leValue bs : Int) - 2 ^ 32

namespace File

/-- Call `fseek(f, pos, SEEK_SET)` followed by an `fwrite` of the bytes `bs`; a write
behind the end of the file leaves zero bytes in the gap. -/
def pwrite (f : File) (pos : Nat) (bs : List Nat) : File :=
  f.take pos ++ List.replicate (pos - f.length) 0 ++ bs ++ f.drop (pos + bs.length)

/-- Call `_chsize(fh, len)`: the file cut or extended with zero bytes to `len` bytes. -/
def chsize (f : File) (len : Nat) : File :=
  f.take len ++ List.replicate (len - f.length) 0

/-- Call `fread(buf, size, 1, f)` with the file position at `pos`: the item read, or
`none` when `fread` returns 0, which it does for `size = 0` and when fewer than
`size` bytes are left. -/
def readItem (f : File) (pos size : Nat) : Option (List Nat) :=
  if size = 0 ∨ f.length < pos + size then none else some ((f.drop pos).take size)

end File

/-- Value `_nodeSize` as both branches of `open()` compute it, in `size_t` arithmetic. -/
def nodeSizeOf (recSize minDegree : Nat) : Nat :=
  (sizeofSizeT + ((minDegree * 2 + SIZE_MAX) % (SIZE_MAX + 1)) * recSize
    + minDegree * 2 * sizeofLong + 1) % (SIZE_MAX + 1)

/-- Bytes of the `SFileHeader` that the creating branch of `open()` writes.  The four
padding bytes behind `rootPos` are not assigned by the source and nothing reads
them; they are shown as zero. -/
def headerImage (rootPos recSize keySize minDegree : Nat) : List Nat :=
  leBytes sizeofLong rootPos ++ [0, 0, 0, 0] ++ leBytes sizeofSizeT recSize
    ++ leBytes sizeofSizeT keySize ++ leBytes sizeofSizeT minDegree

/-! ## Writing nodes -/

/-- Loop of `TreeNode::write` over `objects`: the bytes written, and false when an
`fwrite` of a record returns 0, which it does for a record of size 0. -/
def writeObjects : List DbObj → List Nat × Bool
  | [] => ([], true)
  | o :: os =>
    if o.length = 0 then ([], false)
    else ((o ++ (writeObjects os).1), (writeObjects os).2)

namespace TreeNode

/-- Array `childAddresses` of `TreeNode::write`: `objCount + 1` entries preset to `0xff`
bytes, the first ones overwritten with the `fpos` of the children. -/
def childAddresses (n : TreeNode) : List Nat :=
  let addrs := (n.children.map (fun c => leBytes sizeofLong c.fpos)).flatten
  (addrs ++ List.replicate (sizeofLong * (n.objCount + 1) - addrs.length) 255).take
    (sizeofLong * (n.objCount + 1))

/-- Bytes that `TreeNode::write` sends to the file for a loaded node, and its return
value: leaf flag, `objCount`, the records, and for an internal node that holds
a record the child addresses. -/
def image (n : TreeNode) : List Nat × Bool :=
  let r := writeObjects n.objects
  let head := (if n.isLeaf then 1 else 0) :: (leBytes sizeofSizeT n.objCount ++ r.1)
  if r.2 = false then (head, false)
  else if 0 < n.objCount ∧ n.isLeaf = false then (head ++ n.childAddresses, true)
  else (head, true)

/-- Method `TreeNode::write` on a loaded node: the file after the call and the returned flag. -/
def write (n : TreeNode) (f : File) : File × Bool :=
  (f.pwrite n.fpos n.image.1, n.image.2)

end TreeNode

/-! ## File effects of the algorithms

Each function below is the companion of the algorithm of the same name: it
takes the arguments of the algorithm and the file, follows the same path, and
returns the file after the `write`, `_chsize` and `fwrite` calls on that path. -/

/-- File after `_split`: the `_chsize` of `_allocateNode`, then the writes of the child, of
the new child and of the parent. -/
def _splitFile (t nodeSize fileLen : Nat) (parent : TreeNode) (childNum : Nat) (child : TreeNode)
    (f : File) : File :=
  let s := _split t nodeSize fileLen parent childNum child
  let f1 := f.chsize (fileLen + nodeSize)
  let f2 := ((s.1.children.getD childNum default).write f1).1
  let f3 := ((s.1.children.getD (childNum + 1) default).write f2).1
  (s.1.write f3).1

/-- File after `_merge`: the writes of `c1` and of the parent. -/
def _mergeFile (t : Nat) (parent : TreeNode) (objNo : Nat) (f : File) : File :=
  let m := _merge t parent objNo
  (m.1.write (m.2.write f).1).1

/-- File after `_insertNonFull`. -/
def _insertNonFullFile (cfn : compareFn) (t nodeSize : Nat) :
    Nat → Nat → TreeNode → DbObj → File → File
  | 0, _, _, _, f => f
  | fuel + 1, fileLen, node, key, f =>
    let ctr := scanPos cfn key node.objects node.objCount
    if node.isLeaf then
      ((node.setObjects (node.objects.take ctr ++ key :: node.objects.drop ctr)).write f).1
    else
      let child := node.children.getD ctr default
      if child.objCount = t * 2 - 1 then
        let s := _split t nodeSize fileLen node ctr child
        let ctr1 := if cfn key (s.1.objects.getD ctr []) > 0 then ctr + 1 else ctr
        _insertNonFullFile cfn t nodeSize fuel s.2 (s.1.children.getD ctr1 default) key
          (_splitFile t nodeSize fileLen node ctr child f)
      else
        _insertNonFullFile cfn t nodeSize fuel fileLen child key f

/-- File after `_insert`; when the tree grows, the `fpos` of the new root goes to the
first four bytes of the file. -/
def _insertFile (cfn : compareFn) (t nodeSize fileLen : Nat) (root : TreeNode) (key : DbObj)
    (f : File) : File :=
  if root.objCount = t * 2 - 1 then
    let a := _allocateNode nodeSize fileLen
    let oldRoot := (root.setChildNo 0).setParent (some a.1.fpos)
    let newRoot := (a.1.setIsLeaf false).setChildren [oldRoot]
    let s := _split t nodeSize a.2 newRoot 0 oldRoot
    let f1 := _splitFile t nodeSize a.2 newRoot 0 oldRoot (f.chsize (fileLen + nodeSize))
    let f2 := _insertNonFullFile cfn t nodeSize (root.height + 1) s.2 s.1 key f1
    f2.pwrite 0 (leBytes sizeofLong a.1.fpos)
  else
    _insertNonFullFile cfn t nodeSize root.height fileLen root key f

/-- File after `_delete`: cases 1, 2a, 2b and 3a write nothing themselves. -/
def _deleteFile (cfn : compareFn) (t : Nat) : Nat → TreeNode → DbObj → File → File
  | 0, _, _, f => f
  | fuel + 1, node, key, f =>
    let op := node.findPos key cfn
    if op.1 = SIZE_MAX then f
    else
      match op.2 with
      | EChildPos.ECP_INTHIS =>
        if node.isLeaf then f
        else if t ≤ (node.children.getD op.1 default).objCount then
          let childNode := node.children.getD op.1 default
          let locn := _findPred fuel childNode
          _deleteFile cfn t fuel childNode (locn.1.objects.getD locn.2 []) f
        else if t ≤ (node.children.getD (op.1 + 1) default).objCount then
          let childNode := node.children.getD (op.1 + 1) default
          let locn := _findSucc fuel childNode
          _deleteFile cfn t fuel childNode (locn.1.objects.getD locn.2 []) f
        else
          _deleteFile cfn t fuel (_merge t node op.1).2 key (_mergeFile t node op.1 f)
      | EChildPos.ECP_NONE => f
      | pos =>
        let keyChildPos := if pos = EChildPos.ECP_INLEFT then op.1 else op.1 + 1
        let childNode := node.children.getD keyChildPos default
        if t ≤ childNode.objCount then _deleteFile cfn t fuel childNode key f
        else
          let leftCount :=
            if 0 < keyChildPos then (node.children.getD (keyChildPos - 1) default).objCount else 0
          let rightCount :=
            if keyChildPos < node.objCount then
              (node.children.getD (keyChildPos + 1) default).objCount
            else 0
          if t ≤ leftCount ∨ t ≤ rightCount then
            let node1 :=
              if t ≤ leftCount then borrowLeft t node keyChildPos
              else borrowRight t node keyChildPos op.1
            _deleteFile cfn t fuel (node1.children.getD keyChildPos default) key f
          else
            _deleteFile cfn t fuel (_merge t node op.1).2 key (_mergeFile t node op.1 f)

mutual
/-- Method `BTreeDB::_flush` in a session where every node is loaded: the node is written,
then its children in order, as long as the writes succeed. -/
def _flush : TreeNode → File → File × Bool
  | TreeNode.mk c l fp os cs p, f =>
    let w := (TreeNode.mk c l fp os cs p).write f
    if w.2 = true ∧ l = false then _flushKids cs w.1 else w
/-- Loop of `_flush` over the children. -/
def _flushKids : List TreeNode → File → File × Bool
  | [], f => (f, true)
  | c :: cs, f =>
    let r := _flush c f
    if r.2 then _flushKids cs r.1 else r
end

/-- A session on a file that `open()` created, together with the bytes of the file. -/
structure Store where
  /-- data members of the `BTreeDB` object -/
  db : BTreeDB
  /-- bytes of `_dataFile` -/
  file : File

namespace Store

/-- Creating branch of `open()` behind the check of the sizes: the header goes to the
file, the root is allocated behind it and written. -/
def create (recSize keySize minDegree : Nat) (cfn : Option compareFn) : Store :=
  let db := BTreeDB.create recSize keySize minDegree cfn
  let f1 := File.pwrite [] 0 (headerImage sizeofHeader recSize keySize minDegree)
  let f2 := f1.chsize (sizeofHeader + db._nodeSize)
  { db := db, file := (db._root.write f2).1 }

/-- Method `BTreeDB::put` with its effect on the file, on values: the file companion of
`BTreeDB.put`, within the same scope. -/
def put (s : Store) (rec : DbObj) : Store × Bool :=
  if rec.length ≠ s.db.getRecSize then (s, false)
  else
    let locn := _search s.db._compFunc s.db._root.height s.db._root rec none
    let ins : File := _insertFile s.db._compFunc s.db._minDegree s.db._nodeSize s.db.fileLen
      s.db._root rec s.file
    match locn.1 with
    | none => ({ db := (s.db.put rec).1, file := ins }, true)
    | some a =>
      if locn.2 = SIZE_MAX then ({ db := (s.db.put rec).1, file := ins }, true)
      else
        ({ db := (s.db.put rec).1,
           file := ((((s.db.put rec).1._root.findNode a).getD default).write s.file).1 }, true)

/-- Method `BTreeDB::del` with its effect on the file, on values: the writes of `_delete`, and
at a root collapse the `fpos` of the new root in the first four bytes followed
by the writes of `flush()`, whose result is then the returned flag.  It is the
file companion of `BTreeDB.del`, within the same scope. -/
def del (s : Store) (key : DbObj) : Store × Bool :=
  if s.db._root.objCount = 0 then (s, false)
  else
    let r := _delete s.db._compFunc s.db._minDegree s.db._root.height s.db._root key
    let f1 := _deleteFile s.db._compFunc s.db._minDegree s.db._root.height s.db._root key s.file
    if r.2 = true ∧ r.1.objCount = 0 ∧ r.1.isLeaf = false then
      let root := r.1.children.getD 0 default
      let w := _flush root (f1.pwrite 0 (leBytes sizeofLong root.fpos))
      ({ db := (s.db.del key).1, file := w.1 }, w.2)
    else ({ db := (s.db.del key).1, file := f1 }, r.2)

/-- Method `BTreeDB::close`: `fflush` and `fclose`; the `flush()` call is commented out in
the source.  The result is the file left on disk. -/
def close (s : Store) : File := s.file

/-- One operation. -/
def step (s : Store) : Op → Store
  | Op.put rec => (s.put rec).1
  | Op.del key => (s.del key).1

/-- A sequence of operations, left to right. -/
def run (s : Store) (ops : List Op) : Store := ops.foldl step s

end Store

/-! ## A session on an existing file

The branch of `open()` for a file that exists reads the header and the root
page.  The nodes of such a session are loaded from their pages on demand, so
here `loaded` is part of a node, `objCount` is a field of its own (a node that
has not been read holds the constructor's 0) and a child pointer can be null.
A pointer to a node is again the `fpos` of the node. -/

/-- Class `TreeNode` in a session on an existing file; `null` is the null pointer. -/
inductive LNode where
  | null
  | mk (childNo objCount : Nat) (isLeaf loaded : Bool) (fpos : Int) (objects : List DbObj)
      (children : List LNode) (parent : Option Int)

namespace LNode

/-- Constructor `TreeNode::TreeNode`. -/
def new : LNode := mk SIZE_MAX 0 true false (-1) [] [] none

instance : Inhabited LNode := ⟨null⟩

/-- Field `objCount`. -/
def objCount : LNode → Nat
  | mk _ oc _ _ _ _ _ _ => oc
  | null => 0

/-- Field `isLeaf`. -/
def isLeaf : LNode → Bool
  | mk _ _ l _ _ _ _ _ => l
  | null => true

/-- Field `loaded`. -/
def loaded : LNode → Bool
  | mk _ _ _ ld _ _ _ _ => ld
  | null => false

/-- Field `fpos`. -/
def fpos : LNode → Int
  | mk _ _ _ _ fp _ _ _ => fp
  | null => -1

/-- Field `objects`. -/
def objects : LNode → List DbObj
  | mk _ _ _ _ _ os _ _ => os
  | null => []

/-- Field `children`. -/
def children : LNode → List LNode
  | mk _ _ _ _ _ _ cs _ => cs
  | null => []

/-- Assignment to `children`. -/
def setChildren : LNode → List LNode → LNode
  | mk c oc l ld fp os _ p, cs => mk c oc l ld fp os cs p
  | null, _ => null

/-- Assignment to `parent`. -/
def setParent : LNode → Option Int → LNode
  | mk c oc l ld fp os cs _, p => mk c oc l ld fp os cs p
  | null, _ => null

/-- Loop of `TreeNode::read` over the records, the file position at `pos` and `n` records
to go: the `objects` vector (a slot the loop does not reach stays null, shown
as the empty blob) and whether every `fread` succeeded. -/
def readObjects (f : File) (recSize : Nat) : Nat → Nat → List DbObj × Bool
  | _, 0 => ([], true)
  | pos, n + 1 =>
    match f.readItem pos recSize with
    | none => (List.replicate (n + 1) [], false)
    | some o => (o :: (readObjects f recSize (pos + recSize) n).1,
        (readObjects f recSize (pos + recSize) n).2)

/-- Children that `TreeNode::read` builds from the array `childAddresses` that starts at
`pos`: entry `ctr` is a new node with that `fpos` and `childNo = ctr`. -/
def readChildren (f : File) (pos : Nat) : Nat → Nat → List LNode
  | _, 0 => []
  | ctr, n + 1 =>
    mk ctr 0 true false (longValue ((f.drop (pos + sizeofLong * ctr)).take sizeofLong)) [] [] none
      :: readChildren f pos (ctr + 1) n

/-- Method `TreeNode::read`: the node after the call and the returned flag.  A negative
`fpos` makes `fseek` fail. -/
def read (f : File) (recSize : Nat) : LNode → LNode × Bool
  | null => (null, false)
  | mk c oc l ld fp os cs p =>
    if fp < 0 then (mk c oc l ld fp os cs p, false)
    else
      match f.readItem fp.toNat 1 with
      | none => (mk c oc l ld fp os cs p, false)
      | some leafFlag =>
        match f.readItem (fp.toNat + 1) sizeofSizeT with
        | none => (mk c oc l ld fp os cs p, false)
        | some count =>
          let r := readObjects f recSize (fp.toNat + 1 + sizeofSizeT) (leValue count)
          let addrPos := fp.toNat + 1 + sizeofSizeT + leValue count * recSize
          if r.2 = false then
            (mk c (leValue count) (decide (leafFlag = [1])) ld fp r.1 cs p, false)
          else if 0 < leValue count then
            if f.length < addrPos + sizeofLong * (leValue count + 1) then
              (mk c (leValue count) (decide (leafFlag = [1])) ld fp r.1 cs p, false)
            else
              (mk c (leValue count) (decide (leafFlag = [1])) true fp r.1
                (readChildren f addrPos 0 (leValue count + 1)) p, true)
          else (mk c (leValue count) (decide (leafFlag = [1])) true fp r.1 cs p, true)

/-- Method `TreeNode::loadChild`: the node after the call and the child it returns. -/
def loadChild (node : LNode) (childNo : Nat) (f : File) (recSize : Nat) : LNode × LNode :=
  let c0 := match node.children.getD childNo null with
    | null => new
    | c => c
  let c1 := if c0.loaded then c0 else ((c0.read f recSize).1).setParent (some node.fpos)
  (node.setChildren (node.children.set childNo c1), c1)

end LNode

/-- Loop of `_traverse` in a session on an existing file, `n` records to go from slot
`ctr`: the node and the reference object after the loop, and `shouldContinue`.
`down` is the recursive call; it returns the child as the call leaves it. -/
def traverseLoopL {σ : Type} (f : File) (recSize : Nat) (down : LNode → σ → LNode × σ)
    (cbfn : Option (traverseCallback σ)) (depth : Nat) : Nat → Nat → LNode → σ → LNode × σ × Bool
  | 0, _, node, ref => (node, ref, true)
  | n + 1, ctr, node, ref =>
    let d : LNode × σ :=
      if node.isLeaf then (node, ref)
      else
        let lc := node.loadChild ctr f recSize
        let r := down lc.2 ref
        (lc.1.setChildren (lc.1.children.set ctr r.1), r.2)
    let r := callBack cbfn (d.1.objects.getD ctr []) d.2 depth
    if r.2 then traverseLoopL f recSize down cbfn depth n (ctr + 1) d.1 r.1 else (d.1, r.1, false)

/-- Method `BTreeDB::_traverse` in a session on an existing file: the node and the
reference object after the call.  `fuel` bounds the depth of the recursion. -/
def _traverseL {σ : Type} (f : File) (recSize : Nat) (cbfn : Option (traverseCallback σ)) :
    Nat → LNode → σ → Nat → LNode × σ
  | 0, node, ref, _ => (node, ref)
  | fuel + 1, node, ref, depth =>
    let r := traverseLoopL f recSize (fun c s => _traverseL f recSize cbfn fuel c s (depth + 1))
      cbfn depth node.objCount 0 node ref
    if r.2.2 = true ∧ r.1.isLeaf = false then
      let lc := r.1.loadChild r.1.objCount f recSize
      let d := _traverseL f recSize cbfn fuel lc.2 r.2.1 (depth + 1)
      (lc.1.setChildren (lc.1.children.set r.1.objCount d.1), d.2)
    else (r.1, r.2.1)

/-- Data members of a `BTreeDB` object after `open()` has read an existing file. -/
structure Reopened where
  /-- size of the records, from the header -/
  _recSize : Nat
  /-- number of bytes of the key, from the header -/
  _keySize : Nat
  /-- comparison function in use -/
  _compFunc : compareFn
  /-- minimum degree, from the header -/
  _minDegree : Nat
  /-- root node -/
  _root : LNode
  /-- size of a node page -/
  _nodeSize : Nat
  /-- bytes of `_dataFile` -/
  file : File

namespace Reopened

/-- Accessor `getRecSize`. -/
def getRecSize (s : Reopened) : Nat := s._recSize

/-- Accessor `getKeySize`. -/
def getKeySize (s : Reopened) : Nat := s._keySize

/-- Method `BTreeDB::traverse`: the reference object after the call.  A tree stored in
a file has fewer levels than the file has bytes, which bounds the recursion. -/
def traverse {σ : Type} (s : Reopened) (ref : σ) (cbfn : Option (traverseCallback σ)) : σ :=
  (_traverseL s.file s._recSize cbfn (s.file.length + 1) s._root ref 0).2

end Reopened

/-- Outcome of `open()`. -/
inductive OpenResult where
  /-- returns false and no root is installed; `disk` is the file left behind, if any -/
  | failed (disk : Option File)
  /-- returns true after creating the file -/
  | created (s : Store)
  /-- returns true after reading an existing file -/
  | loaded (s : Reopened)

/-- Constructor `BTreeDB::BTreeDB` followed by `open()`.  `disk` is the content of the file
named `_fileName`, `none` when there is no such file; the file is taken to be
accessible, so that `fopen` succeeds.  The constructor arguments are `size_t`
values, an argument left out being `(size_t)-1` for the sizes and 2 for the
minimum degree; a null `cfn` selects `_defaultCompare`. -/
def dbOpen (disk : Option File) (recSize keySize minDegree : Nat) (cfn : Option compareFn) :
    OpenResult :=
  match disk with
  | none =>
    if recSize = SIZE_MAX ∨ keySize = SIZE_MAX ∨ minDegree = SIZE_MAX then
      OpenResult.failed (some [])
    else OpenResult.created (Store.create recSize keySize minDegree cfn)
  | some f =>
    match f.readItem 0 sizeofHeader with
    | none => OpenResult.failed (some f)
    | some sfh =>
      let rec1 := leValue ((sfh.drop sizeofSizeT).take sizeofSizeT)
      let deg1 := leValue ((sfh.drop (3 * sizeofSizeT)).take sizeofSizeT)
      OpenResult.loaded
        { _recSize := rec1
          _keySize := leValue ((sfh.drop (2 * sizeofSizeT)).take sizeofSizeT)
          _compFunc := cfn.getD _defaultCompare
          _minDegree := deg1
          _root := ((LNode.mk SIZE_MAX 0 true false (longValue (sfh.take sizeofLong)) [] []
            none).read f rec1).1
          _nodeSize := nodeSizeOf rec1 deg1
          file := f }

/-! ## Notions for the header of the file -/

/-- The file holds a whole header whose bytes behind `rootPos` and its padding, the three
sizes, are `h`. -/
def File.Kept (h : List Nat) (f : File) : Prop :=
  sizeofHeader ≤ f.length ∧ (f.drop sizeofSizeT).take (sizeofHeader - sizeofSizeT) = h

/-- Every node of the subtree has its page behind the header. -/
def TreeNode.Above (n : TreeNode) : Prop := ∀ a ∈ n.fposs, sizeofHeader ≤ a

/-- Session that `open()` leaves when it returns true after reading an existing file. -/
def OpenResult.reopened? : OpenResult → Option Reopened
  | OpenResult.loaded s => some s
  | _ => none

/-- Session that `open()` leaves when it returns true after creating the file. -/
def OpenResult.created? : OpenResult → Option Store
  | OpenResult.created s => some s
  | _ => none

/-- Value that `open()` returns. -/
def OpenResult.returns : OpenResult → Bool
  | OpenResult.failed _ => false
  | _ => true

/-- Callback for `traverse` that appends the record and the depth to the reference object
and returns true. -/
def logVisit : traverseCallback (List (DbObj × Nat)) := fun o r d => (r ++ [(o, d)], true)

/-! ## Notions for the postconditions of `_split` and `_merge` -/

/-- Two node values show the same node up to the fields `childNo` and `parent`, which
`_split`, `_merge` and case 3a of `_delete` reassign when they move a node. -/
def TreeNode.SameUpToLink (a b : TreeNode) : Prop :=
  a.isLeaf = b.isLeaf ∧ a.fpos = b.fpos ∧ a.objects = b.objects ∧ a.children = b.children

/-- Tree used in examples: the root `2` over the leaves `1` and `3, 4, 5`, as the puts of
`1` to `5` leave it in a database of four-byte records with minimum degree 2. -/
def exampleSplit : TreeNode :=
  TreeNode.mk SIZE_MAX false 69 [rec4 2]
    [TreeNode.mk 0 true 32 [rec4 1] [] (some 69),
     TreeNode.mk 1 true 106 [rec4 3, rec4 4, rec4 5] [] (some 69)] none

/-- Tree used in examples: the root `2` over the leaves `1` and `3`, as the puts of `1` to `4`
and the delete of `4` leave it in a database of four-byte records with minimum
degree 2. -/
def exampleMerge : TreeNode :=
  TreeNode.mk SIZE_MAX false 69 [rec4 2]
    [TreeNode.mk 0 true 32 [rec4 1] [] (some 69),
     TreeNode.mk 1 true 106 [rec4 3] [] (some 69)] none

/-- Node used in examples: a full internal node for minimum degree 2 and four-byte records,
with the records `2, 4, 6` over four leaves. -/
def exampleFull : TreeNode :=
  TreeNode.mk SIZE_MAX false 180 [rec4 2, rec4 4, rec4 6]
    [TreeNode.mk 0 true 32 [rec4 1] [] (some 180), TreeNode.mk 1 true 69 [rec4 3] [] (some 180),
     TreeNode.mk 2 true 106 [rec4 5] [] (some 180),
     TreeNode.mk 3 true 143 [rec4 7] [] (some 180)] none

/-- Node used in examples: a full internal node for minimum degree 2 in a database whose
record size is 0, with three records of no bytes over four leaves. -/
def exampleNoBytes : TreeNode :=
  TreeNode.mk SIZE_MAX false 132 [[], [], []]
    [TreeNode.mk 0 true 32 [[]] [] (some 132), TreeNode.mk 1 true 57 [[]] [] (some 132),
     TreeNode.mk 2 true 82 [[]] [] (some 132), TreeNode.mk 3 true 107 [[]] [] (some 132)] none

/-! ## Notions for the abort of a traversal -/

/-- Loop of `_traverse` on `node` up to slot `i`: the reference object and `shouldContinue`
when the loop arrives at `ctr = i`.  `fuel` is the fuel of the recursive calls. -/
def loopBefore {σ : Type} (cb : traverseCallback σ) (fuel : Nat) (node : TreeNode) (d i : Nat)
    (s : σ) : σ × Bool :=
  traverseLoop (fun c r => _traverse (some cb) fuel c r (d + 1)) (some cb) node d
    (node.objects.take i) 0 s

/-- Body of the loop of `_traverse` on `node` at `ctr = i`: what the callback returns on
`objects[i]`, after the descent into `children[i]` when the node is internal. -/
def callAt {σ : Type} (cb : traverseCallback σ) (fuel : Nat) (node : TreeNode) (d i : Nat)
    (s : σ) : σ × Bool :=
  cb (node.objects.getD i [])
    (if node.isLeaf then (loopBefore cb fuel node d i s).1
     else _traverse (some cb) fuel (node.children.getD i default)
       (loopBefore cb fuel node d i s).1 (d + 1)) d

/-- Callback for `traverse` that appends the record and the depth to the reference object
and returns `keep` of the record. -/
def logUntil (keep : DbObj → Bool) : traverseCallback (List (DbObj × Nat)) :=
  fun o r d => (r ++ [(o, d)], keep o)

/-- Calls on the records of a node without children: one call for each record up to the
first on which `keep` is false, that one included. -/
def callsUntil (keep : DbObj → Bool) : List DbObj → Nat → List (DbObj × Nat)
  | [], _ => []
  | o :: os, d => (o, d) :: (if keep o then callsUntil keep os d else [])

namespace TreeNode

mutual
/-- Calls that a traversal makes when an abort is local to a node, in the words of the
specification: the subtrees and records of a node are visited in order, the
callback is called on each record reached, and after a record on which it
returns false nothing more of this node is visited, neither a record nor a
child; the nodes above go on. -/
def abortVisits (keep : DbObj → Bool) : TreeNode → Nat → List (DbObj × Nat)
  | mk _ l _ os cs _, d => abortVisitsKids keep l cs os d
/-- Calls for the children `cs` and records `os` that remain in a node at depth `d`. -/
def abortVisitsKids (keep : DbObj → Bool) (l : Bool) :
    List TreeNode → List DbObj → Nat → List (DbObj × Nat)
  | [], os, d => callsUntil keep os d
  | c :: _, [], d => if l then [] else abortVisits keep c (d + 1)
  | c :: cs, o :: os, d =>
    (if l then [] else abortVisits keep c (d + 1)) ++
      (o, d) :: (if keep o then abortVisitsKids keep l cs os d else [])
end

end TreeNode

/-! ## Writing and unloading in a session on an existing file -/

namespace LNode

/-- Bytes of a `long`, two's complement. -/
def longBytes (v : Int) : List Nat := leBytes sizeofLong (v % 2 ^ 32).toNat

/-- Array `childAddresses` of `TreeNode::write`: `objCount + 1` entries preset to `0xff`
bytes; the entry of a child that is not null is overwritten with its `fpos`. -/
def childAddresses (objCount : Nat) (cs : List LNode) : List Nat :=
  let addrs := (cs.map (fun c =>
    match c with
    | null => List.replicate sizeofLong 255
    | mk _ _ _ _ fp _ _ _ => longBytes fp)).flatten
  (addrs ++ List.replicate (sizeofLong * (objCount + 1) - addrs.length) 255).take
    (sizeofLong * (objCount + 1))

/-- Method `TreeNode::write`: the file after the call and the returned flag.  A node that
is not loaded is not written, and a negative `fpos` makes `fseek` fail.  The
method is never called through a null pointer; the case is there for
totality. -/
def write : LNode → File → File × Bool
  | null, f => (f, false)
  | mk _ oc l ld fp os cs _, f =>
    if ld = false then (f, true)
    else if fp < 0 then (f, false)
    else if (writeObjects os).2 = false then
      (f.pwrite fp.toNat ((if l then 1 else 0) :: (leBytes sizeofSizeT oc ++ (writeObjects os).1)),
        false)
    else if 0 < oc ∧ l = false then
      (f.pwrite fp.toNat ((if l then 1 else 0) ::
        (leBytes sizeofSizeT oc ++ (writeObjects os).1) ++ childAddresses oc cs), true)
    else
      (f.pwrite fp.toNat ((if l then 1 else 0) :: (leBytes sizeofSizeT oc ++ (writeObjects os).1)),
        true)

/-- Method `TreeNode::unload`: a loaded node gives up its records, unloads and drops its
children, forgets its parent and is marked as not loaded; `objCount`, `isLeaf`,
`fpos` and `childNo` stay.  A node that is not loaded stays as it is. -/
def unload : LNode → LNode
  | null => null
  | mk c oc l ld fp os cs p => if ld then mk c oc l false fp [] [] none else mk c oc l ld fp os cs p

end LNode

mutual
/-- Method `BTreeDB::_flush` in a session on an existing file: a loaded node is written, then
the children of an internal node in order, as long as the calls return true;
a node that is not loaded is skipped with true. -/
def _flushL : LNode → File → File × Bool
  | LNode.null, f => (f, false)
  | LNode.mk c oc l ld fp os cs p, f =>
    if ld = false then (f, true)
    else if ((LNode.mk c oc l ld fp os cs p).write f).2 = true ∧ l = false then
      _flushLKids cs ((LNode.mk c oc l ld fp os cs p).write f).1
    else (LNode.mk c oc l ld fp os cs p).write f
/-- Loop of `_flush` over the children. -/
def _flushLKids : List LNode → File → File × Bool
  | [], f => (f, true)
  | c :: cs, f => if (_flushL c f).2 then _flushLKids cs (_flushL c f).1 else _flushL c f
end

/-- Loop `for (ctr = 0; _root->isLeaf && ctr < _root->objCount; ctr++)` of `flush()` for a root
that is a leaf: each of the first `objCount` child pointers that is not null
is unloaded. -/
def unloadFirst : Nat → List LNode → List LNode
  | 0, cs => cs
  | _, [] => []
  | n + 1, c :: cs => c.unload :: unloadFirst n cs

namespace Reopened

/-- Method `BTreeDB::flush`: the session after the call and the returned flag.  The loop
that unloads has `_root->isLeaf` in its condition, so it runs only when the
root is a leaf. -/
def flush (s : Reopened) : Reopened × Bool :=
  ({ s with
      _root := if s._root.isLeaf then
          s._root.setChildren (unloadFirst s._root.objCount s._root.children)
        else s._root
      file := (_flushL s._root s.file).1 },
    (_flushL s._root s.file).2)

/-- Method `BTreeDB::traverse`: the session after the call, in which the nodes visited are
loaded, and the reference object. -/
def traverseState {σ : Type} (s : Reopened) (ref : σ) (cbfn : Option (traverseCallback σ)) :
    Reopened × σ :=
  ({ s with _root := (_traverseL s.file s._recSize cbfn (s.file.length + 1) s._root ref 0).1 },
    (_traverseL s.file s._recSize cbfn (s.file.length + 1) s._root ref 0).2)

end Reopened

/-! ## Notions for the root position in the header -/

/-- The file holds a whole header whose first field, `rootPos`, holds the four bytes of
the `long` `a`. -/
def File.RootAt (a : Nat) (f : File) : Prop :=
  sizeofHeader ≤ f.length ∧ f.take sizeofLong = leBytes sizeofLong a

/-- Property of files that survives every write behind the header and every change of the
length that leaves the header in the file. -/
structure File.Stable (P : File → Prop) : Prop where
  /-- a write at a position behind the header -/
  pwrite : ∀ (f : File) (pos : Nat) (bs : List Nat), sizeofHeader ≤ pos → P f →
    P (f.pwrite pos bs)
  /-- a change of the length to a length behind the header -/
  chsize : ∀ (f : File) (len : Nat), sizeofHeader ≤ len → P f → P (f.chsize len)

/-! ## The calls of `_merge` that `_delete` makes -/

/-- Precondition of `_merge(parent, objNo)` in a session where every node is loaded, from the
comment above `_merge`: record `objNo` and the children `objNo` and `objNo + 1`
are there, and both children hold `t - 1` records. -/
def TreeNode.MergeReady (t : Nat) (parent : TreeNode) (objNo : Nat) : Prop :=
  objNo < parent.objCount ∧ objNo + 1 < parent.children.length ∧
  (parent.children.getD objNo default).objCount = t - 1 ∧
  (parent.children.getD (objNo + 1) default).objCount = t - 1

/-- The calls `_merge(node, objNo)` that `_delete` makes, in the order of the calls, each with
the `node` argument as it is at the call.  Companion of `_delete`: it follows
the same path. -/
def _deleteMerges (cfn : compareFn) (t : Nat) : Nat → TreeNode → DbObj → List (TreeNode × Nat)
  | 0, _, _ => []
  | fuel + 1, node, key =>
    let op := node.findPos key cfn
    if op.1 = SIZE_MAX then []
    else
      match op.2 with
      | EChildPos.ECP_INTHIS =>
        if node.isLeaf then []
        else if t ≤ (node.children.getD op.1 default).objCount then
          let childNode := node.children.getD op.1 default
          let locn := _findPred fuel childNode
          _deleteMerges cfn t fuel childNode (locn.1.objects.getD locn.2 [])
        else if t ≤ (node.children.getD (op.1 + 1) default).objCount then
          let childNode := node.children.getD (op.1 + 1) default
          let locn := _findSucc fuel childNode
          _deleteMerges cfn t fuel childNode (locn.1.objects.getD locn.2 [])
        else
          (node, op.1) :: _deleteMerges cfn t fuel (_merge t node op.1).2 key
      | EChildPos.ECP_NONE => []
      | pos =>
        let keyChildPos := if pos = EChildPos.ECP_INLEFT then op.1 else op.1 + 1
        let childNode := node.children.getD keyChildPos default
        if t ≤ childNode.objCount then _deleteMerges cfn t fuel childNode key
        else
          let leftCount :=
            if 0 < keyChildPos then (node.children.getD (keyChildPos - 1) default).objCount else 0
          let rightCount :=
            if keyChildPos < node.objCount then
              (node.children.getD (keyChildPos + 1) default).objCount
            else 0
          if t ≤ leftCount ∨ t ≤ rightCount then
            let node1 :=
              if t ≤ leftCount then borrowLeft t node keyChildPos
              else borrowRight t node keyChildPos op.1
            _deleteMerges cfn t fuel (node1.children.getD keyChildPos default) key
          else
            (node, op.1) :: _deleteMerges cfn t fuel (_merge t node op.1).2 key

/-- Precondition of `_merge(parent, objNo)` in a session on an existing file: the children
`objNo` and `objNo + 1` are loaded and hold `t - 1` records each, in `objCount`
and in the `objects` vector that `_merge` indexes. -/
def LNode.MergeReady (t : Nat) (parent : LNode) (objNo : Nat) : Prop :=
  (parent.children.getD objNo LNode.null).loaded = true ∧
  (parent.children.getD (objNo + 1) LNode.null).loaded = true ∧
  (parent.children.getD objNo LNode.null).objCount = t - 1 ∧
  (parent.children.getD (objNo + 1) LNode.null).objCount = t - 1 ∧
  (parent.children.getD objNo LNode.null).objects.length = t - 1 ∧
  (parent.children.getD (objNo + 1) LNode.null).objects.length = t - 1

instance (t : Nat) (parent : LNode) (objNo : Nat) : Decidable (LNode.MergeReady t parent objNo) := by
  unfold LNode.MergeReady
  infer_instance

/-- First call that `_delete` makes at the node it is called on, in a session on an existing
file, with the node as it is at that call. -/
inductive DeleteCall where
  /-- no call: the key is not found (false), or it is deleted from a leaf (true) -/
  | done (ret : Bool)
  /-- call `_delete(childNode, ...)` on child `childNo` of `node`, in the cases 2a, 2b and 3 -/
  | descend (node : LNode) (childNo : Nat)
  /-- case 3a: a record is borrowed from a sibling of child `keyChildPos` -/
  | borrow (node : LNode) (keyChildPos : Nat)
  /-- call `_merge(node, objNo)`, in the cases 2c and 3b -/
  | merge (node : LNode) (objNo : Nat)

/-- Arguments of the call of `_merge`, when that is the call. -/
def DeleteCall.mergeArgs? : DeleteCall → Option (LNode × Nat)
  | DeleteCall.merge node objNo => some (node, objNo)
  | _ => none

/-- Method `BTreeDB::_delete` in a session on an existing file, up to its first call of
`_merge` or of itself.  Case 2 tests `node->children[...]->objCount` before any
`loadChild`; case 3 calls `loadChild` for the child and its siblings before
it reads their `objCount`. -/
def _deleteCall (cfn : compareFn) (t : Nat) (f : File) (recSize : Nat) (node : LNode)
    (key : DbObj) : DeleteCall :=
  let op := TreeNode.findPosLoop key cfn node.isLeaf node.objects 0
  if op.1 = SIZE_MAX then DeleteCall.done false
  else
    match op.2 with
    | EChildPos.ECP_INTHIS =>
      if node.isLeaf then DeleteCall.done true
      else if t ≤ (node.children.getD op.1 LNode.null).objCount then
        DeleteCall.descend (node.loadChild op.1 f recSize).1 op.1
      else if t ≤ (node.children.getD (op.1 + 1) LNode.null).objCount then
        DeleteCall.descend (node.loadChild (op.1 + 1) f recSize).1 (op.1 + 1)
      else DeleteCall.merge node op.1
    | EChildPos.ECP_NONE => DeleteCall.done false
    | pos =>
      let keyChildPos := if pos = EChildPos.ECP_INLEFT then op.1 else op.1 + 1
      let n1 := (node.loadChild keyChildPos f recSize).1
      if t ≤ (n1.children.getD keyChildPos LNode.null).objCount then
        DeleteCall.descend n1 keyChildPos
      else
        let n2 := if 0 < keyChildPos then (n1.loadChild (keyChildPos - 1) f recSize).1 else n1
        let leftCount :=
          if 0 < keyChildPos then (n2.children.getD (keyChildPos - 1) LNode.null).objCount else 0
        let n3 :=
          if keyChildPos < n2.objCount then (n2.loadChild (keyChildPos + 1) f recSize).1 else n2
        let rightCount :=
          if keyChildPos < n2.objCount then
            (n3.children.getD (keyChildPos + 1) LNode.null).objCount
          else 0
        if t ≤ leftCount ∨ t ≤ rightCount then DeleteCall.borrow n3 keyChildPos
        else DeleteCall.merge n3 op.1

/-! ## The session with its reference counts

`TreeNode` derives from `RefCount`; the members `children` and `parent`, the member
`_root` and the local variables of type `TreeNodePtr` are `Ptr<TreeNode>`.  A
`Ptr` that is constructed from a pointer counts the target up, a `Ptr` that is
overwritten or destroyed counts it down, and `downcount` deletes the node when
the count reaches 0.  The destructor of a node calls `unload()` on every child
that the node lists.  In this model the nodes are cells of a heap, a pointer is
the index of a cell, every vector has its own length, and every `Ptr` that the
source constructs, assigns and destroys is counted, in the order of the source.
A step whose behaviour the language leaves undefined ends the run with a
`Fault`. -/

namespace Mem

/-- Steps with undefined behaviour at which a run of the model ends, and the bound of the
model on the depth of calls. -/
inductive Fault where
  /-- `operator[]` of a vector at an index that is not below its size -/
  | outOfRange
  /-- member access through a null pointer -/
  | nullPointer
  /-- use of a node after its `delete` -/
  | deleted
  /-- a vector changes its size while a loop iterates over it -/
  | iterator
  /-- the bound on the depth of calls is used up -/
  | fuel
  deriving DecidableEq

/-- Object of class `TreeNode` on the heap: `refs` is `_crefs` of `RefCount`, `freed` holds
after `delete`.  A null `DbObjPtr` or `TreeNodePtr` is `none`. -/
structure Cell where
  /-- member `_crefs` -/
  refs : Int
  /-- the memory of the node has been released -/
  freed : Bool
  /-- member `childNo` -/
  childNo : Nat
  /-- member `objCount` -/
  objCount : Nat
  /-- member `isLeaf` -/
  isLeaf : Bool
  /-- member `loaded` -/
  loaded : Bool
  /-- member `fpos` -/
  fpos : Int
  /-- member `objects` -/
  objects : List (Option DbObj)
  /-- member `children` -/
  children : List (Option Nat)
  /-- member `parent` -/
  parent : Option Nat

/-- Constructor `TreeNode::TreeNode`, the count of `RefCount::RefCount` included. -/
def Cell.new : Cell :=
  { refs := 0, freed := false, childNo := SIZE_MAX, objCount := 0, isLeaf := true,
    loaded := false, fpos := -1, objects := [], children := [], parent := none }

/-- The heap, the file and the data members of the `BTreeDB` object. -/
structure State where
  /-- nodes allocated so far, a pointer being an index -/
  heap : List Cell
  /-- bytes of `_dataFile` -/
  file : File
  /-- member `_root` -/
  root : Option Nat
  /-- member `_recSize` -/
  recSize : Nat
  /-- member `_keySize` -/
  keySize : Nat
  /-- member `_minDegree` -/
  minDegree : Nat
  /-- member `_nodeSize` -/
  nodeSize : Nat
  /-- member `_compFunc` -/
  compFunc : compareFn

/-- Computation on the state that ends with a value or with a fault. -/
def M (α : Type) : Type := State → Except Fault (α × State)

instance : Monad M where
  pure a := fun s => Except.ok (a, s)
  bind x f := fun s =>
    match x s with
    | Except.ok (a, s1) => f a s1
    | Except.error e => Except.error e

/-- End of the run at a step with undefined behaviour. -/
def fault {α : Type} (e : Fault) : M α := fun _ => Except.error e

/-- The current state. -/
def state : M State := fun s => Except.ok (s, s)

/-- Change of the members of the `BTreeDB` object or of the file. -/
def setState (f : State → State) : M Unit := fun s => Except.ok ((), f s)

/-- Loop over a list. -/
def forEach {α : Type} (f : α → M Unit) : List α → M Unit
  | [] => pure ()
  | x :: xs => do
    f x
    forEach f xs

/-- Access to the node behind a pointer. -/
def cell (id : Nat) : M Cell := fun s =>
  match s.heap[id]? with
  | some c => if c.freed then Except.error Fault.deleted else Except.ok (c, s)
  | none => Except.error Fault.deleted

/-- Assignment to members of the node behind a pointer. -/
def update (id : Nat) (f : Cell → Cell) : M Unit := fun s =>
  match s.heap[id]? with
  | some c =>
    if c.freed then Except.error Fault.deleted
    else Except.ok ((), { s with heap := s.heap.set id (f c) })
  | none => Except.error Fault.deleted

/-- Operator `->` of `Ptr`: member access through a null pointer is a fault. -/
def deref (p : Option Nat) : M Nat :=
  match p with
  | some id => pure id
  | none => fault Fault.nullPointer

/-- Operator `[]` of a vector. -/
def elem {α : Type} (v : List α) (i : Nat) : M α :=
  match v[i]? with
  | some x => pure x
  | none => fault Fault.outOfRange

/-- Expression `new TreeNode`. -/
def alloc : M Nat := fun s =>
  Except.ok (s.heap.length, { s with heap := s.heap ++ [Cell.new] })

/-- Method `RefCount::upcount`. -/
def upcount (id : Nat) : M Unit := update id (fun c => { c with refs := c.refs + 1 })

/-- Constructor of `Ptr` from a pointer or from another `Ptr`: `if (_p) _p->upcount()`. -/
def hold (p : Option Nat) : M Unit :=
  match p with
  | some id => upcount id
  | none => pure ()

/-- Method `vector::resize` on `objects`. -/
def resizeObjects (v : List (Option DbObj)) (n : Nat) : List (Option DbObj) :=
  v.take n ++ List.replicate (n - v.length) none

mutual
/-- Method `RefCount::downcount`: `if (--_crefs == 0) delete this`. -/
def downcount : Nat → Nat → M Unit
  | 0, _ => fault Fault.fuel
  | fuel + 1, id => do
    let c ← cell id
    update id (fun c => { c with refs := c.refs - 1 })
    if c.refs - 1 = 0 then destroy fuel id else pure ()
/-- Expression `delete this`: the body of `~TreeNode`, which unloads every child that is not
null, then the destructors of the members in the reverse order of their
declaration, `parent`, `children` (front to back) and `objects`, then the
release of the memory. -/
def destroy : Nat → Nat → M Unit
  | 0, _ => fault Fault.fuel
  | fuel + 1, id => do
    let c ← cell id
    forEach (fun i => do
      let c1 ← cell id
      if c1.children.length ≠ c.children.length then fault Fault.iterator
      else
        match c1.children.getD i none with
        | some ch => unload fuel ch
        | none => pure ()) (List.range c.children.length)
    let c2 ← cell id
    match c2.parent with
    | some p => downcount fuel p
    | none => pure ()
    let c3 ← cell id
    forEach (fun ch =>
      match ch with
      | some x => downcount fuel x
      | none => pure ()) c3.children
    update id (fun c => { c with freed := true })
/-- Method `TreeNode::unload`. -/
def unload : Nat → Nat → M Unit
  | 0, _ => fault Fault.fuel
  | fuel + 1, id => do
    let c ← cell id
    if c.loaded then
      -- objects set to null one by one, then `objects.resize(0)`
      update id (fun c => { c with objects := [] })
      -- `while (!isLeaf && tnvit != children.end())`
      if c.isLeaf = false then
        forEach (fun i => do
          let c1 ← cell id
          if c1.children.length ≠ c.children.length then fault Fault.iterator
          else do
            -- `(*tnvit)->unload()`
            let ch ← deref (c1.children.getD i none)
            unload fuel ch
            -- `*tnvit = (TreeNode*)0`
            let c2 ← cell id
            match c2.children.getD i none with
            | some old => downcount fuel old
            | none => pure ()
            update id (fun c => { c with children := c.children.set i none }))
          (List.range c.children.length)
      else pure ()
      -- `children.resize(0)`
      let c3 ← cell id
      forEach (fun ch =>
        match ch with
        | some x => downcount fuel x
        | none => pure ()) c3.children
      update id (fun c => { c with children := [] })
      -- `parent = (TreeNode*)0`
      let c4 ← cell id
      match c4.parent with
      | some p => downcount fuel p
      | none => pure ()
      update id (fun c => { c with parent := none })
      update id (fun c => { c with loaded := false })
    else pure ()
end

/-- Bound on the depth of the calls between `downcount`, `~TreeNode` and `unload`: each
level deletes a node or unloads one. -/
def depthBound (s : State) : Nat := 4 * s.heap.length + 8

/-- Destructor of `Ptr`: `if (_p) _p->downcount()`. -/
def release (p : Option Nat) : M Unit :=
  match p with
  | some id => fun s => downcount (depthBound s) id s
  | none => pure ()

/-- Assignment `node->parent = p` of a pointer: the old target is counted down, then the
member is set, then the new target is counted up. -/
def setParent (id : Nat) (p : Option Nat) : M Unit := do
  let c ← cell id
  release c.parent
  update id (fun c => { c with parent := p })
  hold p

/-- Assignment `node->parent = q` of a `Ptr`: `operator=(const Ptr&)` makes a copy of `q`
that lives until the assignment of the pointer has returned. -/
def setParentPtr (id : Nat) (q : Option Nat) : M Unit := do
  hold q
  setParent id q
  release q

/-- Assignment `node->children[i] = p` of a pointer. -/
def setChild (id i : Nat) (p : Option Nat) : M Unit := do
  let c ← cell id
  let old ← elem c.children i
  release old
  update id (fun c => { c with children := c.children.set i p })
  hold p

/-- Assignment `node->children[i] = q` of a `Ptr`. -/
def setChildPtr (id i : Nat) (q : Option Nat) : M Unit := do
  hold q
  setChild id i q
  release q

/-- Assignment `_root = q` of a `Ptr`. -/
def setRootPtr (q : Option Nat) : M Unit := do
  hold q
  let s ← state
  release s.root
  setState (fun s => { s with root := q })
  hold q
  release q

/-- Method `vector::resize` on `children`: the elements behind the new size are destroyed
front to back, new elements are null. -/
def resizeChildren (id n : Nat) : M Unit := do
  let c ← cell id
  forEach release (c.children.drop n)
  update id (fun c =>
    { c with children := c.children.take n ++ List.replicate (n - c.children.length) none })

/-- Method `TreeNode::setCount`. -/
def setCount (id newSize : Nat) : M Unit := do
  update id (fun c => { c with objCount := newSize })
  update id (fun c => { c with objects := resizeObjects c.objects newSize })
  resizeChildren id (newSize + 1)

/-- Assignment `node->objects[i] = obj`. -/
def setObject (id i : Nat) (obj : Option DbObj) : M Unit := do
  let c ← cell id
  let _ ← elem c.objects i
  update id (fun c => { c with objects := c.objects.set i obj })

/-- Expression `node->objects[i]`. -/
def object (id i : Nat) : M (Option DbObj) := do
  let c ← cell id
  elem c.objects i

/-- Call of a comparison function on a key and a record: the function reads the bytes of
both, so a null key or record is a fault. -/
def compare (cfn : compareFn) (key obj : Option DbObj) : M Int :=
  match key, obj with
  | some k, some o => pure (cfn k o)
  | _, _ => fault Fault.nullPointer

/-! ### Reading and writing a page -/

/-- Loop of `TreeNode::read` over the records, `n` records to go from slot `ctr` with the file
position at `pos`: false when an `fread` fails. -/
def readRecords (id : Nat) : Nat → Nat → Nat → M Bool
  | 0, _, _ => pure true
  | n + 1, ctr, pos => do
    let s ← state
    match s.file.readItem pos s.recSize with
    | none => pure false
    | some o => do
      setObject id ctr (some o)
      readRecords id n (ctr + 1) (pos + s.recSize)

/-- Loop of `TreeNode::read` over the child addresses, which start at `pos`: child `ctr` is
a new node with that `fpos` and `childNo = ctr`. -/
def readChildren (id pos : Nat) : Nat → Nat → M Unit
  | 0, _ => pure ()
  | n + 1, ctr => do
    let s ← state
    -- `TreeNodePtr newNode = new TreeNode`
    let newNode ← alloc
    hold (some newNode)
    update newNode (fun c =>
      { c with fpos := longValue ((s.file.drop (pos + sizeofLong * ctr)).take sizeofLong) })
    setChildPtr id ctr (some newNode)
    update newNode (fun c => { c with childNo := ctr })
    release (some newNode)
    readChildren id pos n (ctr + 1)

/-- Method `TreeNode::read`. -/
def read (id : Nat) : M Bool := do
  let c ← cell id
  let s ← state
  if c.fpos < 0 then pure false
  else
    match s.file.readItem c.fpos.toNat 1 with
    | none => pure false
    | some leafFlag =>
      match s.file.readItem (c.fpos.toNat + 1) sizeofSizeT with
      | none => pure false
      | some count => do
        update id (fun c => { c with objCount := leValue count })
        update id (fun c => { c with isLeaf := decide (leafFlag = [1]) })
        update id (fun c => { c with objects := resizeObjects c.objects (leValue count) })
        let ok ← readRecords id (leValue count) 0 (c.fpos.toNat + 1 + sizeofSizeT)
        if ok = false then pure false
        else
          let addrPos := c.fpos.toNat + 1 + sizeofSizeT + leValue count * s.recSize
          if 0 < leValue count then
            if s.file.length < addrPos + sizeofLong * (leValue count + 1) then pure false
            else do
              resizeChildren id (leValue count + 1)
              readChildren id addrPos (leValue count + 1) 0
              update id (fun c => { c with loaded := true })
              pure true
          else do
            update id (fun c => { c with loaded := true })
            pure true

/-- Loop of `TreeNode::write` over `objects`: the bytes written and whether every `fwrite`
returned 1; the size of a null record is read through a null pointer. -/
def recordBytes : List (Option DbObj) → M (List Nat × Bool)
  | [] => pure ([], true)
  | none :: _ => fault Fault.nullPointer
  | some o :: os =>
    if o.length = 0 then pure ([], false)
    else do
      let r ← recordBytes os
      pure (o ++ r.1, r.2)

/-- Loop of `TreeNode::write` over `children` that fills the array `childAddresses` of
`objCount + 1` entries, `room` of them being left: a child behind the last
entry is written behind the array. -/
def addressBytes : List (Option Nat) → Nat → M (List Nat)
  | [], room => pure (List.replicate (sizeofLong * room) 255)
  | _ :: _, 0 => fault Fault.outOfRange
  | none :: cs, room + 1 => do
    let r ← addressBytes cs room
    pure (List.replicate sizeofLong 255 ++ r)
  | some ch :: cs, room + 1 => do
    let c ← cell ch
    let r ← addressBytes cs room
    pure (LNode.longBytes c.fpos ++ r)

/-- Method `TreeNode::write`. -/
def write (id : Nat) : M Bool := do
  let c ← cell id
  if c.loaded = false then pure true
  else if c.fpos < 0 then pure false
  else do
    let r ← recordBytes c.objects
    let head := (if c.isLeaf then 1 else 0) :: (leBytes sizeofSizeT c.objCount ++ r.1)
    if r.2 = false then do
      setState (fun s => { s with file := s.file.pwrite c.fpos.toNat head })
      pure false
    else if 0 < c.objCount ∧ c.isLeaf = false then do
      let a ← addressBytes c.children (c.objCount + 1)
      setState (fun s => { s with file := s.file.pwrite c.fpos.toNat (head ++ a) })
      pure true
    else do
      setState (fun s => { s with file := s.file.pwrite c.fpos.toNat head })
      pure true

/-- Method `TreeNode::loadChild`; the caller owns the count of the `Ptr` returned. -/
def loadChild (id childNo : Nat) : M Nat := do
  let c ← cell id
  -- `TreeNodePtr child = children[childNo]`
  let slot ← elem c.children childNo
  hold slot
  let child ← (match slot with
    | some ch => pure ch
    | none => do
      -- `child = new TreeNode; children[childNo] = child`
      let n ← alloc
      hold (some n)
      setChildPtr id childNo (some n)
      pure n)
  let cc ← cell child
  if cc.loaded = false then do
    let _ ← read child
    -- `child->parent = this`
    setParent child (some id)
    pure child
  else pure child

/-- Method `TreeNode::findPos`; the loop runs over the vector `objects`. -/
def findPosLoop (key : Option DbObj) (cfn : compareFn) (leaf : Bool) :
    List (Option DbObj) → Nat → M OBJECTPOS
  | [], ctr =>
    if leaf then pure (SIZE_MAX, EChildPos.ECP_NONE)
    else pure (decr ctr, EChildPos.ECP_INRIGHT)
  | o :: os, ctr => do
    let compVal ← compare cfn key o
    if compVal = 0 then pure (ctr, EChildPos.ECP_INTHIS)
    else if compVal < 0 then
      (if leaf then pure (SIZE_MAX, EChildPos.ECP_NONE) else pure (ctr, EChildPos.ECP_INLEFT))
    else findPosLoop key cfn leaf os (ctr + 1)

/-- Method `TreeNode::findPos`. -/
def findPos (id : Nat) (key : Option DbObj) (cfn : compareFn) : M OBJECTPOS := do
  let c ← cell id
  findPosLoop key cfn c.isLeaf c.objects 0

/-- Loop `for (ctr = objNo + 1; ctr < objCount; ctr++) objects[ctr - 1] = objects[ctr]`, `n`
rounds to go. -/
def shiftObjectsDown (id : Nat) : Nat → Nat → M Unit
  | 0, _ => pure ()
  | n + 1, ctr => do
    let o ← object id ctr
    setObject id (ctr - 1) o
    shiftObjectsDown id n (ctr + 1)

/-- Method `TreeNode::delFromLeaf`. -/
def delFromLeaf (id objNo : Nat) : M Bool := do
  let c ← cell id
  if c.isLeaf then do
    setObject id objNo none
    shiftObjectsDown id (c.objCount - (objNo + 1)) (objNo + 1)
    setCount id (decr c.objCount)
    pure true
  else pure false

/-! ### The methods of `BTreeDB` -/

/-- Method `BTreeDB::_allocateNode`; the caller owns the count of the `Ptr` returned. -/
def _allocateNode : M Nat := do
  let newNode ← alloc
  hold (some newNode)
  let s ← state
  update newNode (fun c => { c with fpos := (s.file.length : Int) })
  update newNode (fun c => { c with loaded := true })
  setState (fun s => { s with file := s.file.chsize (s.file.length + s.nodeSize) })
  pure newNode

/-- Method `BTreeDB::_search`; the caller owns the count of the node pointer in the location
returned. -/
def _search : Nat → Nat → Option DbObj → Option compareFn → M (Option Nat × Nat)
  | 0, _, _, _ => fault Fault.fuel
  | fuel + 1, node, key, cfn => do
    let s ← state
    let op ← findPos node key (cfn.getD s.compFunc)
    if op.1 = SIZE_MAX then pure (none, SIZE_MAX)
    else
      match op.2 with
      | EChildPos.ECP_INTHIS => do
        hold (some node)
        pure (some node, op.1)
      | EChildPos.ECP_INLEFT => do
        let child ← loadChild node op.1
        let ret ← _search fuel child key none
        release (some child)
        pure ret
      | EChildPos.ECP_INRIGHT => do
        let child ← loadChild node (op.1 + 1)
        let ret ← _search fuel child key none
        release (some child)
        pure ret
      | EChildPos.ECP_NONE => pure (none, SIZE_MAX)

/-- Loop of `_split` that copies the upper records of the child, `n` to go. -/
def splitObjects (newChild child t : Nat) : Nat → Nat → M Unit
  | 0, _ => pure ()
  | n + 1, ctr => do
    let o ← object child (t + ctr)
    setObject newChild ctr o
    splitObjects newChild child t n (ctr + 1)

/-- Loop of `_split` that moves the upper children of the child, `n` to go. -/
def splitChildren (newChild child t : Nat) : Nat → Nat → M Unit
  | 0, _ => pure ()
  | n + 1, ctr => do
    let c ← cell child
    -- `TreeNodePtr mover = child->children[_minDegree + ctr]`
    let mover ← elem c.children (t + ctr)
    hold mover
    setChildPtr newChild ctr mover
    let m ← deref mover
    update m (fun c => { c with childNo := ctr })
    setParentPtr m (some newChild)
    release mover
    splitChildren newChild child t n (ctr + 1)

/-- Loop `for (ctr = parent->objCount; ctr > childNum + 1; ctr--)` of `_split`, `n` rounds
to go. -/
def shiftChildrenUp (parent : Nat) : Nat → Nat → M Unit
  | 0, _ => pure ()
  | n + 1, ctr => do
    let c ← cell parent
    let src ← elem c.children (ctr - 1)
    setChildPtr parent ctr src
    let c1 ← cell parent
    let moved ← elem c1.children ctr
    let m ← deref moved
    update m (fun c => { c with childNo := ctr })
    shiftChildrenUp parent n (ctr - 1)

/-- Loop `for (ctr = parent->objCount - 1; ctr > childNum; ctr--)` of `_split`, `n` rounds
to go. -/
def shiftObjectsUp (parent : Nat) : Nat → Nat → M Unit
  | 0, _ => pure ()
  | n + 1, ctr => do
    let o ← object parent (ctr - 1)
    setObject parent ctr o
    shiftObjectsUp parent n (ctr - 1)

/-- Method `BTreeDB::_split`. -/
def _split (parent childNum child : Nat) : M Unit := do
  let s ← state
  let t := s.minDegree
  let newChild ← _allocateNode
  let c ← cell child
  update newChild (fun x => { x with isLeaf := c.isLeaf })
  setCount newChild (t - 1)
  splitObjects newChild child t (t - 1) 0
  (if c.isLeaf = false then splitChildren newChild child t t 0 else pure ())
  let saveObj ← object child (t - 1)
  setCount child (t - 1)
  let p ← cell parent
  setCount parent (p.objCount + 1)
  shiftChildrenUp parent (p.objCount + 1 - (childNum + 1)) (p.objCount + 1)
  setChildPtr parent (childNum + 1) (some newChild)
  update newChild (fun x => { x with childNo := childNum + 1 })
  setParentPtr newChild (some parent)
  shiftObjectsUp parent (p.objCount - childNum) p.objCount
  setObject parent childNum saveObj
  let _ ← write child
  let _ ← write newChild
  let _ ← write parent
  release (some newChild)

/-- Loop of `_merge` that copies the records of `c2`, `n` to go. -/
def mergeObjects (c1 c2 t : Nat) : Nat → Nat → M Unit
  | 0, _ => pure ()
  | n + 1, ctr => do
    let o ← object c2 ctr
    setObject c1 (t + ctr) o
    mergeObjects c1 c2 t n (ctr + 1)

/-- Loop of `_merge` that copies the child pointers of `c2`, `n` to go. -/
def mergeChildren (c1 c2 t : Nat) : Nat → Nat → M Unit
  | 0, _ => pure ()
  | n + 1, ctr => do
    let c ← cell c2
    let src ← elem c.children ctr
    setChildPtr c1 (t + ctr) src
    let x ← cell c1
    let moved ← elem x.children (t + ctr)
    let m ← deref moved
    update m (fun c => { c with childNo := t + ctr })
    mergeChildren c1 c2 t n (ctr + 1)

/-- Loop `for (ctr = objNo + 1; ctr < parent->objCount; ctr++)` of `_merge`, `n` rounds to
go. -/
def mergeShift (parent : Nat) : Nat → Nat → M Unit
  | 0, _ => pure ()
  | n + 1, ctr => do
    let o ← object parent ctr
    setObject parent (ctr - 1) o
    let c ← cell parent
    let src ← elem c.children (ctr + 1)
    setChildPtr parent ctr src
    let c1 ← cell parent
    let moved ← elem c1.children ctr
    let m ← deref moved
    update m (fun c => { c with childNo := ctr })
    mergeShift parent n (ctr + 1)

/-- Method `BTreeDB::_merge`; the caller owns the count of the `Ptr` returned.  The local
`c2` is destroyed at the return. -/
def _merge (parent objNo : Nat) : M Nat := do
  let s ← state
  let t := s.minDegree
  let p ← cell parent
  -- `TreeNodePtr c1 = parent->children[objNo]; TreeNodePtr c2 = parent->children[objNo + 1]`
  let c1p ← elem p.children objNo
  hold c1p
  let c2p ← elem p.children (objNo + 1)
  hold c2p
  let c1 ← deref c1p
  update c1 (fun c => { c with objects := resizeObjects c.objects (2 * t - 1) })
  let c2 ← deref c2p
  mergeObjects c1 c2 t (t - 1) 0
  let c2c ← cell c2
  (if c2c.isLeaf = false then do
    resizeChildren c1 (2 * t)
    mergeChildren c1 c2 t t 0
  else pure ())
  let sep ← object parent objNo
  setObject c1 (t - 1) sep
  update c1 (fun c => { c with objCount := 2 * t - 1 })
  let p1 ← cell parent
  mergeShift parent (p1.objCount - (objNo + 1)) (objNo + 1)
  update parent (fun c => { c with objCount := decr c.objCount })
  update parent (fun c => { c with objects := resizeObjects c.objects c.objCount })
  let p2 ← cell parent
  resizeChildren parent (p2.objCount + 1)
  let _ ← write c1
  let _ ← write parent
  release c2p
  pure c1

/-- Loop of `_insertNonFull` in a leaf that moves the records above the key one slot up:
the slot of the key. -/
def leafSlot (id : Nat) (key : Option DbObj) (cfn : compareFn) : Nat → M Nat
  | 0 => pure 0
  | ctr + 1 => do
    let compObj ← object id ctr
    let compVal ← compare cfn key compObj
    if compVal < 0 then do
      setObject id (ctr + 1) compObj
      leafSlot id key cfn ctr
    else pure (ctr + 1)

/-- Loop of `_insertNonFull` in an internal node: the index of the child to descend into. -/
def childSlot (id : Nat) (key : Option DbObj) (cfn : compareFn) : Nat → M Nat
  | 0 => pure 0
  | ctr + 1 => do
    let o ← object id ctr
    let compVal ← compare cfn key o
    if compVal ≥ 0 then pure (ctr + 1) else childSlot id key cfn ctr

/-- Method `BTreeDB::_insertNonFull`. -/
def _insertNonFull : Nat → Nat → Option DbObj → M Unit
  | 0, _, _ => fault Fault.fuel
  | fuel + 1, node, key => do
    let s ← state
    let c ← cell node
    if c.isLeaf then do
      setCount node (c.objCount + 1)
      let ctr ← leafSlot node key s.compFunc c.objCount
      setObject node ctr key
      let _ ← write node
      pure ()
    else do
      let ctr ← childSlot node key s.compFunc c.objCount
      let child ← loadChild node ctr
      let cc ← cell child
      if cc.objCount = s.minDegree * 2 - 1 then do
        _split node ctr child
        let o ← object node ctr
        let compVal ← compare s.compFunc key o
        let ctr1 := if compVal > 0 then ctr + 1 else ctr
        -- `child = node->children[ctr]`
        let n1 ← cell node
        let next ← elem n1.children ctr1
        hold next
        release (some child)
        hold next
        release next
        let child1 ← deref next
        _insertNonFull fuel child1 key
        release next
      else do
        _insertNonFull fuel child key
        release (some child)

/-- Bound on the depth of the recursion over the tree: a node is a cell of the heap or is
read from a page of the file. -/
def treeBound (s : State) : Nat := s.heap.length + s.file.length + 1

/-- Method `BTreeDB::_insert`. -/
def _insert (key : Option DbObj) : M Unit := do
  let s ← state
  let root ← deref s.root
  let r ← cell root
  if r.objCount = s.minDegree * 2 - 1 then do
    -- `TreeNodePtr oldRoot = _root`
    hold (some root)
    -- `_root = _allocateNode()`
    let n ← _allocateNode
    setRootPtr (some n)
    release (some n)
    setCount n 0
    update n (fun c => { c with isLeaf := false })
    setChildPtr n 0 (some root)
    update root (fun c => { c with childNo := 0 })
    setParentPtr root (some n)
    _split n 0 root
    let s1 ← state
    _insertNonFull (treeBound s1) n key
    let nc ← cell n
    setState (fun s => { s with file := s.file.pwrite 0 (LNode.longBytes nc.fpos) })
    release (some root)
  else _insertNonFull (treeBound s) root key

/-- Loop of `_traverse` over the records of a node, `n` to go from slot `ctr`; `down` is the
recursive call.  The result is `shouldContinue` and the reference object. -/
def traverseLoop {σ : Type} (down : Nat → σ → M σ) (cbfn : Option (traverseCallback σ))
    (node depth : Nat) : Nat → Nat → σ → M (Bool × σ)
  | 0, _, ref => pure (true, ref)
  | n + 1, ctr, ref => do
    let c ← cell node
    let ref1 ← (if c.isLeaf = false then do
        let child ← loadChild node ctr
        let r ← down child ref
        release (some child)
        pure r
      else pure ref)
    match cbfn with
    | none => traverseLoop down cbfn node depth n (ctr + 1) ref1
    | some cb => do
      let o ← object node ctr
      match o with
      | none => fault Fault.nullPointer
      | some rec =>
        if (cb rec ref1 depth).2 then
          traverseLoop down cbfn node depth n (ctr + 1) (cb rec ref1 depth).1
        else pure (false, (cb rec ref1 depth).1)

/-- Method `BTreeDB::_traverse`; a callback that is called reads the record it is given. -/
def _traverse {σ : Type} (cbfn : Option (traverseCallback σ)) : Nat → Nat → σ → Nat → M σ
  | 0, _, _, _ => fault Fault.fuel
  | fuel + 1, node, ref, depth => do
    let c ← cell node
    let r ← traverseLoop (fun ch x => _traverse cbfn fuel ch x (depth + 1)) cbfn node depth
      c.objCount 0 ref
    let c1 ← cell node
    if r.1 = true ∧ c1.isLeaf = false then do
      let child ← loadChild node c.objCount
      let x ← _traverse cbfn fuel child r.2 (depth + 1)
      release (some child)
      pure x
    else pure r.2

/-- Method `BTreeDB::traverse`. -/
def traverse {σ : Type} (ref : σ) (cbfn : Option (traverseCallback σ)) : M σ := do
  let s ← state
  let root ← deref s.root
  _traverse cbfn (treeBound s) root ref 0

/-- Loop of `_flush` over the children of a node, `down` being the recursive call. -/
def flushLoop (down : Nat → M Bool) : List (Option Nat) → M Bool
  | [] => pure true
  | p :: ps => do
    let ch ← deref p
    let ret ← down ch
    if ret then flushLoop down ps else pure false

/-- Method `BTreeDB::_flush`. -/
def _flush : Nat → Nat → M Bool
  | 0, _ => fault Fault.fuel
  | fuel + 1, node => do
    let c ← cell node
    if c.loaded = false then pure true
    else do
      let ret ← write node
      if ret = true ∧ c.isLeaf = false then flushLoop (_flush fuel) c.children
      else pure ret

/-- Loop `for (ctr = 0; _root->isLeaf && ctr < _root->objCount; ctr++)` of `flush()`, `n`
rounds to go. -/
def flushUnload (root : Nat) : Nat → Nat → M Unit
  | 0, _ => pure ()
  | n + 1, ctr => do
    let c ← cell root
    if c.isLeaf = true ∧ ctr < c.objCount then do
      -- `TreeNodePtr pChild = _root->children[ctr]`
      let pChild ← elem c.children ctr
      hold pChild
      (match pChild with
        | some ch => fun s => unload (depthBound s) ch s
        | none => pure ())
      release pChild
      flushUnload root n (ctr + 1)
    else pure ()

/-- Method `BTreeDB::flush`. -/
def flush : M Bool := do
  let s ← state
  let root ← deref s.root
  let ret ← _flush (treeBound s) root
  let c ← cell root
  flushUnload root c.objCount 0
  pure ret

/-- Method `BTreeDB::_findPred`; the caller owns the count of the node pointer returned. -/
def findPredLoop : Nat → Nat → M Nat
  | 0, _ => fault Fault.fuel
  | fuel + 1, child => do
    let c ← cell child
    if c.isLeaf = false then do
      -- `child = child->loadChild(child->objCount, ...)`
      let next ← loadChild child c.objCount
      hold (some next)
      release (some child)
      hold (some next)
      release (some next)
      release (some next)
      findPredLoop fuel next
    else pure child

/-- Method `BTreeDB::_findSucc`; the caller owns the count of the node pointer returned. -/
def findSuccLoop : Nat → Nat → M Nat
  | 0, _ => fault Fault.fuel
  | fuel + 1, child => do
    let c ← cell child
    if c.isLeaf = false then do
      let next ← loadChild child 0
      hold (some next)
      release (some child)
      hold (some next)
      release (some next)
      release (some next)
      findSuccLoop fuel next
    else pure child

/-- Method `BTreeDB::_findPred`. -/
def _findPred (node : Nat) : M (Nat × Nat) := do
  let s ← state
  -- `TreeNodePtr child = node`
  hold (some node)
  let leaf ← findPredLoop (treeBound s) node
  -- `ret.first = child`, and `child` is destroyed at the return
  hold (some leaf)
  let c ← cell leaf
  release (some leaf)
  pure (leaf, decr c.objCount)

/-- Method `BTreeDB::_findSucc`. -/
def _findSucc (node : Nat) : M (Nat × Nat) := do
  let s ← state
  hold (some node)
  let leaf ← findSuccLoop (treeBound s) node
  hold (some leaf)
  release (some leaf)
  pure (leaf, 0)

/-- Loop of case 3a of `_delete`, left sibling, `for ( ; ctr > 0; ctr--)`. -/
def borrowShift (childNode : Nat) : Nat → M Unit
  | 0 => pure ()
  | ctr + 1 => do
    let o ← object childNode ctr
    setObject childNode (ctr + 1) o
    let c ← cell childNode
    let src ← elem c.children (ctr + 1)
    setChildPtr childNode (ctr + 2) src
    update childNode (fun c => { c with childNo := ctr + 2 })
    borrowShift childNode ctr

/-- Loop of case 3a of `_delete`, right sibling, `for ( ; ctr < rightSib->objCount - 1; ctr++)`,
`n` rounds to go. -/
def borrowShiftRight (rightSib : Nat) : Nat → Nat → M Unit
  | 0, _ => pure ()
  | n + 1, ctr => do
    let o ← object rightSib (ctr + 1)
    setObject rightSib ctr o
    let c ← cell rightSib
    (if c.isLeaf = false then do
      let src ← elem c.children (ctr + 1)
      setChildPtr rightSib ctr src
    else pure ())
    borrowShiftRight rightSib n (ctr + 1)

/-- Method `BTreeDB::_delete`. -/
def _delete : Nat → Nat → Option DbObj → M Bool
  | 0, _, _ => fault Fault.fuel
  | fuel + 1, node, key => do
    let s ← state
    let t := s.minDegree
    let op ← findPos node key s.compFunc
    if op.1 = SIZE_MAX then pure false
    else
      match op.2 with
      | EChildPos.ECP_INTHIS => do
        let c ← cell node
        if c.isLeaf then do
          let _ ← delFromLeaf node op.1
          pure true
        else do
          let p0 ← elem c.children op.1
          let k0 ← deref p0
          let c0 ← cell k0
          if t ≤ c0.objCount then do
            -- case 2a
            let childNode ← loadChild node op.1
            let locn ← _findPred childNode
            let childObj ← object locn.1 locn.2
            let ret ← _delete fuel childNode childObj
            setObject node op.1 childObj
            release (some locn.1)
            release (some childNode)
            pure ret
          else do
            let p1 ← elem c.children (op.1 + 1)
            let k1 ← deref p1
            let c1 ← cell k1
            if t ≤ c1.objCount then do
              -- case 2b
              let childNode ← loadChild node (op.1 + 1)
              let locn ← _findSucc childNode
              let childObj ← object locn.1 locn.2
              let ret ← _delete fuel childNode childObj
              setObject node op.1 childObj
              release (some locn.1)
              release (some childNode)
              pure ret
            else do
              -- case 2c
              let mergedChild ← _merge node op.1
              let ret ← _delete fuel mergedChild key
              release (some mergedChild)
              pure ret
      | EChildPos.ECP_NONE => pure false
      | pos => do
        let keyChildPos := if pos = EChildPos.ECP_INLEFT then op.1 else op.1 + 1
        let childNode ← loadChild node keyChildPos
        let cc ← cell childNode
        if t ≤ cc.objCount then do
          let ret ← _delete fuel childNode key
          release (some childNode)
          pure ret
        else do
          -- `TreeNodePtr leftSib; TreeNodePtr rightSib;`
          let leftSib ← (if 0 < keyChildPos then do
              let l ← loadChild node (keyChildPos - 1)
              hold (some l)
              release (some l)
              pure (some l)
            else pure none)
          let leftCount ← (match leftSib with
            | some l => do
              let lc ← cell l
              pure lc.objCount
            | none => pure 0)
          let n1 ← cell node
          let rightSib ← (if keyChildPos < n1.objCount then do
              let r ← loadChild node (keyChildPos + 1)
              hold (some r)
              release (some r)
              pure (some r)
            else pure none)
          let rightCount ← (match rightSib with
            | some r => do
              let rc ← cell r
              pure rc.objCount
            | none => pure 0)
          if t ≤ leftCount ∨ t ≤ rightCount then do
            -- case 3a
            setCount childNode t
            (if t ≤ leftCount then do
              let l ← deref leftSib
              borrowShift childNode (t - 1)
              let c ← cell childNode
              let src ← elem c.children 0
              setChildPtr childNode 1 src
              let po ← object node (keyChildPos - 1)
              setObject childNode 0 po
              let lc ← cell l
              let lo ← object l (decr lc.objCount)
              setObject node (keyChildPos - 1) lo
              update l (fun c => { c with objects := resizeObjects c.objects (decr c.objCount) })
              (if lc.isLeaf = false then do
                let lc1 ← cell l
                let moved ← elem lc1.children lc1.objCount
                setChildPtr childNode 0 moved
                resizeChildren l lc1.objCount
              else pure ())
              update l (fun c => { c with objCount := decr c.objCount })
            else do
              let r ← deref rightSib
              let c ← cell childNode
              let po ← object node op.1
              setObject childNode (decr c.objCount) po
              let ro ← object r 0
              setObject node op.1 ro
              let rc ← cell r
              (if rc.isLeaf = false then do
                let moved ← elem rc.children 0
                setChildPtr childNode c.objCount moved
              else pure ())
              borrowShiftRight r (decr rc.objCount) 0
              (if rc.isLeaf = false then do
                let rc1 ← cell r
                let src ← elem rc1.children (decr rc.objCount + 1)
                setChildPtr r (decr rc.objCount) src
              else pure ())
              setCount r (decr rc.objCount))
            let ret ← _delete fuel childNode key
            release rightSib
            release leftSib
            release (some childNode)
            pure ret
          else do
            -- case 3b
            let mergedChild ← _merge node op.1
            let ret ← _delete fuel mergedChild key
            release (some mergedChild)
            release rightSib
            release leftSib
            release (some childNode)
            pure ret

/-- Method `BTreeDB::del`. -/
def del (key : DbObj) : M Bool := do
  let s ← state
  let root ← deref s.root
  let r ← cell root
  let ret ← (if r.objCount ≠ 0 then _delete (treeBound s) root (some key) else pure false)
  let r1 ← cell root
  if ret = true ∧ r1.objCount = 0 ∧ r1.isLeaf = false then do
    -- `_root = _root->children[0]`
    let first ← elem r1.children 0
    setRootPtr first
    let newRoot ← deref first
    let nc ← cell newRoot
    setState (fun s => { s with file := s.file.pwrite 0 (LNode.longBytes nc.fpos) })
    flush
  else pure ret

/-- Method `BTreeDB::put`. -/
def put (rec : DbObj) : M Bool := do
  let s ← state
  if rec.length ≠ s.recSize then pure false
  else do
    let root ← deref s.root
    let locn ← _search (treeBound s) root (some rec) none
    (match locn.1 with
      | none => _insert (some rec)
      | some n =>
        if locn.2 = SIZE_MAX then _insert (some rec)
        else do
          setObject n locn.2 (some rec)
          let _ ← write n
          pure ())
    release locn.1
    pure true

/-- State before `open()`: no node, no file, the arguments of the constructor. -/
def start (recSize keySize minDegree : Nat) (cfn : Option compareFn) : State :=
  { heap := [], file := [], root := none, recSize := recSize, keySize := keySize,
    minDegree := minDegree, nodeSize := SIZE_MAX, compFunc := cfn.getD _defaultCompare }

/-- Creating branch of `open()` behind the check of the sizes. -/
def create : M Bool := do
  setState (fun s =>
    { s with
      nodeSize := sizeofSizeT + (s.minDegree * 2 - 1) * s.recSize
        + s.minDegree * 2 * sizeofLong + 1
      file := File.pwrite [] 0 (headerImage sizeofHeader s.recSize s.keySize s.minDegree) })
  -- `_root = _allocateNode()`
  let n ← _allocateNode
  setRootPtr (some n)
  release (some n)
  update n (fun c => { c with isLeaf := true })
  update n (fun c => { c with loaded := true })
  let _ ← write n
  pure true

/-- One operation and the flag it returns. -/
def step : Op → M Bool
  | Op.put rec => put rec
  | Op.del key => del key

/-- A sequence of operations, left to right: the flags returned. -/
def steps : List Op → M (List Bool)
  | [] => pure []
  | op :: ops => do
    let b ← step op
    let bs ← steps ops
    pure (b :: bs)

/-- Session that starts with the creating `open()`, runs the operations and ends with the
action `last`: the flags that the operations return and the value of `last`,
with the state, or the fault at which the run ends. -/
def session {α : Type} (recSize keySize minDegree : Nat) (cfn : Option compareFn)
    (ops : List Op) (last : M α) : Except Fault ((List Bool × α) × State) :=
  (do
    let _ ← create
    let flags ← steps ops
    let a ← last
    pure (flags, a)) (start recSize keySize minDegree cfn)

/-- What a run ends with: its value, or the fault. -/
def outcome {α : Type} (r : Except Fault (α × State)) : Fault ⊕ α :=
  match r with
  | Except.ok (a, _) => Sum.inr a
  | Except.error e => Sum.inl e

/-- Records that `traverse` passes to a callback that returns true, in the order of the
calls. -/
def visited : M (List DbObj) := traverse [] (some (fun o r _ => (r ++ [o], true)))

/-- The root node as it is in memory. -/
def rootNode : M Cell := do
  let s ← state
  let root ← deref s.root
  cell root

/-- The four bytes of `rootPos` in the file and the four bytes of the `fpos` of the root. -/
def rootPosBytes : M (List Nat × List Nat) := do
  let s ← state
  let r ← rootNode
  pure (s.file.take sizeofLong, LNode.longBytes r.fpos)

/-- Child `i` of the root as it is in memory. -/
def childOfRoot (i : Nat) : M Cell := do
  let r ← rootNode
  let p ← elem r.children i
  let ch ← deref p
  cell ch

/-- Call `_split(_root, i, child)` for child `i` of the root, made as `_insertNonFull` makes
it: `child` is the local variable that `loadChild` has filled. -/
def splitUnderRoot (i : Nat) : M Unit := do
  let s ← state
  let root ← deref s.root
  let child ← loadChild root i
  _split root i child
  release (some child)

/-- Call `_merge(_root, i)`, made as `_delete` makes it: the pointer returned goes to the
local variable `mergedChild`, which is destroyed at the end of its block. -/
def mergeUnderRoot (i : Nat) : M Unit := do
  let s ← state
  let root ← deref s.root
  let mergedChild ← _merge root i
  release (some mergedChild)

end Mem

/-- The operations `put` of the four-byte records with the given first bytes, in order. -/
def putAll (ks : List Nat) : List Op := ks.map (fun k => Op.put (rec4 k))

/-- The operations `del` of the four-byte keys with the given first bytes, in order. -/
def delAll (ks : List Nat) : List Op := ks.map (fun k => Op.del (rec4 k))

/-! ## Basic facts about nodes -/

namespace TreeNode

/-! ## Field access after an assignment -/

@[simp] theorem objects_setObjects (n : TreeNode) (os : List DbObj) : (n.setObjects os).objects = os := by
  cases n; rfl
@[simp] theorem children_setObjects (n : TreeNode) (os : List DbObj) : (n.setObjects os).children = n.children := by
  cases n; rfl
@[simp] theorem isLeaf_setObjects (n : TreeNode) (os : List DbObj) : (n.setObjects os).isLeaf = n.isLeaf := by
  cases n; rfl
@[simp] theorem fpos_setObjects (n : TreeNode) (os : List DbObj) : (n.setObjects os).fpos = n.fpos := by
  cases n; rfl
@[simp] theorem childNo_setObjects (n : TreeNode) (os : List DbObj) : (n.setObjects os).childNo = n.childNo := by
  cases n; rfl
@[simp] theorem parent_setObjects (n : TreeNode) (os : List DbObj) : (n.setObjects os).parent = n.parent := by
  cases n; rfl
@[simp] theorem objCount_setObjects (n : TreeNode) (os : List DbObj) : (n.setObjects os).objCount = os.length := by
  cases n; rfl

@[simp] theorem objects_setChildren (n : TreeNode) (cs : List TreeNode) : (n.setChildren cs).objects = n.objects := by
  cases n; rfl
@[simp] theorem children_setChildren (n : TreeNode) (cs : List TreeNode) : (n.setChildren cs).children = cs := by
  cases n; rfl
@[simp] theorem isLeaf_setChildren (n : TreeNode) (cs : List TreeNode) : (n.setChildren cs).isLeaf = n.isLeaf := by
  cases n; rfl
@[simp] theorem fpos_setChildren (n : TreeNode) (cs : List TreeNode) : (n.setChildren cs).fpos = n.fpos := by
  cases n; rfl
@[simp] theorem childNo_setChildren (n : TreeNode) (cs : List TreeNode) : (n.setChildren cs).childNo = n.childNo := by
  cases n; rfl
@[simp] theorem parent_setChildren (n : TreeNode) (cs : List TreeNode) : (n.setChildren cs).parent = n.parent := by
  cases n; rfl
@[simp] theorem objCount_setChildren (n : TreeNode) (cs : List TreeNode) : (n.setChildren cs).objCount = n.objCount := by
  cases n; rfl

@[simp] theorem objects_setChildNo (n : TreeNode) (k : Nat) : (n.setChildNo k).objects = n.objects := by
  cases n; rfl
@[simp] theorem children_setChildNo (n : TreeNode) (k : Nat) : (n.setChildNo k).children = n.children := by
  cases n; rfl
@[simp] theorem isLeaf_setChildNo (n : TreeNode) (k : Nat) : (n.setChildNo k).isLeaf = n.isLeaf := by
  cases n; rfl
@[simp] theorem fpos_setChildNo (n : TreeNode) (k : Nat) : (n.setChildNo k).fpos = n.fpos := by
  cases n; rfl
@[simp] theorem childNo_setChildNo (n : TreeNode) (k : Nat) : (n.setChildNo k).childNo = k := by
  cases n; rfl
@[simp] theorem parent_setChildNo (n : TreeNode) (k : Nat) : (n.setChildNo k).parent = n.parent := by
  cases n; rfl
@[simp] theorem objCount_setChildNo (n : TreeNode) (k : Nat) : (n.setChildNo k).objCount = n.objCount := by
  cases n; rfl

@[simp] theorem objects_setParent (n : TreeNode) (q : Option Nat) : (n.setParent q).objects = n.objects := by
  cases n; rfl
@[simp] theorem children_setParent (n : TreeNode) (q : Option Nat) : (n.setParent q).children = n.children := by
  cases n; rfl
@[simp] theorem isLeaf_setParent (n : TreeNode) (q : Option Nat) : (n.setParent q).isLeaf = n.isLeaf := by
  cases n; rfl
@[simp] theorem fpos_setParent (n : TreeNode) (q : Option Nat) : (n.setParent q).fpos = n.fpos := by
  cases n; rfl
@[simp] theorem childNo_setParent (n : TreeNode) (q : Option Nat) : (n.setParent q).childNo = n.childNo := by
  cases n; rfl
@[simp] theorem parent_setParent (n : TreeNode) (q : Option Nat) : (n.setParent q).parent = q := by
  cases n; rfl
@[simp] theorem objCount_setParent (n : TreeNode) (q : Option Nat) : (n.setParent q).objCount = n.objCount := by
  cases n; rfl

@[simp] theorem objects_setIsLeaf (n : TreeNode) (b : Bool) : (n.setIsLeaf b).objects = n.objects := by
  cases n; rfl
@[simp] theorem children_setIsLeaf (n : TreeNode) (b : Bool) : (n.setIsLeaf b).children = n.children := by
  cases n; rfl
@[simp] theorem isLeaf_setIsLeaf (n : TreeNode) (b : Bool) : (n.setIsLeaf b).isLeaf = b := by
  cases n; rfl
@[simp] theorem fpos_setIsLeaf (n : TreeNode) (b : Bool) : (n.setIsLeaf b).fpos = n.fpos := by
  cases n; rfl
@[simp] theorem childNo_setIsLeaf (n : TreeNode) (b : Bool) : (n.setIsLeaf b).childNo = n.childNo := by
  cases n; rfl
@[simp] theorem parent_setIsLeaf (n : TreeNode) (b : Bool) : (n.setIsLeaf b).parent = n.parent := by
  cases n; rfl
@[simp] theorem objCount_setIsLeaf (n : TreeNode) (b : Bool) : (n.setIsLeaf b).objCount = n.objCount := by
  cases n; rfl

@[simp] theorem objects_mk (c l f os cs p) : (mk c l f os cs p).objects = os := rfl
@[simp] theorem children_mk (c l f os cs p) : (mk c l f os cs p).children = cs := rfl
@[simp] theorem isLeaf_mk (c l f os cs p) : (mk c l f os cs p).isLeaf = l := rfl
@[simp] theorem fpos_mk (c l f os cs p) : (mk c l f os cs p).fpos = f := rfl
@[simp] theorem childNo_mk (c l f os cs p) : (mk c l f os cs p).childNo = c := rfl
@[simp] theorem parent_mk (c l f os cs p) : (mk c l f os cs p).parent = p := rfl
@[simp] theorem objCount_mk (c l f os cs p) : (mk c l f os cs p).objCount = os.length := rfl

/-- A node is rebuilt from its fields. -/
theorem eta (n : TreeNode) : mk n.childNo n.isLeaf n.fpos n.objects n.children n.parent = n := by
  cases n; rfl

/-- Induction over the subtrees of a node. -/
theorem induct {P : TreeNode → Prop}
    (step : ∀ c l f os cs p, (∀ x ∈ cs, P x) → P (mk c l f os cs p)) : ∀ n, P n := by
  intro n
  refine TreeNode.rec (motive_1 := P) (motive_2 := fun cs => ∀ x ∈ cs, P x) ?_ ?_ ?_ n
  · intro c l f os cs p ih
    exact step c l f os cs p ih
  · intro x hx
    cases hx
  · intro hd tl h1 h2 x hx
    rcases List.mem_cons.1 hx with rfl | hx
    · exact h1
    · exact h2 x hx

/-! ## The shape predicate -/

theorem shapedKids_iff (t : Nat) (cs : List TreeNode) (h : Nat) :
    ShapedKids t cs h ↔ ∀ c ∈ cs, t - 1 ≤ c.objCount ∧ Shaped t c h := by
  induction cs with
  | nil => simp [ShapedKids]
  | cons c cs ih => simp [ShapedKids, ih]; tauto

theorem shaped_iff (t : Nat) (n : TreeNode) (h : Nat) :
    Shaped t n h ↔ n.objCount ≤ 2 * t - 1 ∧
      (if n.isLeaf then n.children = [] ∧ h = 0
       else n.children.length = n.objCount + 1 ∧ 0 < h ∧
         ∀ c ∈ n.children, t - 1 ≤ c.objCount ∧ Shaped t c (h - 1)) := by
  cases n with
  | mk c l f os cs p => simp [Shaped, shapedKids_iff]

end TreeNode

/-- The root of a subtree is one of its nodes. -/
theorem TreeNode.mem_nodes_self (n : TreeNode) : n ∈ n.nodes := by
  cases n
  simp [TreeNode.nodes]

open TreeNode

theorem decr_ne_max {n : Nat} (h : decr n ≠ SIZE_MAX) : 0 < n ∧ decr n = n - 1 := by
  unfold decr at *
  by_cases h0 : n = 0
  · simp [h0] at h
  · simp [h0]
    omega

/-! ## The cases of `_delete` -/

section DeleteCases
variable (cfn : compareFn) (t fuel : Nat) (node : TreeNode) (key : DbObj) (i : Nat)

theorem delete_sentinel (h : (node.findPos key cfn).1 = SIZE_MAX) :
    _delete cfn t (fuel + 1) node key = (node, false) := by
  simp [_delete, h]

theorem delete_none (h : (node.findPos key cfn).2 = EChildPos.ECP_NONE) :
    _delete cfn t (fuel + 1) node key = (node, false) := by
  simp only [_delete, h]
  split <;> rfl

theorem delete_case1 (hop : node.findPos key cfn = (i, EChildPos.ECP_INTHIS))
    (hi : i ≠ SIZE_MAX) (hl : node.isLeaf = true) :
    _delete cfn t (fuel + 1) node key = ((node.delFromLeaf i).1, true) := by
  simp only [_delete, hop, hi, hl, ↓reduceIte]

theorem delete_case2a (hop : node.findPos key cfn = (i, EChildPos.ECP_INTHIS))
    (hi : i ≠ SIZE_MAX) (hl : node.isLeaf = false)
    (ha : t ≤ (node.children.getD i default).objCount) :
    _delete cfn t (fuel + 1) node key =
      ((node.setChildren (node.children.set i
          (_delete cfn t fuel (node.children.getD i default)
            ((_findPred fuel (node.children.getD i default)).1.objects.getD
              (_findPred fuel (node.children.getD i default)).2 [])).1)).setObjects
        (node.objects.set i ((_findPred fuel (node.children.getD i default)).1.objects.getD
              (_findPred fuel (node.children.getD i default)).2 [])),
       (_delete cfn t fuel (node.children.getD i default)
            ((_findPred fuel (node.children.getD i default)).1.objects.getD
              (_findPred fuel (node.children.getD i default)).2 [])).2) := by
  simp only [_delete, hop, hi, hl, ha, ↓reduceIte, Bool.false_eq_true]

theorem delete_case2b (hop : node.findPos key cfn = (i, EChildPos.ECP_INTHIS))
    (hi : i ≠ SIZE_MAX) (hl : node.isLeaf = false)
    (ha : ¬ t ≤ (node.children.getD i default).objCount)
    (hb : t ≤ (node.children.getD (i + 1) default).objCount) :
    _delete cfn t (fuel + 1) node key =
      ((node.setChildren (node.children.set (i + 1)
          (_delete cfn t fuel (node.children.getD (i + 1) default)
            ((_findSucc fuel (node.children.getD (i + 1) default)).1.objects.getD
              (_findSucc fuel (node.children.getD (i + 1) default)).2 [])).1)).setObjects
        (node.objects.set i ((_findSucc fuel (node.children.getD (i + 1) default)).1.objects.getD
              (_findSucc fuel (node.children.getD (i + 1) default)).2 [])),
       (_delete cfn t fuel (node.children.getD (i + 1) default)
            ((_findSucc fuel (node.children.getD (i + 1) default)).1.objects.getD
              (_findSucc fuel (node.children.getD (i + 1) default)).2 [])).2) := by
  simp only [_delete, hop, hi, hl, ha, hb, ↓reduceIte, Bool.false_eq_true]

theorem delete_case2c (hop : node.findPos key cfn = (i, EChildPos.ECP_INTHIS))
    (hi : i ≠ SIZE_MAX) (hl : node.isLeaf = false)
    (ha : ¬ t ≤ (node.children.getD i default).objCount)
    (hb : ¬ t ≤ (node.children.getD (i + 1) default).objCount) :
    _delete cfn t (fuel + 1) node key =
      ((_merge t node i).1.setChildren ((_merge t node i).1.children.set i
          (_delete cfn t fuel (_merge t node i).2 key).1),
       (_delete cfn t fuel (_merge t node i).2 key).2) := by
  simp only [_delete, hop, hi, hl, ha, hb, ↓reduceIte, Bool.false_eq_true]

/-- Case 3, the child holds at least `t` records. -/
theorem delete_case3 (pos : EChildPos) (hop : node.findPos key cfn = (i, pos))
    (hi : i ≠ SIZE_MAX) (hpos : pos = EChildPos.ECP_INLEFT ∨ pos = EChildPos.ECP_INRIGHT)
    (k : Nat) (hk : k = if pos = EChildPos.ECP_INLEFT then i else i + 1)
    (hc : t ≤ (node.children.getD k default).objCount) :
    _delete cfn t (fuel + 1) node key =
      (node.setChildren (node.children.set k
          (_delete cfn t fuel (node.children.getD k default) key).1),
       (_delete cfn t fuel (node.children.getD k default) key).2) := by
  subst hk
  rcases hpos with rfl | rfl
  · simp only [↓reduceIte] at hc
    simp only [_delete, hop, hi, hc, ↓reduceIte]
  · simp only [reduceCtorEq, ↓reduceIte] at hc
    simp only [_delete, hop, hi, hc, ↓reduceIte, reduceCtorEq]

/-- Case 3a, a record comes from the left sibling. -/
theorem delete_case3a_left (pos : EChildPos) (hop : node.findPos key cfn = (i, pos))
    (hi : i ≠ SIZE_MAX) (hpos : pos = EChildPos.ECP_INLEFT ∨ pos = EChildPos.ECP_INRIGHT)
    (k : Nat) (hk : k = if pos = EChildPos.ECP_INLEFT then i else i + 1)
    (hc : ¬ t ≤ (node.children.getD k default).objCount)
    (hk0 : 0 < k) (hleft : t ≤ (node.children.getD (k - 1) default).objCount) :
    _delete cfn t (fuel + 1) node key =
      ((borrowLeft t node k).setChildren ((borrowLeft t node k).children.set k
          (_delete cfn t fuel ((borrowLeft t node k).children.getD k default) key).1),
       (_delete cfn t fuel ((borrowLeft t node k).children.getD k default) key).2) := by
  subst hk
  rcases hpos with rfl | rfl
  · simp only [↓reduceIte] at hc hk0 hleft
    simp only [_delete, hop, hi, hc, hk0, hleft, ↓reduceIte, true_or]
  · simp only [reduceCtorEq, ↓reduceIte] at hc hk0 hleft
    simp only [Nat.add_sub_cancel] at hleft
    simp only [_delete, hop, hi, hc, hleft, ↓reduceIte, reduceCtorEq, true_or,
      Nat.add_sub_cancel, Nat.zero_lt_succ]

/-- Case 3a, a record comes from the right sibling. -/
theorem delete_case3a_right (pos : EChildPos) (hop : node.findPos key cfn = (i, pos))
    (hi : i ≠ SIZE_MAX) (hpos : pos = EChildPos.ECP_INLEFT ∨ pos = EChildPos.ECP_INRIGHT)
    (k : Nat) (hk : k = if pos = EChildPos.ECP_INLEFT then i else i + 1)
    (hc : ¬ t ≤ (node.children.getD k default).objCount)
    (hleft : ¬ (0 < k ∧ t ≤ (node.children.getD (k - 1) default).objCount))
    (hkr : k < node.objCount) (hright : t ≤ (node.children.getD (k + 1) default).objCount) :
    _delete cfn t (fuel + 1) node key =
      ((borrowRight t node k i).setChildren ((borrowRight t node k i).children.set k
          (_delete cfn t fuel ((borrowRight t node k i).children.getD k default) key).1),
       (_delete cfn t fuel ((borrowRight t node k i).children.getD k default) key).2) := by
  have hl2 : ¬ t ≤ (if 0 < k then (node.children.getD (k - 1) default).objCount else 0) := by
    intro h
    by_cases h0 : 0 < k
    · rw [if_pos h0] at h
      exact hleft ⟨h0, h⟩
    · rw [if_neg h0] at h
      exact hc (le_trans h (Nat.zero_le _))
  subst hk
  rcases hpos with rfl | rfl
  · simp only [↓reduceIte] at hc hl2 hkr hright
    simp only [_delete, hop, hi, hc, hl2, hkr, hright, ↓reduceIte, or_true, false_or]
  · simp only [reduceCtorEq, ↓reduceIte] at hc hl2 hkr hright
    simp only [_delete, hop, hi, hc, hl2, hkr, hright, ↓reduceIte, reduceCtorEq, or_true,
      false_or]

/-- Case 3b, the child is merged with a sibling. -/
theorem delete_case3b (pos : EChildPos) (hop : node.findPos key cfn = (i, pos))
    (hi : i ≠ SIZE_MAX) (hpos : pos = EChildPos.ECP_INLEFT ∨ pos = EChildPos.ECP_INRIGHT)
    (k : Nat) (hk : k = if pos = EChildPos.ECP_INLEFT then i else i + 1)
    (hc : ¬ t ≤ (node.children.getD k default).objCount)
    (hleft : ¬ (0 < k ∧ t ≤ (node.children.getD (k - 1) default).objCount))
    (hright : ¬ (k < node.objCount ∧ t ≤ (node.children.getD (k + 1) default).objCount)) :
    _delete cfn t (fuel + 1) node key =
      ((_merge t node i).1.setChildren ((_merge t node i).1.children.set i
          (_delete cfn t fuel (_merge t node i).2 key).1),
       (_delete cfn t fuel (_merge t node i).2 key).2) := by
  have hl2 : ¬ t ≤ (if 0 < k then (node.children.getD (k - 1) default).objCount else 0) := by
    intro h
    by_cases h0 : 0 < k
    · rw [if_pos h0] at h
      exact hleft ⟨h0, h⟩
    · rw [if_neg h0] at h
      exact hc (le_trans h (Nat.zero_le _))
  have hr2 : ¬ t ≤ (if k < node.objCount then (node.children.getD (k + 1) default).objCount
      else 0) := by
    intro h
    by_cases h0 : k < node.objCount
    · rw [if_pos h0] at h
      exact hright ⟨h0, h⟩
    · rw [if_neg h0] at h
      exact hc (le_trans h (Nat.zero_le _))
  subst hk
  rcases hpos with rfl | rfl
  · simp only [↓reduceIte] at hc hl2 hr2
    simp only [_delete, hop, hi, hc, hl2, hr2, ↓reduceIte, or_self]
  · simp only [reduceCtorEq, ↓reduceIte] at hc hl2 hr2
    simp only [_delete, hop, hi, hc, hl2, hr2, ↓reduceIte, reduceCtorEq, or_self]

end DeleteCases

namespace TreeNode

theorem shaped_congr {t h : Nat} {n m : TreeNode} (h1 : m.isLeaf = n.isLeaf)
    (h2 : m.objects = n.objects) (h3 : m.children = n.children) :
    Shaped t m h ↔ Shaped t n h := by
  rw [shaped_iff, shaped_iff]
  simp [objCount, h1, h2, h3]

@[simp] theorem shaped_setChildNo (t h : Nat) (n : TreeNode) (k : Nat) :
    Shaped t (n.setChildNo k) h ↔ Shaped t n h :=
  shaped_congr (by simp) (by simp) (by simp)

@[simp] theorem shaped_setParent (t h : Nat) (n : TreeNode) (q : Option Nat) :
    Shaped t (n.setParent q) h ↔ Shaped t n h :=
  shaped_congr (by simp) (by simp) (by simp)

theorem getD_mem {cs : List TreeNode} {i : Nat} (hi : i < cs.length) :
    cs.getD i default ∈ cs := by
  rw [List.getD_eq_getElem _ _ hi]
  exact List.getElem_mem hi

@[simp] theorem length_renumber (k : Nat) (cs : List TreeNode) :
    (renumber k cs).length = cs.length := by
  induction cs generalizing k with
  | nil => rfl
  | cons c cs ih => simp [renumber, ih]

theorem mem_renumber {k : Nat} {cs : List TreeNode} {x : TreeNode} (hx : x ∈ renumber k cs) :
    ∃ c ∈ cs, ∃ j, x = c.setChildNo j := by
  induction cs generalizing k with
  | nil => simp [renumber] at hx
  | cons c cs ih =>
    simp only [renumber, List.mem_cons] at hx
    rcases hx with rfl | hx
    · exact ⟨c, by simp, k, rfl⟩
    · obtain ⟨c1, hc1, j, rfl⟩ := ih hx
      exact ⟨c1, by simp [hc1], j, rfl⟩

/-- Height of a shaped subtree. -/
theorem Shaped.height_eq {t : Nat} : ∀ {h : Nat} {n : TreeNode}, Shaped t n h → n.height = h + 1 := by
  intro h
  induction h with
  | zero =>
    intro n hn
    cases n with
    | mk c l f os cs p =>
      rw [shaped_iff] at hn
      by_cases hl : l = true
      · simp [hl] at hn
        simp [height, hn.2, heightList]
      · simp [hl] at hn
  | succ h ih =>
    intro n hn
    cases n with
    | mk c l f os cs p =>
      rw [shaped_iff] at hn
      by_cases hl : l = true
      · simp [hl] at hn
      · simp [hl] at hn
        obtain ⟨_, hlen, hk⟩ := hn
        have key : ∀ (ds : List TreeNode), ds ≠ [] → (∀ d ∈ ds, d.height = h + 1) →
            heightList ds = h + 1 := by
          intro ds
          induction ds with
          | nil => intro hne; exact absurd rfl hne
          | cons d ds ihd =>
            intro _ hall
            by_cases hds : ds = []
            · subst hds
              simp [heightList, hall d (by simp)]
            · have := ihd hds (fun x hx => hall x (by simp [hx]))
              simp [heightList, this, hall d (by simp)]
        have hne : cs ≠ [] := by
          intro h0
          simp [h0] at hlen
        simp [height, key cs hne (fun d hd => ih (hk d hd).2)]

end TreeNode

open TreeNode

theorem TreeNode.storeObjectList_eq_map (cs : List TreeNode) (a slot : Nat) (r : DbObj) :
    storeObjectList cs a slot r = cs.map (fun c => c.storeObject a slot r) := by
  induction cs with
  | nil => simp [storeObjectList]
  | cons c cs ih => simp [storeObjectList, ih]

/-- A store through a pointer keeps the shape and the leaf flag and record count of the root. -/
theorem TreeNode.storeObject_shaped (t a slot : Nat) (r : DbObj) :
    ∀ (n : TreeNode) (h : Nat), Shaped t n h →
      Shaped t (n.storeObject a slot r) h ∧ (n.storeObject a slot r).objCount = n.objCount := by
  intro n
  induction n using TreeNode.induct with
  | step c l f os cs p ih =>
    intro h hn
    rw [shaped_iff] at hn
    simp only [storeObject]
    by_cases hf : f = a
    · simp only [hf, if_true]
      refine ⟨?_, by simp⟩
      rw [shaped_iff]
      simpa using hn
    · simp only [hf, if_false]
      refine ⟨?_, by simp⟩
      rw [shaped_iff]
      simp only [objCount_mk, isLeaf_mk, children_mk] at hn ⊢
      refine ⟨hn.1, ?_⟩
      by_cases hl : l = true
      · simp only [hl, if_true] at hn ⊢
        simp [hn.1, hn.2, storeObjectList]
      · simp only [hl] at hn ⊢
        simp only [Bool.false_eq_true, if_false] at hn ⊢
        obtain ⟨_, hlen, hh, hk⟩ := hn
        refine ⟨by simp [storeObjectList_eq_map, hlen], hh, ?_⟩
        intro x hx
        rw [storeObjectList_eq_map] at hx
        obtain ⟨y, hy, rfl⟩ := List.mem_map.1 hx
        have := ih y hy (h - 1) (hk y hy).2
        exact ⟨by rw [this.2]; exact (hk y hy).1, this.1⟩

@[simp] theorem split_objects (t ns fl : Nat) (p : TreeNode) (i : Nat) (c : TreeNode) :
    (_split t ns fl p i c).1.objects =
      p.objects.take i ++ c.objects.getD (t - 1) [] :: p.objects.drop i := by
  simp [_split]

@[simp] theorem split_isLeaf (t ns fl : Nat) (p : TreeNode) (i : Nat) (c : TreeNode) :
    (_split t ns fl p i c).1.isLeaf = p.isLeaf := by
  simp [_split]

@[simp] theorem split_fileLen (t ns fl : Nat) (p : TreeNode) (i : Nat) (c : TreeNode) :
    (_split t ns fl p i c).2 = fl + ns := by
  simp [_split, _allocateNode]

theorem split_children (t ns fl : Nat) (p : TreeNode) (i : Nat) (c : TreeNode) :
    (_split t ns fl p i c).1.children =
      p.children.take i ++
        (c.setObjects (c.objects.take (t - 1))).setChildren (c.children.take t) ::
        TreeNode.mk (i + 1) c.isLeaf fl ((c.objects.drop t).take (t - 1))
          (if c.isLeaf then [] else
            (renumber 0 ((c.children.drop t).take t)).map (fun m => m.setParent (some fl)))
          (some p.fpos) ::
        renumber (i + 2) (p.children.drop (i + 1)) := by
  simp [_split, _allocateNode]

/-- Shape after `_split` of a full child of a node that is not full. -/
theorem split_shaped {t ns fl : Nat} {p : TreeNode} {i h : Nat} (ht : 1 ≤ t)
    (hp : Shaped t p h) (hleaf : p.isLeaf = false) (hfull : p.objCount < 2 * t - 1)
    (hi : i < p.children.length) (hc : (p.children.getD i default).objCount = 2 * t - 1) :
    Shaped t (_split t ns fl p i (p.children.getD i default)).1 h ∧
    (_split t ns fl p i (p.children.getD i default)).1.objCount = p.objCount + 1 ∧
    ((_split t ns fl p i (p.children.getD i default)).1.children.getD i default).objCount = t - 1 ∧
    ((_split t ns fl p i (p.children.getD i default)).1.children.getD (i + 1) default).objCount
      = t - 1 := by
  rw [shaped_iff] at hp
  simp only [hleaf, Bool.false_eq_true, if_false] at hp
  obtain ⟨_, hlen, hh, hkids⟩ := hp
  have hcm := getD_mem hi
  obtain ⟨hc1, hcs⟩ := hkids _ hcm
  generalize p.children.getD i default = c at hc hcm hc1 hcs
  have hcnt : c.objects.length = 2 * t - 1 := hc
  rw [shaped_iff] at hcs
  have hpo : i ≤ p.objects.length := by
    have : p.objCount = p.objects.length := rfl
    omega
  have hlow : Shaped t ((c.setObjects (c.objects.take (t - 1))).setChildren (c.children.take t))
      (h - 1) := by
    rw [shaped_iff]
    refine ⟨by simp; omega, ?_⟩
    by_cases hl : c.isLeaf = true
    · simp only [hl, if_true] at hcs
      simp [hl, hcs.2.1, hcs.2.2]
    · simp only [hl] at hcs
      simp only [Bool.false_eq_true, if_false] at hcs
      simp only [isLeaf_setChildren, isLeaf_setObjects, hl, Bool.false_eq_true, if_false,
        children_setChildren, objCount_setChildren, objCount_setObjects]
      refine ⟨?_, hcs.2.2.1, ?_⟩
      · have : c.objCount = c.objects.length := rfl
        simp
        omega
      · intro x hx
        exact hcs.2.2.2 x (List.mem_of_mem_take hx)
  have hhigh : Shaped t (TreeNode.mk (i + 1) c.isLeaf fl ((c.objects.drop t).take (t - 1))
          (if c.isLeaf then [] else
            (renumber 0 ((c.children.drop t).take t)).map (fun m => m.setParent (some fl)))
          (some p.fpos)) (h - 1) := by
    rw [shaped_iff]
    refine ⟨by simp; omega, ?_⟩
    by_cases hl : c.isLeaf = true
    · simp only [hl, if_true] at hcs
      simp [hl, hcs.2.2]
    · simp only [hl] at hcs
      simp only [Bool.false_eq_true, if_false] at hcs
      simp only [isLeaf_mk, hl, Bool.false_eq_true, if_false, children_mk, objCount_mk]
      refine ⟨?_, hcs.2.2.1, ?_⟩
      · have : c.objCount = c.objects.length := rfl
        simp
        omega
      · intro x hx
        obtain ⟨y, hy, rfl⟩ := List.mem_map.1 hx
        obtain ⟨z, hz, j, rfl⟩ := mem_renumber hy
        have := hcs.2.2.2 z (List.mem_of_mem_drop (List.mem_of_mem_take hz))
        simpa using this
  refine ⟨?_, ?_, ?_, ?_⟩
  · rw [shaped_iff]
    simp only [split_isLeaf, hleaf, Bool.false_eq_true, if_false, split_children, objCount,
      split_objects]
    refine ⟨?_, ?_, hh, ?_⟩
    · have : p.objCount = p.objects.length := rfl
      simp
      omega
    · have : p.objCount = p.objects.length := rfl
      simp
      omega
    · intro x hx
      simp only [List.mem_append, List.mem_cons] at hx
      rcases hx with hx | rfl | rfl | hx
      · exact hkids x (List.mem_of_mem_take hx)
      · exact ⟨by simp [objCount]; omega, hlow⟩
      · exact ⟨by simp [objCount]; omega, hhigh⟩
      · obtain ⟨z, hz, j, rfl⟩ := mem_renumber hx
        have := hkids z (List.mem_of_mem_drop hz)
        simpa using this
  · have : p.objCount = p.objects.length := rfl
    simp [objCount]
    omega
  · rw [split_children]
    have hl : (List.take i p.children).length = i := by simp; omega
    rw [List.getD_append_right _ _ _ _ (by omega)]
    simp [hl, objCount]
    omega
  · rw [split_children]
    have hl : (List.take i p.children).length = i := by simp; omega
    rw [List.getD_append_right _ _ _ _ (by omega)]
    simp [hl, objCount]
    omega

open TreeNode

theorem scanPos_le (cfn : compareFn) (key : DbObj) (os : List DbObj) (n : Nat) :
    scanPos cfn key os n ≤ n := by
  induction n with
  | zero => simp [scanPos]
  | succ n ih =>
    simp only [scanPos]
    split
    · omega
    · omega

/-- Replacing a child by a shaped node with enough records keeps the shape. -/
theorem setChild_shaped {t h : Nat} {n : TreeNode} (i : Nat) {c : TreeNode}
    (hn : Shaped t n h) (hl : n.isLeaf = false) (hc : Shaped t c (h - 1))
    (hcnt : t - 1 ≤ c.objCount) : Shaped t (n.setChildren (n.children.set i c)) h := by
  rw [shaped_iff] at hn ⊢
  simp only [hl, Bool.false_eq_true, if_false] at hn
  simp only [isLeaf_setChildren, hl, Bool.false_eq_true, if_false, children_setChildren,
    objCount_setChildren, List.length_set]
  refine ⟨hn.1, hn.2.1, hn.2.2.1, ?_⟩
  intro x hx
  rcases List.mem_or_eq_of_mem_set hx with hx | rfl
  · exact hn.2.2.2 x hx
  · exact ⟨hcnt, hc⟩

/-- Shape after `_insertNonFull` on a node that is not full. -/
theorem insertNonFull_shaped (cfn : compareFn) {t : Nat} (ns : Nat) (key : DbObj) (ht : 1 ≤ t) :
    ∀ (fuel fl : Nat) (node : TreeNode) (h : Nat), Shaped t node h →
      node.objCount < 2 * t - 1 → h < fuel →
      Shaped t (_insertNonFull cfn t ns fuel fl node key).1 h ∧
      node.objCount ≤ (_insertNonFull cfn t ns fuel fl node key).1.objCount := by
  intro fuel
  induction fuel with
  | zero => intro fl node h _ _ hf; omega
  | succ fuel ih =>
    intro fl node h hn hnf hf
    have hn0 := hn
    rw [shaped_iff] at hn
    have hsp := scanPos_le cfn key node.objects node.objCount
    simp only [_insertNonFull]
    by_cases hl : node.isLeaf = true
    · simp only [hl, if_true] at hn ⊢
      have hlen : (List.take (scanPos cfn key node.objects node.objCount) node.objects ++
          key :: List.drop (scanPos cfn key node.objects node.objCount) node.objects).length
          = node.objCount + 1 := by
        have : node.objCount = node.objects.length := rfl
        simp
        omega
      refine ⟨?_, by simp [hlen]⟩
      rw [shaped_iff]
      simp only [objCount_setObjects, hlen, isLeaf_setObjects, hl, if_true, children_setObjects]
      exact ⟨by omega, hn.2⟩
    · simp only [hl] at hn ⊢
      simp only [Bool.false_eq_true, if_false] at hn ⊢
      have hl0 : node.isLeaf = false := by simpa using hl
      obtain ⟨_, hlen, hh, hkids⟩ := hn
      have hi : scanPos cfn key node.objects node.objCount < node.children.length := by omega
      by_cases hfull : (node.children.getD (scanPos cfn key node.objects node.objCount)
          default).objCount = t * 2 - 1
      · simp only [hfull, if_true]
        obtain ⟨hs1, hs2, hs3, hs4⟩ := @split_shaped _ ns fl _ _ _ ht hn0 hl0 hnf hi
          (by omega)
        generalize hS : _split t ns fl node (scanPos cfn key node.objects node.objCount)
          (node.children.getD (scanPos cfn key node.objects node.objCount) default) = S at *
        have hsl : S.1.isLeaf = false := by rw [← hS]; simpa using hl0
        have hs1' := hs1
        rw [shaped_iff] at hs1'
        simp only [hsl, Bool.false_eq_true, if_false] at hs1'
        generalize hc1 : (if cfn key (S.1.objects.getD (scanPos cfn key node.objects
          node.objCount) []) > 0 then scanPos cfn key node.objects node.objCount + 1
          else scanPos cfn key node.objects node.objCount) = ctr1
        have hctr1 : ctr1 = scanPos cfn key node.objects node.objCount ∨
            ctr1 = scanPos cfn key node.objects node.objCount + 1 := by
          rw [← hc1]; split <;> simp
        have hcnt : (S.1.children.getD ctr1 default).objCount = t - 1 := by
          rcases hctr1 with h1 | h1 <;> rw [h1] <;> assumption
        have hlt : ctr1 < S.1.children.length := by
          rcases hctr1 with h1 | h1 <;> omega
        have hcs := hs1'.2.2.2 _ (getD_mem hlt)
        have := ih S.2 (S.1.children.getD ctr1 default) (h - 1) hcs.2 (by omega) (by omega)
        refine ⟨setChild_shaped _ hs1 hsl this.1 (by omega), ?_⟩
        simp only [objCount_setChildren]
        omega
      · simp only [hfull, if_false]
        have hcs := hkids _ (getD_mem hi)
        have hcs2 := hcs.2
        rw [shaped_iff] at hcs2
        have := ih fl (node.children.getD (scanPos cfn key node.objects node.objCount) default)
          (h - 1) hcs.2 (by omega) (by omega)
        refine ⟨setChild_shaped _ hn0 hl0 this.1 (by omega), by simp⟩

/-- Shape after `_insert`. -/
theorem insert_shaped (cfn : compareFn) {t : Nat} (ns fl : Nat) (key : DbObj) (ht2 : 2 ≤ t)
    {root : TreeNode} {h : Nat} (hr : Shaped t root h) :
    ∃ h1, Shaped t (_insert cfn t ns fl root key).1 h1 := by
  have ht : 1 ≤ t := by omega
  have hh := hr.height_eq
  simp only [_insert]
  by_cases hfull : root.objCount = t * 2 - 1
  · simp only [hfull, if_true]
    have hnew : Shaped t (((_allocateNode ns fl).1.setIsLeaf false).setChildren
        [(root.setChildNo 0).setParent (some (_allocateNode ns fl).1.fpos)]) (h + 1) := by
      rw [shaped_iff]
      simp [_allocateNode, hr]
      omega
    have := @split_shaped _ ns ((_allocateNode ns fl).2) _ 0 _ ht hnew (by simp)
      (by simp [_allocateNode]; omega) (by simp) (by simp; omega)
    simp only [children_setChildren, List.getD_cons_zero] at this
    refine ⟨h + 1, (insertNonFull_shaped cfn ns key ht _ _ _ _ this.1 ?_ (by omega)).1⟩
    rw [this.2.1]
    simp [_allocateNode, objCount]
    omega
  · simp only [hfull, if_false]
    have hr' := hr
    rw [shaped_iff] at hr'
    exact ⟨h, (insertNonFull_shaped cfn ns key ht _ _ _ _ hr (by omega) (by omega)).1⟩

/-- Method `put` keeps the shape invariant. -/
theorem put_shapeInv (db : BTreeDB) (rec : DbObj) (ht : 2 ≤ db._minDegree)
    (h : db._root.ShapeInv db._minDegree) :
    (db.put rec).1._root.ShapeInv db._minDegree ∧ (db.put rec).1._minDegree = db._minDegree := by
  obtain ⟨h0, hs⟩ := h
  simp only [BTreeDB.put]
  split
  · exact ⟨⟨h0, hs⟩, rfl⟩
  · split
    · exact ⟨insert_shaped _ _ _ _ ht hs, rfl⟩
    · split
      · exact ⟨insert_shaped _ _ _ _ ht hs, rfl⟩
      · exact ⟨⟨h0, (storeObject_shaped _ _ _ _ _ _ hs).1⟩, rfl⟩

open TreeNode

/-- Index facts about the result of the scan of `findPos`. -/
theorem findPosLoop_index (key : DbObj) (cfn : compareFn) (leaf : Bool) :
    ∀ (os : List DbObj) (ctr : Nat),
      ((findPosLoop key cfn leaf os ctr).2 = EChildPos.ECP_INTHIS →
        ctr ≤ (findPosLoop key cfn leaf os ctr).1 ∧
        (findPosLoop key cfn leaf os ctr).1 < ctr + os.length) ∧
      ((findPosLoop key cfn leaf os ctr).2 = EChildPos.ECP_INLEFT →
        leaf = false ∧ ctr ≤ (findPosLoop key cfn leaf os ctr).1 ∧
        (findPosLoop key cfn leaf os ctr).1 < ctr + os.length) ∧
      ((findPosLoop key cfn leaf os ctr).2 = EChildPos.ECP_INRIGHT →
        leaf = false ∧ (findPosLoop key cfn leaf os ctr).1 = decr (ctr + os.length)) := by
  intro os
  induction os with
  | nil =>
    intro ctr
    cases leaf <;> simp [findPosLoop]
  | cons o os ih =>
    intro ctr
    simp only [findPosLoop]
    by_cases h0 : cfn key o = 0
    · simp [h0]
    · simp only [h0, if_false]
      by_cases h1 : cfn key o < 0
      · cases leaf <;> simp [h1]
      · simp only [h1, if_false]
        have := ih (ctr + 1)
        simp only [List.length_cons]
        refine ⟨fun h => ?_, fun h => ?_, fun h => ?_⟩
        · have := this.1 h; omega
        · have := this.2.1 h; exact ⟨this.1, by omega, by omega⟩
        · have := this.2.2 h
          rw [this.2]
          exact ⟨this.1, by congr 1; omega⟩

theorem findPos_inthis {n : TreeNode} {key : DbObj} {cfn : compareFn}
    (h : (n.findPos key cfn).2 = EChildPos.ECP_INTHIS) : (n.findPos key cfn).1 < n.objCount := by
  have := (findPosLoop_index key cfn n.isLeaf n.objects 0).1 h
  simpa [findPos, objCount] using this.2

theorem findPos_inleft {n : TreeNode} {key : DbObj} {cfn : compareFn}
    (h : (n.findPos key cfn).2 = EChildPos.ECP_INLEFT) :
    n.isLeaf = false ∧ (n.findPos key cfn).1 < n.objCount := by
  have := (findPosLoop_index key cfn n.isLeaf n.objects 0).2.1 h
  simpa [findPos, objCount] using this

theorem findPos_inright {n : TreeNode} {key : DbObj} {cfn : compareFn}
    (h : (n.findPos key cfn).2 = EChildPos.ECP_INRIGHT) :
    n.isLeaf = false ∧ (n.findPos key cfn).1 = decr n.objCount := by
  have := (findPosLoop_index key cfn n.isLeaf n.objects 0).2.2 h
  simpa [findPos, objCount] using this

/-- In a shaped subtree the leaf flag is determined by the level. -/
theorem TreeNode.Shaped.isLeaf_iff {t h : Nat} {n : TreeNode} (hn : Shaped t n h) :
    n.isLeaf = true ↔ h = 0 := by
  rw [shaped_iff] at hn
  by_cases hl : n.isLeaf = true
  · simp only [hl, if_true] at hn
    simp [hl, hn.2.2]
  · simp only [hl] at hn
    simp only [Bool.false_eq_true, if_false] at hn
    simp [hl]
    omega

theorem merge_objects (t : Nat) (p : TreeNode) (i : Nat) :
    (_merge t p i).1.objects = p.objects.eraseIdx i := by
  simp [_merge]

theorem merge_isLeaf (t : Nat) (p : TreeNode) (i : Nat) :
    (_merge t p i).1.isLeaf = p.isLeaf := by
  simp [_merge]

theorem merge_children (t : Nat) (p : TreeNode) (i : Nat) :
    (_merge t p i).1.children =
      p.children.take i ++ (_merge t p i).2 :: renumber (i + 1) (p.children.drop (i + 2)) := by
  simp [_merge]

theorem merge_snd (t : Nat) (p : TreeNode) (i : Nat) :
    (_merge t p i).2 =
      ((p.children.getD i default).setObjects
        ((p.children.getD i default).objects.take (t - 1) ++ p.objects.getD i [] ::
          (p.children.getD (i + 1) default).objects.take (t - 1))).setChildren
        (if (p.children.getD (i + 1) default).isLeaf then (p.children.getD i default).children
         else (p.children.getD i default).children.take t ++
           renumber t ((p.children.getD (i + 1) default).children.take t)) := by
  simp [_merge]

/-- Shape after `_merge` of two children that hold `t - 1` records each. -/
theorem merge_shaped {t : Nat} {p : TreeNode} {i h : Nat} (ht : 1 ≤ t)
    (hp : Shaped t p h) (hl : p.isLeaf = false) (hi : i < p.objCount)
    (h1 : (p.children.getD i default).objCount = t - 1)
    (h2 : (p.children.getD (i + 1) default).objCount = t - 1) :
    Shaped t (_merge t p i).1 h ∧ (_merge t p i).1.objCount = p.objCount - 1 ∧
    (_merge t p i).1.isLeaf = false ∧ i < (_merge t p i).1.children.length ∧
    Shaped t (_merge t p i).2 (h - 1) ∧ (_merge t p i).2.objCount = 2 * t - 1 := by
  have hp0 := hp
  rw [shaped_iff] at hp
  simp only [hl, Bool.false_eq_true, if_false] at hp
  obtain ⟨hcnt, hlen, hh, hkids⟩ := hp
  have hm1 := hkids _ (getD_mem (show i < p.children.length by omega))
  have hm2 := hkids _ (getD_mem (show i + 1 < p.children.length by omega))
  have hs : Shaped t (_merge t p i).2 (h - 1) ∧ (_merge t p i).2.objCount = 2 * t - 1 := by
    rw [merge_snd]
    generalize p.children.getD i default = c1 at *
    generalize p.children.getD (i + 1) default = c2 at *
    have e1 : c1.objects.length = t - 1 := h1
    have e2 : c2.objects.length = t - 1 := h2
    have hc : (List.take (t - 1) c1.objects ++ p.objects.getD i [] ::
        List.take (t - 1) c2.objects).length = 2 * t - 1 := by
      simp
      omega
    refine ⟨?_, by rw [objCount_setChildren, objCount_setObjects]; exact hc⟩
    have hl1 := hm1.2.isLeaf_iff
    have hl2 := hm2.2.isLeaf_iff
    have s1 := hm1.2
    have s2 := hm2.2
    rw [shaped_iff] at s1 s2 ⊢
    simp only [objCount_setChildren, objCount_setObjects, hc, isLeaf_setChildren,
      isLeaf_setObjects, children_setChildren]
    refine ⟨le_refl _, ?_⟩
    by_cases hz : h - 1 = 0
    · have l1 : c1.isLeaf = true := hl1.2 hz
      have l2 : c2.isLeaf = true := hl2.2 hz
      simp only [l1, if_true] at s1
      simp [l1, l2, s1.2.1, hz]
    · have l1 : c1.isLeaf = false := by
        cases hb : c1.isLeaf
        · rfl
        · exact absurd (hl1.1 hb) hz
      have l2 : c2.isLeaf = false := by
        cases hb : c2.isLeaf
        · rfl
        · exact absurd (hl2.1 hb) hz
      simp only [l1, l2, Bool.false_eq_true, if_false] at s1 s2 ⊢
      refine ⟨?_, by omega, ?_⟩
      · have : c1.objCount = c1.objects.length := rfl
        have : c2.objCount = c2.objects.length := rfl
        simp
        omega
      · intro x hx
        rcases List.mem_append.1 hx with hx | hx
        · exact s1.2.2.2 x (List.mem_of_mem_take hx)
        · obtain ⟨z, hz, j, rfl⟩ := mem_renumber hx
          have := s2.2.2.2 z (List.mem_of_mem_take hz)
          simpa using this
  have hobj : (_merge t p i).1.objCount = p.objCount - 1 := by
    simp only [objCount, merge_objects]
    rw [List.length_eraseIdx]
    simp [show i < p.objects.length from hi]
  refine ⟨?_, hobj, by simp [merge_isLeaf, hl], ?_, hs.1, hs.2⟩
  · rw [shaped_iff]
    rw [hobj]
    simp only [merge_isLeaf, hl, Bool.false_eq_true, if_false, merge_children]
    refine ⟨by omega, ?_, hh, ?_⟩
    · simp
      omega
    · intro x hx
      simp only [List.mem_append, List.mem_cons] at hx
      rcases hx with hx | rfl | hx
      · exact hkids x (List.mem_of_mem_take hx)
      · exact ⟨by rw [hs.2]; omega, hs.1⟩
      · obtain ⟨z, hz, j, rfl⟩ := mem_renumber hx
        have := hkids z (List.mem_of_mem_drop hz)
        simpa using this
  · rw [merge_children]
    simp
    omega

theorem merge_snd_eq_getD {t : Nat} {p : TreeNode} {i : Nat} (hi : i < p.children.length) :
    (_merge t p i).1.children.getD i default = (_merge t p i).2 := by
  rw [merge_children]
  have hl : (List.take i p.children).length = i := by simp; omega
  rw [List.getD_append_right _ _ _ _ (by omega)]
  simp [hl]

open TreeNode

theorem TreeNode.Shaped.isLeaf_false {t h : Nat} {n : TreeNode} (hn : Shaped t n h)
    (hh : h ≠ 0) : n.isLeaf = false := by
  cases hb : n.isLeaf
  · rfl
  · exact absurd (hn.isLeaf_iff.1 hb) hh

theorem borrowLeft_objects (t : Nat) (p : TreeNode) (k : Nat) :
    (borrowLeft t p k).objects =
      p.objects.set (k - 1)
        ((p.children.getD (k - 1) default).objects.getD
          ((p.children.getD (k - 1) default).objCount - 1) []) := by
  simp [borrowLeft]

theorem borrowLeft_isLeaf (t : Nat) (p : TreeNode) (k : Nat) :
    (borrowLeft t p k).isLeaf = p.isLeaf := by
  simp [borrowLeft]

theorem borrowRight_objects (t : Nat) (p : TreeNode) (k i : Nat) :
    (borrowRight t p k i).objects =
      p.objects.set i ((p.children.getD (k + 1) default).objects.getD 0 []) := by
  simp [borrowRight]

theorem borrowRight_isLeaf (t : Nat) (p : TreeNode) (k i : Nat) :
    (borrowRight t p k i).isLeaf = p.isLeaf := by
  simp [borrowRight]

/-- Shape after the rotation of case 3a that takes a record from the left sibling. -/
theorem borrowLeft_shaped {t : Nat} {p : TreeNode} {k h : Nat} (ht : 1 ≤ t)
    (hp : Shaped t p h) (hl : p.isLeaf = false) (hk0 : 0 < k) (hk : k < p.children.length)
    (hc : (p.children.getD k default).objCount = t - 1)
    (hleft : t ≤ (p.children.getD (k - 1) default).objCount) :
    Shaped t (borrowLeft t p k) h ∧ (borrowLeft t p k).objCount = p.objCount ∧
    (borrowLeft t p k).isLeaf = false ∧ k < (borrowLeft t p k).children.length ∧
    ((borrowLeft t p k).children.getD k default).objCount = t := by
  rw [shaped_iff] at hp
  simp only [hl, Bool.false_eq_true, if_false] at hp
  obtain ⟨hcnt, hlen, hh, hkids⟩ := hp
  have hm1 := hkids _ (getD_mem hk)
  have hm2 := hkids _ (getD_mem (show k - 1 < p.children.length by omega))
  simp only [borrowLeft]
  generalize p.children.getD k default = c at *
  generalize p.children.getD (k - 1) default = ls at *
  have e1 : c.objects.length = t - 1 := hc
  have hlc := hm1.2.isLeaf_iff
  have hll := hm2.2.isLeaf_iff
  have sc := hm1.2
  have sl := hm2.2
  rw [shaped_iff] at sc sl
  have hchild : Shaped t (TreeNode.mk (if 0 < t - 1 then 2 else c.childNo) c.isLeaf c.fpos
      (p.objects.getD (k - 1) [] :: List.take (t - 1) c.objects)
      (if ls.isLeaf = true then List.take 1 c.children ++ List.take t c.children
       else ls.children.getD ls.objCount default :: List.take t c.children) c.parent) (h - 1) := by
    rw [shaped_iff]
    simp only [objCount_mk, isLeaf_mk, children_mk]
    refine ⟨by simp; omega, ?_⟩
    by_cases hz : h - 1 = 0
    · have l1 : c.isLeaf = true := hlc.2 hz
      have l2 : ls.isLeaf = true := hll.2 hz
      simp only [l1, if_true] at sc
      simp [l1, l2, sc.2.1, hz]
    · have l1 : c.isLeaf = false := hm1.2.isLeaf_false hz
      have l2 : ls.isLeaf = false := hm2.2.isLeaf_false hz
      simp only [l1, l2, Bool.false_eq_true, if_false] at sc sl ⊢
      refine ⟨?_, by omega, ?_⟩
      · have : c.objCount = c.objects.length := rfl
        simp
        omega
      · intro x hx
        rcases List.mem_cons.1 hx with rfl | hx
        · exact sl.2.2.2 _ (getD_mem (by omega))
        · exact sc.2.2.2 x (List.mem_of_mem_take hx)
  have hleftn : Shaped t ((ls.setObjects (List.take (ls.objCount - 1) ls.objects)).setChildren
      (if ls.isLeaf = true then ls.children else List.take ls.objCount ls.children)) (h - 1) ∧
      t - 1 ≤ ((ls.setObjects (List.take (ls.objCount - 1) ls.objects)).setChildren
      (if ls.isLeaf = true then ls.children else List.take ls.objCount ls.children)).objCount := by
    have e2 : ls.objCount = ls.objects.length := rfl
    refine ⟨?_, by simp; omega⟩
    rw [shaped_iff]
    simp only [objCount_setChildren, objCount_setObjects, isLeaf_setChildren, isLeaf_setObjects,
      children_setChildren]
    refine ⟨by simp; omega, ?_⟩
    by_cases hz : h - 1 = 0
    · have l2 : ls.isLeaf = true := hll.2 hz
      simp only [l2, if_true] at sl
      simp [l2, sl.2.1, hz]
    · have l2 : ls.isLeaf = false := hm2.2.isLeaf_false hz
      simp only [l2, Bool.false_eq_true, if_false] at sl ⊢
      refine ⟨?_, by omega, ?_⟩
      · simp
        omega
      · intro x hx
        exact sl.2.2.2 x (List.mem_of_mem_take hx)
  refine ⟨?_, by simp [objCount], by simp [hl], by simp [hk], ?_⟩
  · rw [shaped_iff]
    simp only [objCount_setChildren, objCount_setObjects, isLeaf_setChildren, isLeaf_setObjects,
      children_setChildren, hl, Bool.false_eq_true, if_false, List.length_set]
    refine ⟨hcnt, hlen, hh, ?_⟩
    intro x hx
    rcases List.mem_or_eq_of_mem_set hx with hx | rfl
    · rcases List.mem_or_eq_of_mem_set hx with hx | rfl
      · exact hkids x hx
      · exact ⟨hleftn.2, hleftn.1⟩
    · exact ⟨by simp [objCount]; omega, hchild⟩
  · simp only [children_setChildren]
    rw [List.getD_eq_getElem _ _ (by simp [hk])]
    simp [objCount]
    omega

/-- Shape after the rotation of case 3a that takes a record from the right sibling. -/
theorem borrowRight_shaped {t : Nat} {p : TreeNode} {k h : Nat} (i : Nat) (ht : 1 ≤ t)
    (hp : Shaped t p h) (hl : p.isLeaf = false) (hk : k + 1 < p.children.length)
    (hc : (p.children.getD k default).objCount = t - 1)
    (hright : t ≤ (p.children.getD (k + 1) default).objCount) :
    Shaped t (borrowRight t p k i) h ∧ (borrowRight t p k i).objCount = p.objCount ∧
    (borrowRight t p k i).isLeaf = false ∧ k < (borrowRight t p k i).children.length ∧
    ((borrowRight t p k i).children.getD k default).objCount = t := by
  rw [shaped_iff] at hp
  simp only [hl, Bool.false_eq_true, if_false] at hp
  obtain ⟨hcnt, hlen, hh, hkids⟩ := hp
  have hm1 := hkids _ (getD_mem (show k < p.children.length by omega))
  have hm2 := hkids _ (getD_mem hk)
  simp only [borrowRight]
  generalize p.children.getD k default = c at *
  generalize p.children.getD (k + 1) default = rs at *
  have e1 : c.objects.length = t - 1 := hc
  have hlc := hm1.2.isLeaf_iff
  have hll := hm2.2.isLeaf_iff
  have sc := hm1.2
  have sl := hm2.2
  rw [shaped_iff] at sc sl
  have hchild : Shaped t ((c.setObjects (List.take (t - 1) c.objects ++
      [p.objects.getD i []])).setChildren
      (if rs.isLeaf = true then List.take (t + 1) c.children
       else List.take t c.children ++ [rs.children.getD 0 default])) (h - 1) := by
    rw [shaped_iff]
    simp only [objCount_setChildren, objCount_setObjects, isLeaf_setChildren, isLeaf_setObjects,
      children_setChildren]
    refine ⟨by simp; omega, ?_⟩
    by_cases hz : h - 1 = 0
    · have l1 : c.isLeaf = true := hlc.2 hz
      have l2 : rs.isLeaf = true := hll.2 hz
      simp only [l1, if_true] at sc
      simp [l1, l2, sc.2.1, hz]
    · have l1 : c.isLeaf = false := hm1.2.isLeaf_false hz
      have l2 : rs.isLeaf = false := hm2.2.isLeaf_false hz
      simp only [l1, l2, Bool.false_eq_true, if_false] at sc sl ⊢
      refine ⟨?_, by omega, ?_⟩
      · have : c.objCount = c.objects.length := rfl
        simp
        omega
      · intro x hx
        rcases List.mem_append.1 hx with hx | hx
        · exact sc.2.2.2 x (List.mem_of_mem_take hx)
        · rw [List.mem_singleton] at hx
          subst hx
          exact sl.2.2.2 _ (getD_mem (by omega))
  have hrightn : Shaped t ((rs.setObjects (List.drop 1 rs.objects)).setChildren
      (if rs.isLeaf = true then List.take rs.objCount rs.children
       else List.take rs.objCount (List.drop 1 rs.children))) (h - 1) ∧
      t - 1 ≤ ((rs.setObjects (List.drop 1 rs.objects)).setChildren
      (if rs.isLeaf = true then List.take rs.objCount rs.children
       else List.take rs.objCount (List.drop 1 rs.children))).objCount := by
    have e2 : rs.objCount = rs.objects.length := rfl
    refine ⟨?_, by simp; omega⟩
    rw [shaped_iff]
    simp only [objCount_setChildren, objCount_setObjects, isLeaf_setChildren, isLeaf_setObjects,
      children_setChildren]
    refine ⟨by simp; omega, ?_⟩
    by_cases hz : h - 1 = 0
    · have l2 : rs.isLeaf = true := hll.2 hz
      simp only [l2, if_true] at sl
      simp [l2, sl.2.1, hz]
    · have l2 : rs.isLeaf = false := hm2.2.isLeaf_false hz
      simp only [l2, Bool.false_eq_true, if_false] at sl ⊢
      refine ⟨?_, by omega, ?_⟩
      · simp
        omega
      · intro x hx
        exact sl.2.2.2 x (List.mem_of_mem_drop (List.mem_of_mem_take hx))
  have hk' : k < p.children.length := by omega
  refine ⟨?_, by simp [objCount], by simp [hl], by simp [hk'], ?_⟩
  · rw [shaped_iff]
    simp only [objCount_setChildren, objCount_setObjects, isLeaf_setChildren, isLeaf_setObjects,
      children_setChildren, hl, Bool.false_eq_true, if_false, List.length_set]
    refine ⟨hcnt, hlen, hh, ?_⟩
    intro x hx
    rcases List.mem_or_eq_of_mem_set hx with hx | rfl
    · rcases List.mem_or_eq_of_mem_set hx with hx | rfl
      · exact hkids x hx
      · exact ⟨hrightn.2, hrightn.1⟩
    · exact ⟨by simp [objCount]; omega, hchild⟩
  · simp only [children_setChildren]
    rw [List.getD_eq_getElem _ _ (by simp [hk'])]
    simp [objCount]
    omega

open TreeNode

/-- Shape after `_delete`: the subtree keeps its level structure and loses at most one
record at its root. -/
theorem delete_shaped (cfn : compareFn) {t : Nat} (ht : 1 ≤ t) :
    ∀ (fuel : Nat) (node : TreeNode) (key : DbObj) (h : Nat), Shaped t node h → h < fuel →
      Shaped t (_delete cfn t fuel node key).1 h ∧
      node.objCount - 1 ≤ (_delete cfn t fuel node key).1.objCount := by
  intro fuel
  induction fuel with
  | zero => intro node key h _ hf; omega
  | succ fuel ih =>
    intro node key h hn hf
    have hn0 := hn
    rw [shaped_iff] at hn
    -- the descent into child `k` of a node `q` whose child `k` holds at least `t` records
    have descend : ∀ (q : TreeNode) (k : Nat) (key1 : DbObj), Shaped t q h → q.isLeaf = false →
        k < q.children.length → t ≤ (q.children.getD k default).objCount →
        Shaped t (q.setChildren (q.children.set k
          (_delete cfn t fuel (q.children.getD k default) key1).1)) h := by
      intro q k key1 hq hql hk hcnt
      have hq' := hq
      rw [shaped_iff] at hq'
      simp only [hql, Bool.false_eq_true, if_false] at hq'
      have hc := hq'.2.2.2 _ (getD_mem hk)
      have := ih (q.children.getD k default) key1 (h - 1) hc.2 (by omega)
      exact setChild_shaped k hq hql this.1 (by omega)
    by_cases hmax : (node.findPos key cfn).1 = SIZE_MAX
    · rw [delete_sentinel _ _ _ _ _ hmax]
      exact ⟨hn0, Nat.sub_le _ _⟩
    generalize hop : node.findPos key cfn = op at hmax
    obtain ⟨i, pos⟩ := op
    simp only at hmax
    have hmerge : ∀ (hl0 : node.isLeaf = false), i < node.objCount →
        (node.children.getD i default).objCount = t - 1 →
        (node.children.getD (i + 1) default).objCount = t - 1 →
        Shaped t ((_merge t node i).1.setChildren ((_merge t node i).1.children.set i
          (_delete cfn t fuel (_merge t node i).2 key).1)) h ∧
        node.objCount - 1 ≤ ((_merge t node i).1.setChildren ((_merge t node i).1.children.set i
          (_delete cfn t fuel (_merge t node i).2 key).1)).objCount := by
      intro hl0 hi h1 h2
      obtain ⟨m1, m2, m3, m4, m5, m6⟩ := merge_shaped ht hn0 hl0 hi h1 h2
      have := ih (_merge t node i).2 key (h - 1) m5 (by
        simp only [hl0, Bool.false_eq_true, if_false] at hn
        omega)
      exact ⟨setChild_shaped i m1 m3 this.1 (by omega), by simp [m2]⟩
    cases pos with
    | ECP_NONE =>
      rw [delete_none _ _ _ _ _ (by rw [hop])]
      exact ⟨hn0, Nat.sub_le _ _⟩
    | ECP_INTHIS =>
      have hi : i < node.objCount := by
        have := @findPos_inthis node key cfn (by rw [hop])
        simpa [hop] using this
      by_cases hl : node.isLeaf = true
      · rw [delete_case1 _ _ _ _ _ _ hop hmax hl]
        simp only [hl, if_true] at hn
        simp only [delFromLeaf, hl, if_true]
        have hlen : (node.objects.eraseIdx i).length = node.objCount - 1 := by
          rw [List.length_eraseIdx]
          simp [show i < node.objects.length from hi, objCount]
        refine ⟨?_, by simp [hlen]⟩
        rw [shaped_iff]
        simp only [objCount_setObjects, hlen, isLeaf_setObjects, hl, if_true, children_setObjects]
        exact ⟨by omega, hn.2⟩
      · have hl0 : node.isLeaf = false := by simpa using hl
        simp only [hl0, Bool.false_eq_true, if_false] at hn
        obtain ⟨hcnt, hlen, hh, hkids⟩ := hn
        by_cases h2a : t ≤ (node.children.getD i default).objCount
        · rw [delete_case2a _ _ _ _ _ _ hop hmax hl0 h2a]
          refine ⟨?_, by simp [objCount]⟩
          have := descend node i ((_findPred fuel (node.children.getD i default)).1.objects.getD
            (_findPred fuel (node.children.getD i default)).2 []) hn0 hl0 (by omega) h2a
          rw [shaped_iff] at this ⊢
          simpa [objCount] using this
        · by_cases h2b : t ≤ (node.children.getD (i + 1) default).objCount
          · rw [delete_case2b _ _ _ _ _ _ hop hmax hl0 h2a h2b]
            refine ⟨?_, by simp [objCount]⟩
            have := descend node (i + 1)
              ((_findSucc fuel (node.children.getD (i + 1) default)).1.objects.getD
              (_findSucc fuel (node.children.getD (i + 1) default)).2 []) hn0 hl0 (by omega) h2b
            rw [shaped_iff] at this ⊢
            simpa [objCount] using this
          · rw [delete_case2c _ _ _ _ _ _ hop hmax hl0 h2a h2b]
            have c1 := hkids _ (getD_mem (show i < node.children.length by omega))
            have c2 := hkids _ (getD_mem (show i + 1 < node.children.length by omega))
            exact hmerge hl0 hi (by omega) (by omega)
    | ECP_INLEFT =>
      obtain ⟨hl0, hi⟩ : node.isLeaf = false ∧ i < node.objCount := by
        have := @findPos_inleft node key cfn (by rw [hop])
        simpa [hop] using this
      simp only [hl0, Bool.false_eq_true, if_false] at hn
      obtain ⟨hcnt, hlen, hh, hkids⟩ := hn
      have hpos : EChildPos.ECP_INLEFT = EChildPos.ECP_INLEFT ∨
        EChildPos.ECP_INLEFT = EChildPos.ECP_INRIGHT := Or.inl rfl
      have hk : i = if EChildPos.ECP_INLEFT = EChildPos.ECP_INLEFT then i else i + 1 := by simp
      have c1 := hkids _ (getD_mem (show i < node.children.length by omega))
      by_cases hc : t ≤ (node.children.getD i default).objCount
      · rw [delete_case3 _ _ _ _ _ _ _ hop hmax hpos i hk hc]
        exact ⟨descend node i key hn0 hl0 (by omega) hc, by simp⟩
      · by_cases hleft : 0 < i ∧ t ≤ (node.children.getD (i - 1) default).objCount
        · rw [delete_case3a_left _ _ _ _ _ _ _ hop hmax hpos i hk hc hleft.1 hleft.2]
          obtain ⟨b1, b2, b3, b4, b5⟩ := borrowLeft_shaped ht hn0 hl0 hleft.1 (by omega)
            (by omega) hleft.2
          exact ⟨descend _ i key b1 b3 b4 (by omega), by simp [b2]⟩
        · by_cases hright : i < node.objCount ∧ t ≤ (node.children.getD (i + 1) default).objCount
          · rw [delete_case3a_right _ _ _ _ _ _ _ hop hmax hpos i hk hc hleft hright.1 hright.2]
            obtain ⟨b1, b2, b3, b4, b5⟩ := borrowRight_shaped i ht hn0 hl0 (by omega)
              (by omega) hright.2
            exact ⟨descend _ i key b1 b3 b4 (by omega), by simp [b2]⟩
          · rw [delete_case3b _ _ _ _ _ _ _ hop hmax hpos i hk hc hleft hright]
            have c2 := hkids _ (getD_mem (show i + 1 < node.children.length by omega))
            exact hmerge hl0 hi (by omega) (by
              have : ¬ t ≤ (node.children.getD (i + 1) default).objCount := fun h =>
                hright ⟨hi, h⟩
              omega)
    | ECP_INRIGHT =>
      obtain ⟨hl0, hi⟩ : node.isLeaf = false ∧ i = decr node.objCount := by
        have := @findPos_inright node key cfn (by rw [hop])
        simpa [hop] using this
      obtain ⟨hpos0, hdec⟩ := decr_ne_max (by rw [← hi]; exact hmax)
      have hi' : i = node.objCount - 1 := by rw [hi, hdec]
      simp only [hl0, Bool.false_eq_true, if_false] at hn
      obtain ⟨hcnt, hlen, hh, hkids⟩ := hn
      have hpos : EChildPos.ECP_INRIGHT = EChildPos.ECP_INLEFT ∨
        EChildPos.ECP_INRIGHT = EChildPos.ECP_INRIGHT := Or.inr rfl
      have hk : i + 1 = if EChildPos.ECP_INRIGHT = EChildPos.ECP_INLEFT then i else i + 1 := by
        simp
      have c1 := hkids _ (getD_mem (show i + 1 < node.children.length by omega))
      by_cases hc : t ≤ (node.children.getD (i + 1) default).objCount
      · rw [delete_case3 _ _ _ _ _ _ _ hop hmax hpos (i + 1) hk hc]
        exact ⟨descend node (i + 1) key hn0 hl0 (by omega) hc, by simp⟩
      · by_cases hleft : 0 < i + 1 ∧ t ≤ (node.children.getD (i + 1 - 1) default).objCount
        · rw [delete_case3a_left _ _ _ _ _ _ _ hop hmax hpos (i + 1) hk hc hleft.1 hleft.2]
          obtain ⟨b1, b2, b3, b4, b5⟩ := borrowLeft_shaped ht hn0 hl0 hleft.1 (by omega)
            (by omega) hleft.2
          exact ⟨descend _ (i + 1) key b1 b3 b4 (by omega), by simp [b2]⟩
        · have hright : ¬ (i + 1 < node.objCount ∧
              t ≤ (node.children.getD (i + 1 + 1) default).objCount) := fun h => by omega
          rw [delete_case3b _ _ _ _ _ _ _ hop hmax hpos (i + 1) hk hc hleft hright]
          have c0 := hkids _ (getD_mem (show i < node.children.length by omega))
          exact hmerge hl0 (by omega) (by
              have : ¬ t ≤ (node.children.getD i default).objCount := fun h =>
                hleft ⟨by omega, by simpa using h⟩
              omega) (by omega)

open TreeNode

theorem TreeNode.nodesList_eq (cs : List TreeNode) :
    ∀ x, x ∈ nodesList cs ↔ ∃ c ∈ cs, x ∈ c.nodes := by
  induction cs with
  | nil => simp [nodesList]
  | cons c cs ih =>
    intro x
    simp [nodesList, ih]

theorem TreeNode.leafDepthsList_eq (cs : List TreeNode) (d : Nat) :
    ∀ x, x ∈ leafDepthsList cs d ↔ ∃ c ∈ cs, x ∈ c.leafDepths d := by
  induction cs with
  | nil => simp [leafDepthsList]
  | cons c cs ih =>
    intro x
    simp [leafDepthsList, ih]

/-- In a shaped subtree every node below the root holds `t-1` to `2t-1` records and
every leaf is `h` levels below the root. -/
theorem TreeNode.Shaped.flat {t : Nat} :
    ∀ (n : TreeNode) (h : Nat), Shaped t n h →
      n.objCount ≤ 2 * t - 1 ∧
      (∀ m ∈ nodesList n.children, t - 1 ≤ m.objCount ∧ m.objCount ≤ 2 * t - 1) ∧
      ∀ d, ∀ x ∈ n.leafDepths d, x = d + h := by
  intro n
  induction n using TreeNode.induct with
  | step c l f os cs p ih =>
    intro h hn
    rw [shaped_iff] at hn
    refine ⟨hn.1, ?_, ?_⟩
    · intro m hm
      simp only [children_mk] at hm
      obtain ⟨x, hx, hmx⟩ := (nodesList_eq cs m).1 hm
      by_cases hl : l = true
      · simp [hl] at hn
        simp [hn.2.1] at hx
      · simp [hl] at hn
        have hxs := hn.2.2.2 x hx
        have := ih x hx (h - 1) hxs.2
        cases x with
        | mk c1 l1 f1 os1 cs1 p1 =>
          simp only [nodes, List.mem_cons] at hmx
          rcases hmx with rfl | hmx
          · exact ⟨by omega, this.1⟩
          · exact this.2.1 m hmx
    · intro d x hx
      by_cases hl : l = true
      · simp [hl] at hn
        simp [leafDepths, hl] at hx
        omega
      · simp [hl] at hn
        simp only [leafDepths, hl, Bool.false_eq_true, if_false] at hx
        obtain ⟨y, hy, hxy⟩ := (leafDepthsList_eq cs (d + 1) x).1 hx
        have := (ih y hy (h - 1) (hn.2.2.2 y hy).2).2.2 (d + 1) x hxy
        omega

/-- Step of the shape invariant: `del` keeps it. -/
theorem del_shapeInv (db : BTreeDB) (key : DbObj) (ht : 1 ≤ db._minDegree)
    (h : db._root.ShapeInv db._minDegree) :
    (db.del key).1._root.ShapeInv db._minDegree ∧ (db.del key).1._minDegree = db._minDegree := by
  obtain ⟨h0, hs⟩ := h
  simp only [BTreeDB.del]
  split
  · exact ⟨⟨h0, hs⟩, rfl⟩
  · have hd := delete_shaped db._compFunc ht db._root.height db._root key h0 hs
      (by rw [hs.height_eq]; omega)
    split
    · rename_i hcol
      refine ⟨⟨h0 - 1, ?_⟩, rfl⟩
      have := hd.1
      rw [shaped_iff] at this
      simp only [hcol.2.2, Bool.false_eq_true, if_false] at this
      exact (this.2.2.2 _ (getD_mem (by omega))).2
    · exact ⟨⟨h0, hd.1⟩, rfl⟩

/-- The shape invariant holds in every state that `put` and `del` reach from a
freshly created database. -/
theorem run_shapeInv (recSize keySize t : Nat) (cfn : Option compareFn) (ht : 2 ≤ t)
    (ops : List Op) :
    ((BTreeDB.create recSize keySize t cfn).run ops)._root.ShapeInv t ∧
    ((BTreeDB.create recSize keySize t cfn).run ops)._minDegree = t := by
  have start : (BTreeDB.create recSize keySize t cfn)._root.ShapeInv t ∧
      (BTreeDB.create recSize keySize t cfn)._minDegree = t := by
    refine ⟨⟨0, ?_⟩, rfl⟩
    rw [shaped_iff]
    simp [BTreeDB.create, _allocateNode, objCount]
  generalize BTreeDB.create recSize keySize t cfn = db at start
  simp only [BTreeDB.run]
  induction ops generalizing db with
  | nil => exact start
  | cons op ops ih =>
    simp only [List.foldl_cons]
    apply ih
    obtain ⟨s1, s2⟩ := start
    cases op with
    | put rec =>
      have := put_shapeInv db rec (by omega) (by rw [s2]; exact s1)
      simp only [BTreeDB.step]
      rw [s2] at this
      exact this
    | del key =>
      have := del_shapeInv db key (by omega) (by rw [s2]; exact s1)
      simp only [BTreeDB.step]
      rw [s2] at this
      exact this

/-- Value model of the shape invariant: after any sequence of `BTreeDB.put` and
`BTreeDB.del` on the tree value of a freshly created database with minimum
degree `t ≥ 2`, the root holds at most `2t-1` records, every node below the
root holds between `t-1` and `2t-1` records, and all leaves are at one depth
(the tree is `Shaped`).  The source follows the value model on sequences of
`put` calls, also with one `del` at the end; `run_of_put_and_del_faults` is a
sequence on which it does not. -/
theorem shape_invariant (recSize keySize t : Nat) (cfn : Option compareFn) (ht : 2 ≤ t)
    (ops : List Op) :
    ((BTreeDB.create recSize keySize t cfn).run ops)._root.objCount ≤ 2 * t - 1 ∧
    (∀ m ∈ nodesList ((BTreeDB.create recSize keySize t cfn).run ops)._root.children,
      t - 1 ≤ m.objCount ∧ m.objCount ≤ 2 * t - 1) ∧
    (∃ depth, ∀ x ∈ ((BTreeDB.create recSize keySize t cfn).run ops)._root.leafDepths 0,
      x = depth) ∧
    ((BTreeDB.create recSize keySize t cfn).run ops)._root.ShapeInv t := by
  obtain ⟨⟨h, hs⟩, _⟩ := run_shapeInv recSize keySize t cfn ht ops
  have := hs.flat
  exact ⟨this.1, this.2.1, ⟨0 + h, this.2.2 0⟩, ⟨h, hs⟩⟩

/-- An instance of the value model of the shape invariant: six operations, `t = 2`. -/
theorem shape_invariant_witness :
    2 ≤ 2 ∧
    ((BTreeDB.create 4 4 2 none).run [Op.put (rec4 1), Op.put (rec4 2), Op.put (rec4 3),
      Op.put (rec4 4), Op.del (rec4 4), Op.del (rec4 5)])._root.objCount ≤ 2 * 2 - 1 ∧
    (∀ m ∈ nodesList ((BTreeDB.create 4 4 2 none).run [Op.put (rec4 1), Op.put (rec4 2),
      Op.put (rec4 3), Op.put (rec4 4), Op.del (rec4 4), Op.del (rec4 5)])._root.children,
      2 - 1 ≤ m.objCount ∧ m.objCount ≤ 2 * 2 - 1) ∧
    (∃ depth, ∀ x ∈ ((BTreeDB.create 4 4 2 none).run [Op.put (rec4 1), Op.put (rec4 2),
      Op.put (rec4 3), Op.put (rec4 4), Op.del (rec4 4), Op.del (rec4 5)])._root.leafDepths 0,
      x = depth) ∧
    ((BTreeDB.create 4 4 2 none).run [Op.put (rec4 1), Op.put (rec4 2), Op.put (rec4 3),
      Op.put (rec4 4), Op.del (rec4 4), Op.del (rec4 5)])._root.ShapeInv 2 :=
  ⟨by decide, shape_invariant 4 4 2 none (by decide) _⟩

open TreeNode

/-! ## In-order sequence of a node, taken apart at a child -/

@[simp] theorem inorder_setChildNo (n : TreeNode) (k : Nat) : (n.setChildNo k).inorder = n.inorder := by
  cases n; simp [setChildNo, inorder]

@[simp] theorem inorder_setParent (n : TreeNode) (q : Option Nat) :
    (n.setParent q).inorder = n.inorder := by
  cases n; simp [setParent, inorder]

theorem inorder_eq (n : TreeNode) :
    n.inorder = if n.isLeaf then n.objects else inorderKids n.children n.objects := by
  cases n; simp [inorder]

theorem inorderKids_congr {cs ds : List TreeNode} (h : cs.map inorder = ds.map inorder)
    (os : List DbObj) : inorderKids cs os = inorderKids ds os := by
  induction cs generalizing ds os with
  | nil =>
    cases ds with
    | nil => rfl
    | cons d ds => simp at h
  | cons c cs ih =>
    cases ds with
    | nil => simp at h
    | cons d ds =>
      simp only [List.map_cons, List.cons.injEq] at h
      cases os with
      | nil => simp [inorderKids, h.1]
      | cons o os => simp [inorderKids, h.1, ih h.2]

theorem kidsAfter_congr {cs ds : List TreeNode} (h : cs.map inorder = ds.map inorder)
    (os : List DbObj) : kidsAfter os cs = kidsAfter os ds := by
  induction cs generalizing ds os with
  | nil =>
    cases ds with
    | nil => rfl
    | cons d ds => simp at h
  | cons c cs ih =>
    cases ds with
    | nil => simp at h
    | cons d ds =>
      simp only [List.map_cons, List.cons.injEq] at h
      cases os with
      | nil => simp [kidsAfter]
      | cons o os => simp [kidsAfter, h.1, ih h.2]

theorem kidsBefore_congr {cs ds : List TreeNode} (h : cs.map inorder = ds.map inorder)
    (os : List DbObj) : kidsBefore cs os = kidsBefore ds os := by
  induction cs generalizing ds os with
  | nil =>
    cases ds with
    | nil => rfl
    | cons d ds => simp at h
  | cons c cs ih =>
    cases ds with
    | nil => simp at h
    | cons d ds =>
      simp only [List.map_cons, List.cons.injEq] at h
      cases os with
      | nil => simp [kidsBefore]
      | cons o os => simp [kidsBefore, h.1, ih h.2]

@[simp] theorem map_inorder_renumber (k : Nat) (cs : List TreeNode) :
    (renumber k cs).map inorder = cs.map inorder := by
  induction cs generalizing k with
  | nil => rfl
  | cons c cs ih => simp [renumber, ih]

theorem inorderKids_cons_eq (c : TreeNode) (cs : List TreeNode) (os : List DbObj)
    (h : cs.length = os.length) : inorderKids (c :: cs) os = inorder c ++ kidsAfter os cs := by
  induction cs generalizing c os with
  | nil =>
    cases os with
    | nil => simp [inorderKids, kidsAfter]
    | cons o os => simp at h
  | cons d ds ih =>
    cases os with
    | nil => simp at h
    | cons o os =>
      simp only [List.length_cons, add_left_inj] at h
      simp [inorderKids, kidsAfter, ih d os h]

/-- In-order records of an internal node, taken apart at child `i`. -/
theorem inorderKids_split (cs : List TreeNode) (os : List DbObj) (i : Nat)
    (h : cs.length = os.length + 1) (hi : i ≤ os.length) :
    inorderKids cs os =
      kidsBefore (cs.take i) (os.take i) ++ (inorder (cs.getD i default) ++
        kidsAfter (os.drop i) (cs.drop (i + 1))) := by
  induction i generalizing cs os with
  | zero =>
    cases cs with
    | nil => simp at h
    | cons c cs =>
      simp only [List.length_cons, add_left_inj] at h
      simp [kidsBefore, inorderKids_cons_eq c cs os h]
  | succ i ih =>
    cases cs with
    | nil => simp at h
    | cons c cs =>
      cases os with
      | nil => simp at hi
      | cons o os =>
        simp only [List.length_cons, add_left_inj] at h hi
        simp only [inorderKids, List.take_succ_cons, kidsBefore, List.drop_succ_cons,
          List.getD_cons_succ]
        rw [ih cs os h (by omega)]
        simp

theorem kidsAfter_cons_eq (o : DbObj) (os : List DbObj) (cs : List TreeNode)
    (h : cs.length = os.length + 1) : kidsAfter (o :: os) cs = o :: inorderKids cs os := by
  cases cs with
  | nil => simp at h
  | cons c cs =>
    simp only [List.length_cons, add_left_inj] at h
    simp [kidsAfter, inorderKids_cons_eq c cs os h]

theorem kidsBefore_append (cs1 cs2 : List TreeNode) (os1 os2 : List DbObj)
    (h : cs1.length = os1.length) :
    kidsBefore (cs1 ++ cs2) (os1 ++ os2) = kidsBefore cs1 os1 ++ kidsBefore cs2 os2 := by
  induction cs1 generalizing os1 with
  | nil =>
    cases os1 with
    | nil => simp [kidsBefore]
    | cons o os => simp at h
  | cons c cs ih =>
    cases os1 with
    | nil => simp at h
    | cons o os =>
      simp only [List.length_cons, add_left_inj] at h
      simp [kidsBefore, ih os h]

theorem kidsAfter_append (os1 os2 : List DbObj) (cs1 cs2 : List TreeNode)
    (h : cs1.length = os1.length) :
    kidsAfter (os1 ++ os2) (cs1 ++ cs2) = kidsAfter os1 cs1 ++ kidsAfter os2 cs2 := by
  induction cs1 generalizing os1 with
  | nil =>
    cases os1 with
    | nil => simp [kidsAfter]
    | cons o os => simp at h
  | cons c cs ih =>
    cases os1 with
    | nil => simp at h
    | cons o os =>
      simp only [List.length_cons, add_left_inj] at h
      simp [kidsAfter, ih os h]

/-- In-order records of an internal node whose children and records are given as
a prefix of pairs followed by a remainder. -/
theorem inorderKids_append (cs1 cs2 : List TreeNode) (os1 os2 : List DbObj)
    (h : cs1.length = os1.length) :
    inorderKids (cs1 ++ cs2) (os1 ++ os2) = kidsBefore cs1 os1 ++ inorderKids cs2 os2 := by
  induction cs1 generalizing os1 with
  | nil =>
    cases os1 with
    | nil => simp [kidsBefore]
    | cons o os => simp at h
  | cons c cs ih =>
    cases os1 with
    | nil => simp at h
    | cons o os =>
      simp only [List.length_cons, add_left_inj] at h
      simp [kidsBefore, inorderKids, ih os h]

open TreeNode

/-! ## Consequences of the order axioms -/

namespace TotalOrderOn
variable {D : DbObj → Prop} {cmp : compareFn}

theorem ge_flip (ho : TotalOrderOn D cmp) {a b : DbObj} (ha : D a) (hb : D b)
    (h : 0 ≤ cmp a b) : cmp b a ≤ 0 := by
  have := ho.flip a b ha hb
  by_contra hc
  have h1 : 0 < cmp b a := by omega
  have := this.2 h1
  omega

theorem le_flip (ho : TotalOrderOn D cmp) {a b : DbObj} (ha : D a) (hb : D b)
    (h : cmp a b ≤ 0) : 0 ≤ cmp b a := by
  have := ho.flip b a hb ha
  by_contra hc
  have h1 : cmp b a < 0 := by omega
  have := this.1 h1
  omega

theorem refl (ho : TotalOrderOn D cmp) {a : DbObj} (ha : D a) : cmp a a = 0 := by
  have := ho.flip a a ha ha
  omega

theorem eq_symm (ho : TotalOrderOn D cmp) {a b : DbObj} (ha : D a) (hb : D b)
    (h : cmp a b = 0) : cmp b a = 0 := by
  have h1 := ho.ge_flip ha hb (by omega)
  have h2 := ho.le_flip ha hb (by omega)
  omega

theorem lt_of_lt_of_le (ho : TotalOrderOn D cmp) {a b c : DbObj} (ha : D a) (hb : D b)
    (hc : D c) (h1 : cmp a b < 0) (h2 : cmp b c ≤ 0) : cmp a c < 0 := by
  by_contra hn
  have h3 := ho.ge_flip ha hc (by omega)
  have h4 := ho.trans b c a hb hc ha h2 h3
  have := (ho.flip a b ha hb).1 h1
  omega

theorem lt_of_le_of_lt (ho : TotalOrderOn D cmp) {a b c : DbObj} (ha : D a) (hb : D b)
    (hc : D c) (h1 : cmp a b ≤ 0) (h2 : cmp b c < 0) : cmp a c < 0 := by
  by_contra hn
  have h3 := ho.ge_flip ha hc (by omega)
  have h4 := ho.trans c a b hc ha hb h3 h1
  have := (ho.flip b c hb hc).1 h2
  omega

theorem lt_trans (ho : TotalOrderOn D cmp) {a b c : DbObj} (ha : D a) (hb : D b)
    (hc : D c) (h1 : cmp a b < 0) (h2 : cmp b c < 0) : cmp a c < 0 :=
  ho.lt_of_lt_of_le ha hb hc h1 (by omega)

theorem gt_flip (ho : TotalOrderOn D cmp) {a b : DbObj} (ha : D a) (hb : D b)
    (h : 0 < cmp a b) : cmp b a < 0 :=
  (ho.flip b a hb ha).2 h

end TotalOrderOn

/-! ## Ascending lists -/

theorem Ascending.append_iff {cmp : compareFn} {l1 l2 : List DbObj} :
    Ascending cmp (l1 ++ l2) ↔
      Ascending cmp l1 ∧ Ascending cmp l2 ∧ ∀ a ∈ l1, ∀ b ∈ l2, cmp a b < 0 := by
  simp [Ascending, List.pairwise_append]

theorem Ascending.cons_iff {cmp : compareFn} {x : DbObj} {l : List DbObj} :
    Ascending cmp (x :: l) ↔ (∀ b ∈ l, cmp x b < 0) ∧ Ascending cmp l := by
  simp [Ascending]

/-- Everything up to a record that is below the key is below the key. -/
theorem Ascending.below {D : DbObj → Prop} {cmp : compareFn} (ho : TotalOrderOn D cmp)
    {p r : List DbObj} {x key : DbObj} (h : Ascending cmp (p ++ x :: r))
    (hD : ∀ a ∈ p ++ x :: r, D a) (hk : D key) (hx : cmp x key < 0) :
    ∀ a ∈ p ++ [x], cmp a key < 0 := by
  intro a ha
  rcases List.mem_append.1 ha with ha | ha
  · have h1 := (Ascending.append_iff.1 h).2.2 a ha x (by simp)
    exact ho.lt_trans (hD a (by simp [ha])) (hD x (by simp)) hk h1 hx
  · rw [List.mem_singleton] at ha
    subst ha
    exact hx

/-- Everything from a record that is above the key on is above the key. -/
theorem Ascending.above {D : DbObj → Prop} {cmp : compareFn} (ho : TotalOrderOn D cmp)
    {p r : List DbObj} {x key : DbObj} (h : Ascending cmp (p ++ x :: r))
    (hD : ∀ a ∈ p ++ x :: r, D a) (hk : D key) (hx : cmp key x < 0) :
    ∀ b ∈ x :: r, cmp key b < 0 := by
  intro b hb
  rcases List.mem_cons.1 hb with rfl | hb
  · exact hx
  · have h1 := (Ascending.cons_iff.1 (Ascending.append_iff.1 h).2.1).1 b hb
    exact ho.lt_trans hk (hD x (by simp)) (hD b (by simp [hb])) hx h1

/-- Placing a record between everything below it and everything above it keeps a
list ascending. -/
theorem Ascending.insert {cmp : compareFn} {l1 l2 : List DbObj} {k : DbObj}
    (h : Ascending cmp (l1 ++ l2)) (h1 : ∀ a ∈ l1, cmp a k < 0) (h2 : ∀ b ∈ l2, cmp k b < 0) :
    Ascending cmp (l1 ++ k :: l2) := by
  rw [Ascending.append_iff] at h ⊢
  refine ⟨h.1, Ascending.cons_iff.2 ⟨h2, h.2.1⟩, ?_⟩
  intro a ha b hb
  rcases List.mem_cons.1 hb with rfl | hb
  · exact h1 a ha
  · exact h.2.2 a ha b hb

/-! ## The scan of `_insertNonFull` -/

theorem scanPos_spec (cfn : compareFn) (key : DbObj) (os : List DbObj) (n : Nat) :
    (∀ j, scanPos cfn key os n ≤ j → j < n → cfn key (os.getD j []) < 0) ∧
    (0 < scanPos cfn key os n → ¬ cfn key (os.getD (scanPos cfn key os n - 1) []) < 0) := by
  induction n with
  | zero => simp [scanPos]
  | succ n ih =>
    simp only [scanPos]
    by_cases h : cfn key (os.getD n []) < 0
    · simp only [h, if_true]
      refine ⟨?_, ih.2⟩
      intro j hj hjn
      by_cases hjn' : j = n
      · subst hjn'; exact h
      · exact ih.1 j hj (by omega)
    · simp only [h, if_false]
      refine ⟨?_, ?_⟩
      · intro j hj hjn; omega
      · intro _
        simpa using h

/-! ## Shapes of the two sides of a child -/

theorem kidsBefore_take_succ (cs : List TreeNode) (os : List DbObj) (k : Nat)
    (hc : k < cs.length) (ho : k < os.length) :
    kidsBefore (cs.take (k + 1)) (os.take (k + 1)) =
      kidsBefore (cs.take k) (os.take k) ++ (inorder (cs.getD k default) ++ [os.getD k []]) := by
  induction k generalizing cs os with
  | zero =>
    cases cs with
    | nil => simp at hc
    | cons c cs =>
      cases os with
      | nil => simp at ho
      | cons o os => simp [kidsBefore]
  | succ k ih =>
    cases cs with
    | nil => simp at hc
    | cons c cs =>
      cases os with
      | nil => simp at ho
      | cons o os =>
        simp only [List.length_cons, add_lt_add_iff_right] at hc ho
        simp only [List.take_succ_cons, kidsBefore, List.getD_cons_succ]
        rw [ih cs os hc ho]
        simp

theorem kidsAfter_drop (os : List DbObj) (cs : List TreeNode) (k : Nat)
    (h : cs.length = os.length + 1) (hk : k < os.length) :
    kidsAfter (os.drop k) (cs.drop (k + 1)) =
      os.getD k [] :: (inorder (cs.getD (k + 1) default) ++
        kidsAfter (os.drop (k + 1)) (cs.drop (k + 2))) := by
  have h1 : os.drop k = os.getD k [] :: os.drop (k + 1) := by
    rw [List.getD_eq_getElem _ _ hk]
    exact List.drop_eq_getElem_cons hk
  have hk2 : k + 1 < cs.length := by omega
  have h2 : cs.drop (k + 1) = cs.getD (k + 1) default :: cs.drop (k + 2) := by
    rw [List.getD_eq_getElem _ _ hk2]
    exact List.drop_eq_getElem_cons hk2
  rw [h1, h2]
  simp [kidsAfter]

/-- In-order records of an internal node after child `k` has been replaced. -/
theorem inorderKids_set (cs : List TreeNode) (os : List DbObj) (k : Nat) (c : TreeNode)
    (h : cs.length = os.length + 1) (hk : k ≤ os.length) :
    inorderKids (cs.set k c) os =
      kidsBefore (cs.take k) (os.take k) ++ (inorder c ++
        kidsAfter (os.drop k) (cs.drop (k + 1))) := by
  rw [inorderKids_split (cs.set k c) os k (by simp [h]) hk]
  have h1 : (cs.set k c).take k = cs.take k := by
    rw [List.set_take, List.set_eq_of_length_le (by simp)]
  have h2 : (cs.set k c).drop (k + 1) = cs.drop (k + 1) := by
    rw [List.drop_set_of_lt _ _ (by omega)]
  have h3 : (cs.set k c).getD k default = c := by
    rw [List.getD_eq_getElem _ _ (by simp; omega)]
    simp
  rw [h1, h2, h3]

open TreeNode

/-- Bounds for a descent into child `k`: when the record left of the child is below
the key and the record right of it is above the key, everything left of the
child is below the key and everything right of it is above. -/
theorem descend_bounds {D : DbObj → Prop} {cmp : compareFn} (ho : TotalOrderOn D cmp)
    (cs : List TreeNode) (os : List DbObj) (k : Nat) (key : DbObj)
    (h : cs.length = os.length + 1) (hk : k ≤ os.length)
    (hasc : Ascending cmp (inorderKids cs os)) (hD : ∀ a ∈ inorderKids cs os, D a)
    (hkey : D key)
    (hlo : 0 < k → cmp (os.getD (k - 1) []) key < 0)
    (hhi : k < os.length → cmp key (os.getD k []) < 0) :
    (∀ a ∈ kidsBefore (cs.take k) (os.take k), cmp a key < 0) ∧
    (∀ b ∈ kidsAfter (os.drop k) (cs.drop (k + 1)), cmp key b < 0) := by
  rw [inorderKids_split cs os k h hk] at hasc hD
  constructor
  · cases k with
    | zero => simp [kidsBefore]
    | succ j =>
      rw [kidsBefore_take_succ cs os j (by omega) (by omega)] at hasc hD ⊢
      have e : ∀ (r : List DbObj), (kidsBefore (List.take j cs) (List.take j os) ++
          (inorder (cs.getD j default) ++ [os.getD j []])) ++ r =
          (kidsBefore (List.take j cs) (List.take j os) ++ inorder (cs.getD j default)) ++
            os.getD j [] :: r := by
        intro r; simp
      rw [e] at hasc hD
      have := Ascending.below ho hasc hD hkey (hlo (by omega))
      intro a ha
      exact this a (by simpa using ha)
  · by_cases hlt : k < os.length
    · rw [kidsAfter_drop os cs k h hlt] at hasc hD ⊢
      rw [← List.append_assoc] at hasc hD
      exact Ascending.above ho hasc hD hkey (hhi hlt)
    · have : os.drop k = [] := by
        apply List.drop_eq_nil_of_le; omega
      simp [this, kidsAfter]

theorem take_getD_drop (os : List DbObj) (k : Nat) (hk : k < os.length) :
    os.take k ++ os.getD k [] :: os.drop (k + 1) = os := by
  rw [List.getD_eq_getElem _ _ hk]
  have := List.take_append_drop k os
  rw [List.drop_eq_getElem_cons hk] at this
  exact this

theorem drop_eq_getD_cons (os : List DbObj) (k : Nat) (hk : k < os.length) :
    os.drop k = os.getD k [] :: os.drop (k + 1) := by
  rw [List.getD_eq_getElem _ _ hk]
  exact List.drop_eq_getElem_cons hk

/-- In-order records of a full child are those of the two halves `_split` makes of
it, with the median between them. -/
theorem split_child_inorder {t h : Nat} {c : TreeNode} (fl i : Nat) (q : Option Nat)
    (ht : 1 ≤ t) (hc : Shaped t c h) (hfull : c.objCount = 2 * t - 1) :
    inorder c =
      inorder ((c.setObjects (c.objects.take (t - 1))).setChildren (c.children.take t)) ++
      c.objects.getD (t - 1) [] ::
      inorder (TreeNode.mk (i + 1) c.isLeaf fl ((c.objects.drop t).take (t - 1))
          (if c.isLeaf then [] else
            (renumber 0 ((c.children.drop t).take t)).map (fun m => m.setParent (some fl))) q)
      := by
  have hlen : c.objects.length = 2 * t - 1 := hfull
  rw [shaped_iff] at hc
  rw [inorder_eq c, inorder_eq (TreeNode.mk _ _ _ _ _ _), inorder_eq (setChildren _ _)]
  simp only [isLeaf_setChildren, isLeaf_setObjects, objects_setChildren, objects_setObjects,
    children_setChildren, isLeaf_mk, objects_mk, children_mk]
  have htake : (List.drop t c.objects).take (t - 1) = List.drop t c.objects := by
    apply List.take_of_length_le
    simp; omega
  have hsub : t - 1 + 1 = t := by omega
  by_cases hl : c.isLeaf = true
  · simp only [hl, if_true]
    rw [htake]
    have := take_getD_drop c.objects (t - 1) (by omega)
    rw [hsub] at this
    exact this.symm
  · simp only [hl] at hc ⊢
    simp only [Bool.false_eq_true, if_false] at hc ⊢
    obtain ⟨_, hcl, _, _⟩ := hc
    have hcl' : c.children.length = c.objects.length + 1 := hcl
    rw [htake]
    have hr : inorderKids (List.map (fun m => m.setParent (some fl))
        (renumber 0 (List.take t (List.drop t c.children)))) (List.drop t c.objects) =
        inorderKids (List.drop t c.children) (List.drop t c.objects) := by
      apply inorderKids_congr
      rw [List.map_map]
      have : (inorder ∘ fun m => m.setParent (some fl)) = inorder := by
        funext m; simp
      rw [this, map_inorder_renumber, List.take_of_length_le (by simp; omega)]
    rw [hr]
    rw [inorderKids_split c.children c.objects (t - 1) hcl' (by omega)]
    rw [inorderKids_split (List.take t c.children) (List.take (t - 1) c.objects) (t - 1)
      (by simp; omega) (by simp; omega)]
    have e1 : List.take (t - 1) (List.take t c.children) = List.take (t - 1) c.children := by
      rw [List.take_take]; congr 1; omega
    have e2 : List.take (t - 1) (List.take (t - 1) c.objects) = List.take (t - 1) c.objects := by
      rw [List.take_take]; congr 1; omega
    have e3 : (List.take t c.children).getD (t - 1) default = c.children.getD (t - 1) default := by
      rw [List.getD_eq_getElem _ _ (by simp; omega), List.getD_eq_getElem _ _ (by omega)]
      simp
    have e4 : List.drop (t - 1) (List.take (t - 1) c.objects) = [] := by
      apply List.drop_eq_nil_of_le; simp
    have e5 : List.drop (t - 1) c.objects = c.objects.getD (t - 1) [] :: List.drop t c.objects := by
      rw [drop_eq_getD_cons c.objects (t - 1) (by omega), hsub]
    rw [e1, e2, e3, e4, e5, hsub]
    rw [kidsAfter_cons_eq _ _ _ (by simp; omega)]
    simp [kidsAfter]

/-- In-order records are unchanged by `_split`. -/
theorem split_inorder {t ns fl : Nat} {p : TreeNode} {i h : Nat} (ht : 1 ≤ t)
    (hp : Shaped t p h) (hleaf : p.isLeaf = false)
    (hi : i < p.children.length) (hc : (p.children.getD i default).objCount = 2 * t - 1) :
    inorder (_split t ns fl p i (p.children.getD i default)).1 = inorder p := by
  rw [shaped_iff] at hp
  simp only [hleaf, Bool.false_eq_true, if_false] at hp
  obtain ⟨_, hlen, hh, hkids⟩ := hp
  have hlen' : p.children.length = p.objects.length + 1 := hlen
  have hcs := (hkids _ (getD_mem hi)).2
  rw [inorder_eq, inorder_eq p]
  simp only [split_isLeaf, hleaf, Bool.false_eq_true, if_false, split_objects, split_children]
  rw [inorderKids_append _ _ _ _ (by simp; omega)]
  rw [inorderKids_split p.children p.objects i hlen' (by omega)]
  simp only [inorderKids]
  rw [inorderKids_cons_eq _ _ _ (by simp; omega)]
  rw [kidsAfter_congr (map_inorder_renumber _ _)]
  rw [split_child_inorder fl i (some p.fpos) ht hcs hc]
  simp

open TreeNode

theorem mem_inorderKids_of_mem (cs : List TreeNode) (os : List DbObj) {o : DbObj} (h : o ∈ os) :
    o ∈ inorderKids cs os := by
  induction cs generalizing os with
  | nil => simpa [inorderKids] using h
  | cons c cs ih =>
    cases os with
    | nil => simp at h
    | cons o1 os =>
      simp only [inorderKids, List.mem_append, List.mem_cons]
      rcases List.mem_cons.1 h with rfl | h
      · exact Or.inr (Or.inl rfl)
      · exact Or.inr (Or.inr (ih os h))

/-- Records of a node are among the in-order records of its subtree. -/
theorem mem_inorder_of_mem_objects {n : TreeNode} {o : DbObj} (h : o ∈ n.objects) :
    o ∈ n.inorder := by
  rw [inorder_eq]
  split
  · exact h
  · exact mem_inorderKids_of_mem _ _ h

theorem take_succ_getD (os : List DbObj) (j : Nat) (hj : j < os.length) :
    os.take (j + 1) = os.take j ++ [os.getD j []] := by
  rw [List.take_succ, List.getD_eq_getElem _ _ hj, List.getElem?_eq_getElem hj]
  rfl

theorem getD_mem_objects {os : List DbObj} {j : Nat} (hj : j < os.length) :
    os.getD j [] ∈ os := by
  rw [List.getD_eq_getElem _ _ hj]
  exact List.getElem_mem hj

/-- Position found by the scan, in terms of the order: the record left of it is
below the key and the record at it is above the key. -/
theorem scanPos_bounds {D : DbObj → Prop} {cmp : compareFn} (ho : TotalOrderOn D cmp)
    (key : DbObj) (os : List DbObj) (hkey : D key)
    (hD : ∀ r ∈ os, D r ∧ cmp key r ≠ 0) :
    (0 < scanPos cmp key os os.length →
      cmp (os.getD (scanPos cmp key os os.length - 1) []) key < 0) ∧
    (scanPos cmp key os os.length < os.length →
      cmp key (os.getD (scanPos cmp key os os.length) []) < 0) := by
  have hs := scanPos_spec cmp key os os.length
  have hle := scanPos_le cmp key os os.length
  constructor
  · intro hp
    have h1 := hs.2 hp
    have hm := @getD_mem_objects os (scanPos cmp key os os.length - 1) (by omega)
    have h2 := hD _ hm
    exact ho.gt_flip hkey h2.1 (by omega)
  · intro hp
    exact hs.1 _ (le_refl _) hp

/-- One level of an insertion: when the insertion into child `k` puts the key at its
sorted position among the records below that child, the same holds for the
node. -/
theorem insert_descend {D : DbObj → Prop} {cmp : compareFn} (ho : TotalOrderOn D cmp)
    {t h : Nat} {q : TreeNode} {k : Nat} {key : DbObj} {r : TreeNode}
    (hq : Shaped t q h) (hl : q.isLeaf = false) (hk : k ≤ q.objCount)
    (hasc : Ascending cmp (inorder q)) (hD : ∀ a ∈ inorder q, D a) (hkey : D key)
    (hlo : 0 < k → cmp (q.objects.getD (k - 1) []) key < 0)
    (hhi : k < q.objCount → cmp key (q.objects.getD k []) < 0)
    (hr : ∃ c1 c2, inorder (q.children.getD k default) = c1 ++ c2 ∧
      inorder r = c1 ++ key :: c2 ∧ (∀ a ∈ c1, cmp a key < 0) ∧ (∀ b ∈ c2, cmp key b < 0)) :
    ∃ l1 l2, inorder q = l1 ++ l2 ∧
      inorder (q.setChildren (q.children.set k r)) = l1 ++ key :: l2 ∧
      (∀ a ∈ l1, cmp a key < 0) ∧ (∀ b ∈ l2, cmp key b < 0) := by
  rw [shaped_iff] at hq
  simp only [hl, Bool.false_eq_true, if_false] at hq
  obtain ⟨_, hlen, _, _⟩ := hq
  have hlen' : q.children.length = q.objects.length + 1 := hlen
  have hk' : k ≤ q.objects.length := hk
  obtain ⟨c1, c2, e1, e2, b1, b2⟩ := hr
  rw [inorder_eq q] at hasc hD
  simp only [hl, Bool.false_eq_true, if_false] at hasc hD
  obtain ⟨d1, d2⟩ := descend_bounds ho q.children q.objects k key hlen' hk' hasc hD hkey hlo hhi
  refine ⟨kidsBefore (q.children.take k) (q.objects.take k) ++ c1,
    c2 ++ kidsAfter (q.objects.drop k) (q.children.drop (k + 1)), ?_, ?_, ?_, ?_⟩
  · rw [inorder_eq q]
    simp only [hl, Bool.false_eq_true, if_false]
    rw [inorderKids_split q.children q.objects k hlen' hk', e1]
    simp
  · rw [inorder_eq]
    simp only [isLeaf_setChildren, hl, Bool.false_eq_true, if_false, children_setChildren,
      objects_setChildren]
    rw [inorderKids_set q.children q.objects k r hlen' hk', e2]
    simp
  · intro a ha
    rcases List.mem_append.1 ha with ha | ha
    · exact d1 a ha
    · exact b1 a ha
  · intro b hb
    rcases List.mem_append.1 hb with hb | hb
    · exact b2 b hb
    · exact d2 b hb

/-- In-order records of child `k` are part of those of the node. -/
theorem inorder_child_sub {t h : Nat} {q : TreeNode} {k : Nat}
    (hq : Shaped t q h) (hl : q.isLeaf = false) (hk : k ≤ q.objCount) :
    ∃ p s, inorder q = p ++ (inorder (q.children.getD k default) ++ s) := by
  rw [shaped_iff] at hq
  simp only [hl, Bool.false_eq_true, if_false] at hq
  obtain ⟨_, hlen, _, _⟩ := hq
  refine ⟨kidsBefore (q.children.take k) (q.objects.take k),
    kidsAfter (q.objects.drop k) (q.children.drop (k + 1)), ?_⟩
  rw [inorder_eq q]
  simp only [hl, Bool.false_eq_true, if_false]
  exact inorderKids_split q.children q.objects k hlen hk

theorem Ascending.mid {cmp : compareFn} {p m s : List DbObj}
    (h : Ascending cmp (p ++ (m ++ s))) : Ascending cmp m :=
  (Ascending.append_iff.1 (Ascending.append_iff.1 h).2.1).1

/-- Facts a descent into child `k` inherits from the node. -/
theorem child_facts {cmp : compareFn} {t h : Nat} {q : TreeNode} {k : Nat}
    (hq : Shaped t q h) (hl : q.isLeaf = false) (hk : k ≤ q.objCount)
    (hasc : Ascending cmp (inorder q)) :
    Shaped t (q.children.getD k default) (h - 1) ∧
    t - 1 ≤ (q.children.getD k default).objCount ∧
    Ascending cmp (inorder (q.children.getD k default)) ∧
    ∀ r ∈ inorder (q.children.getD k default), r ∈ inorder q := by
  obtain ⟨p, s, e⟩ := inorder_child_sub hq hl hk
  rw [shaped_iff] at hq
  simp only [hl, Bool.false_eq_true, if_false] at hq
  obtain ⟨_, hlen, _, hkids⟩ := hq
  have hc := hkids _ (getD_mem (show k < q.children.length by omega))
  refine ⟨hc.2, hc.1, ?_, ?_⟩
  · rw [e] at hasc
    exact hasc.mid
  · intro r hr
    rw [e]
    exact List.mem_append_right _ (List.mem_append_left _ hr)

theorem split_getD_objects {t ns fl : Nat} {p : TreeNode} {i : Nat} (c : TreeNode)
    (hi : i ≤ p.objects.length) :
    (_split t ns fl p i c).1.objects.getD i [] = c.objects.getD (t - 1) [] ∧
    (0 < i → (_split t ns fl p i c).1.objects.getD (i - 1) [] = p.objects.getD (i - 1) []) ∧
    (_split t ns fl p i c).1.objects.getD (i + 1) [] = p.objects.getD i [] := by
  rw [split_objects]
  have hl : (List.take i p.objects).length = i := by simp; omega
  refine ⟨?_, ?_, ?_⟩
  · rw [List.getD_append_right _ _ _ _ (by omega)]
    simp [hl]
  · intro h0
    rw [List.getD_append _ _ _ _ (by omega)]
    rw [List.getD_eq_getElem _ _ (by omega), List.getD_eq_getElem _ _ (by omega)]
    simp
  · rw [List.getD_append_right _ _ _ _ (by omega)]
    simp only [hl, Nat.add_sub_cancel_left, List.getD_cons_succ]
    by_cases hlt : i < p.objects.length
    · rw [List.getD_eq_getElem _ _ (by simp; omega), List.getD_eq_getElem _ _ hlt]
      simp
    · rw [List.getD_eq_default _ _ (by simp; omega), List.getD_eq_default _ _ (by omega)]

/-- In-order records after `_insertNonFull`: the key sits between the records
below it and the records above it, the others are as before. -/
theorem insertNonFull_inorder {D : DbObj → Prop} {cmp : compareFn} (ho : TotalOrderOn D cmp)
    {t : Nat} (ns : Nat) (key : DbObj) (ht : 1 ≤ t) (hkey : D key) :
    ∀ (fuel fl : Nat) (node : TreeNode) (h : Nat), Shaped t node h →
      node.objCount < 2 * t - 1 → h < fuel → Ascending cmp (inorder node) →
      (∀ r ∈ inorder node, D r ∧ cmp key r ≠ 0) →
      ∃ l1 l2, inorder node = l1 ++ l2 ∧
        inorder (_insertNonFull cmp t ns fuel fl node key).1 = l1 ++ key :: l2 ∧
        (∀ a ∈ l1, cmp a key < 0) ∧ (∀ b ∈ l2, cmp key b < 0) := by
  intro fuel
  induction fuel with
  | zero => intro fl node h _ _ hf; omega
  | succ fuel ih =>
    intro fl node h hn hnf hf hasc hD
    have hn0 := hn
    rw [shaped_iff] at hn
    have hsp := scanPos_le cmp key node.objects node.objCount
    have hob : ∀ r ∈ node.objects, D r ∧ cmp key r ≠ 0 := fun r hr =>
      hD r (mem_inorder_of_mem_objects hr)
    have hb := scanPos_bounds ho key node.objects hkey hob
    simp only [_insertNonFull]
    by_cases hl : node.isLeaf = true
    · simp only [hl, if_true]
      rw [inorder_eq node] at hasc hD ⊢
      simp only [hl, if_true] at hasc hD ⊢
      rw [inorder_eq]
      simp only [isLeaf_setObjects, hl, if_true, objects_setObjects]
      generalize hp : scanPos cmp key node.objects node.objCount = p at *
      have hp' : scanPos cmp key node.objects node.objects.length = p := hp
      rw [hp'] at hb
      have hpl : p ≤ node.objects.length := hsp
      refine ⟨node.objects.take p, node.objects.drop p, (List.take_append_drop _ _).symm, rfl,
        ?_, ?_⟩
      · cases p with
        | zero => simp
        | succ j =>
          have hj : j < node.objects.length := by omega
          have e : node.objects = node.objects.take j ++ node.objects.getD j [] ::
              node.objects.drop (j + 1) := (take_getD_drop _ _ hj).symm
          rw [e] at hasc hD
          have := Ascending.below ho hasc (fun a ha => (hD a ha).1) hkey (hb.1 (by omega))
          intro a ha
          apply this
          rw [take_succ_getD _ _ hj] at ha
          exact ha
      · by_cases hlt : p < node.objects.length
        · have e : node.objects = node.objects.take p ++ node.objects.getD p [] ::
              node.objects.drop (p + 1) := (take_getD_drop _ _ hlt).symm
          rw [e] at hasc hD
          have := Ascending.above ho hasc (fun a ha => (hD a ha).1) hkey (hb.2 hlt)
          rw [drop_eq_getD_cons _ _ hlt]
          exact this
        · have : node.objects.drop p = [] := List.drop_eq_nil_of_le (by omega)
          simp [this]
    · have hl0 : node.isLeaf = false := by simpa using hl
      simp only [hl0, Bool.false_eq_true, if_false] at hn ⊢
      obtain ⟨_, hlen, hh, hkids⟩ := hn
      generalize hp : scanPos cmp key node.objects node.objCount = p at *
      have hp' : scanPos cmp key node.objects node.objects.length = p := hp
      rw [hp'] at hb
      have hi : p < node.children.length := by omega
      have hDall : ∀ a ∈ inorder node, D a := fun a ha => (hD a ha).1
      by_cases hfull : (node.children.getD p default).objCount = t * 2 - 1
      · simp only [hfull, if_true]
        obtain ⟨hs1, hs2, hs3, hs4⟩ := @split_shaped _ ns fl _ _ _ ht hn0 hl0 hnf hi
          (by omega)
        have hsi := @split_inorder _ ns fl _ _ _ ht hn0 hl0 hi (by omega)
        obtain ⟨g1, g2, g3⟩ := @split_getD_objects t ns fl node p (node.children.getD p default) hsp
        generalize hS : _split t ns fl node p (node.children.getD p default) = S at *
        have hsl : S.1.isLeaf = false := by rw [← hS]; simpa using hl0
        have hmedmem : S.1.objects.getD p [] ∈ inorder node := by
          rw [← hsi]
          apply mem_inorder_of_mem_objects
          apply getD_mem_objects
          have : S.1.objCount = S.1.objects.length := rfl
          omega
        have hmed := hD _ hmedmem
        have hasc' : Ascending cmp (inorder S.1) := by rw [hsi]; exact hasc
        have hD' : ∀ a ∈ inorder S.1, D a := by rw [hsi]; exact hDall
        by_cases hgt : cmp key (S.1.objects.getD p []) > 0
        · simp only [hgt, if_true]
          obtain ⟨f1, f2, f3, f4⟩ := @child_facts _ _ _ _ (p + 1) hs1 hsl (by omega) hasc'
          have hrec := ih S.2 (S.1.children.getD (p + 1) default) (h - 1) f1 (by omega)
            (by omega) f3 (fun r hr => hD r (by rw [← hsi]; exact f4 r hr))
          have := @insert_descend _ _ ho _ _ _ (p + 1) key _ hs1 hsl (by omega) hasc' hD' hkey
            (fun _ => by
              simp only [Nat.add_sub_cancel]
              exact ho.gt_flip hkey hmed.1 hgt)
            (fun hlt => by
              rw [g3]
              exact hb.2 (by
                have : node.objCount = node.objects.length := rfl
                omega))
            hrec
          rw [hsi] at this
          exact this
        · simp only [hgt, if_false]
          have hlt0 : cmp key (S.1.objects.getD p []) < 0 := by
            have := hmed.2
            omega
          obtain ⟨f1, f2, f3, f4⟩ := @child_facts _ _ _ _ p hs1 hsl (by omega) hasc'
          have hrec := ih S.2 (S.1.children.getD p default) (h - 1) f1 (by omega)
            (by omega) f3 (fun r hr => hD r (by rw [← hsi]; exact f4 r hr))
          have := @insert_descend _ _ ho _ _ _ p key _ hs1 hsl (by omega) hasc' hD' hkey
            (fun h0 => by
              rw [g2 h0]
              exact hb.1 h0)
            (fun _ => hlt0)
            hrec
          rw [hsi] at this
          exact this
      · simp only [hfull, if_false]
        obtain ⟨f1, f2, f3, f4⟩ := @child_facts _ _ _ _ p hn0 hl0 hsp hasc
        have hcs := f1
        rw [shaped_iff] at hcs
        have hrec := ih fl (node.children.getD p default) (h - 1) f1 (by omega)
          (by omega) f3 (fun r hr => hD r (f4 r hr))
        exact @insert_descend _ _ ho _ _ _ p key _ hn0 hl0 hsp hasc hDall hkey
          hb.1 hb.2 hrec

open TreeNode

/-- In-order records after `_insert`. -/
theorem insert_inorder {D : DbObj → Prop} {cmp : compareFn} (ho : TotalOrderOn D cmp)
    {t : Nat} (ns fl : Nat) (key : DbObj) (ht2 : 2 ≤ t) (hkey : D key)
    {root : TreeNode} {h : Nat} (hr : Shaped t root h)
    (hasc : Ascending cmp (inorder root)) (hD : ∀ r ∈ inorder root, D r ∧ cmp key r ≠ 0) :
    ∃ l1 l2, inorder root = l1 ++ l2 ∧
      inorder (_insert cmp t ns fl root key).1 = l1 ++ key :: l2 ∧
      (∀ a ∈ l1, cmp a key < 0) ∧ (∀ b ∈ l2, cmp key b < 0) := by
  have ht : 1 ≤ t := by omega
  have hh := hr.height_eq
  simp only [_insert]
  by_cases hfull : root.objCount = t * 2 - 1
  · simp only [hfull, if_true]
    have hnew : Shaped t (((_allocateNode ns fl).1.setIsLeaf false).setChildren
        [(root.setChildNo 0).setParent (some (_allocateNode ns fl).1.fpos)]) (h + 1) := by
      rw [shaped_iff]
      simp [_allocateNode, hr]
      omega
    have hin : inorder (((_allocateNode ns fl).1.setIsLeaf false).setChildren
        [(root.setChildNo 0).setParent (some (_allocateNode ns fl).1.fpos)]) = inorder root := by
      rw [inorder_eq]
      simp [_allocateNode, inorderKids]
    have hs := @split_shaped _ ns ((_allocateNode ns fl).2) _ 0 _ ht hnew (by simp)
      (by simp [_allocateNode, objCount]; omega) (by simp) (by simp; omega)
    have hsi := @split_inorder _ ns ((_allocateNode ns fl).2) _ 0 _ ht hnew
      (by simp) (by simp) (by simp; omega)
    simp only [children_setChildren, List.getD_cons_zero] at hs hsi
    rw [hin] at hsi
    have hcnt : (((_allocateNode ns fl).1.setIsLeaf false).setChildren
        [(root.setChildNo 0).setParent (some (_allocateNode ns fl).1.fpos)]).objCount = 0 := by
      simp [_allocateNode, objCount]
    rw [hcnt] at hs
    generalize _split t ns (_allocateNode ns fl).2
      (((_allocateNode ns fl).1.setIsLeaf false).setChildren
        [(root.setChildNo 0).setParent (some (_allocateNode ns fl).1.fpos)]) 0
      ((root.setChildNo 0).setParent (some (_allocateNode ns fl).1.fpos)) = S at hs hsi ⊢
    have := insertNonFull_inorder ho ns key ht hkey (root.height + 1) S.2 S.1 (h + 1) hs.1
      (by omega) (by omega) (by rw [hsi]; exact hasc) (by rw [hsi]; exact hD)
    rw [hsi] at this
    exact this
  · simp only [hfull, if_false]
    have hr' := hr
    rw [shaped_iff] at hr'
    exact insertNonFull_inorder ho ns key ht hkey _ _ _ h hr (by omega) (by omega) hasc hD

theorem mem_inorderKids_of_child (cs : List TreeNode) (os : List DbObj) {k : Nat}
    (hk : k < cs.length) (hko : k ≤ os.length) {r : DbObj}
    (h : r ∈ inorder (cs.getD k default)) : r ∈ inorderKids cs os := by
  induction cs generalizing os k with
  | nil => simp at hk
  | cons c cs ih =>
    cases k with
    | zero =>
      simp only [List.getD_cons_zero] at h
      cases os with
      | nil => simpa [inorderKids] using h
      | cons o os => simp [inorderKids, h]
    | succ k =>
      cases os with
      | nil => simp at hko
      | cons o os =>
        simp only [List.getD_cons_succ] at h
        simp only [List.length_cons, add_lt_add_iff_right, add_le_add_iff_right] at hk hko
        simp only [inorderKids, List.mem_append, List.mem_cons]
        exact Or.inr (Or.inr (ih os hk hko h))

/-- Comparisons behind the result of the scan of `findPos`: every record before the
reported slot compares below the key, and the record at the slot compares
equal (`ECP_INTHIS`) or above (`ECP_INLEFT`). -/
theorem findPosLoop_spec (key : DbObj) (cfn : compareFn) (leaf : Bool) :
    ∀ (os : List DbObj) (ctr : Nat),
      ((findPosLoop key cfn leaf os ctr).2 = EChildPos.ECP_INTHIS →
        ∃ j, j < os.length ∧ (findPosLoop key cfn leaf os ctr).1 = ctr + j ∧
          cfn key (os.getD j []) = 0 ∧ ∀ i, i < j → 0 < cfn key (os.getD i [])) ∧
      ((findPosLoop key cfn leaf os ctr).2 = EChildPos.ECP_INLEFT →
        ∃ j, j < os.length ∧ (findPosLoop key cfn leaf os ctr).1 = ctr + j ∧
          cfn key (os.getD j []) < 0 ∧ ∀ i, i < j → 0 < cfn key (os.getD i [])) ∧
      ((findPosLoop key cfn leaf os ctr).2 = EChildPos.ECP_INRIGHT →
        ∀ i, i < os.length → 0 < cfn key (os.getD i [])) ∧
      ((findPosLoop key cfn leaf os ctr).2 = EChildPos.ECP_NONE →
        leaf = true ∧ ∃ j, j ≤ os.length ∧ (∀ i, i < j → 0 < cfn key (os.getD i [])) ∧
          (j < os.length → cfn key (os.getD j []) < 0)) := by
  intro os
  induction os with
  | nil =>
    intro ctr
    cases leaf <;> simp [findPosLoop]
  | cons o os ih =>
    intro ctr
    simp only [findPosLoop]
    by_cases h0 : cfn key o = 0
    · simp only [h0, if_true, reduceCtorEq, false_implies, and_true, true_implies]
      exact ⟨0, by simp, by simp, by simpa using h0, by simp⟩
    · simp only [h0, if_false]
      by_cases h1 : cfn key o < 0
      · cases leaf
        · simp only [h1, if_true, Bool.false_eq_true, if_false, reduceCtorEq, false_implies,
            true_and, and_true, true_implies]
          exact ⟨0, by simp, by simp, by simpa using h1, by simp⟩
        · simp only [h1, if_true, reduceCtorEq, false_implies, true_and, true_implies]
          exact ⟨0, by simp, by simp, fun _ => by simpa using h1⟩
      · simp only [h1, if_false]
        have hpos : 0 < cfn key o := by omega
        have := ih (ctr + 1)
        have shift : ∀ j, (∀ i, i < j → 0 < cfn key (os.getD i [])) →
            ∀ i, i < j + 1 → 0 < cfn key ((o :: os).getD i []) := by
          intro j hj i hi
          cases i with
          | zero => simpa using hpos
          | succ i => simpa using hj i (by omega)
        refine ⟨fun h => ?_, fun h => ?_, fun h => ?_, fun h => ?_⟩
        · obtain ⟨j, hj, e, hz, hb⟩ := this.1 h
          exact ⟨j + 1, by simp; omega, by omega, by simpa using hz, shift j hb⟩
        · obtain ⟨j, hj, e, hz, hb⟩ := this.2.1 h
          exact ⟨j + 1, by simp; omega, by omega, by simpa using hz, shift j hb⟩
        · have hb := this.2.2.1 h
          intro i hi
          exact shift os.length hb i (by simpa using hi)
        · obtain ⟨hl, j, hj, hb, hz⟩ := this.2.2.2 h
          refine ⟨hl, j + 1, by simp; omega, shift j hb, fun hlt => ?_⟩
          simpa using hz (by simpa using hlt)

/-- A key that compares unequal to every record of the subtree is not found. -/
theorem search_none (cmp : compareFn) (key : DbObj) :
    ∀ (fuel : Nat) (node : TreeNode) (cfn : Option compareFn),
      (∀ r ∈ inorder node, cmp key r ≠ 0) → (∀ r ∈ node.objects, (cfn.getD cmp) key r ≠ 0) →
      _search cmp fuel node key cfn = (none, SIZE_MAX) := by
  intro fuel
  induction fuel with
  | zero => intro node cfn _ _; rfl
  | succ fuel ih =>
    intro node cfn hne hne1
    simp only [_search]
    split
    · rename_i hmax
      generalize hop : node.findPos key (cfn.getD cmp) = op at hmax
      obtain ⟨i, pos⟩ := op
      have hsub : ∀ k, k ≤ node.objCount → node.isLeaf = false →
          ∀ r ∈ inorder (node.children.getD k default), cmp key r ≠ 0 := by
        intro k hk hl r hr
        by_cases hkc : k < node.children.length
        · apply hne
          rw [inorder_eq]
          simp only [hl, Bool.false_eq_true, if_false]
          exact mem_inorderKids_of_child _ _ hkc hk hr
        · rw [List.getD_eq_default _ _ (by omega)] at hr
          simp [default, TreeNode.new, inorder] at hr
      cases pos with
      | ECP_NONE => rfl
      | ECP_INTHIS =>
        exfalso
        have hi := @findPos_inthis node key (cfn.getD cmp) (by rw [hop])
        rw [hop] at hi
        obtain ⟨j, hj, e, hz, _⟩ := (findPosLoop_spec key (cfn.getD cmp) node.isLeaf
          node.objects 0).1 (by have := hop; simp only [findPos] at this; rw [this])
        exact hne1 _ (getD_mem_objects hj) hz
      | ECP_INLEFT =>
        have hi := @findPos_inleft node key (cfn.getD cmp) (by rw [hop])
        rw [hop] at hi
        simp only
        apply ih
        · exact hsub i (by omega) hi.1
        · intro r hr
          exact hsub i (by omega) hi.1 r (mem_inorder_of_mem_objects hr)
      | ECP_INRIGHT =>
        have hi := @findPos_inright node key (cfn.getD cmp) (by rw [hop])
        rw [hop] at hi
        obtain ⟨hpos, hdec⟩ := decr_ne_max (by rw [← hi.2]; exact hmax)
        simp only at hi
        simp only
        apply ih
        · exact hsub (i + 1) (by omega) hi.1
        · intro r hr
          exact hsub (i + 1) (by omega) hi.1 r (mem_inorder_of_mem_objects hr)
    · rfl

open TreeNode

/-! ## From the invariants of the data model to an ascending in-order sequence -/

theorem asc_kids {D : DbObj → Prop} {cmp : compareFn} (ho : TotalOrderOn D cmp) :
    ∀ (os : List DbObj) (cs : List TreeNode), cs.length = os.length + 1 →
      (∀ c ∈ cs, Ascending cmp (inorder c)) → Ascending cmp os →
      (∀ i, i < os.length →
        (∀ r ∈ inorder (cs.getD i default), cmp r (os.getD i []) < 0) ∧
        (∀ r ∈ inorder (cs.getD (i + 1) default), cmp (os.getD i []) r < 0)) →
      (∀ r ∈ inorderKids cs os, D r) →
      Ascending cmp (inorderKids cs os) ∧
      ∀ x, D x → (∀ r ∈ inorder (cs.getD 0 default), cmp x r < 0) → (∀ o ∈ os, cmp x o < 0) →
        ∀ b ∈ inorderKids cs os, cmp x b < 0 := by
  intro os
  induction os with
  | nil =>
    intro cs hlen hc _ _ _
    cases cs with
    | nil => simp at hlen
    | cons c cs =>
      simp only [inorderKids, List.getD_cons_zero]
      exact ⟨hc c (by simp), fun x _ hx _ => hx⟩
  | cons o os ih =>
    intro cs hlen hc hso hsep hD
    cases cs with
    | nil => simp at hlen
    | cons c cs =>
      simp only [List.length_cons, add_left_inj] at hlen
      have hso' := Ascending.cons_iff.1 hso
      obtain ⟨i1, i2⟩ := ih cs hlen (fun x hx => hc x (by simp [hx])) hso'.2
        (fun i hi => by
          have := hsep (i + 1) (by simp; omega)
          simpa using this)
        (fun r hr => hD r (by simp [inorderKids, hr]))
      have s0 := hsep 0 (by simp)
      simp only [List.getD_cons_zero, zero_add, List.getD_cons_succ] at s0
      have hDo : D o := hD o (by simp [inorderKids])
      have hrest : ∀ b ∈ inorderKids cs os, cmp o b < 0 :=
        i2 o hDo s0.2 hso'.1
      simp only [inorderKids, List.getD_cons_zero]
      constructor
      · rw [Ascending.append_iff]
        refine ⟨hc c (by simp), Ascending.cons_iff.2 ⟨hrest, i1⟩, ?_⟩
        intro a ha b hb
        rcases List.mem_cons.1 hb with rfl | hb
        · exact s0.1 a ha
        · exact ho.lt_trans (hD a (by simp [inorderKids, ha])) hDo
            (hD b (by simp [inorderKids, hb])) (s0.1 a ha) (hrest b hb)
      · intro x hx h1 h2 b hb
        rcases List.mem_append.1 hb with hb | hb
        · exact h1 b hb
        · rcases List.mem_cons.1 hb with rfl | hb
          · exact h2 _ (by simp)
          · exact ho.lt_trans hx hDo (hD b (by simp [inorderKids, hb])) (h2 o (by simp))
              (hrest b hb)

theorem nodes_child_sub {c : Nat} {l : Bool} {f : Nat} {os : List DbObj} {cs : List TreeNode}
    {p : Option Nat} {x m : TreeNode} (hx : x ∈ cs) (hm : m ∈ x.nodes) :
    m ∈ (TreeNode.mk c l f os cs p).nodes := by
  simp only [nodes, List.mem_cons]
  exact Or.inr ((nodesList_eq cs m).2 ⟨x, hx, hm⟩)

/-- Invariants 3 and 4 of the data model make the in-order sequence of a shaped tree
ascending. -/
theorem ascending_of_invariants {D : DbObj → Prop} {cmp : compareFn} (ho : TotalOrderOn D cmp)
    {t : Nat} :
    ∀ (n : TreeNode) (h : Nat), Shaped t n h → OrderInv cmp n → NodesSorted cmp n →
      (∀ r ∈ inorder n, D r) → Ascending cmp (inorder n) := by
  intro n
  induction n using TreeNode.induct with
  | step c l f os cs p ih =>
    intro h hn hord hsort hD
    have hself := mem_nodes_self (TreeNode.mk c l f os cs p)
    rw [shaped_iff] at hn
    rw [inorder_eq] at hD ⊢
    by_cases hl : l = true
    · simp only [isLeaf_mk, hl, if_true, objects_mk] at hD ⊢
      exact hsort _ hself
    · have hl0 : l = false := by simpa using hl
      simp only [isLeaf_mk, hl0, Bool.false_eq_true, if_false, objects_mk, children_mk,
        objCount_mk] at hD hn ⊢
      obtain ⟨_, hlen, hh, hkids⟩ := hn
      have hsep := hord _ hself (by simp [hl0])
      refine (asc_kids ho os cs hlen ?_ (hsort _ hself) ?_ hD).1
      · intro x hx
        apply ih x hx (h - 1) (hkids x hx).2
        · intro m hm hml
          exact hord m (nodes_child_sub hx hm) hml
        · intro m hm
          exact hsort m (nodes_child_sub hx hm)
        · intro r hr
          obtain ⟨k, hk, rfl⟩ := List.getElem_of_mem hx
          apply hD
          apply mem_inorderKids_of_child cs os hk (by omega)
          rw [List.getD_eq_getElem _ _ hk]
          exact hr
      · intro i hi
        exact hsep i hi

/-! ## The default comparator on records of one size -/

theorem memcmp_flip : ∀ (a b : List Nat), a.length = b.length →
    (memcmp a b a.length < 0 ↔ 0 < memcmp b a b.length) := by
  intro a
  induction a with
  | nil =>
    intro b hb
    cases b with
    | nil => simp [memcmp]
    | cons y b => simp at hb
  | cons x a ih =>
    intro b hb
    cases b with
    | nil => simp at hb
    | cons y b =>
      simp only [List.length_cons, add_left_inj] at hb
      simp only [List.length_cons, memcmp]
      by_cases hxy : x = y
      · subst hxy
        simpa using ih b hb
      · have hyx : ¬ y = x := fun h => hxy h.symm
        simp only [hxy, hyx, if_false]
        omega

theorem memcmp_trans : ∀ (a b c : List Nat), a.length = b.length → b.length = c.length →
    memcmp a b a.length ≤ 0 → memcmp b c b.length ≤ 0 → memcmp a c a.length ≤ 0 := by
  intro a
  induction a with
  | nil =>
    intro b c _ _ _ _
    simp [memcmp]
  | cons x a ih =>
    intro b c hab hbc h1 h2
    cases b with
    | nil => simp at hab
    | cons y b =>
      cases c with
      | nil => simp at hbc
      | cons z c =>
        simp only [List.length_cons, add_left_inj] at hab hbc
        simp only [List.length_cons, memcmp] at h1 h2 ⊢
        by_cases hxy : x = y
        · subst hxy
          by_cases hxz : x = z
          · subst hxz
            simp only [if_true] at h1 h2 ⊢
            exact ih b c hab hbc h1 h2
          · simp only [hxz, if_false] at h2 ⊢
            exact h2
        · simp only [hxy, if_false] at h1
          by_cases hyz : y = z
          · subst hyz
            simp only [hxy, if_false]
            exact h1
          · simp only [hyz, if_false] at h2
            have hxz : ¬ x = z := by omega
            simp only [hxz, if_false]
            omega

/-- On records of one size the default comparator is a total order. -/
theorem defaultCompare_totalOrder (n : Nat) :
    TotalOrderOn (fun r => r.length = n) _defaultCompare := by
  constructor
  · intro a b ha hb
    simp only [_defaultCompare, ha, hb, min_self]
    have := memcmp_flip a b (by rw [ha, hb])
    rw [ha, hb] at this
    exact this
  · intro a b c ha hb hc h1 h2
    simp only [_defaultCompare, ha, hb, hc, min_self] at h1 h2 ⊢
    have := memcmp_trans a b c (by rw [ha, hb]) (by rw [hb, hc])
    rw [ha, hb] at this
    exact this h1 h2

open TreeNode

/-- In a valid state the in-order sequence is ascending. -/
theorem BTreeDB.Valid.ascending {db : BTreeDB} (hv : db.Valid) :
    Ascending db._compFunc db._root.inorder := by
  obtain ⟨h, hs⟩ := hv.shape
  exact ascending_of_invariants hv.order _ h hs hv.sep hv.sorted hv.sizes

/-- Value model of `put`: in a valid tree value, `BTreeDB.put` of a record of `recSize`
bytes that compares unequal to every stored record returns true, and
afterwards the in-order sequence is the previous one with the record inserted
at its sorted position.  This is the method of the source wherever `_insert`
and `_split` release no last pointer to a node, as in every state reached by
`put` calls alone; `put_faults_after_root_collapse` is a state reached with
`del` calls where the source leaves the value model. -/
theorem put_inserts_at_sorted_position (db : BTreeDB) (rec : DbObj) (hv : db.Valid)
    (hsize : rec.length = db._recSize) (hne : ∀ s ∈ db.records, db._compFunc rec s ≠ 0) :
    (db.put rec).2 = true ∧
    ∃ l1 l2, db.records = l1 ++ l2 ∧ (db.put rec).1.records = l1 ++ rec :: l2 ∧
      (∀ a ∈ l1, db._compFunc a rec < 0) ∧ (∀ b ∈ l2, db._compFunc rec b < 0) := by
  have hsearch : _search db._compFunc db._root.height db._root rec none = (none, SIZE_MAX) :=
    search_none db._compFunc rec _ _ none hne
      (fun r hr => hne r (mem_inorder_of_mem_objects hr))
  obtain ⟨h, hs⟩ := hv.shape
  have hins := insert_inorder hv.order db._nodeSize db.fileLen rec hv.degree hsize hs
    hv.ascending (fun r hr => ⟨hv.sizes r hr, hne r hr⟩)
  simp only [BTreeDB.put, BTreeDB.getRecSize, hsize, ne_eq, not_true_eq_false, if_false,
    hsearch, BTreeDB.records]
  exact ⟨trivial, hins⟩

/-- An instance of the value model of `put`: the tree with root `2` over the leaves `1` and
`3, 4, 6`, reached by `put` calls alone, and the record `5`. -/
theorem put_inserts_at_sorted_position_witness :
    (scenario [Op.put (rec4 1), Op.put (rec4 2), Op.put (rec4 3), Op.put (rec4 4),
      Op.put (rec4 6)]).Valid ∧
    (rec4 5).length = (scenario [Op.put (rec4 1), Op.put (rec4 2), Op.put (rec4 3),
      Op.put (rec4 4), Op.put (rec4 6)])._recSize ∧
    ((scenario [Op.put (rec4 1), Op.put (rec4 2), Op.put (rec4 3), Op.put (rec4 4),
      Op.put (rec4 6)]).put (rec4 5)).2 = true ∧
    ∃ l1 l2, (scenario [Op.put (rec4 1), Op.put (rec4 2), Op.put (rec4 3), Op.put (rec4 4),
        Op.put (rec4 6)]).records = l1 ++ l2 ∧
      ((scenario [Op.put (rec4 1), Op.put (rec4 2), Op.put (rec4 3), Op.put (rec4 4),
        Op.put (rec4 6)]).put (rec4 5)).1.records = l1 ++ rec4 5 :: l2 ∧
      (∀ a ∈ l1, (scenario [Op.put (rec4 1), Op.put (rec4 2), Op.put (rec4 3),
        Op.put (rec4 4), Op.put (rec4 6)])._compFunc a (rec4 5) < 0) ∧
      (∀ b ∈ l2, (scenario [Op.put (rec4 1), Op.put (rec4 2), Op.put (rec4 3),
        Op.put (rec4 4), Op.put (rec4 6)])._compFunc (rec4 5) b < 0) :=
  have hv : (scenario [Op.put (rec4 1), Op.put (rec4 2), Op.put (rec4 3), Op.put (rec4 4),
      Op.put (rec4 6)]).Valid :=
    { degree := by decide
      order := defaultCompare_totalOrder 4
      shape := (run_shapeInv 4 4 2 none (by decide) _).1
      sep := by decide
      sorted := by decide
      sizes := by decide
      root := by decide }
  ⟨hv, by decide, put_inserts_at_sorted_position _ _ hv (by decide) (by decide)⟩

open TreeNode

/-- A record that compares equal to the key lies below the child the key's position
points to. -/
theorem equal_in_child {D : DbObj → Prop} {cmp : compareFn} (ho : TotalOrderOn D cmp)
    {t h : Nat} {q : TreeNode} {k : Nat} {key r : DbObj}
    (hq : Shaped t q h) (hl : q.isLeaf = false) (hk : k ≤ q.objCount)
    (hasc : Ascending cmp (inorder q)) (hD : ∀ a ∈ inorder q, D a) (hkey : D key)
    (hlo : 0 < k → cmp (q.objects.getD (k - 1) []) key < 0)
    (hhi : k < q.objCount → cmp key (q.objects.getD k []) < 0)
    (hr : r ∈ inorder q) (hz : cmp key r = 0) :
    r ∈ inorder (q.children.getD k default) := by
  have hq0 := hq
  rw [shaped_iff] at hq
  simp only [hl, Bool.false_eq_true, if_false] at hq
  obtain ⟨_, hlen, _, _⟩ := hq
  have hDr := hD r hr
  rw [inorder_eq q] at hasc hD hr
  simp only [hl, Bool.false_eq_true, if_false] at hasc hD hr
  obtain ⟨d1, d2⟩ := descend_bounds ho q.children q.objects k key hlen hk hasc hD hkey hlo hhi
  rw [inorderKids_split q.children q.objects k hlen hk] at hr
  rcases List.mem_append.1 hr with hr | hr
  · have := d1 r hr
    have := ho.eq_symm hkey hDr hz
    omega
  · rcases List.mem_append.1 hr with hr | hr
    · exact hr
    · have := d2 r hr
      omega

theorem nodes_child_sub' {q x m : TreeNode} (hx : x ∈ q.children) (hm : m ∈ x.nodes) :
    m ∈ q.nodes := by
  cases q with
  | mk c l f os cs p => exact nodes_child_sub hx hm

/-- Search finds a record that compares equal to the key whenever the subtree holds
one. -/
theorem search_finds {D : DbObj → Prop} {cmp : compareFn} (ho : TotalOrderOn D cmp)
    {t : Nat} (ht : 2 ≤ t) (hmax : 2 * t - 1 ≤ SIZE_MAX) (key : DbObj) (hkey : D key) :
    ∀ (fuel : Nat) (node : TreeNode) (h : Nat), Shaped t node h → h < fuel →
      (node.isLeaf = true ∨ 0 < node.objCount) → Ascending cmp (inorder node) →
      (∀ r ∈ inorder node, D r) → (∃ r ∈ inorder node, cmp key r = 0) →
      ∃ m ∈ nodes node, ∃ slot, slot < m.objCount ∧ slot ≠ SIZE_MAX ∧
        _search cmp fuel node key none = (some m.fpos, slot) ∧
        cmp key (m.objects.getD slot []) = 0 := by
  intro fuel
  induction fuel with
  | zero => intro node h _ hf; omega
  | succ fuel ih =>
    intro node h hn hf hroot hasc hD ⟨r, hr, hz⟩
    have hn0 := hn
    rw [shaped_iff] at hn
    have hspec := findPosLoop_spec key cmp node.isLeaf node.objects 0
    have hidx := findPosLoop_index key cmp node.isLeaf node.objects 0
    simp only [_search, Option.getD_none]
    generalize hop : node.findPos key cmp = op
    have hop' : findPosLoop key cmp node.isLeaf node.objects 0 = op := hop
    rw [hop'] at hspec hidx
    obtain ⟨i, pos⟩ := op
    simp only [zero_add] at hspec hidx
    have hcnt : node.objCount ≤ SIZE_MAX := by omega
    have hol : node.objCount = node.objects.length := rfl
    -- the descent into child `k`
    have descend : ∀ k, node.isLeaf = false → k ≤ node.objCount →
        (0 < k → cmp (node.objects.getD (k - 1) []) key < 0) →
        (k < node.objCount → cmp key (node.objects.getD k []) < 0) →
        ∃ m ∈ nodes node, ∃ slot, slot < m.objCount ∧ slot ≠ SIZE_MAX ∧
          _search cmp fuel (node.children.getD k default) key none = (some m.fpos, slot) ∧
          cmp key (m.objects.getD slot []) = 0 := by
      intro k hl hk hlo hhi
      have hin := equal_in_child ho hn0 hl hk hasc hD hkey hlo hhi hr hz
      obtain ⟨f1, f2, f3, f4⟩ := @child_facts _ _ _ _ k hn0 hl hk hasc
      simp only [hl, Bool.false_eq_true, if_false] at hn
      obtain ⟨m, hm, slot, h1, h2, h3, h4⟩ := ih (node.children.getD k default) (h - 1) f1
        (by omega) (Or.inr (by omega)) f3 (fun a ha => hD a (f4 a ha)) ⟨r, hin, hz⟩
      exact ⟨m, nodes_child_sub' (getD_mem (by omega)) hm, slot, h1, h2, h3, h4⟩
    cases pos with
    | ECP_INTHIS =>
      obtain ⟨j, hj, e, hzj, _⟩ := hspec.1 rfl
      replace e : j = i := e.symm
      subst e
      have hne : j ≠ SIZE_MAX := by omega
      simp only [ne_eq, hne, not_false_eq_true, if_true]
      exact ⟨node, mem_nodes_self node, j, hj, hne, rfl, hzj⟩
    | ECP_INLEFT =>
      obtain ⟨j, hj, e, hlt, hb⟩ := hspec.2.1 rfl
      replace e : j = i := e.symm
      subst e
      have hl := (hidx.2.1 rfl).1
      have hne : j ≠ SIZE_MAX := by omega
      simp only [ne_eq, hne, not_false_eq_true, if_true]
      exact descend j hl (by omega)
        (fun h0 => ho.gt_flip hkey (hD _ (mem_inorder_of_mem_objects
          (getD_mem_objects (by omega)))) (hb (j - 1) (by omega)))
        (fun _ => hlt)
    | ECP_INRIGHT =>
      have hb := hspec.2.2.1 rfl
      obtain ⟨hl, e⟩ := hidx.2.2 rfl
      replace e : i = decr node.objCount := by simpa using e
      have hpos : 0 < node.objCount := by
        rcases hroot with h1 | h1
        · rw [hl] at h1; cases h1
        · exact h1
      have e' : i = node.objCount - 1 := by
        rw [e]; unfold decr; rw [if_neg (by omega)]
      have hne : i ≠ SIZE_MAX := by omega
      simp only [ne_eq, hne, not_false_eq_true, if_true]
      have hk : i + 1 = node.objCount := by omega
      rw [hk]
      exact descend node.objCount hl (le_refl _)
        (fun h0 => ho.gt_flip hkey (hD _ (mem_inorder_of_mem_objects
          (getD_mem_objects (by omega)))) (hb (node.objCount - 1) (by omega)))
        (fun hlt => absurd hlt (lt_irrefl _))
    | ECP_NONE =>
      exfalso
      obtain ⟨hl, j, hj, hb, hlt⟩ := hspec.2.2.2 rfl
      rw [inorder_eq] at hasc hD hr
      simp only [hl, if_true] at hasc hD hr
      obtain ⟨k, hk, rfl⟩ := List.getElem_of_mem hr
      have hgd : node.objects.getD k [] = node.objects[k] := List.getD_eq_getElem _ _ hk
      by_cases hkj : k < j
      · have := hb k hkj
        rw [hgd] at this
        omega
      · have hjl : j < node.objects.length := by omega
        have e : node.objects = node.objects.take j ++ node.objects.getD j [] ::
            node.objects.drop (j + 1) := (take_getD_drop _ _ hjl).symm
        rw [e] at hasc hD
        have habove := Ascending.above ho hasc hD hkey (hlt hjl)
        have hmem : node.objects[k] ∈ node.objects.getD j [] :: node.objects.drop (j + 1) := by
          rw [← drop_eq_getD_cons _ _ hjl]
          rw [List.mem_iff_getElem]
          exact ⟨k - j, by simp; omega, by simp; congr 1; omega⟩
        have := habove _ hmem
        omega

open TreeNode

/-! ## In-order sequence under the restructurings of `_delete` -/

/-- In-order records of a node assembled from two nodes and a record between them. -/
theorem inorderKids_join (cs1 cs2 : List TreeNode) (os1 os2 : List DbObj) (o : DbObj)
    (h : cs1.length = os1.length + 1) :
    inorderKids (cs1 ++ cs2) (os1 ++ o :: os2) =
      inorderKids cs1 os1 ++ o :: inorderKids cs2 os2 := by
  induction os1 generalizing cs1 with
  | nil =>
    cases cs1 with
    | nil => simp at h
    | cons c cs =>
      simp only [List.length_cons, List.length_nil, zero_add, add_left_eq_self,
        List.length_eq_zero] at h
      subst h
      simp [inorderKids]
  | cons o1 os1 ih =>
    cases cs1 with
    | nil => simp at h
    | cons c cs =>
      simp only [List.length_cons, add_left_inj] at h
      simp [inorderKids, ih cs h]

/-- In-order records of an internal node, taken apart at the children `j` and `j+1`. -/
theorem inorderKids_two (cs : List TreeNode) (os : List DbObj) (j : Nat)
    (h : cs.length = os.length + 1) (hj : j < os.length) :
    inorderKids cs os =
      kidsBefore (cs.take j) (os.take j) ++ (inorder (cs.getD j default) ++
        os.getD j [] :: (inorder (cs.getD (j + 1) default) ++
          kidsAfter (os.drop (j + 1)) (cs.drop (j + 2)))) := by
  rw [inorderKids_split cs os j h (by omega), kidsAfter_drop os cs j h hj]

theorem getD_set_self (cs : List TreeNode) (k : Nat) (c : TreeNode) (hk : k < cs.length) :
    (cs.set k c).getD k default = c := by
  rw [List.getD_eq_getElem _ _ (by simp; omega)]
  simp

theorem getD_set_ne (cs : List TreeNode) (k j : Nat) (c : TreeNode) (hkj : k ≠ j) :
    (cs.set k c).getD j default = cs.getD j default := by
  simp [List.getD_eq_getElem?_getD, List.getElem?_set_ne hkj]

theorem getD_set_self_obj (os : List DbObj) (k : Nat) (o : DbObj) (hk : k < os.length) :
    (os.set k o).getD k [] = o := by
  rw [List.getD_eq_getElem _ _ (by simp; omega)]
  simp

theorem getD_set_ne_obj (os : List DbObj) (k j : Nat) (o : DbObj) (hkj : k ≠ j) :
    (os.set k o).getD j [] = os.getD j [] := by
  simp [List.getD_eq_getElem?_getD, List.getElem?_set_ne hkj]

theorem take_set_ge {α : Type} (l : List α) (k j : Nat) (a : α) (h : j ≤ k) :
    (l.set k a).take j = l.take j := by
  rw [List.set_take]
  by_cases hk : k < (l.take j).length
  · simp at hk; omega
  · exact List.set_eq_of_length_le (by omega)

/-- In-order records after the children `j`, `j+1` and the record between them have
been replaced. -/
theorem inorderKids_set2 (cs : List TreeNode) (os : List DbObj) (j : Nat) (a b : TreeNode)
    (y : DbObj) (h : cs.length = os.length + 1) (hj : j < os.length) :
    inorderKids ((cs.set j a).set (j + 1) b) (os.set j y) =
      kidsBefore (cs.take j) (os.take j) ++ (inorder a ++
        y :: (inorder b ++ kidsAfter (os.drop (j + 1)) (cs.drop (j + 2)))) := by
  rw [inorderKids_two _ _ j (by simp [h]) (by simp [hj])]
  rw [take_set_ge _ _ _ _ (by omega), take_set_ge _ _ _ _ (le_refl _),
    take_set_ge _ _ _ _ (le_refl _)]
  rw [getD_set_ne _ _ _ _ (by omega), getD_set_self _ _ _ (by omega),
    getD_set_self _ _ _ (by simp; omega), getD_set_self_obj _ _ _ hj]
  rw [List.drop_set_of_lt _ _ (by omega), List.drop_set_of_lt _ _ (by omega),
    List.drop_set_of_lt _ _ (by omega)]

theorem eraseIdx_eq_take_drop (os : List DbObj) (i : Nat) :
    os.eraseIdx i = os.take i ++ os.drop (i + 1) := by
  induction os generalizing i with
  | nil => simp
  | cons o os ih =>
    cases i with
    | zero => simp
    | succ i => simp [ih]

/-- Records and in-order sequence of the node `_merge` makes of two children. -/
theorem merge_snd_inorder {t h : Nat} {p : TreeNode} {i : Nat} (ht : 1 ≤ t)
    (hp : Shaped t p h) (hl : p.isLeaf = false) (hi : i < p.objCount)
    (h1 : (p.children.getD i default).objCount = t - 1)
    (h2 : (p.children.getD (i + 1) default).objCount = t - 1) :
    inorder (_merge t p i).2 =
      inorder (p.children.getD i default) ++ p.objects.getD i [] ::
        inorder (p.children.getD (i + 1) default) := by
  rw [shaped_iff] at hp
  simp only [hl, Bool.false_eq_true, if_false] at hp
  obtain ⟨hcnt, hlen, hh, hkids⟩ := hp
  have hm1 := hkids _ (getD_mem (show i < p.children.length by omega))
  have hm2 := hkids _ (getD_mem (show i + 1 < p.children.length by omega))
  rw [merge_snd]
  generalize p.children.getD i default = c1 at *
  generalize p.children.getD (i + 1) default = c2 at *
  have e1 : c1.objects.length = t - 1 := h1
  have e2 : c2.objects.length = t - 1 := h2
  have hl1 := hm1.2.isLeaf_iff
  have hl2 := hm2.2.isLeaf_iff
  have s1 := hm1.2
  have s2 := hm2.2
  rw [shaped_iff] at s1 s2
  rw [inorder_eq, inorder_eq c1, inorder_eq c2]
  simp only [isLeaf_setChildren, isLeaf_setObjects, objects_setChildren, objects_setObjects,
    children_setChildren]
  rw [List.take_of_length_le (by omega), List.take_of_length_le (by omega)]
  by_cases hz : h - 1 = 0
  · have l1 : c1.isLeaf = true := hl1.2 hz
    have l2 : c2.isLeaf = true := hl2.2 hz
    simp [l1, l2]
  · have l1 : c1.isLeaf = false := hm1.2.isLeaf_false hz
    have l2 : c2.isLeaf = false := hm2.2.isLeaf_false hz
    simp only [l1, l2, Bool.false_eq_true, if_false] at s1 s2 ⊢
    have hc1 : c1.children.length = c1.objects.length + 1 := s1.2.1
    have hc2 : c2.children.length = c2.objects.length + 1 := s2.2.1
    rw [List.take_of_length_le (by omega), List.take_of_length_le (by omega)]
    rw [inorderKids_join _ _ _ _ _ hc1]
    rw [inorderKids_congr (map_inorder_renumber t c2.children)]

/-- In-order records are unchanged by `_merge`. -/
theorem merge_inorder {t h : Nat} {p : TreeNode} {i : Nat} (ht : 1 ≤ t)
    (hp : Shaped t p h) (hl : p.isLeaf = false) (hi : i < p.objCount)
    (h1 : (p.children.getD i default).objCount = t - 1)
    (h2 : (p.children.getD (i + 1) default).objCount = t - 1) :
    inorder (_merge t p i).1 = inorder p := by
  have hsnd := merge_snd_inorder ht hp hl hi h1 h2
  rw [shaped_iff] at hp
  simp only [hl, Bool.false_eq_true, if_false] at hp
  obtain ⟨hcnt, hlen, hh, hkids⟩ := hp
  have hlen' : p.children.length = p.objects.length + 1 := hlen
  have hi' : i < p.objects.length := hi
  rw [inorder_eq, inorder_eq p]
  simp only [merge_isLeaf, hl, Bool.false_eq_true, if_false, merge_objects, merge_children]
  rw [eraseIdx_eq_take_drop]
  rw [inorderKids_append _ _ _ _ (by simp; omega)]
  rw [inorderKids_cons_eq _ _ _ (by simp; omega)]
  rw [kidsAfter_congr (map_inorder_renumber _ _)]
  rw [inorderKids_two p.children p.objects i hlen' hi', hsnd]
  simp

open TreeNode

theorem dropLast_getD (os : List DbObj) (h : 0 < os.length) :
    os.take (os.length - 1) ++ [os.getD (os.length - 1) []] = os := by
  have := take_getD_drop os (os.length - 1) (by omega)
  rw [List.drop_eq_nil_of_le (by omega)] at this
  exact this

theorem dropLast_getD_kids (cs : List TreeNode) (h : 0 < cs.length) :
    cs.take (cs.length - 1) ++ [cs.getD (cs.length - 1) default] = cs := by
  rw [List.getD_eq_getElem _ _ (by omega)]
  have := List.take_append_drop (cs.length - 1) cs
  rw [List.drop_eq_getElem_cons (by omega), List.drop_eq_nil_of_le (by omega)] at this
  exact this

theorem head_getD (os : List DbObj) (h : 0 < os.length) :
    os.getD 0 [] :: os.drop 1 = os := by
  have := drop_eq_getD_cons os 0 h
  simpa using this.symm

theorem head_getD_kids (cs : List TreeNode) (h : 0 < cs.length) :
    cs.getD 0 default :: cs.drop 1 = cs := by
  cases cs with
  | nil => simp at h
  | cons c cs => simp

/-- In-order records are unchanged by the rotation that takes a record from the left
sibling, and the child keeps its records. -/
theorem borrowLeft_inorder {t : Nat} {p : TreeNode} {k h : Nat} (ht : 1 ≤ t)
    (hp : Shaped t p h) (hl : p.isLeaf = false) (hk0 : 0 < k) (hk : k < p.children.length)
    (hc : (p.children.getD k default).objCount = t - 1)
    (hleft : t ≤ (p.children.getD (k - 1) default).objCount) :
    inorder (borrowLeft t p k) = inorder p ∧
    ∃ x, inorder ((borrowLeft t p k).children.getD k default) =
      x ++ inorder (p.children.getD k default) := by
  rw [shaped_iff] at hp
  simp only [hl, Bool.false_eq_true, if_false] at hp
  obtain ⟨hcnt, hlen, hh, hkids⟩ := hp
  have hlen' : p.children.length = p.objects.length + 1 := hlen
  have hm1 := hkids _ (getD_mem hk)
  have hm2 := hkids _ (getD_mem (show k - 1 < p.children.length by omega))
  obtain ⟨j, rfl⟩ : ∃ j, k = j + 1 := ⟨k - 1, by omega⟩
  simp only [Nat.add_sub_cancel] at hleft hm2
  have hj : j < p.objects.length := by omega
  have hchild : (borrowLeft t p (j + 1)).children.getD (j + 1) default =
      TreeNode.mk (if 0 < t - 1 then 2 else (p.children.getD (j + 1) default).childNo)
        (p.children.getD (j + 1) default).isLeaf (p.children.getD (j + 1) default).fpos
        (p.objects.getD j [] :: (p.children.getD (j + 1) default).objects.take (t - 1))
        (if (p.children.getD j default).isLeaf then
          (p.children.getD (j + 1) default).children.take 1 ++
            (p.children.getD (j + 1) default).children.take t
         else (p.children.getD j default).children.getD (p.children.getD j default).objCount
            default :: (p.children.getD (j + 1) default).children.take t)
        (p.children.getD (j + 1) default).parent := by
    simp only [borrowLeft, children_setChildren, Nat.add_sub_cancel]
    rw [getD_set_self _ _ _ (by simp; omega)]
  rw [hchild]
  rw [inorder_eq (borrowLeft t p (j + 1)), inorder_eq p]
  simp only [borrowLeft_isLeaf, hl, Bool.false_eq_true, if_false]
  simp only [borrowLeft, children_setChildren, objects_setChildren, objects_setObjects,
    Nat.add_sub_cancel]
  rw [inorderKids_set2 _ _ j _ _ _ hlen' hj, inorderKids_two _ _ j hlen' hj]
  generalize p.children.getD (j + 1) default = c at *
  generalize p.children.getD j default = ls at *
  have e1 : c.objects.length = t - 1 := hc
  have e2 : ls.objCount = ls.objects.length := rfl
  have hlc := hm1.2.isLeaf_iff
  have hll := hm2.2.isLeaf_iff
  have sc := hm1.2
  have sl := hm2.2
  rw [shaped_iff] at sc sl
  rw [inorder_eq (TreeNode.mk _ _ _ _ _ _), inorder_eq (setChildren _ _), inorder_eq c,
    inorder_eq ls]
  simp only [isLeaf_mk, objects_mk, children_mk, isLeaf_setChildren, isLeaf_setObjects,
    objects_setChildren, objects_setObjects, children_setChildren]
  rw [List.take_of_length_le (show c.objects.length ≤ t - 1 by omega)]
  by_cases hz : h - 1 = 0
  · have l1 : c.isLeaf = true := hlc.2 hz
    have l2 : ls.isLeaf = true := hll.2 hz
    simp only [l1, l2, if_true]
    constructor
    · have := dropLast_getD ls.objects (by omega)
      rw [e2]
      conv_rhs => rw [← this]
      simp
    · exact ⟨[p.objects.getD j []], rfl⟩
  · have l1 : c.isLeaf = false := hm1.2.isLeaf_false hz
    have l2 : ls.isLeaf = false := hm2.2.isLeaf_false hz
    simp only [l1, l2, Bool.false_eq_true, if_false] at sc sl ⊢
    have hc1 : c.children.length = c.objects.length + 1 := sc.2.1
    have hc2 : ls.children.length = ls.objects.length + 1 := sl.2.1
    rw [List.take_of_length_le (show c.children.length ≤ t by omega)]
    simp only [inorderKids]
    constructor
    · have h1 := dropLast_getD ls.objects (by omega)
      have h2 := dropLast_getD_kids ls.children (by omega)
      rw [e2]
      conv_rhs => rw [← h1, ← h2]
      rw [inorderKids_join _ _ _ _ _ (by simp; omega)]
      have e3 : ls.children.length - 1 = ls.objects.length := by omega
      simp [inorderKids, e3]
    · exact ⟨inorder (ls.children.getD ls.objects.length default) ++ [p.objects.getD j []],
        by simp [e2]⟩

/-- In-order records are unchanged by the rotation that takes a record from the right
sibling, and the child keeps its records. -/
theorem borrowRight_inorder {t : Nat} {p : TreeNode} {k h : Nat} (ht : 1 ≤ t)
    (hp : Shaped t p h) (hl : p.isLeaf = false) (hk : k + 1 < p.children.length)
    (hc : (p.children.getD k default).objCount = t - 1)
    (hright : t ≤ (p.children.getD (k + 1) default).objCount) :
    inorder (borrowRight t p k k) = inorder p ∧
    ∃ x, inorder ((borrowRight t p k k).children.getD k default) =
      inorder (p.children.getD k default) ++ x := by
  rw [shaped_iff] at hp
  simp only [hl, Bool.false_eq_true, if_false] at hp
  obtain ⟨hcnt, hlen, hh, hkids⟩ := hp
  have hlen' : p.children.length = p.objects.length + 1 := hlen
  have hm1 := hkids _ (getD_mem (show k < p.children.length by omega))
  have hm2 := hkids _ (getD_mem hk)
  have hj : k < p.objects.length := by omega
  have hchild : (borrowRight t p k k).children.getD k default =
      ((p.children.getD k default).setObjects
        ((p.children.getD k default).objects.take (t - 1) ++ [p.objects.getD k []])).setChildren
        (if (p.children.getD (k + 1) default).isLeaf then
          (p.children.getD k default).children.take (t + 1)
         else (p.children.getD k default).children.take t ++
          [(p.children.getD (k + 1) default).children.getD 0 default]) := by
    simp only [borrowRight, children_setChildren]
    rw [getD_set_self _ _ _ (by simp; omega)]
  rw [hchild]
  rw [inorder_eq (borrowRight t p k k), inorder_eq p]
  simp only [borrowRight_isLeaf, hl, Bool.false_eq_true, if_false]
  simp only [borrowRight, children_setChildren, objects_setChildren, objects_setObjects]
  rw [List.set_comm _ _ _ (by omega : k + 1 ≠ k)]
  rw [inorderKids_set2 _ _ k _ _ _ hlen' hj, inorderKids_two _ _ k hlen' hj]
  generalize p.children.getD (k + 1) default = rs at *
  generalize p.children.getD k default = c at *
  have e1 : c.objects.length = t - 1 := hc
  have e2 : rs.objCount = rs.objects.length := rfl
  have hlc := hm1.2.isLeaf_iff
  have hll := hm2.2.isLeaf_iff
  have sc := hm1.2
  have sl := hm2.2
  rw [shaped_iff] at sc sl
  rw [inorder_eq (setChildren _ _), inorder_eq (setChildren _ _), inorder_eq c,
    inorder_eq rs]
  simp only [isLeaf_setChildren, isLeaf_setObjects,
    objects_setChildren, objects_setObjects, children_setChildren]
  rw [List.take_of_length_le (show c.objects.length ≤ t - 1 by omega)]
  by_cases hz : h - 1 = 0
  · have l1 : c.isLeaf = true := hlc.2 hz
    have l2 : rs.isLeaf = true := hll.2 hz
    simp only [l1, l2, if_true]
    constructor
    · have := head_getD rs.objects (by omega)
      conv_rhs => rw [← this]
      simp
    · exact ⟨[p.objects.getD k []], rfl⟩
  · have l1 : c.isLeaf = false := hm1.2.isLeaf_false hz
    have l2 : rs.isLeaf = false := hm2.2.isLeaf_false hz
    simp only [l1, l2, Bool.false_eq_true, if_false] at sc sl ⊢
    have hc1 : c.children.length = c.objects.length + 1 := sc.2.1
    have hc2 : rs.children.length = rs.objects.length + 1 := sl.2.1
    rw [List.take_of_length_le (show c.children.length ≤ t by omega)]
    rw [List.take_of_length_le (show (List.drop 1 rs.children).length ≤ rs.objCount by
      simp; omega)]
    have hjoin := inorderKids_join c.children [rs.children.getD 0 default] c.objects []
      (p.objects.getD k []) hc1
    rw [hjoin]
    simp only [inorderKids]
    constructor
    · have h1 := head_getD rs.objects (by omega)
      have h2 := head_getD_kids rs.children (by omega)
      conv_rhs => rw [← h1, ← h2]
      simp [inorderKids]
    · exact ⟨_, rfl⟩

open TreeNode

/-- The record `_findPred` points at is the last in-order record of the subtree. -/
theorem findPred_last {t : Nat} (ht : 2 ≤ t) :
    ∀ (fuel : Nat) (c : TreeNode) (h : Nat), Shaped t c h → h < fuel → 0 < c.objCount →
      ∃ ini, inorder c = ini ++
        [(_findPred fuel c).1.objects.getD (_findPred fuel c).2 []] := by
  intro fuel
  induction fuel with
  | zero => intro c h _ hf; omega
  | succ fuel ih =>
    intro c h hc hf hpos
    have hc0 := hc
    rw [shaped_iff] at hc
    simp only [_findPred, rightmostLeaf]
    by_cases hl : c.isLeaf = true
    · simp only [hl, if_true]
      rw [inorder_eq]
      simp only [hl, if_true]
      refine ⟨c.objects.take (c.objects.length - 1), ?_⟩
      have : decr c.objCount = c.objects.length - 1 := by
        unfold decr; rw [if_neg (by omega)]; rfl
      rw [this]
      exact (dropLast_getD c.objects hpos).symm
    · have hl0 : c.isLeaf = false := by simpa using hl
      simp only [hl0, Bool.false_eq_true, if_false] at hc ⊢
      obtain ⟨_, hlen, hh, hkids⟩ := hc
      have hm := hkids _ (getD_mem (show c.objCount < c.children.length by omega))
      obtain ⟨ini, e⟩ := ih (c.children.getD c.objCount default) (h - 1) hm.2 (by omega)
        (by omega)
      simp only [_findPred] at e
      rw [inorder_eq]
      simp only [hl0, Bool.false_eq_true, if_false]
      rw [inorderKids_split c.children c.objects c.objCount hlen (le_refl _)]
      have : c.objects.drop c.objCount = [] := List.drop_eq_nil_of_le (le_refl _)
      rw [this, e]
      exact ⟨kidsBefore (List.take c.objCount c.children) (List.take c.objCount c.objects) ++
        ini, by simp [kidsAfter]⟩

/-- The record `_findSucc` points at is the first in-order record of the subtree. -/
theorem findSucc_first {t : Nat} (ht : 2 ≤ t) :
    ∀ (fuel : Nat) (c : TreeNode) (h : Nat), Shaped t c h → h < fuel → 0 < c.objCount →
      ∃ rest, inorder c =
        (_findSucc fuel c).1.objects.getD (_findSucc fuel c).2 [] :: rest := by
  intro fuel
  induction fuel with
  | zero => intro c h _ hf; omega
  | succ fuel ih =>
    intro c h hc hf hpos
    have hc0 := hc
    rw [shaped_iff] at hc
    simp only [_findSucc, leftmostLeaf]
    by_cases hl : c.isLeaf = true
    · simp only [hl, if_true]
      rw [inorder_eq]
      simp only [hl, if_true]
      exact ⟨c.objects.drop 1, (head_getD c.objects hpos).symm⟩
    · have hl0 : c.isLeaf = false := by simpa using hl
      simp only [hl0, Bool.false_eq_true, if_false] at hc ⊢
      obtain ⟨_, hlen, hh, hkids⟩ := hc
      have hm := hkids _ (getD_mem (show 0 < c.children.length by omega))
      obtain ⟨rest, e⟩ := ih (c.children.getD 0 default) (h - 1) hm.2 (by omega)
        (by omega)
      simp only [_findSucc] at e
      rw [inorder_eq]
      simp only [hl0, Bool.false_eq_true, if_false]
      rw [inorderKids_split c.children c.objects 0 hlen (Nat.zero_le _), e]
      exact ⟨rest ++ kidsAfter (List.drop 0 c.objects) (List.drop (0 + 1) c.children),
        by simp [kidsBefore]⟩

/-- In an ascending list the only record that compares equal to the last one is the
last one. -/
theorem Ascending.last_unique {D : DbObj → Prop} {cmp : compareFn} (ho : TotalOrderOn D cmp)
    {l1 l2 ini : List DbObj} {r q : DbObj} (h : Ascending cmp (l1 ++ r :: l2))
    (hD : ∀ a ∈ l1 ++ r :: l2, D a) (e : l1 ++ r :: l2 = ini ++ [q]) (hz : cmp q r = 0) :
    l1 = ini ∧ r = q ∧ l2 = [] := by
  have hl2 : l2 = [] := by
    rcases List.eq_nil_or_concat l2 with h0 | ⟨l3, z, h0⟩
    · exact h0
    · exfalso
      subst h0
      have e' : (l1 ++ r :: l3) ++ [z] = ini ++ [q] := by simpa using e
      have hzq : z = q := by simpa using (List.append_inj' e' (by simp)).2
      subst hzq
      have h1 := (Ascending.cons_iff.1 (Ascending.append_iff.1 h).2.1).1 z (by simp)
      have h2 := ho.eq_symm (hD z (by simp)) (hD r (by simp)) hz
      omega
  subst hl2
  have := List.append_inj' e (by simp)
  exact ⟨this.1, by simpa using this.2, rfl⟩

/-- In an ascending list the only record that compares equal to the first one is the
first one. -/
theorem Ascending.first_unique {cmp : compareFn}
    {l1 l2 rest : List DbObj} {r q : DbObj} (h : Ascending cmp (l1 ++ r :: l2))
    (e : l1 ++ r :: l2 = q :: rest) (hz : cmp q r = 0) :
    l1 = [] ∧ r = q ∧ l2 = rest := by
  cases l1 with
  | nil =>
    simp only [List.nil_append, List.cons.injEq] at e
    exact ⟨rfl, e.1, e.2⟩
  | cons a l1 =>
    exfalso
    simp only [List.cons_append, List.cons.injEq] at e
    obtain ⟨rfl, _⟩ := e
    have h1 := (Ascending.append_iff.1 h).2.2 a (by simp) r (by simp)
    omega

/-- One level of a deletion: when the deletion in child `k` removes a record that
compares equal to the key, the same holds for the node. -/
theorem delete_descend {cmp : compareFn} {t h : Nat} {q : TreeNode} {k : Nat} {key : DbObj}
    {r : TreeNode} (hq : Shaped t q h) (hl : q.isLeaf = false) (hk : k ≤ q.objCount)
    (hr : ∃ c1 x c2, inorder (q.children.getD k default) = c1 ++ x :: c2 ∧
      cmp key x = 0 ∧ inorder r = c1 ++ c2) :
    ∃ l1 x l2, inorder q = l1 ++ x :: l2 ∧ cmp key x = 0 ∧
      inorder (q.setChildren (q.children.set k r)) = l1 ++ l2 := by
  rw [shaped_iff] at hq
  simp only [hl, Bool.false_eq_true, if_false] at hq
  obtain ⟨_, hlen, _, _⟩ := hq
  have hlen' : q.children.length = q.objects.length + 1 := hlen
  have hk' : k ≤ q.objects.length := hk
  obtain ⟨c1, x, c2, e1, hz, e2⟩ := hr
  refine ⟨kidsBefore (q.children.take k) (q.objects.take k) ++ c1, x,
    c2 ++ kidsAfter (q.objects.drop k) (q.children.drop (k + 1)), ?_, hz, ?_⟩
  · rw [inorder_eq q]
    simp only [hl, Bool.false_eq_true, if_false]
    rw [inorderKids_split q.children q.objects k hlen' hk', e1]
    simp
  · rw [inorder_eq]
    simp only [isLeaf_setChildren, hl, Bool.false_eq_true, if_false, children_setChildren,
      objects_setChildren]
    rw [inorderKids_set q.children q.objects k r hlen' hk', e2]
    simp

open TreeNode

/-- In-order records after child `j` and the record right of it have been replaced. -/
theorem inorderKids_set_left (cs : List TreeNode) (os : List DbObj) (j : Nat) (a : TreeNode)
    (y : DbObj) (h : cs.length = os.length + 1) (hj : j < os.length) :
    inorderKids (cs.set j a) (os.set j y) =
      kidsBefore (cs.take j) (os.take j) ++ (inorder a ++
        y :: (inorder (cs.getD (j + 1) default) ++
          kidsAfter (os.drop (j + 1)) (cs.drop (j + 2)))) := by
  rw [inorderKids_two _ _ j (by simp [h]) (by simp [hj])]
  rw [take_set_ge _ _ _ _ (le_refl _), take_set_ge _ _ _ _ (le_refl _)]
  rw [getD_set_self _ _ _ (by omega), getD_set_ne _ _ _ _ (by omega),
    getD_set_self_obj _ _ _ hj]
  rw [List.drop_set_of_lt _ _ (by omega), List.drop_set_of_lt _ _ (by omega)]

/-- In-order records after child `j+1` and the record left of it have been replaced. -/
theorem inorderKids_set_right (cs : List TreeNode) (os : List DbObj) (j : Nat) (b : TreeNode)
    (y : DbObj) (h : cs.length = os.length + 1) (hj : j < os.length) :
    inorderKids (cs.set (j + 1) b) (os.set j y) =
      kidsBefore (cs.take j) (os.take j) ++ (inorder (cs.getD j default) ++
        y :: (inorder b ++ kidsAfter (os.drop (j + 1)) (cs.drop (j + 2)))) := by
  rw [inorderKids_two _ _ j (by simp [h]) (by simp [hj])]
  rw [take_set_ge _ _ _ _ (by omega), take_set_ge _ _ _ _ (le_refl _)]
  rw [getD_set_ne _ _ _ _ (by omega), getD_set_self _ _ _ (by omega),
    getD_set_self_obj _ _ _ hj]
  rw [List.drop_set_of_lt _ _ (by omega), List.drop_set_of_lt _ _ (by omega)]

open TreeNode

/-- In-order records after `_delete` of a key that compares equal to a record of the
subtree: the call returns true and exactly that record is gone. -/
theorem delete_inorder {D : DbObj → Prop} {cmp : compareFn} (ho : TotalOrderOn D cmp)
    {t : Nat} (ht2 : 2 ≤ t) (hmax : 2 * t - 1 ≤ SIZE_MAX) :
    ∀ (fuel : Nat) (node : TreeNode) (key : DbObj) (h : Nat), Shaped t node h → h < fuel →
      (node.isLeaf = true ∨ 0 < node.objCount) → Ascending cmp (inorder node) →
      (∀ r ∈ inorder node, D r) → D key → (∃ r ∈ inorder node, cmp key r = 0) →
      (_delete cmp t fuel node key).2 = true ∧
      ∃ l1 x l2, inorder node = l1 ++ x :: l2 ∧ cmp key x = 0 ∧
        inorder (_delete cmp t fuel node key).1 = l1 ++ l2 := by
  have ht : 1 ≤ t := by omega
  intro fuel
  induction fuel with
  | zero => intro node key h _ hf; omega
  | succ fuel ih =>
    intro node key h hn hf hroot hasc hD hkey ⟨r, hr, hz⟩
    have hn0 := hn
    rw [shaped_iff] at hn
    have hol : node.objCount = node.objects.length := rfl
    have hcntmax : node.objCount ≤ SIZE_MAX := by omega
    -- descent into child `k` of a node `q` with the same in-order records
    have descendD : ∀ (q : TreeNode) (k : Nat) (key1 : DbObj), Shaped t q h →
        q.isLeaf = false → k ≤ q.objCount → inorder q = inorder node →
        t ≤ (q.children.getD k default).objCount → D key1 →
        (∃ r ∈ inorder (q.children.getD k default), cmp key1 r = 0) →
        (_delete cmp t fuel (q.children.getD k default) key1).2 = true ∧
        ∃ l1 x l2, inorder node = l1 ++ x :: l2 ∧ cmp key1 x = 0 ∧
          inorder (q.setChildren (q.children.set k
            (_delete cmp t fuel (q.children.getD k default) key1).1)) = l1 ++ l2 := by
      intro q k key1 hq hql hk hqi hcnt hk1 hex
      obtain ⟨f1, f2, f3, f4⟩ := @child_facts cmp _ _ _ k hq hql hk
        (by rw [hqi]; exact hasc)
      have hq' := hq
      rw [shaped_iff] at hq'
      simp only [hql, Bool.false_eq_true, if_false] at hq'
      obtain ⟨g1, g2⟩ := ih (q.children.getD k default) key1 (h - 1) f1 (by omega)
        (Or.inr (by omega)) f3 (fun a ha => hD a (by rw [← hqi]; exact f4 a ha)) hk1 hex
      refine ⟨g1, ?_⟩
      have := @delete_descend cmp _ _ _ _ key1 _ hq hql hk g2
      rw [hqi] at this
      exact this
    have hspec := findPosLoop_spec key cmp node.isLeaf node.objects 0
    have hidx := findPosLoop_index key cmp node.isLeaf node.objects 0
    generalize hop : node.findPos key cmp = op
    have hop' : findPosLoop key cmp node.isLeaf node.objects 0 = op := hop
    rw [hop'] at hspec hidx
    obtain ⟨i, pos⟩ := op
    simp only [zero_add] at hspec hidx
    -- the merge cases
    have hmerge : ∀ (hl0 : node.isLeaf = false), i < node.objCount →
        (node.children.getD i default).objCount = t - 1 →
        (node.children.getD (i + 1) default).objCount = t - 1 →
        (∃ r ∈ inorder (_merge t node i).2, cmp key r = 0) →
        (_delete cmp t fuel (_merge t node i).2 key).2 = true ∧
        ∃ l1 x l2, inorder node = l1 ++ x :: l2 ∧ cmp key x = 0 ∧
          inorder ((_merge t node i).1.setChildren ((_merge t node i).1.children.set i
            (_delete cmp t fuel (_merge t node i).2 key).1)) = l1 ++ l2 := by
      intro hl0 hi h1 h2 hex
      obtain ⟨m1, m2, m3, m4, m5, m6⟩ := merge_shaped ht hn0 hl0 hi h1 h2
      have mi := merge_inorder ht hn0 hl0 hi h1 h2
      have me := merge_snd_eq_getD (t := t) (p := node) (i := i) (by
        simp only [hl0, Bool.false_eq_true, if_false] at hn
        omega)
      have := descendD (_merge t node i).1 i key m1 m3 (by omega) mi
        (by rw [me, m6]; omega) hkey (by rw [me]; exact hex)
      rw [me] at this
      exact this
    cases pos with
    | ECP_NONE =>
      exfalso
      obtain ⟨hl, j, hj, hb, hlt⟩ := hspec.2.2.2 rfl
      rw [inorder_eq] at hasc hD hr
      simp only [hl, if_true] at hasc hD hr
      obtain ⟨k, hk, rfl⟩ := List.getElem_of_mem hr
      have hgd : node.objects.getD k [] = node.objects[k] := List.getD_eq_getElem _ _ hk
      by_cases hkj : k < j
      · have := hb k hkj
        rw [hgd] at this
        omega
      · have hjl : j < node.objects.length := by omega
        have e : node.objects = node.objects.take j ++ node.objects.getD j [] ::
            node.objects.drop (j + 1) := (take_getD_drop _ _ hjl).symm
        rw [e] at hasc hD
        have habove := Ascending.above ho hasc hD hkey (hlt hjl)
        have hmem : node.objects[k] ∈ node.objects.getD j [] :: node.objects.drop (j + 1) := by
          rw [← drop_eq_getD_cons _ _ hjl]
          rw [List.mem_iff_getElem]
          exact ⟨k - j, by simp; omega, by simp; congr 1; omega⟩
        have := habove _ hmem
        omega
    | ECP_INTHIS =>
      obtain ⟨j, hj, e, hzj, _⟩ := hspec.1 rfl
      replace e : j = i := e.symm
      subst e
      have hne : j ≠ SIZE_MAX := by omega
      by_cases hl : node.isLeaf = true
      · rw [delete_case1 _ _ _ _ _ _ hop hne hl]
        refine ⟨rfl, node.objects.take j, node.objects.getD j [], node.objects.drop (j + 1),
          ?_, hzj, ?_⟩
        · rw [inorder_eq]
          simp only [hl, if_true]
          exact (take_getD_drop _ _ hj).symm
        · simp only [delFromLeaf, hl, if_true]
          rw [inorder_eq]
          simp only [isLeaf_setObjects, hl, if_true, objects_setObjects]
          exact eraseIdx_eq_take_drop _ _
      · have hl0 : node.isLeaf = false := by simpa using hl
        simp only [hl0, Bool.false_eq_true, if_false] at hn
        obtain ⟨hcnt, hlen, hh, hkids⟩ := hn
        have hlen' : node.children.length = node.objects.length + 1 := hlen
        have hnode : inorder node = kidsBefore (node.children.take j) (node.objects.take j) ++
            (inorder (node.children.getD j default) ++ node.objects.getD j [] ::
              (inorder (node.children.getD (j + 1) default) ++
                kidsAfter (node.objects.drop (j + 1)) (node.children.drop (j + 2)))) := by
          rw [inorder_eq]
          simp only [hl0, Bool.false_eq_true, if_false]
          exact inorderKids_two _ _ j hlen' hj
        by_cases h2a : t ≤ (node.children.getD j default).objCount
        · rw [delete_case2a _ _ _ _ _ _ hop hne hl0 h2a]
          obtain ⟨f1, f2, f3, f4⟩ := @child_facts cmp _ _ _ j hn0 hl0 (by omega) hasc
          obtain ⟨ini, hini⟩ := findPred_last ht2 fuel (node.children.getD j default) (h - 1)
            f1 (by omega) (by omega)
          generalize hpred : (_findPred fuel (node.children.getD j default)).1.objects.getD
            (_findPred fuel (node.children.getD j default)).2 [] = pred at *
          have hpm : pred ∈ inorder (node.children.getD j default) := by rw [hini]; simp
          have hDc : ∀ a ∈ inorder (node.children.getD j default), D a :=
            fun a ha => hD a (f4 a ha)
          obtain ⟨g1, c1, x, c2, e1, hzx, e2⟩ := ih (node.children.getD j default) pred (h - 1)
            f1 (by omega) (Or.inr (by omega)) f3 hDc (hDc pred hpm)
            ⟨pred, hpm, ho.refl (hDc pred hpm)⟩
          obtain ⟨u1, u2, u3⟩ := Ascending.last_unique ho (by rw [← e1]; exact f3)
            (by rw [← e1]; exact hDc) (by rw [← e1]; exact hini) hzx
          subst u1 u2 u3
          refine ⟨g1, kidsBefore (node.children.take j) (node.objects.take j) ++ (c1 ++ [x]),
            node.objects.getD j [], inorder (node.children.getD (j + 1) default) ++
              kidsAfter (node.objects.drop (j + 1)) (node.children.drop (j + 2)), ?_, hzj, ?_⟩
          · rw [hnode, hini]
            simp
          · rw [inorder_eq]
            simp only [isLeaf_setObjects, isLeaf_setChildren, hl0, Bool.false_eq_true, if_false,
              objects_setObjects, children_setObjects, children_setChildren]
            rw [inorderKids_set_left _ _ j _ _ hlen' hj, e2]
            simp
        · by_cases h2b : t ≤ (node.children.getD (j + 1) default).objCount
          · rw [delete_case2b _ _ _ _ _ _ hop hne hl0 h2a h2b]
            obtain ⟨f1, f2, f3, f4⟩ := @child_facts cmp _ _ _ (j + 1) hn0 hl0 (by omega)
              hasc
            obtain ⟨rest, hrest⟩ := findSucc_first ht2 fuel (node.children.getD (j + 1) default)
              (h - 1) f1 (by omega) (by omega)
            generalize hsucc : (_findSucc fuel (node.children.getD (j + 1) default)).1.objects.getD
              (_findSucc fuel (node.children.getD (j + 1) default)).2 [] = succ at *
            have hpm : succ ∈ inorder (node.children.getD (j + 1) default) := by
              rw [hrest]; simp
            have hDc : ∀ a ∈ inorder (node.children.getD (j + 1) default), D a :=
              fun a ha => hD a (f4 a ha)
            obtain ⟨g1, c1, x, c2, e1, hzx, e2⟩ := ih (node.children.getD (j + 1) default) succ
              (h - 1) f1 (by omega) (Or.inr (by omega)) f3 hDc (hDc succ hpm)
              ⟨succ, hpm, ho.refl (hDc succ hpm)⟩
            obtain ⟨u1, u2, u3⟩ := @Ascending.first_unique cmp _ _ _ _ _ (by rw [← e1]; exact f3)
              (by rw [← e1]; exact hrest) hzx
            subst u1 u2 u3
            refine ⟨g1, kidsBefore (node.children.take j) (node.objects.take j) ++
                inorder (node.children.getD j default),
              node.objects.getD j [], (x :: c2) ++
                kidsAfter (node.objects.drop (j + 1)) (node.children.drop (j + 2)), ?_, hzj, ?_⟩
            · rw [hnode, hrest]
              simp
            · rw [inorder_eq]
              simp only [isLeaf_setObjects, isLeaf_setChildren, hl0, Bool.false_eq_true,
                if_false, objects_setObjects, children_setObjects, children_setChildren]
              rw [inorderKids_set_right _ _ j _ _ hlen' hj, e2]
              simp
          · rw [delete_case2c _ _ _ _ _ _ hop hne hl0 h2a h2b]
            have c1 := hkids _ (getD_mem (show j < node.children.length by omega))
            have c2 := hkids _ (getD_mem (show j + 1 < node.children.length by omega))
            have h1 : (node.children.getD j default).objCount = t - 1 := by omega
            have h2 : (node.children.getD (j + 1) default).objCount = t - 1 := by omega
            refine hmerge hl0 hj h1 h2 ⟨node.objects.getD j [], ?_, hzj⟩
            rw [merge_snd_inorder ht hn0 hl0 hj h1 h2]
            simp
    | ECP_INLEFT =>
      obtain ⟨j, hj, e, hlt, hb⟩ := hspec.2.1 rfl
      replace e : j = i := e.symm
      subst e
      have hl0 := (hidx.2.1 rfl).1
      have hne : j ≠ SIZE_MAX := by omega
      simp only [hl0, Bool.false_eq_true, if_false] at hn
      obtain ⟨hcnt, hlen, hh, hkids⟩ := hn
      have hpos : EChildPos.ECP_INLEFT = EChildPos.ECP_INLEFT ∨
        EChildPos.ECP_INLEFT = EChildPos.ECP_INRIGHT := Or.inl rfl
      have hk : j = if EChildPos.ECP_INLEFT = EChildPos.ECP_INLEFT then j else j + 1 := by simp
      have c1 := hkids _ (getD_mem (show j < node.children.length by omega))
      have hin : r ∈ inorder (node.children.getD j default) :=
        equal_in_child ho hn0 hl0 (by omega) hasc hD hkey
          (fun h0 => ho.gt_flip hkey (hD _ (mem_inorder_of_mem_objects
            (getD_mem_objects (by omega)))) (hb (j - 1) (by omega)))
          (fun _ => hlt) hr hz
      by_cases hc : t ≤ (node.children.getD j default).objCount
      · rw [delete_case3 _ _ _ _ _ _ _ hop hne hpos j hk hc]
        exact descendD node j key hn0 hl0 (by omega) rfl hc hkey ⟨r, hin, hz⟩
      · by_cases hleft : 0 < j ∧ t ≤ (node.children.getD (j - 1) default).objCount
        · rw [delete_case3a_left _ _ _ _ _ _ _ hop hne hpos j hk hc hleft.1 hleft.2]
          obtain ⟨b1, b2, b3, b4, b5⟩ := borrowLeft_shaped ht hn0 hl0 hleft.1 (by omega)
            (by omega) hleft.2
          obtain ⟨bi, x, bx⟩ := borrowLeft_inorder ht hn0 hl0 hleft.1 (by omega) (by omega)
            hleft.2
          exact descendD _ j key b1 b3 (by omega) bi (by omega) hkey
            ⟨r, by rw [bx]; exact List.mem_append_right _ hin, hz⟩
        · by_cases hright : j < node.objCount ∧ t ≤ (node.children.getD (j + 1) default).objCount
          · rw [delete_case3a_right _ _ _ _ _ _ _ hop hne hpos j hk hc hleft hright.1 hright.2]
            obtain ⟨b1, b2, b3, b4, b5⟩ := borrowRight_shaped j ht hn0 hl0 (by omega)
              (by omega) hright.2
            obtain ⟨bi, x, bx⟩ := borrowRight_inorder ht hn0 hl0 (by omega) (by omega)
              hright.2
            exact descendD _ j key b1 b3 (by omega) bi (by omega) hkey
              ⟨r, by rw [bx]; exact List.mem_append_left _ hin, hz⟩
          · rw [delete_case3b _ _ _ _ _ _ _ hop hne hpos j hk hc hleft hright]
            have c2 := hkids _ (getD_mem (show j + 1 < node.children.length by omega))
            have h1 : (node.children.getD j default).objCount = t - 1 := by omega
            have h2 : (node.children.getD (j + 1) default).objCount = t - 1 := by
              have : ¬ t ≤ (node.children.getD (j + 1) default).objCount := fun h =>
                hright ⟨hj, h⟩
              omega
            refine hmerge hl0 hj h1 h2 ⟨r, ?_, hz⟩
            rw [merge_snd_inorder ht hn0 hl0 hj h1 h2]
            exact List.mem_append_left _ hin
    | ECP_INRIGHT =>
      have hb := hspec.2.2.1 rfl
      obtain ⟨hl0, e⟩ := hidx.2.2 rfl
      replace e : i = decr node.objCount := by simpa using e
      have hpos0 : 0 < node.objCount := by
        rcases hroot with h1 | h1
        · rw [hl0] at h1; cases h1
        · exact h1
      have e' : i = node.objCount - 1 := by
        rw [e]; unfold decr; rw [if_neg (by omega)]
      have hne : i ≠ SIZE_MAX := by omega
      simp only [hl0, Bool.false_eq_true, if_false] at hn
      obtain ⟨hcnt, hlen, hh, hkids⟩ := hn
      have hpos : EChildPos.ECP_INRIGHT = EChildPos.ECP_INLEFT ∨
        EChildPos.ECP_INRIGHT = EChildPos.ECP_INRIGHT := Or.inr rfl
      have hk : i + 1 = if EChildPos.ECP_INRIGHT = EChildPos.ECP_INLEFT then i else i + 1 := by
        simp
      have c1 := hkids _ (getD_mem (show i + 1 < node.children.length by omega))
      have hin : r ∈ inorder (node.children.getD (i + 1) default) :=
        equal_in_child ho hn0 hl0 (by omega) hasc hD hkey
          (fun h0 => by
            simp only [Nat.add_sub_cancel]
            exact ho.gt_flip hkey (hD _ (mem_inorder_of_mem_objects
              (getD_mem_objects (by omega)))) (hb i (by omega)))
          (fun hlt => by omega) hr hz
      by_cases hc : t ≤ (node.children.getD (i + 1) default).objCount
      · rw [delete_case3 _ _ _ _ _ _ _ hop hne hpos (i + 1) hk hc]
        exact descendD node (i + 1) key hn0 hl0 (by omega) rfl hc hkey ⟨r, hin, hz⟩
      · by_cases hleft : 0 < i + 1 ∧ t ≤ (node.children.getD (i + 1 - 1) default).objCount
        · rw [delete_case3a_left _ _ _ _ _ _ _ hop hne hpos (i + 1) hk hc hleft.1 hleft.2]
          obtain ⟨b1, b2, b3, b4, b5⟩ := borrowLeft_shaped ht hn0 hl0 hleft.1 (by omega)
            (by omega) hleft.2
          obtain ⟨bi, x, bx⟩ := borrowLeft_inorder ht hn0 hl0 hleft.1 (by omega) (by omega)
            hleft.2
          exact descendD _ (i + 1) key b1 b3 (by omega) bi (by omega) hkey
            ⟨r, by rw [bx]; exact List.mem_append_right _ hin, hz⟩
        · have hright : ¬ (i + 1 < node.objCount ∧
              t ≤ (node.children.getD (i + 1 + 1) default).objCount) := fun h => by omega
          rw [delete_case3b _ _ _ _ _ _ _ hop hne hpos (i + 1) hk hc hleft hright]
          have c0 := hkids _ (getD_mem (show i < node.children.length by omega))
          have h1 : (node.children.getD i default).objCount = t - 1 := by
            have : ¬ t ≤ (node.children.getD i default).objCount := fun h =>
              hleft ⟨by omega, by simpa using h⟩
            omega
          have h2 : (node.children.getD (i + 1) default).objCount = t - 1 := by omega
          refine hmerge hl0 (by omega) h1 h2 ⟨r, ?_, hz⟩
          rw [merge_snd_inorder ht hn0 hl0 (by omega) h1 h2]
          exact List.mem_append_right _ (List.mem_cons_of_mem _ hin)

open TreeNode

/-- A non-leaf node without records has the in-order records of its first child. -/
theorem inorder_collapse {t h : Nat} {n : TreeNode} (hn : Shaped t n h)
    (hl : n.isLeaf = false) (hc : n.objCount = 0) :
    inorder (n.children.getD 0 default) = inorder n := by
  rw [shaped_iff] at hn
  simp only [hl, Bool.false_eq_true, if_false] at hn
  obtain ⟨_, hlen, _, _⟩ := hn
  rw [inorder_eq n]
  simp only [hl, Bool.false_eq_true, if_false]
  have ho : n.objects = [] := List.eq_nil_of_length_eq_zero hc
  rw [ho]
  rw [hc] at hlen
  match hcs : n.children, hlen with
  | [c], _ => simp [inorderKids]

/-- Value model of `del`: in a valid tree value, `BTreeDB.del` of a key of `recSize` bytes
that compares equal to a stored record returns true, and afterwards the
in-order sequence of records is the previous one with exactly that one record
removed, whichever of the cases 1, 2a, 2b, 2c, 3a-left, 3a-right, 3b the
descent takes.  The capacity `2t - 1` of a node is a value of `size_t`.  This
is the method of the source wherever no deleted node lists a child, as in a
`del` that follows `put` calls alone; `del_loses_another_record` is a state
reached with earlier `del` calls where the source leaves the value model. -/
theorem del_removes_exactly_that_record (db : BTreeDB) (key : DbObj) (hv : db.Valid)
    (hsize : key.length = db._recSize) (hfit : 2 * db._minDegree - 1 ≤ SIZE_MAX)
    (hex : ∃ r ∈ db.records, db._compFunc key r = 0) :
    (db.del key).2 = true ∧
    ∃ l1 x l2, db.records = l1 ++ x :: l2 ∧ db._compFunc key x = 0 ∧
      (db.del key).1.records = l1 ++ l2 := by
  obtain ⟨h, hs⟩ := hv.shape
  have hpos : db._root.objCount ≠ 0 := by
    intro h0
    obtain ⟨r, hr, _⟩ := hex
    rcases hv.root with hl | hp
    · simp only [BTreeDB.records] at hr
      rw [inorder_eq, hl, if_pos rfl, List.eq_nil_of_length_eq_zero h0] at hr
      cases hr
    · omega
  have hd := delete_inorder hv.order hv.degree hfit db._root.height db._root key h hs
    (by rw [hs.height_eq]; omega) hv.root hv.ascending hv.sizes hsize hex
  have hsh := delete_shaped db._compFunc (show 1 ≤ db._minDegree from by
    have := hv.degree; omega) db._root.height db._root key h hs (by rw [hs.height_eq]; omega)
  obtain ⟨hd1, l1, x, l2, e1, e2, e3⟩ := hd
  simp only [BTreeDB.del, hpos, if_false, BTreeDB.records]
  split
  · rename_i hcol
    refine ⟨rfl, l1, x, l2, e1, e2, ?_⟩
    show inorder ((_delete db._compFunc db._minDegree db._root.height db._root key).1.children.getD
      0 default) = l1 ++ l2
    rw [inorder_collapse hsh.1 hcol.2.2 hcol.2.1]
    exact e3
  · exact ⟨hd1, l1, x, l2, e1, e2, e3⟩

/-- An instance of the value model of `del`: the tree with root `2` over the leaves `1` and
`3, 4, 5`, reached by `put` calls alone, and the key `3`. -/
theorem del_removes_exactly_that_record_witness :
    (scenario [Op.put (rec4 1), Op.put (rec4 2), Op.put (rec4 3), Op.put (rec4 4),
      Op.put (rec4 5)]).Valid ∧
    ((scenario [Op.put (rec4 1), Op.put (rec4 2), Op.put (rec4 3), Op.put (rec4 4),
      Op.put (rec4 5)]).del (rec4 3)).2 = true ∧
    ∃ l1 x l2, (scenario [Op.put (rec4 1), Op.put (rec4 2), Op.put (rec4 3), Op.put (rec4 4),
        Op.put (rec4 5)]).records = l1 ++ x :: l2 ∧
      (scenario [Op.put (rec4 1), Op.put (rec4 2), Op.put (rec4 3), Op.put (rec4 4),
        Op.put (rec4 5)])._compFunc (rec4 3) x = 0 ∧
      ((scenario [Op.put (rec4 1), Op.put (rec4 2), Op.put (rec4 3), Op.put (rec4 4),
        Op.put (rec4 5)]).del (rec4 3)).1.records = l1 ++ l2 :=
  have hv : (scenario [Op.put (rec4 1), Op.put (rec4 2), Op.put (rec4 3), Op.put (rec4 4),
      Op.put (rec4 5)]).Valid :=
    { degree := by decide
      order := defaultCompare_totalOrder 4
      shape := (run_shapeInv 4 4 2 none (by decide) _).1
      sep := by decide
      sorted := by decide
      sizes := by decide
      root := by decide }
  ⟨hv, del_removes_exactly_that_record _ _ hv (by decide) (by decide)
    ⟨rec4 3, by decide, by decide⟩⟩

open TreeNode

/-! ## File positions of the nodes -/

theorem fposs_eq (n : TreeNode) : n.fposs = n.fpos :: fpossList n.children := by
  cases n; simp [fposs, fpossList, nodes]

@[simp] theorem fpossList_nil : fpossList [] = [] := by simp [fpossList, nodesList]

@[simp] theorem fpossList_cons (c : TreeNode) (cs : List TreeNode) :
    fpossList (c :: cs) = fposs c ++ fpossList cs := by
  simp [fpossList, fposs, nodesList]

@[simp] theorem fpossList_append (a b : List TreeNode) :
    fpossList (a ++ b) = fpossList a ++ fpossList b := by
  induction a with
  | nil => simp
  | cons c cs ih => simp [ih]

@[simp] theorem fposs_setChildNo (n : TreeNode) (k : Nat) : (n.setChildNo k).fposs = n.fposs := by
  rw [fposs_eq, fposs_eq n]; simp

@[simp] theorem fposs_setParent (n : TreeNode) (q : Option Nat) :
    (n.setParent q).fposs = n.fposs := by
  rw [fposs_eq, fposs_eq n]; simp

@[simp] theorem fposs_setObjects (n : TreeNode) (os : List DbObj) :
    (n.setObjects os).fposs = n.fposs := by
  rw [fposs_eq, fposs_eq n]; simp

theorem fposs_setChildren (n : TreeNode) (cs : List TreeNode) :
    (n.setChildren cs).fposs = n.fpos :: fpossList cs := by
  rw [fposs_eq]; simp

theorem fpossList_congr {cs ds : List TreeNode} (h : cs.map fposs = ds.map fposs) :
    fpossList cs = fpossList ds := by
  induction cs generalizing ds with
  | nil =>
    cases ds with
    | nil => rfl
    | cons d ds => simp at h
  | cons c cs ih =>
    cases ds with
    | nil => simp at h
    | cons d ds =>
      simp only [List.map_cons, List.cons.injEq] at h
      simp [h.1, ih h.2]

@[simp] theorem fpossList_renumber (k : Nat) (cs : List TreeNode) :
    fpossList (renumber k cs) = fpossList cs := by
  induction cs generalizing k with
  | nil => rfl
  | cons c cs ih => simp [renumber, ih]

@[simp] theorem fpossList_map_setParent (q : Option Nat) (cs : List TreeNode) :
    fpossList (cs.map (fun m => m.setParent q)) = fpossList cs := by
  induction cs with
  | nil => rfl
  | cons c cs ih => simp [ih]

theorem fpossList_take_drop (cs : List TreeNode) (k : Nat) :
    fpossList cs = fpossList (cs.take k) ++ fpossList (cs.drop k) := by
  rw [← fpossList_append, List.take_append_drop]

theorem fpossList_split (cs : List TreeNode) (k : Nat) (hk : k < cs.length) :
    fpossList cs = fpossList (cs.take k) ++
      (fposs (cs.getD k default) ++ fpossList (cs.drop (k + 1))) := by
  conv_lhs => rw [← List.take_append_drop k cs]
  have e : cs.drop k = cs.getD k default :: cs.drop (k + 1) := by
    rw [List.getD_eq_getElem _ _ hk]
    exact List.drop_eq_getElem_cons hk
  rw [fpossList_append, e, fpossList_cons]

theorem fpossList_set (cs : List TreeNode) (k : Nat) (c : TreeNode) (hk : k < cs.length) :
    fpossList (cs.set k c) = fpossList (cs.take k) ++
      (fposs c ++ fpossList (cs.drop (k + 1))) := by
  rw [fpossList_split (cs.set k c) k (by simpa using hk)]
  rw [List.set_take, List.set_eq_of_length_le (by simp), List.drop_set_of_lt _ _ (by omega)]
  congr 2
  rw [List.getD_eq_getElem _ _ (by simpa using hk)]
  simp

theorem mem_fposs_of_mem_nodes {n m : TreeNode} (h : m ∈ n.nodes) : m.fpos ∈ n.fposs :=
  List.mem_map_of_mem _ h

theorem mem_fpossList {cs : List TreeNode} {a : Nat} :
    a ∈ fpossList cs ↔ ∃ c ∈ cs, a ∈ fposs c := by
  induction cs with
  | nil => simp
  | cons c cs ih => simp [ih]

theorem findNode_eq (n : TreeNode) (a : Nat) :
    n.findNode a = if n.fpos = a then some n else findNodeList n.children a := by
  cases n; simp [findNode]

/-- A node `findNode` yields lies in the subtree at the position asked for. -/
theorem findNode_some : ∀ (n : TreeNode) (a : Nat) (x : TreeNode),
    n.findNode a = some x → x ∈ n.nodes ∧ x.fpos = a := by
  intro n
  induction n using TreeNode.induct with
  | step c l f os cs p ih =>
    intro a x hx
    simp only [findNode] at hx
    split at hx
    · rename_i hf
      cases hx
      exact ⟨mem_nodes_self _, hf⟩
    · have : ∀ (ds : List TreeNode), (∀ d ∈ ds, d ∈ cs) → findNodeList ds a = some x →
          ∃ d ∈ ds, x ∈ d.nodes ∧ x.fpos = a := by
        intro ds
        induction ds with
        | nil => intro _ h; simp [findNodeList] at h
        | cons d ds ihd =>
          intro hsub h
          simp only [findNodeList] at h
          split at h
          · rename_i y hy
            cases h
            exact ⟨d, by simp, ih d (hsub d (by simp)) a _ hy⟩
          · obtain ⟨e, he, hh⟩ := ihd (fun e he => hsub e (by simp [he])) h
            exact ⟨e, by simp [he], hh⟩
      obtain ⟨d, hd, h1, h2⟩ := this cs (fun _ h => h) hx
      exact ⟨nodes_child_sub hd h1, h2⟩

/-- With pairwise different file positions a node pointer leads to its node. -/
theorem findNode_of_mem : ∀ (n : TreeNode), n.fposs.Nodup → ∀ m ∈ n.nodes,
    n.findNode m.fpos = some m := by
  intro n
  induction n using TreeNode.induct with
  | step c l f os cs p ih =>
    intro hnd m hm
    rw [fposs_eq] at hnd
    simp only [List.nodup_cons] at hnd
    simp only [nodes, List.mem_cons] at hm
    simp only [findNode]
    rcases hm with rfl | hm
    · simp
    · have hne : ¬ f = m.fpos := by
        intro e
        apply hnd.1
        show f ∈ fpossList cs
        rw [e]
        exact List.mem_map_of_mem _ hm
      rw [if_neg hne]
      have : ∀ (ds : List TreeNode), (∀ d ∈ ds, d ∈ cs) → (fpossList ds).Nodup →
          m ∈ nodesList ds → findNodeList ds m.fpos = some m := by
        intro ds
        induction ds with
        | nil => intro _ _ h; simp [nodesList] at h
        | cons d ds ihd =>
          intro hsub hn h
          simp only [fpossList_cons] at hn
          rw [List.nodup_append] at hn
          simp only [nodesList, List.mem_append] at h
          simp only [findNodeList]
          rcases h with h | h
          · rw [ih d (hsub d (by simp)) hn.1 m h]
          · have hnone : d.findNode m.fpos = none := by
              cases hfd : d.findNode m.fpos with
              | none => rfl
              | some y =>
                exfalso
                obtain ⟨y1, y2⟩ := findNode_some d _ _ hfd
                have h1 : m.fpos ∈ fposs d := by
                  rw [← y2]; exact List.mem_map_of_mem _ y1
                have h2 : m.fpos ∈ fpossList ds := List.mem_map_of_mem _ h
                exact hn.2.2 h1 h2
            rw [hnone]
            exact ihd (fun e he => hsub e (by simp [he])) hn.2.1 h
      exact this cs (fun _ h => h) hnd.2 hm

open TreeNode

@[simp] theorem split_fpos (t ns fl : Nat) (p : TreeNode) (i : Nat) (c : TreeNode) :
    (_split t ns fl p i c).1.fpos = p.fpos := by
  simp [_split]

/-- File positions after `_split`: those before it and the position of the new node. -/
theorem split_fposs {t ns fl : Nat} {p : TreeNode} {i h : Nat} (ht : 1 ≤ t)
    (hp : Shaped t p h) (hleaf : p.isLeaf = false)
    (hi : i < p.children.length) (hc : (p.children.getD i default).objCount = 2 * t - 1) :
    (_split t ns fl p i (p.children.getD i default)).1.fposs.Perm (fl :: p.fposs) := by
  rw [shaped_iff] at hp
  simp only [hleaf, Bool.false_eq_true, if_false] at hp
  obtain ⟨_, hlen, hh, hkids⟩ := hp
  have hcm := getD_mem hi
  obtain ⟨hc1, hcs⟩ := hkids _ hcm
  rw [fposs_eq, split_children, fposs_eq p, fpossList_split p.children i hi]
  generalize p.children.getD i default = c at hc hcm hc1 hcs
  have hkidsList : fpossList c.children = fpossList (c.children.take t) ++
      fpossList (if c.isLeaf then [] else
        (renumber 0 ((c.children.drop t).take t)).map (fun m => m.setParent (some fl))) := by
    rw [shaped_iff] at hcs
    by_cases hl : c.isLeaf = true
    · simp only [hl, if_true] at hcs ⊢
      simp [hcs.2.1]
    · simp only [hl] at hcs ⊢
      simp only [Bool.false_eq_true, if_false] at hcs ⊢
      rw [fpossList_map_setParent, fpossList_renumber,
        List.take_of_length_le (show (c.children.drop t).length ≤ t by simp; omega)]
      exact fpossList_take_drop _ _
  simp only [fpossList_append, fpossList_cons, fpossList_renumber]
  rw [fposs_eq c, hkidsList]
  simp only [fposs_eq, fpos_setChildren, fpos_setObjects, children_setChildren, fpos_mk,
    children_mk, split_isLeaf, split_fpos]
  rw [List.perm_iff_count]
  intro a
  simp only [List.count_cons, List.count_append, List.cons_append]
  omega

/-- File positions after the child `k` of a node is replaced by a subtree that keeps
positions of that child and adds positions past the old end of the file. -/
theorem setChild_fposs {q : TreeNode} {k : Nat} {c : TreeNode} {fl : Nat}
    (hk : k < q.children.length) (hq : q.fposs.Nodup) (hb : ∀ a ∈ q.fposs, a < fl)
    (hc : c.fposs.Nodup)
    (hsub : ∀ a ∈ c.fposs, a ∈ (q.children.getD k default).fposs ∨ fl ≤ a) :
    (q.setChildren (q.children.set k c)).fposs.Nodup ∧
    ∀ a ∈ (q.setChildren (q.children.set k c)).fposs, a ∈ q.fposs ∨ fl ≤ a := by
  rw [fposs_setChildren, fpossList_set _ _ _ hk]
  rw [fposs_eq q, fpossList_split _ _ hk] at hq hb
  rw [fposs_eq q, fpossList_split _ _ hk]
  generalize fpossList (q.children.take k) = A at *
  generalize fpossList (q.children.drop (k + 1)) = B at *
  generalize (q.children.getD k default).fposs = C at *
  generalize c.fposs = C1 at *
  simp only [List.nodup_cons, List.nodup_append, List.mem_append, List.mem_cons,
    List.disjoint_left, not_or] at hq hb ⊢
  obtain ⟨⟨hq1, hq2, hq3⟩, hA, ⟨hC, hB, hCB⟩, hAC⟩ := hq
  refine ⟨⟨⟨hq1, ?_, hq3⟩, hA, ⟨hc, hB, ?_⟩, ?_⟩, ?_⟩
  · intro hm
    rcases hsub _ hm with h1 | h1
    · exact hq2 h1
    · have := hb q.fpos (Or.inl rfl)
      omega
  · intro a ha hab
    rcases hsub _ ha with h1 | h1
    · exact hCB h1 hab
    · have := hb a (Or.inr (Or.inr (Or.inr hab)))
      omega
  · intro a ha
    refine ⟨fun hab => ?_, (hAC ha).2⟩
    rcases hsub _ hab with h1 | h1
    · exact (hAC ha).1 h1
    · have := hb a (Or.inr (Or.inl ha))
      omega
  · intro a ha
    rcases ha with ha | ha | ha | ha
    · exact Or.inl (Or.inl ha)
    · exact Or.inl (Or.inr (Or.inl ha))
    · rcases hsub _ ha with h1 | h1
      · exact Or.inl (Or.inr (Or.inr (Or.inl h1)))
      · exact Or.inr h1
    · exact Or.inl (Or.inr (Or.inr (Or.inr ha)))

/-- File positions below a child are pairwise different and among those of the node. -/
theorem child_fposs {q : TreeNode} {k : Nat} (hk : k < q.children.length)
    (hq : q.fposs.Nodup) :
    (q.children.getD k default).fposs.Nodup ∧
    ∀ a ∈ (q.children.getD k default).fposs, a ∈ q.fposs := by
  rw [fposs_eq q, fpossList_split _ _ hk] at hq ⊢
  generalize (q.children.getD k default).fposs = C at *
  simp only [List.nodup_cons, List.nodup_append] at hq
  refine ⟨hq.2.2.1.1, fun a ha => ?_⟩
  simp [ha]

/-- File positions after a child is replaced are those of the node or of the new child. -/
theorem mem_fposs_setChild {q : TreeNode} {k : Nat} {c : TreeNode} (hk : k < q.children.length)
    {a : Nat} (ha : a ∈ (q.setChildren (q.children.set k c)).fposs) :
    a ∈ q.fposs ∨ a ∈ c.fposs := by
  rw [fposs_setChildren, fpossList_set _ _ _ hk] at ha
  rw [fposs_eq q, fpossList_split _ _ hk]
  generalize fpossList (q.children.take k) = A at *
  generalize fpossList (q.children.drop (k + 1)) = B at *
  generalize (q.children.getD k default).fposs = C at *
  generalize c.fposs = C1 at *
  simp only [List.mem_cons, List.mem_append] at ha ⊢
  tauto

/-- File positions after `_insertNonFull`: pairwise different, the old ones and new
ones between the old and the new end of the file. -/
theorem insertNonFull_fposs (cfn : compareFn) {t : Nat} (ns : Nat) (key : DbObj) (ht : 1 ≤ t)
    (hns : 1 ≤ ns) :
    ∀ (fuel fl : Nat) (node : TreeNode) (h : Nat), Shaped t node h →
      node.objCount < 2 * t - 1 → h < fuel → node.fposs.Nodup → (∀ a ∈ node.fposs, a < fl) →
      (_insertNonFull cfn t ns fuel fl node key).1.fposs.Nodup ∧
      fl ≤ (_insertNonFull cfn t ns fuel fl node key).2 ∧
      ∀ a ∈ (_insertNonFull cfn t ns fuel fl node key).1.fposs,
        (a ∈ node.fposs ∨ fl ≤ a) ∧ a < (_insertNonFull cfn t ns fuel fl node key).2 := by
  intro fuel
  induction fuel with
  | zero => intro fl node h _ _ hf; omega
  | succ fuel ih =>
    intro fl node h hn hnf hf hnd hb
    have hn0 := hn
    rw [shaped_iff] at hn
    have hsp := scanPos_le cfn key node.objects node.objCount
    simp only [_insertNonFull]
    by_cases hl : node.isLeaf = true
    · simp only [hl, if_true, fposs_setObjects]
      exact ⟨hnd, le_refl _, fun a ha => ⟨Or.inl ha, hb a ha⟩⟩
    · simp only [hl] at hn ⊢
      simp only [Bool.false_eq_true, if_false] at hn ⊢
      have hl0 : node.isLeaf = false := by simpa using hl
      obtain ⟨_, hlen, hh, hkids⟩ := hn
      have hi : scanPos cfn key node.objects node.objCount < node.children.length := by omega
      by_cases hfull : (node.children.getD (scanPos cfn key node.objects node.objCount)
          default).objCount = t * 2 - 1
      · simp only [hfull, if_true]
        obtain ⟨hs1, hs2, hs3, hs4⟩ := @split_shaped _ ns fl _ _ _ ht hn0 hl0 hnf hi
          (by omega)
        have hperm := @split_fposs _ ns fl _ _ _ ht hn0 hl0 hi (by omega)
        have hfl := split_fileLen t ns fl node (scanPos cfn key node.objects node.objCount)
          (node.children.getD (scanPos cfn key node.objects node.objCount) default)
        generalize hS : _split t ns fl node (scanPos cfn key node.objects node.objCount)
          (node.children.getD (scanPos cfn key node.objects node.objCount) default) = S at *
        have hsl : S.1.isLeaf = false := by rw [← hS]; simpa using hl0
        have hs1' := hs1
        rw [shaped_iff] at hs1'
        simp only [hsl, Bool.false_eq_true, if_false] at hs1'
        generalize hc1 : (if cfn key (S.1.objects.getD (scanPos cfn key node.objects
          node.objCount) []) > 0 then scanPos cfn key node.objects node.objCount + 1
          else scanPos cfn key node.objects node.objCount) = ctr1
        have hctr1 : ctr1 = scanPos cfn key node.objects node.objCount ∨
            ctr1 = scanPos cfn key node.objects node.objCount + 1 := by
          rw [← hc1]; split <;> simp
        have hcnt : (S.1.children.getD ctr1 default).objCount = t - 1 := by
          rcases hctr1 with h1 | h1 <;> rw [h1] <;> assumption
        have hlt : ctr1 < S.1.children.length := by
          rcases hctr1 with h1 | h1 <;> omega
        have hcs := hs1'.2.2.2 _ (getD_mem hlt)
        have hSnd : S.1.fposs.Nodup := by
          rw [hperm.nodup_iff, List.nodup_cons]
          exact ⟨fun hm => by have := hb _ hm; omega, hnd⟩
        have hSb : ∀ a ∈ S.1.fposs, a < S.2 := by
          intro a ha
          rw [hperm.mem_iff, List.mem_cons] at ha
          rcases ha with rfl | ha
          · omega
          · have := hb a ha; omega
        obtain ⟨hcnd, hcsub⟩ := child_fposs hlt hSnd
        obtain ⟨i1, i2, i3⟩ := ih S.2 (S.1.children.getD ctr1 default) (h - 1) hcs.2
          (by omega) (by omega) hcnd (fun a ha => hSb a (hcsub a ha))
        obtain ⟨g1, g2⟩ := setChild_fposs hlt hSnd hSb i1 (fun a ha => (i3 a ha).1)
        refine ⟨g1, by omega, ?_⟩
        intro a ha
        have hlt2 : a < (_insertNonFull cfn t ns fuel S.2 (S.1.children.getD ctr1 default)
            key).2 := by
          rcases mem_fposs_setChild hlt ha with ha | ha
          · have := hSb a ha; omega
          · exact (i3 a ha).2
        refine ⟨?_, hlt2⟩
        rcases g2 a ha with h1 | h1
        · rw [hperm.mem_iff, List.mem_cons] at h1
          rcases h1 with rfl | h1
          · exact Or.inr (le_refl _)
          · exact Or.inl h1
        · exact Or.inr (by omega)
      · simp only [hfull, if_false]
        have hcs := hkids _ (getD_mem hi)
        have hcs2 := hcs.2
        rw [shaped_iff] at hcs2
        obtain ⟨hcnd, hcsub⟩ := child_fposs hi hnd
        obtain ⟨i1, i2, i3⟩ := ih fl (node.children.getD (scanPos cfn key node.objects
          node.objCount) default) (h - 1) hcs.2 (by omega) (by omega) hcnd
          (fun a ha => hb a (hcsub a ha))
        obtain ⟨g1, g2⟩ := setChild_fposs hi hnd hb i1 (fun a ha => (i3 a ha).1)
        refine ⟨g1, i2, ?_⟩
        intro a ha
        refine ⟨g2 a ha, ?_⟩
        rcases mem_fposs_setChild hi ha with ha | ha
        · have := hb a ha; omega
        · exact (i3 a ha).2

/-- File positions after `_insert`. -/
theorem insert_fposs (cfn : compareFn) {t : Nat} (ns fl : Nat) (key : DbObj) (ht2 : 2 ≤ t)
    (hns : 1 ≤ ns) {root : TreeNode} {h : Nat} (hr : Shaped t root h)
    (hnd : root.fposs.Nodup) (hb : ∀ a ∈ root.fposs, a < fl) :
    (_insert cfn t ns fl root key).1.fposs.Nodup ∧
    ∀ a ∈ (_insert cfn t ns fl root key).1.fposs, a < (_insert cfn t ns fl root key).2 := by
  have ht : 1 ≤ t := by omega
  have hh := hr.height_eq
  simp only [_insert]
  by_cases hfull : root.objCount = t * 2 - 1
  · simp only [hfull, if_true]
    have hnew : Shaped t (((_allocateNode ns fl).1.setIsLeaf false).setChildren
        [(root.setChildNo 0).setParent (some (_allocateNode ns fl).1.fpos)]) (h + 1) := by
      rw [shaped_iff]
      simp [_allocateNode, hr]
      omega
    have hsp := @split_shaped _ ns ((_allocateNode ns fl).2) _ 0 _ ht hnew
      (by simp) (by simp [_allocateNode]; omega) (by simp) (by simp; omega)
    have hperm := @split_fposs _ ns ((_allocateNode ns fl).2) _ 0 _ ht hnew
      (by simp) (by simp) (by simp; omega)
    have hfl := split_fileLen t ns (_allocateNode ns fl).2
      (((_allocateNode ns fl).1.setIsLeaf false).setChildren
        [(root.setChildNo 0).setParent (some (_allocateNode ns fl).1.fpos)]) 0
      ((root.setChildNo 0).setParent (some (_allocateNode ns fl).1.fpos))
    simp only [children_setChildren, List.getD_cons_zero] at hsp hperm
    have hnewf : (((_allocateNode ns fl).1.setIsLeaf false).setChildren
        [(root.setChildNo 0).setParent (some (_allocateNode ns fl).1.fpos)]).fposs
        = fl :: root.fposs := by
      rw [fposs_setChildren]
      simp [_allocateNode, setIsLeaf]
    rw [hnewf] at hperm
    have hal : (_allocateNode ns fl).2 = fl + ns := rfl
    generalize _split t ns (_allocateNode ns fl).2
      (((_allocateNode ns fl).1.setIsLeaf false).setChildren
        [(root.setChildNo 0).setParent (some (_allocateNode ns fl).1.fpos)]) 0
      ((root.setChildNo 0).setParent (some (_allocateNode ns fl).1.fpos)) = S at *
    have hSnd : S.1.fposs.Nodup := by
      rw [hperm.nodup_iff]
      simp only [List.nodup_cons, List.mem_cons, not_or]
      refine ⟨⟨by omega, fun hm => ?_⟩, fun hm => ?_, hnd⟩
      · have := hb _ hm; omega
      · have := hb _ hm; omega
    have hSb : ∀ a ∈ S.1.fposs, a < S.2 := by
      intro a ha
      rw [hperm.mem_iff] at ha
      simp only [List.mem_cons] at ha
      rcases ha with rfl | rfl | ha
      · omega
      · omega
      · have := hb a ha; omega
    have := insertNonFull_fposs cfn ns key ht hns (root.height + 1) S.2 S.1 (h + 1) hsp.1 (by
      rw [hsp.2.1]
      simp [_allocateNode, objCount]
      omega) (by omega) hSnd hSb
    exact ⟨this.1, fun a ha => (this.2.2 a ha).2⟩
  · simp only [hfull, if_false]
    have hr' := hr
    rw [shaped_iff] at hr'
    have := insertNonFull_fposs cfn ns key ht hns root.height fl root h hr (by omega) (by omega)
      hnd hb
    exact ⟨this.1, fun a ha => (this.2.2 a ha).2⟩

open TreeNode

theorem nodes_eq (n : TreeNode) : n.nodes = n :: nodesList n.children := by
  cases n; simp [nodes]

theorem storeObject_self (n : TreeNode) (slot : Nat) (r : DbObj) :
    n.storeObject n.fpos slot r = n.setObjects (n.objects.set slot r) := by
  cases n; simp [storeObject, setObjects]

theorem storeObject_ne (n : TreeNode) (a slot : Nat) (r : DbObj) (h : n.fpos ≠ a) :
    n.storeObject a slot r = n.setChildren (n.children.map (fun c => c.storeObject a slot r)) := by
  cases n with
  | mk c l f os cs p =>
    simp only [fpos_mk] at h
    simp [storeObject, h, setChildren, storeObjectList_eq_map]

@[simp] theorem storeObject_fpos (n : TreeNode) (a slot : Nat) (r : DbObj) :
    (n.storeObject a slot r).fpos = n.fpos := by
  cases n with
  | mk c l f os cs p =>
    simp only [storeObject]
    split <;> rfl

@[simp] theorem storeObject_isLeaf (n : TreeNode) (a slot : Nat) (r : DbObj) :
    (n.storeObject a slot r).isLeaf = n.isLeaf := by
  cases n with
  | mk c l f os cs p =>
    simp only [storeObject]
    split <;> rfl

@[simp] theorem storeObject_parent (n : TreeNode) (a slot : Nat) (r : DbObj) :
    (n.storeObject a slot r).parent = n.parent := by
  cases n with
  | mk c l f os cs p =>
    simp only [storeObject]
    split <;> rfl

@[simp] theorem storeObject_childNo (n : TreeNode) (a slot : Nat) (r : DbObj) :
    (n.storeObject a slot r).childNo = n.childNo := by
  cases n with
  | mk c l f os cs p =>
    simp only [storeObject]
    split <;> rfl

/-- A store through a node pointer moves no node. -/
theorem storeObject_fposs (a slot : Nat) (r : DbObj) :
    ∀ n : TreeNode, (n.storeObject a slot r).fposs = n.fposs := by
  intro n
  induction n using TreeNode.induct with
  | step c l f os cs p ih =>
    simp only [storeObject]
    split
    · rw [fposs_eq, fposs_eq (mk c l f os cs p)]; rfl
    · rw [fposs_eq, fposs_eq (mk c l f os cs p)]
      simp only [fpos_mk, children_mk, storeObjectList_eq_map]
      congr 1
      apply fpossList_congr
      rw [List.map_map]
      exact List.map_congr_left (fun x hx => ih x hx)

/-- A store through a pointer to no node of the subtree leaves the subtree as it is. -/
theorem storeObject_not_mem (a slot : Nat) (r : DbObj) :
    ∀ n : TreeNode, a ∉ n.fposs → n.storeObject a slot r = n := by
  intro n
  induction n using TreeNode.induct with
  | step c l f os cs p ih =>
    intro ha
    rw [fposs_eq] at ha
    simp only [fpos_mk, children_mk, List.mem_cons, not_or] at ha
    simp only [storeObject]
    rw [if_neg (fun e => ha.1 e.symm), storeObjectList_eq_map]
    congr 1
    conv_rhs => rw [← List.map_id cs]
    apply List.map_congr_left
    intro x hx
    exact ih x hx (fun hm => ha.2 (mem_fpossList.2 ⟨x, hx, hm⟩))

/-- A store through a pointer into child `k` changes that child only. -/
theorem map_storeObject_eq_set (a slot : Nat) (r : DbObj) :
    ∀ (cs : List TreeNode) (k : Nat), (fpossList cs).Nodup → k < cs.length →
      a ∈ (cs.getD k default).fposs →
      cs.map (fun c => c.storeObject a slot r) =
        cs.set k ((cs.getD k default).storeObject a slot r) := by
  intro cs
  induction cs with
  | nil => intro k _ hk; simp at hk
  | cons c cs ih =>
    intro k hnd hk ha
    simp only [fpossList_cons, List.nodup_append, List.disjoint_left] at hnd
    cases k with
    | zero =>
      simp only [List.getD_cons_zero] at ha
      simp only [List.map_cons, List.set_cons_zero, List.getD_cons_zero, List.cons.injEq,
        true_and]
      conv_rhs => rw [← List.map_id cs]
      apply List.map_congr_left
      intro x hx
      exact storeObject_not_mem a slot r x
        (fun hm => hnd.2.2 ha (mem_fpossList.2 ⟨x, hx, hm⟩))
    | succ k =>
      simp only [List.getD_cons_succ] at ha
      simp only [List.map_cons, List.set_cons_succ, List.getD_cons_succ, List.cons.injEq]
      refine ⟨storeObject_not_mem a slot r c (fun hm => hnd.2.2 hm ?_), ?_⟩
      · exact mem_fpossList.2 ⟨_, getD_mem (by simpa using hk), ha⟩
      · exact ih k hnd.2.1 (by simpa using hk) ha

theorem set_eq_take_cons_drop (os : List DbObj) (j : Nat) (r : DbObj) (hj : j < os.length) :
    os.set j r = os.take j ++ r :: os.drop (j + 1) := by
  have := take_getD_drop (os.set j r) j (by simpa using hj)
  rw [take_set_ge _ _ _ _ (le_refl _), getD_set_self_obj _ _ _ hj,
    List.drop_set_of_lt _ _ (by omega)] at this
  exact this.symm

/-- In-order records after a store through a pointer to a node of the subtree: the
record at the slot is replaced, every other record stays in its place. -/
theorem storeObject_inorder {t : Nat} (m : TreeNode) (slot : Nat) (r : DbObj)
    (hslot : slot < m.objCount) :
    ∀ (n : TreeNode) (h : Nat), Shaped t n h → n.fposs.Nodup → m ∈ n.nodes →
      ∃ l1 l2, inorder n = l1 ++ m.objects.getD slot [] :: l2 ∧
        inorder (n.storeObject m.fpos slot r) = l1 ++ r :: l2 := by
  intro n
  induction n using TreeNode.induct with
  | step c l f os cs p ih =>
    intro h hn hnd hm
    generalize hq : mk c l f os cs p = q at *
    have hcs : q.children = cs := by rw [← hq]; rfl
    rw [nodes_eq, List.mem_cons] at hm
    have hn0 := hn
    rw [shaped_iff] at hn
    rcases hm with rfl | hm
    · rw [storeObject_self, inorder_eq, inorder_eq (m.setObjects _)]
      simp only [isLeaf_setObjects, objects_setObjects, children_setObjects]
      by_cases hl : m.isLeaf = true
      · simp only [hl, if_true]
        exact ⟨m.objects.take slot, m.objects.drop (slot + 1),
          (take_getD_drop _ _ hslot).symm, set_eq_take_cons_drop _ _ _ hslot⟩
      · simp only [hl] at hn ⊢
        simp only [Bool.false_eq_true, if_false] at hn ⊢
        have hlen : m.children.length = m.objects.length + 1 := hn.2.1
        refine ⟨kidsBefore (m.children.take slot) (m.objects.take slot) ++
            inorder (m.children.getD slot default),
          inorder (m.children.getD (slot + 1) default) ++
            kidsAfter (m.objects.drop (slot + 1)) (m.children.drop (slot + 2)), ?_, ?_⟩
        · rw [inorderKids_two _ _ slot hlen hslot]
          simp
        · rw [inorderKids_two _ _ slot (by simpa using hlen) (by simpa using hslot),
            take_set_ge _ _ _ _ (le_refl _), getD_set_self_obj _ _ _ hslot,
            List.drop_set_of_lt _ _ (by omega)]
          simp
    · rw [hcs] at hm
      obtain ⟨x, hx, hmx⟩ := (nodesList_eq cs m).1 hm
      obtain ⟨k, hk, rfl⟩ := List.getElem_of_mem hx
      have hgd : cs.getD k default = cs[k] := List.getD_eq_getElem _ _ hk
      have hne : q.fpos ≠ m.fpos := by
        intro e
        rw [fposs_eq, List.nodup_cons, hcs] at hnd
        apply hnd.1
        rw [e]
        exact List.mem_map_of_mem _ hm
      have hl0 : q.isLeaf = false := by
        cases hl : q.isLeaf with
        | false => rfl
        | true =>
          simp only [hl, if_true, hcs] at hn
          rw [hn.2.1] at hk
          simp at hk
      simp only [hl0, Bool.false_eq_true, if_false, hcs] at hn
      obtain ⟨_, hlen, hh, hkids⟩ := hn
      have hlen' : cs.length = q.objects.length + 1 := hlen
      have hndl : (fpossList cs).Nodup := by
        rw [fposs_eq, List.nodup_cons, hcs] at hnd
        exact hnd.2
      have hck : (cs[k]).fposs.Nodup := by
        have := (child_fposs (q := q) (k := k) (by rw [hcs]; exact hk) hnd).1
        rw [hcs, hgd] at this
        exact this
      obtain ⟨c1, c2, e1, e2⟩ := ih cs[k] hx (h - 1) (hkids _ hx).2 hck hmx
      rw [storeObject_ne _ _ _ _ hne, hcs,
        map_storeObject_eq_set _ _ _ cs k hndl hk
          (by rw [hgd]; exact List.mem_map_of_mem _ hmx), hgd]
      refine ⟨kidsBefore (cs.take k) (q.objects.take k) ++ c1,
        c2 ++ kidsAfter (q.objects.drop k) (cs.drop (k + 1)), ?_, ?_⟩
      · rw [inorder_eq q]
        simp only [hl0, Bool.false_eq_true, if_false, hcs]
        rw [inorderKids_split cs q.objects k hlen' (by omega), hgd, e1]
        simp
      · rw [inorder_eq]
        simp only [isLeaf_setChildren, hl0, Bool.false_eq_true, if_false, children_setChildren,
          objects_setChildren]
        rw [inorderKids_set cs q.objects k _ hlen' (by omega), e2]
        simp

open TreeNode

/-- An ascending list stays ascending when a record is replaced by one that compares
equal to it. -/
theorem Ascending.replace {D : DbObj → Prop} {cmp : compareFn} (ho : TotalOrderOn D cmp)
    {l1 l2 : List DbObj} {x y : DbObj} (h : Ascending cmp (l1 ++ x :: l2))
    (hD : ∀ a ∈ l1 ++ x :: l2, D a) (hy : D y) (hz : cmp y x = 0) :
    Ascending cmp (l1 ++ y :: l2) := by
  have hx : D x := hD x (by simp)
  have hxy := ho.eq_symm hy hx hz
  rw [Ascending.append_iff, Ascending.cons_iff] at h ⊢
  obtain ⟨h1, ⟨h2, h3⟩, h4⟩ := h
  refine ⟨h1, ⟨fun b hb => ?_, h3⟩, fun a ha b hb => ?_⟩
  · exact ho.lt_of_le_of_lt hy hx (hD b (by simp [hb])) (by omega) (h2 b hb)
  · rcases List.mem_cons.1 hb with rfl | hb
    · exact ho.lt_of_lt_of_le (hD a (by simp [ha])) hx hy (h4 a ha x (by simp)) (by omega)
    · exact h4 a ha b (by simp [hb])

/-- The records of every node of a shaped subtree are among its in-order records. -/
theorem mem_inorder_of_mem_nodes {t : Nat} {m : TreeNode} {r : DbObj} (hr : r ∈ m.objects) :
    ∀ (n : TreeNode) (h : Nat), Shaped t n h → m ∈ n.nodes → r ∈ inorder n := by
  intro n
  induction n using TreeNode.induct with
  | step c l f os cs p ih =>
    intro h hn hm
    generalize hq : mk c l f os cs p = q at *
    have hcs : q.children = cs := by rw [← hq]; rfl
    rw [nodes_eq, List.mem_cons] at hm
    rcases hm with rfl | hm
    · exact mem_inorder_of_mem_objects hr
    · rw [hcs] at hm
      obtain ⟨x, hx, hmx⟩ := (nodesList_eq cs m).1 hm
      obtain ⟨k, hk, rfl⟩ := List.getElem_of_mem hx
      have hgd : cs.getD k default = cs[k] := List.getD_eq_getElem _ _ hk
      have hn0 := hn
      rw [shaped_iff] at hn
      have hl0 : q.isLeaf = false := by
        cases hl : q.isLeaf with
        | false => rfl
        | true =>
          simp only [hl, if_true, hcs] at hn
          rw [hn.2.1] at hk
          simp at hk
      simp only [hl0, Bool.false_eq_true, if_false, hcs] at hn
      obtain ⟨_, hlen, hh, hkids⟩ := hn
      have := ih cs[k] hx (h - 1) (hkids _ hx).2 hmx
      rw [inorder_eq q]
      simp only [hl0, Bool.false_eq_true, if_false, hcs]
      exact mem_inorderKids_of_child cs q.objects hk (by
        have : q.objCount = q.objects.length := rfl
        omega) (by rw [hgd]; exact this)

theorem insertNonFull_isLeaf (cfn : compareFn) (t ns : Nat) (key : DbObj) :
    ∀ (fuel fl : Nat) (node : TreeNode),
      (_insertNonFull cfn t ns fuel fl node key).1.isLeaf = node.isLeaf := by
  intro fuel
  cases fuel with
  | zero => intro fl node; rfl
  | succ fuel =>
    intro fl node
    simp only [_insertNonFull]
    split
    · simp
    · split <;> simp

/-- After `_insert` the root is a leaf or holds a record. -/
theorem insert_root (cfn : compareFn) {t : Nat} (ns fl : Nat) (key : DbObj) (ht2 : 2 ≤ t)
    {root : TreeNode} {h : Nat} (hr : Shaped t root h)
    (hroot : root.isLeaf = true ∨ 0 < root.objCount) :
    (_insert cfn t ns fl root key).1.isLeaf = true ∨
      0 < (_insert cfn t ns fl root key).1.objCount := by
  have ht : 1 ≤ t := by omega
  have hh := hr.height_eq
  simp only [_insert]
  by_cases hfull : root.objCount = t * 2 - 1
  · simp only [hfull, if_true]
    have hnew : Shaped t (((_allocateNode ns fl).1.setIsLeaf false).setChildren
        [(root.setChildNo 0).setParent (some (_allocateNode ns fl).1.fpos)]) (h + 1) := by
      rw [shaped_iff]
      simp [_allocateNode, hr]
      omega
    have hsp := @split_shaped _ ns ((_allocateNode ns fl).2) _ 0 _ ht hnew
      (by simp) (by simp [_allocateNode]; omega) (by simp) (by simp; omega)
    simp only [children_setChildren, List.getD_cons_zero] at hsp
    generalize _split t ns (_allocateNode ns fl).2
      (((_allocateNode ns fl).1.setIsLeaf false).setChildren
        [(root.setChildNo 0).setParent (some (_allocateNode ns fl).1.fpos)]) 0
      ((root.setChildNo 0).setParent (some (_allocateNode ns fl).1.fpos)) = S at *
    have := (insertNonFull_shaped cfn ns key ht (root.height + 1) S.2 S.1 (h + 1) hsp.1 (by
      rw [hsp.2.1]
      simp [_allocateNode, objCount]
      omega) (by omega)).2
    rw [hsp.2.1] at this
    exact Or.inr (by omega)
  · simp only [hfull, if_false]
    have hr' := hr
    rw [shaped_iff] at hr'
    rcases hroot with hl | hp
    · exact Or.inl (by rw [insertNonFull_isLeaf]; exact hl)
    · have := (insertNonFull_shaped cfn ns key ht root.height fl root h hr (by omega)
        (by omega)).2
      exact Or.inr (by omega)

/-- What `put` does in a sound state: a record that compares equal to a stored one
replaces it, any other record of `recSize` bytes is inserted at its sorted
position, and a record of another size changes nothing. -/
theorem put_records (db : BTreeDB) (rec : DbObj) (hs : db.Sound) :
    (rec.length ≠ db._recSize ∧ (db.put rec).1 = db) ∨
    (rec.length = db._recSize ∧ ∃ l1 x l2, db._root.inorder = l1 ++ x :: l2 ∧
      db._compFunc rec x = 0 ∧ (db.put rec).1._root.inorder = l1 ++ rec :: l2 ∧
      ∃ a slot, (db.put rec).1 = { db with _root := db._root.storeObject a slot rec }) ∨
    (rec.length = db._recSize ∧ (∀ s ∈ db._root.inorder, db._compFunc rec s ≠ 0) ∧
      (∃ l1 l2, db._root.inorder = l1 ++ l2 ∧ (db.put rec).1._root.inorder = l1 ++ rec :: l2 ∧
        (∀ a ∈ l1, db._compFunc a rec < 0) ∧ (∀ b ∈ l2, db._compFunc rec b < 0)) ∧
      (db.put rec).1 = { db with
        _root := (_insert db._compFunc db._minDegree db._nodeSize db.fileLen db._root rec).1,
        fileLen := (_insert db._compFunc db._minDegree db._nodeSize db.fileLen db._root
          rec).2 }) := by
  obtain ⟨h, hsh⟩ := hs.shape
  by_cases hsize : rec.length = db._recSize
  · right
    by_cases hex : ∃ r ∈ db._root.inorder, db._compFunc rec r = 0
    · left
      obtain ⟨m, hm, slot, hslot, hne, hsearch, hz⟩ := search_finds hs.order hs.degree hs.fit rec
        hsize db._root.height db._root h hsh (by rw [hsh.height_eq]; omega) hs.root hs.asc
        hs.sizes hex
      obtain ⟨l1, l2, e1, e2⟩ := storeObject_inorder m slot rec hslot db._root h hsh hs.nodup hm
      refine ⟨hsize, l1, _, l2, e1, hz, ?_, m.fpos, slot, ?_⟩
      · simp only [BTreeDB.put, BTreeDB.getRecSize, hsize, ne_eq, not_true_eq_false, if_false,
          hsearch, hne]
        exact e2
      · simp only [BTreeDB.put, BTreeDB.getRecSize, hsize, ne_eq, not_true_eq_false, if_false,
          hsearch, hne]
    · right
      have hne : ∀ s ∈ db._root.inorder, db._compFunc rec s ≠ 0 :=
        fun s hs1 hz => hex ⟨s, hs1, hz⟩
      have hsearch : _search db._compFunc db._root.height db._root rec none = (none, SIZE_MAX) :=
        search_none db._compFunc rec _ _ none hne
          (fun r hr => hne r (mem_inorder_of_mem_objects hr))
      have hins := insert_inorder hs.order db._nodeSize db.fileLen rec hs.degree hsize hsh
        hs.asc (fun r hr => ⟨hs.sizes r hr, hne r hr⟩)
      refine ⟨hsize, hne, ?_, ?_⟩
      · simp only [BTreeDB.put, BTreeDB.getRecSize, hsize, ne_eq, not_true_eq_false, if_false,
          hsearch]
        exact hins
      · simp only [BTreeDB.put, BTreeDB.getRecSize, hsize, ne_eq, not_true_eq_false, if_false,
          hsearch]
  · left
    refine ⟨hsize, ?_⟩
    simp [BTreeDB.put, BTreeDB.getRecSize, hsize]

/-- A sound state stays sound under `put`. -/
theorem put_sound (db : BTreeDB) (rec : DbObj) (hs : db.Sound) : (db.put rec).1.Sound := by
  obtain ⟨h, hsh⟩ := hs.shape
  rcases put_records db rec hs with ⟨_, e⟩ | ⟨hsize, l1, x, l2, e1, hz, e2, a, slot, e⟩ |
    ⟨hsize, hne, ⟨l1, l2, e1, e2, h1, h2⟩, e⟩
  · rw [e]; exact hs
  · have hst := storeObject_shaped db._minDegree a slot rec db._root h hsh
    have hD : ∀ r ∈ l1 ++ x :: l2, r.length = db._recSize := by
      rw [← e1]; exact hs.sizes
    rw [e] at e2 ⊢
    exact {
      degree := hs.degree
      fit := hs.fit
      order := hs.order
      shape := ⟨h, hst.1⟩
      asc := by
        show Ascending db._compFunc (inorder (db._root.storeObject a slot rec))
        rw [e2]
        exact Ascending.replace hs.order (by rw [← e1]; exact hs.asc) hD hsize hz
      sizes := by
        show ∀ r ∈ inorder (db._root.storeObject a slot rec), r.length = db._recSize
        rw [e2]
        intro r hr
        simp only [List.mem_append, List.mem_cons] at hr
        rcases hr with hr | rfl | hr
        · exact hD r (by simp [hr])
        · exact hsize
        · exact hD r (by simp [hr])
      root := by
        show (db._root.storeObject a slot rec).isLeaf = true ∨
          0 < (db._root.storeObject a slot rec).objCount
        rw [storeObject_isLeaf, hst.2]
        exact hs.root
      page := hs.page
      nodup := by
        show (db._root.storeObject a slot rec).fposs.Nodup
        rw [storeObject_fposs]; exact hs.nodup
      bound := by
        show ∀ a1 ∈ (db._root.storeObject a slot rec).fposs, a1 < db.fileLen
        rw [storeObject_fposs]; exact hs.bound }
  · have hfp := insert_fposs db._compFunc db._nodeSize db.fileLen rec hs.degree hs.page hsh
      hs.nodup hs.bound
    rw [e] at e2 ⊢
    exact {
      degree := hs.degree
      fit := hs.fit
      order := hs.order
      shape := insert_shaped _ _ _ _ hs.degree hsh
      asc := by
        show Ascending db._compFunc (inorder (_insert db._compFunc db._minDegree db._nodeSize
          db.fileLen db._root rec).1)
        rw [e2]
        exact Ascending.insert (by rw [← e1]; exact hs.asc) h1 h2
      sizes := by
        show ∀ r ∈ inorder (_insert db._compFunc db._minDegree db._nodeSize
          db.fileLen db._root rec).1, r.length = db._recSize
        rw [e2]
        intro r hr
        simp only [List.mem_append, List.mem_cons] at hr
        rcases hr with hr | rfl | hr
        · exact hs.sizes r (by rw [e1]; simp [hr])
        · exact hsize
        · exact hs.sizes r (by rw [e1]; simp [hr])
      root := insert_root _ _ _ _ hs.degree hsh hs.root
      page := hs.page
      nodup := hfp.1
      bound := hfp.2 }

/-- A freshly created database is in a sound state. -/
theorem create_sound (recSize keySize t : Nat) (cfn : Option compareFn) (ht : 2 ≤ t)
    (hfit : 2 * t - 1 ≤ SIZE_MAX)
    (ho : TotalOrderOn (fun r => r.length = recSize) (cfn.getD _defaultCompare)) :
    (BTreeDB.create recSize keySize t cfn).Sound :=
  { degree := ht
    fit := hfit
    order := ho
    shape := ⟨0, by rw [shaped_iff]; simp [BTreeDB.create, _allocateNode, objCount]⟩
    asc := by simp [BTreeDB.create, _allocateNode, inorder, setIsLeaf, Ascending]
    sizes := by simp [BTreeDB.create, _allocateNode, inorder, setIsLeaf]
    root := Or.inl (by simp [BTreeDB.create, _allocateNode, setIsLeaf])
    page := by simp only [BTreeDB.create]; omega
    nodup := by simp [BTreeDB.create, _allocateNode, fposs, nodes, nodesList, setIsLeaf]
    bound := by
      simp [BTreeDB.create, _allocateNode, fposs, nodes, nodesList, setIsLeaf] }

open TreeNode

/-- Method `put` changes neither the comparator nor the sizes of the database. -/
theorem put_params (db : BTreeDB) (rec : DbObj) :
    (db.put rec).1._compFunc = db._compFunc ∧ (db.put rec).1._recSize = db._recSize ∧
    (db.put rec).1._minDegree = db._minDegree ∧ (db.put rec).1._nodeSize = db._nodeSize := by
  simp only [BTreeDB.put]
  split
  · exact ⟨rfl, rfl, rfl, rfl⟩
  · split
    · exact ⟨rfl, rfl, rfl, rfl⟩
    · split <;> exact ⟨rfl, rfl, rfl, rfl⟩

/-- Records after a sequence of `put` of records with pairwise unequal keys, none of
them equal to a stored one: the stored ones and the new ones. -/
theorem run_puts_distinct (recs : List DbObj) : ∀ (db : BTreeDB), db.Sound →
    (∀ r ∈ recs, r.length = db._recSize) →
    recs.Pairwise (fun a b => db._compFunc a b ≠ 0) →
    (∀ s ∈ db._root.inorder, ∀ r ∈ recs, db._compFunc r s ≠ 0) →
    (db.run (recs.map Op.put)).Sound ∧
    (db.run (recs.map Op.put))._compFunc = db._compFunc ∧
    (db.run (recs.map Op.put))._recSize = db._recSize ∧
    ∀ x, x ∈ (db.run (recs.map Op.put))._root.inorder ↔ x ∈ db._root.inorder ∨ x ∈ recs := by
  induction recs with
  | nil =>
    intro db hs _ _ _
    exact ⟨hs, rfl, rfl, fun x => by simp [BTreeDB.run]⟩
  | cons r recs ih =>
    intro db hs hsz hpw hne
    obtain ⟨p1, p2, _, _⟩ := put_params db r
    have hrs : r.length = db._recSize := hsz r (by simp)
    have hnew : ∃ l1 l2, db._root.inorder = l1 ++ l2 ∧
        (db.put r).1._root.inorder = l1 ++ r :: l2 := by
      rcases put_records db r hs with ⟨e, _⟩ | ⟨_, l1, x, l2, e1, hz, _⟩ |
        ⟨_, _, ⟨l1, l2, e1, e2, _⟩, _⟩
      · exact absurd hrs e
      · exact absurd hz (hne x (by rw [e1]; simp) r (by simp))
      · exact ⟨l1, l2, e1, e2⟩
    obtain ⟨l1, l2, e1, e2⟩ := hnew
    rw [List.pairwise_cons] at hpw
    have hstep := ih (db.put r).1 (put_sound db r hs)
      (fun x hx => by rw [p2]; exact hsz x (by simp [hx]))
      (by rw [p1]; exact hpw.2)
      (by
        rw [p1, e2]
        intro s hs1 x hx
        simp only [List.mem_append, List.mem_cons] at hs1
        rcases hs1 with h1 | rfl | h1
        · exact hne s (by rw [e1]; simp [h1]) x (by simp [hx])
        · intro hz
          exact hpw.1 x hx (hs.order.eq_symm (hsz x (by simp [hx])) hrs hz)
        · exact hne s (by rw [e1]; simp [h1]) x (by simp [hx]))
    have hrun : db.run ((r :: recs).map Op.put) = (db.put r).1.run (recs.map Op.put) := by
      simp [BTreeDB.run, BTreeDB.step]
    rw [hrun]
    refine ⟨hstep.1, by rw [hstep.2.1, p1], by rw [hstep.2.2.1, p2], fun x => ?_⟩
    rw [hstep.2.2.2 x, e2, e1]
    simp only [List.mem_append, List.mem_cons]
    tauto

/-- In a sound state `search` and `get` find a record that compares equal to the key
when one is stored, and nothing otherwise. -/
theorem sound_search_get (db : BTreeDB) (key : DbObj) (hs : db.Sound)
    (hkey : key.length = db._recSize) :
    ((∃ r ∈ db._root.inorder, db._compFunc key r = 0) →
      ∃ a slot rec, db.search key none = (some a, slot) ∧ slot ≠ SIZE_MAX ∧
        db.getAt (some a, slot) = some rec ∧ db.get key = some rec ∧
        rec ∈ db._root.inorder ∧ db._compFunc key rec = 0) ∧
    ((∀ r ∈ db._root.inorder, db._compFunc key r ≠ 0) →
      db.search key none = (none, SIZE_MAX) ∧ db.get key = none) := by
  obtain ⟨h, hsh⟩ := hs.shape
  constructor
  · intro hex
    obtain ⟨m, hm, slot, hslot, hne, hsearch, hz⟩ := search_finds hs.order hs.degree hs.fit key
      hkey db._root.height db._root h hsh (by rw [hsh.height_eq]; omega) hs.root hs.asc
      hs.sizes hex
    have hfind := findNode_of_mem db._root hs.nodup m hm
    have hget : db.getAt (some m.fpos, slot) = some (m.objects.getD slot []) := by
      simp [BTreeDB.getAt, hne, hfind]
    refine ⟨m.fpos, slot, m.objects.getD slot [], hsearch, hne, hget, ?_, ?_, hz⟩
    · simp only [BTreeDB.get, hsearch]
      exact hget
    · exact mem_inorder_of_mem_nodes (getD_mem_objects hslot) db._root h hsh hm
  · intro hne
    have hsearch : _search db._compFunc db._root.height db._root key none = (none, SIZE_MAX) :=
      search_none db._compFunc key _ _ none hne
        (fun r hr => hne r (mem_inorder_of_mem_objects hr))
    refine ⟨hsearch, ?_⟩
    simp [BTreeDB.get, hsearch, BTreeDB.getAt]

/-- C2: after the records of a finite list, of `recSize` bytes each and with pairwise
unequal keys, have been put in the order of the list into a freshly created
database of minimum degree `t ≥ 2`, a key that compares equal to one of them
is found: `search` returns a location with a node and a slot other than `-1`,
and `get`, at that location and by key, returns one of the records put, which
compares equal to the key.  For a key that compares unequal to all of them
`search` returns the null location (no node, slot `-1`) and `get` returns
false.  The comparator is a total order on records of `recSize` bytes, the
key has `recSize` bytes, and the capacity `2t - 1` is a value of `size_t`. -/
theorem search_get_after_distinct_puts (recSize keySize t : Nat) (cfn : Option compareFn)
    (recs : List DbObj) (key : DbObj) (ht : 2 ≤ t) (hfit : 2 * t - 1 ≤ SIZE_MAX)
    (ho : TotalOrderOn (fun r => r.length = recSize) (cfn.getD _defaultCompare))
    (hsz : ∀ r ∈ recs, r.length = recSize)
    (hdist : recs.Pairwise (fun a b => (cfn.getD _defaultCompare) a b ≠ 0))
    (hkey : key.length = recSize) :
    ((∃ r ∈ recs, (cfn.getD _defaultCompare) key r = 0) →
      ∃ a slot rec,
        ((BTreeDB.create recSize keySize t cfn).run (recs.map Op.put)).search key none
          = (some a, slot) ∧ slot ≠ SIZE_MAX ∧
        ((BTreeDB.create recSize keySize t cfn).run (recs.map Op.put)).getAt (some a, slot)
          = some rec ∧
        ((BTreeDB.create recSize keySize t cfn).run (recs.map Op.put)).get key = some rec ∧
        rec ∈ recs ∧ (cfn.getD _defaultCompare) key rec = 0) ∧
    ((∀ r ∈ recs, (cfn.getD _defaultCompare) key r ≠ 0) →
      ((BTreeDB.create recSize keySize t cfn).run (recs.map Op.put)).search key none
        = (none, SIZE_MAX) ∧
      ((BTreeDB.create recSize keySize t cfn).run (recs.map Op.put)).get key = none) := by
  have hc := create_sound recSize keySize t cfn ht hfit ho
  obtain ⟨r1, r2, r3, r4⟩ := run_puts_distinct recs (BTreeDB.create recSize keySize t cfn) hc
    hsz hdist (fun s hs1 => by
      simp [BTreeDB.create, _allocateNode, inorder, setIsLeaf] at hs1)
  have hempty : ∀ x, x ∉ (BTreeDB.create recSize keySize t cfn)._root.inorder := by
    intro x hx
    simp [BTreeDB.create, _allocateNode, inorder, setIsLeaf] at hx
  have hmem : ∀ x, x ∈ ((BTreeDB.create recSize keySize t cfn).run
      (recs.map Op.put))._root.inorder ↔ x ∈ recs := by
    intro x
    rw [r4 x]
    exact ⟨fun h => h.resolve_left (hempty x), Or.inr⟩
  have hcmp : ((BTreeDB.create recSize keySize t cfn).run (recs.map Op.put))._compFunc
      = cfn.getD _defaultCompare := r2
  have hrec : ((BTreeDB.create recSize keySize t cfn).run (recs.map Op.put))._recSize
      = recSize := r3
  obtain ⟨g1, g2⟩ := sound_search_get _ key r1 (by rw [hrec]; exact hkey)
  rw [hcmp] at g1 g2
  constructor
  · rintro ⟨r, hr, hz⟩
    obtain ⟨a, slot, rec, q1, q2, q3, q4, q5, q6⟩ := g1 ⟨r, (hmem r).2 hr, hz⟩
    exact ⟨a, slot, rec, q1, q2, q3, q4, (hmem rec).1 q5, q6⟩
  · intro hne
    exact g2 (fun r hr => hne r ((hmem r).1 hr))

/-- Witness for C2: the records `3, 1, 4, 5, 2` put in this order with `t = 2`, and
the key `4`. -/
theorem search_get_after_distinct_puts_witness :
    ((∃ r ∈ [rec4 3, rec4 1, rec4 4, rec4 5, rec4 2],
        ((none : Option compareFn).getD _defaultCompare) (rec4 4) r = 0) →
      ∃ a slot rec,
        ((BTreeDB.create 4 4 2 none).run
          ([rec4 3, rec4 1, rec4 4, rec4 5, rec4 2].map Op.put)).search (rec4 4) none
          = (some a, slot) ∧ slot ≠ SIZE_MAX ∧
        ((BTreeDB.create 4 4 2 none).run
          ([rec4 3, rec4 1, rec4 4, rec4 5, rec4 2].map Op.put)).getAt (some a, slot)
          = some rec ∧
        ((BTreeDB.create 4 4 2 none).run
          ([rec4 3, rec4 1, rec4 4, rec4 5, rec4 2].map Op.put)).get (rec4 4) = some rec ∧
        rec ∈ [rec4 3, rec4 1, rec4 4, rec4 5, rec4 2] ∧
        ((none : Option compareFn).getD _defaultCompare) (rec4 4) rec = 0) ∧
    ((∀ r ∈ [rec4 3, rec4 1, rec4 4, rec4 5, rec4 2],
        ((none : Option compareFn).getD _defaultCompare) (rec4 4) r ≠ 0) →
      ((BTreeDB.create 4 4 2 none).run
        ([rec4 3, rec4 1, rec4 4, rec4 5, rec4 2].map Op.put)).search (rec4 4) none
        = (none, SIZE_MAX) ∧
      ((BTreeDB.create 4 4 2 none).run
        ([rec4 3, rec4 1, rec4 4, rec4 5, rec4 2].map Op.put)).get (rec4 4) = none) :=
  search_get_after_distinct_puts 4 4 2 none [rec4 3, rec4 1, rec4 4, rec4 5, rec4 2] (rec4 4)
    (by decide) (by decide) (defaultCompare_totalOrder 4) (by decide) (by decide) (by decide)

open TreeNode

/-! ## Back pointers -/

theorem linked_eq (n : TreeNode) : Linked n ↔ LinkedKids n.fpos 0 n.children := by
  cases n; simp [Linked]

@[simp] theorem linkedKids_nil (pf i : Nat) : LinkedKids pf i [] := by simp [LinkedKids]

theorem linkedKids_cons (pf i : Nat) (c : TreeNode) (cs : List TreeNode) :
    LinkedKids pf i (c :: cs) ↔
      c.parent = some pf ∧ c.childNo = i ∧ Linked c ∧ LinkedKids pf (i + 1) cs := by
  simp [LinkedKids]

theorem linkedKids_append (pf : Nat) (a b : List TreeNode) : ∀ i : Nat,
    LinkedKids pf i (a ++ b) ↔ LinkedKids pf i a ∧ LinkedKids pf (i + a.length) b := by
  induction a with
  | nil => intro i; simp
  | cons c cs ih =>
    intro i
    simp only [List.cons_append, linkedKids_cons, ih, List.length_cons]
    have : i + 1 + cs.length = i + (cs.length + 1) := by omega
    rw [this]
    tauto

@[simp] theorem linked_setParent (n : TreeNode) (q : Option Nat) :
    Linked (n.setParent q) ↔ Linked n := by
  rw [linked_eq, linked_eq n]; simp

@[simp] theorem linked_setChildNo (n : TreeNode) (k : Nat) :
    Linked (n.setChildNo k) ↔ Linked n := by
  rw [linked_eq, linked_eq n]; simp

@[simp] theorem linked_setObjects (n : TreeNode) (os : List DbObj) :
    Linked (n.setObjects os) ↔ Linked n := by
  rw [linked_eq, linked_eq n]; simp

theorem linked_setChildren (n : TreeNode) (cs : List TreeNode) :
    Linked (n.setChildren cs) ↔ LinkedKids n.fpos 0 cs := by
  rw [linked_eq]; simp

theorem linkedKids_mem {pf : Nat} {cs : List TreeNode} : ∀ {i : Nat}, LinkedKids pf i cs →
    ∀ c ∈ cs, c.parent = some pf ∧ Linked c := by
  induction cs with
  | nil => intro i _ c hc; cases hc
  | cons d ds ih =>
    intro i h c hc
    rw [linkedKids_cons] at h
    rcases List.mem_cons.1 hc with rfl | hc
    · exact ⟨h.1, h.2.2.1⟩
    · exact ih h.2.2.2 c hc

theorem linkedKids_renumber (pf : Nat) (cs : List TreeNode) : ∀ i : Nat,
    (∀ c ∈ cs, c.parent = some pf ∧ Linked c) → LinkedKids pf i (renumber i cs) := by
  induction cs with
  | nil => intro i _; simp [renumber]
  | cons d ds ih =>
    intro i h
    simp only [renumber, linkedKids_cons, parent_setChildNo, childNo_setChildNo,
      linked_setChildNo]
    exact ⟨(h d (by simp)).1, trivial, (h d (by simp)).2,
      ih (i + 1) (fun c hc => h c (by simp [hc]))⟩

theorem linkedKids_renumber_setParent (pf : Nat) (cs : List TreeNode) : ∀ i : Nat,
    (∀ c ∈ cs, Linked c) →
    LinkedKids pf i ((renumber i cs).map (fun m => m.setParent (some pf))) := by
  induction cs with
  | nil => intro i _; simp [renumber]
  | cons d ds ih =>
    intro i h
    simp only [renumber, List.map_cons, linkedKids_cons, parent_setParent, childNo_setParent,
      childNo_setChildNo, linked_setParent, linked_setChildNo]
    exact ⟨trivial, trivial, h d (by simp), ih (i + 1) (fun c hc => h c (by simp [hc]))⟩

theorem linkedKids_take {pf i : Nat} {cs : List TreeNode} (h : LinkedKids pf i cs) (k : Nat) :
    LinkedKids pf i (cs.take k) := by
  rw [← List.take_append_drop k cs, linkedKids_append] at h
  exact h.1

theorem linkedKids_getD {pf : Nat} {cs : List TreeNode} : ∀ {i : Nat}, LinkedKids pf i cs →
    ∀ k, k < cs.length → (cs.getD k default).parent = some pf ∧
      (cs.getD k default).childNo = i + k ∧ Linked (cs.getD k default) := by
  induction cs with
  | nil => intro i _ k hk; simp at hk
  | cons d ds ih =>
    intro i h k hk
    rw [linkedKids_cons] at h
    cases k with
    | zero => simpa using ⟨h.1, h.2.1, h.2.2.1⟩
    | succ k =>
      have := ih h.2.2.2 k (by simpa using hk)
      simp only [List.getD_cons_succ]
      refine ⟨this.1, ?_, this.2.2⟩
      rw [this.2.1]
      omega

theorem linkedKids_set {pf : Nat} {cs : List TreeNode} {c : TreeNode} : ∀ {i : Nat} (k : Nat),
    LinkedKids pf i cs → c.parent = (cs.getD k default).parent →
    c.childNo = (cs.getD k default).childNo → Linked c → LinkedKids pf i (cs.set k c) := by
  induction cs with
  | nil => intro i k _ _ _ _; simp
  | cons d ds ih =>
    intro i k h hp hc hl
    rw [linkedKids_cons] at h
    cases k with
    | zero =>
      simp only [List.getD_cons_zero] at hp hc
      simp only [List.set_cons_zero, linkedKids_cons]
      exact ⟨by rw [hp]; exact h.1, by rw [hc]; exact h.2.1, hl, h.2.2.2⟩
    | succ k =>
      simp only [List.getD_cons_succ] at hp hc
      simp only [List.set_cons_succ, linkedKids_cons]
      exact ⟨h.1, h.2.1, h.2.2.1, ih k h.2.2.2 hp hc hl⟩

@[simp] theorem split_parent (t ns fl : Nat) (p : TreeNode) (i : Nat) (c : TreeNode) :
    (_split t ns fl p i c).1.parent = p.parent := by
  simp [_split]

@[simp] theorem split_childNo (t ns fl : Nat) (p : TreeNode) (i : Nat) (c : TreeNode) :
    (_split t ns fl p i c).1.childNo = p.childNo := by
  simp [_split]

/-- Back pointers after `_split`. -/
theorem split_linked (t ns fl : Nat) {p : TreeNode} {i : Nat} (hp : Linked p)
    (hi : i < p.children.length) :
    Linked (_split t ns fl p i (p.children.getD i default)).1 := by
  rw [linked_eq] at hp
  obtain ⟨c1, c2, c3⟩ := linkedKids_getD hp i hi
  have hall := linkedKids_mem hp
  rw [linked_eq, split_children, split_fpos, linkedKids_append]
  refine ⟨linkedKids_take hp i, ?_⟩
  have hlen : (p.children.take i).length = i := by simp; omega
  rw [hlen, linkedKids_cons, linkedKids_cons]
  simp only [parent_setChildren, parent_setObjects, childNo_setChildren, childNo_setObjects,
    parent_mk, childNo_mk, zero_add]
  refine ⟨c1, by rw [c2]; omega, ?_, trivial, trivial, ?_, ?_⟩
  · rw [linked_setChildren, fpos_setObjects]
    rw [linked_eq] at c3
    exact linkedKids_take c3 t
  · rw [linked_eq]
    simp only [fpos_mk, children_mk]
    split
    · simp
    · apply linkedKids_renumber_setParent
      intro c hc
      rw [linked_eq] at c3
      exact (linkedKids_mem c3 c (List.mem_of_mem_drop (List.mem_of_mem_take hc))).2
  · apply linkedKids_renumber
    intro c hc
    exact hall c (List.mem_of_mem_drop hc)

/-- Facts `_insertNonFull` leaves as they are: the position, the parent pointer and
the child number of the node. -/
theorem insertNonFull_ptrs (cfn : compareFn) (t ns : Nat) (key : DbObj) :
    ∀ (fuel fl : Nat) (node : TreeNode),
      (_insertNonFull cfn t ns fuel fl node key).1.fpos = node.fpos ∧
      (_insertNonFull cfn t ns fuel fl node key).1.parent = node.parent ∧
      (_insertNonFull cfn t ns fuel fl node key).1.childNo = node.childNo := by
  intro fuel
  cases fuel with
  | zero => intro fl node; exact ⟨rfl, rfl, rfl⟩
  | succ fuel =>
    intro fl node
    simp only [_insertNonFull]
    split
    · simp
    · split <;> simp

/-- Back pointers after `_insertNonFull`. -/
theorem insertNonFull_linked (cfn : compareFn) {t : Nat} (ns : Nat) (key : DbObj) (ht : 1 ≤ t) :
    ∀ (fuel fl : Nat) (node : TreeNode) (h : Nat), Shaped t node h →
      node.objCount < 2 * t - 1 → h < fuel → Linked node →
      Linked (_insertNonFull cfn t ns fuel fl node key).1 := by
  intro fuel
  induction fuel with
  | zero => intro fl node h _ _ hf; omega
  | succ fuel ih =>
    intro fl node h hn hnf hf hlk
    have hn0 := hn
    rw [shaped_iff] at hn
    have hsp := scanPos_le cfn key node.objects node.objCount
    simp only [_insertNonFull]
    by_cases hl : node.isLeaf = true
    · simp only [hl, if_true, linked_setObjects]
      exact hlk
    · simp only [hl] at hn ⊢
      simp only [Bool.false_eq_true, if_false] at hn ⊢
      have hl0 : node.isLeaf = false := by simpa using hl
      obtain ⟨_, hlen, hh, hkids⟩ := hn
      have hi : scanPos cfn key node.objects node.objCount < node.children.length := by omega
      by_cases hfull : (node.children.getD (scanPos cfn key node.objects node.objCount)
          default).objCount = t * 2 - 1
      · simp only [hfull, if_true]
        obtain ⟨hs1, hs2, hs3, hs4⟩ := @split_shaped _ ns fl _ _ _ ht hn0 hl0 hnf hi
          (by omega)
        have hslk := split_linked t ns fl hlk hi
        generalize hS : _split t ns fl node (scanPos cfn key node.objects node.objCount)
          (node.children.getD (scanPos cfn key node.objects node.objCount) default) = S at *
        have hsl : S.1.isLeaf = false := by rw [← hS]; simpa using hl0
        have hs1' := hs1
        rw [shaped_iff] at hs1'
        simp only [hsl, Bool.false_eq_true, if_false] at hs1'
        generalize hc1 : (if cfn key (S.1.objects.getD (scanPos cfn key node.objects
          node.objCount) []) > 0 then scanPos cfn key node.objects node.objCount + 1
          else scanPos cfn key node.objects node.objCount) = ctr1
        have hctr1 : ctr1 = scanPos cfn key node.objects node.objCount ∨
            ctr1 = scanPos cfn key node.objects node.objCount + 1 := by
          rw [← hc1]; split <;> simp
        have hcnt : (S.1.children.getD ctr1 default).objCount = t - 1 := by
          rcases hctr1 with h1 | h1 <;> rw [h1] <;> assumption
        have hlt : ctr1 < S.1.children.length := by
          rcases hctr1 with h1 | h1 <;> omega
        have hcs := hs1'.2.2.2 _ (getD_mem hlt)
        rw [linked_eq] at hslk
        obtain ⟨_, _, c3⟩ := linkedKids_getD hslk ctr1 hlt
        have hrec := ih S.2 (S.1.children.getD ctr1 default) (h - 1) hcs.2 (by omega) (by omega)
          c3
        obtain ⟨q1, q2, q3⟩ := insertNonFull_ptrs cfn t ns key fuel S.2
          (S.1.children.getD ctr1 default)
        rw [linked_setChildren]
        exact linkedKids_set ctr1 hslk q2 q3 hrec
      · simp only [hfull, if_false]
        have hcs := hkids _ (getD_mem hi)
        have hcs2 := hcs.2
        rw [shaped_iff] at hcs2
        rw [linked_eq] at hlk
        obtain ⟨_, _, c3⟩ := linkedKids_getD hlk _ hi
        have hrec := ih fl (node.children.getD (scanPos cfn key node.objects node.objCount)
          default) (h - 1) hcs.2 (by omega) (by omega) c3
        obtain ⟨q1, q2, q3⟩ := insertNonFull_ptrs cfn t ns key fuel fl
          (node.children.getD (scanPos cfn key node.objects node.objCount) default)
        rw [linked_setChildren]
        exact linkedKids_set _ hlk q2 q3 hrec

/-- Back pointers after `_insert`; the new root has no parent. -/
theorem insert_linked (cfn : compareFn) {t : Nat} (ns fl : Nat) (key : DbObj) (ht2 : 2 ≤ t)
    {root : TreeNode} {h : Nat} (hr : Shaped t root h) (hlk : Linked root)
    (hpar : root.parent = none) :
    Linked (_insert cfn t ns fl root key).1 ∧ (_insert cfn t ns fl root key).1.parent = none := by
  have ht : 1 ≤ t := by omega
  have hh := hr.height_eq
  simp only [_insert]
  by_cases hfull : root.objCount = t * 2 - 1
  · simp only [hfull, if_true]
    have hnew : Shaped t (((_allocateNode ns fl).1.setIsLeaf false).setChildren
        [(root.setChildNo 0).setParent (some (_allocateNode ns fl).1.fpos)]) (h + 1) := by
      rw [shaped_iff]
      simp [_allocateNode, hr]
      omega
    have hsp := @split_shaped _ ns ((_allocateNode ns fl).2) _ 0 _ ht hnew
      (by simp) (by simp [_allocateNode]; omega) (by simp) (by simp; omega)
    have hnlk : Linked (((_allocateNode ns fl).1.setIsLeaf false).setChildren
        [(root.setChildNo 0).setParent (some (_allocateNode ns fl).1.fpos)]) := by
      rw [linked_setChildren, linkedKids_cons]
      simp [_allocateNode, setIsLeaf, hlk]
    have hslk := split_linked t ns (_allocateNode ns fl).2 (i := 0) hnlk (by simp)
    have hspar := split_parent t ns (_allocateNode ns fl).2
      (((_allocateNode ns fl).1.setIsLeaf false).setChildren
        [(root.setChildNo 0).setParent (some (_allocateNode ns fl).1.fpos)]) 0
      ((root.setChildNo 0).setParent (some (_allocateNode ns fl).1.fpos))
    simp only [children_setChildren, List.getD_cons_zero] at hsp hslk
    have hpn : (((_allocateNode ns fl).1.setIsLeaf false).setChildren
        [(root.setChildNo 0).setParent (some (_allocateNode ns fl).1.fpos)]).parent = none := by
      simp [_allocateNode, setIsLeaf]
    rw [hpn] at hspar
    generalize _split t ns (_allocateNode ns fl).2
      (((_allocateNode ns fl).1.setIsLeaf false).setChildren
        [(root.setChildNo 0).setParent (some (_allocateNode ns fl).1.fpos)]) 0
      ((root.setChildNo 0).setParent (some (_allocateNode ns fl).1.fpos)) = S at *
    refine ⟨insertNonFull_linked cfn ns key ht (root.height + 1) S.2 S.1 (h + 1) hsp.1 (by
      rw [hsp.2.1]
      simp [_allocateNode, objCount]
      omega) (by omega) hslk, ?_⟩
    rw [(insertNonFull_ptrs cfn t ns key _ _ _).2.1]
    exact hspar
  · simp only [hfull, if_false]
    have hr' := hr
    rw [shaped_iff] at hr'
    refine ⟨insertNonFull_linked cfn ns key ht root.height fl root h hr (by omega) (by omega)
      hlk, ?_⟩
    rw [(insertNonFull_ptrs cfn t ns key _ _ _).2.1]
    exact hpar

/-- Back pointers after a store through a node pointer. -/
theorem storeObject_linked (a slot : Nat) (r : DbObj) :
    ∀ n : TreeNode, Linked n → Linked (n.storeObject a slot r) := by
  intro n
  induction n using TreeNode.induct with
  | step c l f os cs p ih =>
    intro hl
    simp only [storeObject]
    split
    · exact hl
    · rw [linked_eq] at hl ⊢
      simp only [fpos_mk, children_mk, storeObjectList_eq_map] at hl ⊢
      have : ∀ (ds : List TreeNode) (i : Nat), (∀ d ∈ ds, d ∈ cs) → LinkedKids f i ds →
          LinkedKids f i (ds.map (fun c => c.storeObject a slot r)) := by
        intro ds
        induction ds with
        | nil => intro i _ _; simp
        | cons d ds ihd =>
          intro i hsub h
          rw [linkedKids_cons] at h
          simp only [List.map_cons, linkedKids_cons, storeObject_parent, storeObject_childNo]
          exact ⟨h.1, h.2.1, ih d (hsub d (by simp)) h.2.2.1,
            ihd (i + 1) (fun e he => hsub e (by simp [he])) h.2.2.2⟩
      exact this cs 0 (fun _ h => h) hl

/-- Method `put` keeps the back pointers of a sound state. -/
theorem put_linked (db : BTreeDB) (rec : DbObj) (hs : db.Sound) (hlk : Linked db._root)
    (hpar : db._root.parent = none) :
    Linked (db.put rec).1._root ∧ (db.put rec).1._root.parent = none := by
  obtain ⟨h, hsh⟩ := hs.shape
  rcases put_records db rec hs with ⟨_, e⟩ | ⟨_, _, _, _, _, _, _, a, slot, e⟩ | ⟨_, _, _, e⟩
  · rw [e]; exact ⟨hlk, hpar⟩
  · rw [e]
    exact ⟨storeObject_linked a slot rec _ hlk, by
      show (db._root.storeObject a slot rec).parent = none
      rw [storeObject_parent]; exact hpar⟩
  · rw [e]
    exact insert_linked _ _ _ _ hs.degree hsh hlk hpar

/-- Every state reached from a freshly created database by `put` alone is sound and
has its back pointers in place. -/
theorem run_puts_sound (recSize keySize t : Nat) (cfn : Option compareFn) (ht : 2 ≤ t)
    (hfit : 2 * t - 1 ≤ SIZE_MAX)
    (ho : TotalOrderOn (fun r => r.length = recSize) (cfn.getD _defaultCompare))
    (recs : List DbObj) :
    ((BTreeDB.create recSize keySize t cfn).run (recs.map Op.put)).Sound ∧
    Linked ((BTreeDB.create recSize keySize t cfn).run (recs.map Op.put))._root ∧
    ((BTreeDB.create recSize keySize t cfn).run (recs.map Op.put))._root.parent = none ∧
    ((BTreeDB.create recSize keySize t cfn).run (recs.map Op.put))._compFunc
      = cfn.getD _defaultCompare := by
  have start : (BTreeDB.create recSize keySize t cfn).Sound ∧
      Linked (BTreeDB.create recSize keySize t cfn)._root ∧
      (BTreeDB.create recSize keySize t cfn)._root.parent = none ∧
      (BTreeDB.create recSize keySize t cfn)._compFunc = cfn.getD _defaultCompare := by
    refine ⟨create_sound recSize keySize t cfn ht hfit ho, ?_, ?_, rfl⟩
    · simp [BTreeDB.create, _allocateNode, setIsLeaf, Linked]
    · simp [BTreeDB.create, _allocateNode, setIsLeaf]
  generalize BTreeDB.create recSize keySize t cfn = db at start
  induction recs generalizing db with
  | nil => exact start
  | cons r recs ih =>
    have hrun : db.run ((r :: recs).map Op.put) = (db.put r).1.run (recs.map Op.put) := by
      simp [BTreeDB.run, BTreeDB.step]
    rw [hrun]
    obtain ⟨s1, s2, s3, s4⟩ := start
    obtain ⟨l1, l2⟩ := put_linked db r s1 s2 s3
    exact ih _ ⟨put_sound db r s1, l1, l2, by rw [(put_params db r).1]; exact s4⟩

open TreeNode

/-! ## The forward cursor -/

theorem visits_eq (n : TreeNode) : visits n =
    if n.isLeaf then leafVisits n.fpos 0 n.objects
    else visitsKids n.fpos 0 n.children n.objects := by
  cases n; simp [visits]

theorem leafVisits_map_snd (f : Nat) : ∀ (os : List DbObj) (i : Nat),
    (leafVisits f i os).map Prod.snd = os := by
  intro os
  induction os with
  | nil => intro i; rfl
  | cons o os ih => intro i; simp [leafVisits, ih]

@[simp] theorem leafVisits_length (f : Nat) : ∀ (os : List DbObj) (i : Nat),
    (leafVisits f i os).length = os.length := by
  intro os
  induction os with
  | nil => intro i; rfl
  | cons o os ih => intro i; simp [leafVisits, ih]

theorem leafVisits_getD (f : Nat) : ∀ (os : List DbObj) (i j : Nat), j < os.length →
    (leafVisits f i os).getD j ((none, 0), []) = ((some f, i + j), os.getD j []) := by
  intro os
  induction os with
  | nil => intro i j hj; simp at hj
  | cons o os ih =>
    intro i j hj
    cases j with
    | zero => simp [leafVisits]
    | succ j =>
      simp only [leafVisits, List.getD_cons_succ]
      rw [ih (i + 1) j (by simpa using hj), show i + 1 + j = i + (j + 1) by omega]

/-- The records along the locations of a subtree are its in-order records. -/
theorem visits_map_snd : ∀ n : TreeNode, (visits n).map Prod.snd = inorder n := by
  intro n
  induction n using TreeNode.induct with
  | step c l f os cs p ih =>
    simp only [visits, inorder]
    split
    · exact leafVisits_map_snd f os 0
    · have : ∀ (ds : List TreeNode), (∀ d ∈ ds, d ∈ cs) → ∀ (qs : List DbObj) (i : Nat),
          (visitsKids f i ds qs).map Prod.snd = inorderKids ds qs := by
        intro ds
        induction ds with
        | nil => intro _ qs i; simp [visitsKids, inorderKids, leafVisits_map_snd]
        | cons d ds ihd =>
          intro hsub qs i
          cases qs with
          | nil => simp [visitsKids, inorderKids, ih d (hsub d (by simp))]
          | cons q qs =>
            simp [visitsKids, inorderKids, ih d (hsub d (by simp)),
              ihd (fun e he => hsub e (by simp [he])) qs (i + 1)]
      exact this cs (fun _ h => h) os 0

theorem chained_single (db : BTreeDB) (v : NodeKeyLocn × DbObj) (next : SeqResult) :
    Chained db [v] next ↔ db._seqNext v.1 = next := by
  simp [Chained]

theorem chained_cons2 (db : BTreeDB) (v w : NodeKeyLocn × DbObj)
    (rest : List (NodeKeyLocn × DbObj)) (next : SeqResult) :
    Chained db (v :: w :: rest) next ↔
      db._seqNext v.1 = SeqResult.found w.1 w.2 ∧ Chained db (w :: rest) next := by
  simp [Chained]

/-- Two chains joined: the first leads to the head of the second. -/
theorem chained_append_cons (db : BTreeDB) (v : NodeKeyLocn × DbObj)
    (b : List (NodeKeyLocn × DbObj)) (next : SeqResult) :
    ∀ a : List (NodeKeyLocn × DbObj), a ≠ [] → Chained db a (SeqResult.found v.1 v.2) →
      Chained db (v :: b) next → Chained db (a ++ v :: b) next := by
  intro a
  induction a with
  | nil => intro h; exact absurd rfl h
  | cons x a ih =>
    intro _ h1 h2
    cases a with
    | nil =>
      rw [chained_single] at h1
      simp only [List.cons_append, List.nil_append, chained_cons2]
      exact ⟨h1, h2⟩
    | cons y a =>
      rw [chained_cons2] at h1
      simp only [List.cons_append, chained_cons2]
      exact ⟨h1.1, ih (by simp) h1.2 h2⟩

/-- A chain from its single steps. -/
theorem chain_of_steps (db : BTreeDB) (next : SeqResult) :
    ∀ vs : List (NodeKeyLocn × DbObj), vs ≠ [] →
      (∀ j, j + 1 < vs.length → db._seqNext (vs.getD j ((none, 0), [])).1 =
        SeqResult.found (vs.getD (j + 1) ((none, 0), [])).1 (vs.getD (j + 1) ((none, 0), [])).2) →
      db._seqNext (vs.getD (vs.length - 1) ((none, 0), [])).1 = next →
      Chained db vs next := by
  intro vs
  induction vs with
  | nil => intro h; exact absurd rfl h
  | cons x vs ih =>
    intro _ hstep hlast
    cases vs with
    | nil =>
      rw [chained_single]
      simpa using hlast
    | cons y vs =>
      rw [chained_cons2]
      refine ⟨by simpa using hstep 0 (by simp), ih (by simp) (fun j hj => ?_) ?_⟩
      · have := hstep (j + 1) (by simpa using hj)
        simpa using this
      · simpa using hlast

/-- Forward step inside a leaf. -/
theorem seqNext_leaf_step (db : BTreeDB) (hnd : db._root.fposs.Nodup) {m : TreeNode}
    (hm : m ∈ db._root.nodes) (hl : m.isLeaf = true) {slot : Nat} (h : slot + 1 < m.objCount) :
    db._seqNext (some m.fpos, slot) =
      SeqResult.found (some m.fpos, slot + 1) (m.objects.getD (slot + 1) []) := by
  have hfind := findNode_of_mem db._root hnd m hm
  have hd : decr m.objCount = m.objCount - 1 := by
    unfold decr; rw [if_neg (by omega)]
  simp only [BTreeDB._seqNext, hfind, hl, if_true, hd]
  rw [if_pos (by omega), if_pos h]

/-- Forward step from the last record of a leaf. -/
theorem seqNext_leaf_last (db : BTreeDB) (hnd : db._root.fposs.Nodup) {m : TreeNode}
    (hm : m ∈ db._root.nodes) (hl : m.isLeaf = true) {slot : Nat} (h : slot + 1 = m.objCount)
    {x : Option (TreeNode × Nat)}
    (hc : climb db._root (db._root.size + 1) m.childNo m.parent = some x) :
    db._seqNext (some m.fpos, slot) = SeqResult.ofClimb x := by
  have hfind := findNode_of_mem db._root hnd m hm
  have hd : decr m.objCount = m.objCount - 1 := by
    unfold decr; rw [if_neg (by omega)]
  simp only [BTreeDB._seqNext, hfind, hl, if_true, hd]
  rw [if_neg (by omega), if_pos (by omega), hc]
  cases x with
  | none => rfl
  | some y => rfl

/-- Forward step from a record of an internal node. -/
theorem seqNext_internal (db : BTreeDB) (hnd : db._root.fposs.Nodup) {m : TreeNode}
    (hm : m ∈ db._root.nodes) (hl : m.isLeaf = false) (slot : Nat)
    (hpos : 0 < (leftmostLeaf (m.children.getD (slot + 1) default).height
      (m.children.getD (slot + 1) default)).objCount) :
    db._seqNext (some m.fpos, slot) =
      SeqResult.found (some (leftmostLeaf (m.children.getD (slot + 1) default).height
        (m.children.getD (slot + 1) default)).fpos, 0)
        ((leftmostLeaf (m.children.getD (slot + 1) default).height
          (m.children.getD (slot + 1) default)).objects.getD 0 []) := by
  have hfind := findNode_of_mem db._root hnd m hm
  simp only [BTreeDB._seqNext, hfind, hl, Bool.false_eq_true, if_false]
  rw [if_pos hpos]

/-- The first location of a subtree is slot 0 of its left-most leaf. -/
theorem visits_head {t : Nat} (ht : 2 ≤ t) :
    ∀ (fuel : Nat) (c : TreeNode) (h : Nat), Shaped t c h → h < fuel → 0 < c.objCount →
      0 < (leftmostLeaf fuel c).objCount ∧
      ∃ rest, visits c = ((some (leftmostLeaf fuel c).fpos, 0),
        (leftmostLeaf fuel c).objects.getD 0 []) :: rest := by
  intro fuel
  induction fuel with
  | zero => intro c h _ hf; omega
  | succ fuel ih =>
    intro c h hc hf hpos
    rw [shaped_iff] at hc
    rw [visits_eq]
    simp only [leftmostLeaf]
    by_cases hl : c.isLeaf = true
    · simp only [hl, if_true]
      refine ⟨hpos, ?_⟩
      have : c.objCount = c.objects.length := rfl
      cases hos : c.objects with
      | nil => rw [hos] at this; simp at this; omega
      | cons o os =>
        refine ⟨leafVisits c.fpos 1 os, ?_⟩
        simp [leafVisits]
    · simp only [hl] at hc ⊢
      simp only [Bool.false_eq_true, if_false] at hc ⊢
      obtain ⟨_, hlen, hh, hkids⟩ := hc
      have hc0 := hkids _ (getD_mem (show 0 < c.children.length by omega))
      obtain ⟨i1, rest, i2⟩ := ih (c.children.getD 0 default) (h - 1) hc0.2 (by omega)
        (by omega)
      refine ⟨i1, ?_⟩
      have : c.objCount = c.objects.length := rfl
      cases hcs : c.children with
      | nil => rw [hcs] at hlen; simp at hlen
      | cons c0 cs =>
        rw [hcs] at i2
        simp only [List.getD_cons_zero] at i2 ⊢
        cases hos : c.objects with
        | nil => rw [hos] at this; simp at this; omega
        | cons o os =>
          refine ⟨rest ++ ((some c.fpos, 0), o) :: visitsKids c.fpos 1 cs os, ?_⟩
          simp [visitsKids, i2]

theorem visitsKids_head (f i : Nat) (c : TreeNode) (cs : List TreeNode) (os : List DbObj)
    {v : NodeKeyLocn × DbObj} {rest0 : List (NodeKeyLocn × DbObj)}
    (h : visits c = v :: rest0) : ∃ rest, visitsKids f i (c :: cs) os = v :: rest := by
  cases os with
  | nil => exact ⟨rest0, by simp [visitsKids, h]⟩
  | cons o os =>
    exact ⟨rest0 ++ ((some f, i), o) :: visitsKids f (i + 1) cs os, by simp [visitsKids, h]⟩

/-- Chain through the children of a node and the records between them. -/
theorem kids_chain (db : BTreeDB) (f : Nat) (next : SeqResult) :
    ∀ (os : List DbObj) (cs : List TreeNode) (i : Nat), cs.length = os.length + 1 →
      (∀ j, j ≤ os.length → visits (cs.getD j default) ≠ []) →
      (∀ j, j < os.length → Chained db (visits (cs.getD j default))
        (SeqResult.found (some f, i + j) (os.getD j []))) →
      Chained db (visits (cs.getD os.length default)) next →
      (∀ j, j < os.length → ∃ v rest, visits (cs.getD (j + 1) default) = v :: rest ∧
        db._seqNext (some f, i + j) = SeqResult.found v.1 v.2) →
      Chained db (visitsKids f i cs os) next := by
  intro os
  induction os with
  | nil =>
    intro cs i hlen _ _ hlast _
    match cs, hlen with
    | [c], _ => simpa [visitsKids] using hlast
  | cons o os ih =>
    intro cs i hlen hne hmid hlast hstep
    match cs, hlen with
    | c :: cs, hlen =>
      simp only [List.length_cons, add_left_inj] at hlen
      simp only [visitsKids]
      obtain ⟨w, rest0, hw, hsw⟩ := hstep 0 (by simp)
      simp only [zero_add, List.getD_cons_succ, add_zero] at hw hsw
      have hrec : Chained db (visitsKids f (i + 1) cs os) next := by
        apply ih cs (i + 1) hlen
        · intro j hj
          have := hne (j + 1) (by simpa using hj)
          simpa using this
        · intro j hj
          have := hmid (j + 1) (by simpa using hj)
          simp only [List.getD_cons_succ] at this
          rw [show i + 1 + j = i + (j + 1) by omega]
          exact this
        · simpa using hlast
        · intro j hj
          have := hstep (j + 1) (by simpa using hj)
          simp only [List.getD_cons_succ] at this
          rw [show i + 1 + j = i + (j + 1) by omega]
          exact this
      match cs, hlen, hw with
      | c1 :: cs1, _, hw =>
        simp only [List.getD_cons_zero] at hw
        obtain ⟨rest, hrest⟩ := visitsKids_head f (i + 1) c1 cs1 os hw
        rw [hrest] at hrec ⊢
        apply chained_append_cons
        · simpa using hne 0 (by simp)
        · simpa using hmid 0 (by simp)
        · rw [chained_cons2]
          exact ⟨hsw, hrec⟩

open TreeNode

/-- A subtree has at least as many nodes as levels. -/
theorem height_le_size : ∀ n : TreeNode, n.height ≤ n.size := by
  intro n
  induction n using TreeNode.induct with
  | step c l f os cs p ih =>
    simp only [height, size]
    have : ∀ ds : List TreeNode, (∀ d ∈ ds, d ∈ cs) → heightList ds ≤ sizeList ds := by
      intro ds
      induction ds with
      | nil => intro _; simp [heightList, sizeList]
      | cons d ds ihd =>
        intro hsub
        simp only [heightList, sizeList]
        have h1 := ih d (hsub d (by simp))
        have h2 := ihd (fun e he => hsub e (by simp [he]))
        omega
    have := this cs (fun _ h => h)
    omega

/-- One step of the climb from a child: at the last child it goes on from the node,
at any other child it stops at the node. -/
theorem climb_child (root : TreeNode) (hnd : root.fposs.Nodup) {n : TreeNode}
    (hn : n ∈ root.nodes) (fuel j : Nat) :
    climb root (fuel + 1) j (some n.fpos) =
      if n.objCount ≤ j then climb root fuel n.childNo n.parent else some (some (n, j)) := by
  simp only [climb, findNode_of_mem root hnd n hn]

/-- The forward cursor runs through the locations of a subtree in order and leaves
the subtree where the climb from its root ends. -/
theorem subtree_chain (db : BTreeDB) {t : Nat} (ht : 2 ≤ t) (hnd : db._root.fposs.Nodup) :
    ∀ (n : TreeNode) (h : Nat), Shaped t n h → Linked n →
      (∀ m ∈ n.nodes, m ∈ db._root.nodes) → 0 < n.objCount →
      ∀ (k : Nat) (x : Option (TreeNode × Nat)),
        (∀ fuel, k ≤ fuel → climb db._root fuel n.childNo n.parent = some x) →
        k + h ≤ db._root.size + 1 →
        Chained db (visits n) (SeqResult.ofClimb x) := by
  intro n
  induction n using TreeNode.induct with
  | step c l f os cs p ih =>
    intro h hn hlk hsub hpos k x hclimb hk
    generalize hq : mk c l f os cs p = q at *
    have hcs : q.children = cs := by rw [← hq]; rfl
    have hqm : q ∈ db._root.nodes := hsub q (mem_nodes_self q)
    have hcnt : q.objCount = q.objects.length := rfl
    have hn0 := hn
    rw [shaped_iff] at hn
    rw [visits_eq]
    by_cases hl : q.isLeaf = true
    · simp only [hl, if_true]
      apply chain_of_steps
      · intro e
        have := congrArg List.length e
        rw [leafVisits_length] at this
        simp only [List.length_nil] at this
        omega
      · intro j hj
        simp only [leafVisits_length] at hj
        rw [leafVisits_getD _ _ _ _ (by omega), leafVisits_getD _ _ _ _ hj]
        simp only [zero_add]
        exact seqNext_leaf_step db hnd hqm hl (by omega)
      · simp only [leafVisits_length]
        rw [leafVisits_getD _ _ _ _ (by omega)]
        simp only [zero_add]
        exact seqNext_leaf_last db hnd hqm hl (by omega) (hclimb _ (by omega))
    · have hl0 : q.isLeaf = false := by simpa using hl
      simp only [hl0, Bool.false_eq_true, if_false, hcs] at hn ⊢
      obtain ⟨_, hlen, hh, hkids⟩ := hn
      rw [linked_eq, hcs] at hlk
      have hchild : ∀ j, j < cs.length →
          cs.getD j default ∈ cs ∧ Shaped t (cs.getD j default) (h - 1) ∧
          0 < (cs.getD j default).objCount ∧
          (∀ m ∈ (cs.getD j default).nodes, m ∈ db._root.nodes) := by
        intro j hj
        have hmem := getD_mem hj
        have := hkids _ hmem
        refine ⟨hmem, this.2, by omega, fun m hm => hsub m ?_⟩
        exact nodes_child_sub' (by rw [hcs]; exact hmem) hm
      apply kids_chain db q.fpos _ q.objects cs 0 hlen
      · intro j hj
        obtain ⟨_, c2, c3, _⟩ := hchild j (by omega)
        obtain ⟨_, rest, e⟩ := visits_head ht (h - 1 + 1) _ (h - 1) c2 (by omega) c3
        rw [e]
        simp
      · intro j hj
        obtain ⟨c1, c2, c3, c4⟩ := hchild j (by omega)
        obtain ⟨p1, p2, p3⟩ := linkedKids_getD hlk j (by omega)
        have := ih _ c1 (h - 1) c2 p3 c4 c3 1 (some (q, j)) (fun fuel hfuel => by
          obtain ⟨fuel1, rfl⟩ : ∃ f1, fuel = f1 + 1 := ⟨fuel - 1, by omega⟩
          rw [p1, p2, zero_add, climb_child _ hnd hqm, if_neg (by omega)]) (by omega)
        simpa [SeqResult.ofClimb] using this
      · obtain ⟨c1, c2, c3, c4⟩ := hchild q.objects.length (by omega)
        obtain ⟨p1, p2, p3⟩ := linkedKids_getD hlk q.objects.length (by omega)
        exact ih _ c1 (h - 1) c2 p3 c4 c3 (k + 1) x (fun fuel hfuel => by
          obtain ⟨fuel1, rfl⟩ : ∃ f1, fuel = f1 + 1 := ⟨fuel - 1, by omega⟩
          rw [p1, p2, zero_add, climb_child _ hnd hqm, if_pos (by omega)]
          exact hclimb fuel1 (by omega)) (by omega)
      · intro j hj
        obtain ⟨c1, c2, c3, c4⟩ := hchild (j + 1) (by omega)
        obtain ⟨i1, rest, i2⟩ := visits_head ht (cs.getD (j + 1) default).height _ (h - 1) c2
          (by rw [c2.height_eq]; omega) c3
        refine ⟨_, rest, i2, ?_⟩
        have := seqNext_internal db hnd hqm hl0 j (by rw [hcs]; exact i1)
        rw [hcs] at this
        simpa using this

theorem seqCalls_found (db : BTreeDB) (n : Nat) {locn locn1 : NodeKeyLocn} {rec : DbObj}
    (h : db._seqNext locn = SeqResult.found locn1 rec) :
    db.seqCalls ESeqDirection.ESD_FORWARD (n + 1) locn =
      SeqResult.found locn1 rec :: db.seqCalls ESeqDirection.ESD_FORWARD n locn1 := by
  simp [BTreeDB.seqCalls, BTreeDB.seq, h]

theorem seqCalls_done (db : BTreeDB) (n : Nat) {locn : NodeKeyLocn}
    (h : db._seqNext locn = SeqResult.done) :
    db.seqCalls ESeqDirection.ESD_FORWARD (n + 1) locn = [SeqResult.done] := by
  simp [BTreeDB.seqCalls, BTreeDB.seq, h]

/-- Successive calls along a chain that ends with end of sequence. -/
theorem seqCalls_chain (db : BTreeDB) : ∀ (vs : List (NodeKeyLocn × DbObj))
    (v : NodeKeyLocn × DbObj), Chained db (v :: vs) SeqResult.done →
    db.seqCalls ESeqDirection.ESD_FORWARD (vs.length + 1) v.1 =
      vs.map (fun w => SeqResult.found w.1 w.2) ++ [SeqResult.done] := by
  intro vs
  induction vs with
  | nil =>
    intro v h
    rw [chained_single] at h
    simpa using seqCalls_done db 0 h
  | cons w vs ih =>
    intro v h
    rw [chained_cons2] at h
    simp only [List.length_cons, List.map_cons, List.cons_append]
    rw [seqCalls_found db _ h.1, ih w h.2]

/-- C10: on every non-empty tree that `put` operations alone built on a freshly
created database of minimum degree `t ≥ 2`, `n + 1` successive calls of `seq`
in forward direction from a null location, `n` being the number of stored
records, go as follows: the first `n` calls return true, each at the next
location of the tree, and emit the stored records in the order of the
traversal, which is strictly ascending; call `n + 1` returns false.  The
comparator is a total order on records of `recSize` bytes and the capacity
`2t - 1` is a value of `size_t`. -/
theorem seq_forward_after_puts (recSize keySize t : Nat) (cfn : Option compareFn)
    (recs : List DbObj) (s : Nat) (ht : 2 ≤ t) (hfit : 2 * t - 1 ≤ SIZE_MAX)
    (ho : TotalOrderOn (fun r => r.length = recSize) (cfn.getD _defaultCompare))
    (hne : ((BTreeDB.create recSize keySize t cfn).run (recs.map Op.put)).records ≠ []) :
    ((BTreeDB.create recSize keySize t cfn).run (recs.map Op.put)).seqCalls
        ESeqDirection.ESD_FORWARD
        (((BTreeDB.create recSize keySize t cfn).run (recs.map Op.put)).records.length + 1)
        (none, s) =
      (visits ((BTreeDB.create recSize keySize t cfn).run (recs.map Op.put))._root).map
        (fun w => SeqResult.found w.1 w.2) ++ [SeqResult.done] ∧
    (visits ((BTreeDB.create recSize keySize t cfn).run (recs.map Op.put))._root).map Prod.snd
      = ((BTreeDB.create recSize keySize t cfn).run (recs.map Op.put)).records ∧
    Ascending (cfn.getD _defaultCompare)
      ((BTreeDB.create recSize keySize t cfn).run (recs.map Op.put)).records := by
  obtain ⟨hs, hlk, hpar, hcmp⟩ := run_puts_sound recSize keySize t cfn ht hfit ho recs
  generalize (BTreeDB.create recSize keySize t cfn).run (recs.map Op.put) = db at *
  obtain ⟨h, hsh⟩ := hs.shape
  have hdeg := hs.degree
  have hpos : 0 < db._root.objCount := by
    rcases hs.root with hl | hp
    · have : db._root.objCount = db._root.objects.length := rfl
      rw [this]
      apply List.length_pos.2
      intro e
      apply hne
      simp only [BTreeDB.records]
      rw [inorder_eq, hl, if_pos rfl, e]
    · exact hp
  have hchain := subtree_chain db hdeg hs.nodup db._root h hsh hlk (fun m hm => hm) hpos 1 none
    (fun fuel hfuel => by
      obtain ⟨fuel1, rfl⟩ : ∃ f1, fuel = f1 + 1 := ⟨fuel - 1, by omega⟩
      rw [hpar]
      simp [climb])
    (by
      have := height_le_size db._root
      rw [hsh.height_eq] at this
      omega)
  obtain ⟨hlpos, rest, hv⟩ := visits_head hdeg db._root.height db._root h hsh
    (by rw [hsh.height_eq]; omega) hpos
  have hlen : db.records.length = rest.length + 1 := by
    simp only [BTreeDB.records]
    rw [← visits_map_snd, hv]
    simp
  refine ⟨?_, visits_map_snd _, by rw [← hcmp]; exact hs.asc⟩
  rw [hv] at hchain
  rw [hlen, hv]
  have hfirst : db._seqNext (none, s) = SeqResult.found
      (some (leftmostLeaf db._root.height db._root).fpos, 0)
      ((leftmostLeaf db._root.height db._root).objects.getD 0 []) := by
    simp only [BTreeDB._seqNext]
    rw [if_pos hlpos]
  simp only [SeqResult.ofClimb] at hchain
  have := seqCalls_chain db rest _ hchain
  simp only [List.map_cons, List.cons_append]
  rw [seqCalls_found db _ hfirst, this]

/-- Witness for C10: the records `1, 2, 3, 4, 5` put in this order with `t = 2`; six
calls from the null location emit `1, 2, 3, 4, 5` and then report the end. -/
theorem seq_forward_after_puts_witness :
    ((BTreeDB.create 4 4 2 none).run
      ([rec4 1, rec4 2, rec4 3, rec4 4, rec4 5].map Op.put)).records ≠ [] ∧
    (((BTreeDB.create 4 4 2 none).run
      ([rec4 1, rec4 2, rec4 3, rec4 4, rec4 5].map Op.put)).seqCalls
        ESeqDirection.ESD_FORWARD 6 (none, 0)).map SeqResult.rec? =
      [some (rec4 1), some (rec4 2), some (rec4 3), some (rec4 4), some (rec4 5), none] ∧
    (((BTreeDB.create 4 4 2 none).run
      ([rec4 1, rec4 2, rec4 3, rec4 4, rec4 5].map Op.put)).seqCalls
        ESeqDirection.ESD_FORWARD
        (((BTreeDB.create 4 4 2 none).run
          ([rec4 1, rec4 2, rec4 3, rec4 4, rec4 5].map Op.put)).records.length + 1)
        (none, 0) =
      (visits ((BTreeDB.create 4 4 2 none).run
        ([rec4 1, rec4 2, rec4 3, rec4 4, rec4 5].map Op.put))._root).map
        (fun w => SeqResult.found w.1 w.2) ++ [SeqResult.done] ∧
    (visits ((BTreeDB.create 4 4 2 none).run
      ([rec4 1, rec4 2, rec4 3, rec4 4, rec4 5].map Op.put))._root).map Prod.snd
      = ((BTreeDB.create 4 4 2 none).run
        ([rec4 1, rec4 2, rec4 3, rec4 4, rec4 5].map Op.put)).records ∧
    Ascending ((none : Option compareFn).getD _defaultCompare)
      ((BTreeDB.create 4 4 2 none).run
        ([rec4 1, rec4 2, rec4 3, rec4 4, rec4 5].map Op.put)).records) :=
  ⟨by decide, by decide,
    seq_forward_after_puts 4 4 2 none [rec4 1, rec4 2, rec4 3, rec4 4, rec4 5] 0 (by decide)
      (by decide) (defaultCompare_totalOrder 4) (by decide)⟩

open TreeNode

/-! ## Traversal -/

theorem depthVisits_eq (n : TreeNode) (d : Nat) : depthVisits n d =
    if n.isLeaf then n.objects.map (fun o => (o, d))
    else depthVisitsKids n.children n.objects d := by
  cases n; simp [depthVisits]

/-- The records of the depth-tagged sequence are the in-order records. -/
theorem depthVisits_map_fst : ∀ (n : TreeNode) (d : Nat),
    (depthVisits n d).map Prod.fst = inorder n := by
  intro n
  induction n using TreeNode.induct with
  | step c l f os cs p ih =>
    intro d
    simp only [depthVisits, inorder]
    split
    · simp [Function.comp_def]
    · have : ∀ (ds : List TreeNode), (∀ x ∈ ds, x ∈ cs) → ∀ (qs : List DbObj),
          (depthVisitsKids ds qs d).map Prod.fst = inorderKids ds qs := by
        intro ds
        induction ds with
        | nil => intro _ qs; simp [depthVisitsKids, inorderKids, Function.comp_def]
        | cons x ds ihd =>
          intro hsub qs
          cases qs with
          | nil => simp [depthVisitsKids, inorderKids, ih x (hsub x (by simp))]
          | cons q qs =>
            simp [depthVisitsKids, inorderKids, ih x (hsub x (by simp)),
              ihd (fun e he => hsub e (by simp [he])) qs]
      exact this cs (fun _ h => h) os

/-- The depth-tagged sequence of a node with its last child set apart. -/
theorem depthVisitsKids_last (d : Nat) : ∀ (os : List DbObj) (cs : List TreeNode),
    cs.length = os.length + 1 →
    depthVisitsKids cs os d = depthVisitsKids (cs.take os.length) os d ++
      depthVisits (cs.getD os.length default) (d + 1) := by
  intro os
  induction os with
  | nil =>
    intro cs h
    match cs, h with
    | [c], _ => simp [depthVisitsKids]
  | cons o os ih =>
    intro cs h
    match cs, h with
    | c :: cs, h =>
      simp only [List.length_cons, add_left_inj] at h
      simp [depthVisitsKids, ih cs h]

/-- The loop of `_traverse` on a leaf when the callback never stops it. -/
theorem traverseLoop_leaf {σ : Type} (down : TreeNode → σ → σ) (cb : traverseCallback σ)
    (hcb : ∀ o r d, (cb o r d).2 = true) (node : TreeNode) (d : Nat)
    (hl : node.isLeaf = true) : ∀ (objs : List DbObj) (ctr : Nat) (s : σ),
    traverseLoop down (some cb) node d objs ctr s =
      ((objs.map (fun o => (o, d))).foldl (fun r v => (cb v.1 r v.2).1) s, true) := by
  intro objs
  induction objs with
  | nil => intro ctr s; rfl
  | cons o objs ih =>
    intro ctr s
    simp only [traverseLoop, hl, if_true, callBack, hcb, List.map_cons, List.foldl_cons]
    exact ih _ _

/-- The loop of `_traverse` on an internal node when the callback never stops it. -/
theorem traverseLoop_internal {σ : Type} (down : TreeNode → σ → σ) (cb : traverseCallback σ)
    (hcb : ∀ o r d, (cb o r d).2 = true) (node : TreeNode) (d : Nat)
    (hl : node.isLeaf = false) : ∀ (objs : List DbObj) (kids : List TreeNode) (ctr : Nat) (s : σ),
    kids.length = objs.length →
    (∀ j, j < objs.length → node.children.getD (ctr + j) default = kids.getD j default) →
    (∀ c ∈ kids, ∀ r, down c r =
      (depthVisits c (d + 1)).foldl (fun r v => (cb v.1 r v.2).1) r) →
    traverseLoop down (some cb) node d objs ctr s =
      ((depthVisitsKids kids objs d).foldl (fun r v => (cb v.1 r v.2).1) s, true) := by
  intro objs
  induction objs with
  | nil =>
    intro kids ctr s hlen _ _
    match kids, hlen with
    | [], _ => rfl
  | cons o objs ih =>
    intro kids ctr s hlen hk hdown
    match kids, hlen with
    | c :: kids, hlen =>
      simp only [List.length_cons, add_left_inj] at hlen
      have h0 := hk 0 (by simp)
      simp only [add_zero, List.getD_cons_zero] at h0
      simp only [traverseLoop, hl, Bool.false_eq_true, if_false, callBack, hcb, if_true, h0,
        depthVisitsKids, List.foldl_append, List.foldl_cons, hdown c (by simp)]
      apply ih kids (ctr + 1) _ hlen
      · intro j hj
        have := hk (j + 1) (by simpa using hj)
        simp only [List.getD_cons_succ] at this
        rw [show ctr + 1 + j = ctr + (j + 1) by omega]
        exact this
      · intro x hx r
        exact hdown x (by simp [hx]) r

/-- Method `_traverse` with a callback that never stops it calls the callback on the
depth-tagged in-order sequence. -/
theorem traverse_fold {σ : Type} (cb : traverseCallback σ)
    (hcb : ∀ o r d, (cb o r d).2 = true) {t : Nat} :
    ∀ (fuel : Nat) (node : TreeNode) (h : Nat), Shaped t node h → h < fuel →
      ∀ (s : σ) (d : Nat), _traverse (some cb) fuel node s d =
        (depthVisits node d).foldl (fun r v => (cb v.1 r v.2).1) s := by
  intro fuel
  induction fuel with
  | zero => intro node h _ hf; omega
  | succ fuel ih =>
    intro node h hn hf s d
    rw [shaped_iff] at hn
    rw [depthVisits_eq]
    simp only [_traverse]
    by_cases hl : node.isLeaf = true
    · simp only [hl, if_true]
      rw [traverseLoop_leaf _ cb hcb node d hl]
      simp
    · have hl0 : node.isLeaf = false := by simpa using hl
      simp only [hl0, Bool.false_eq_true, if_false] at hn ⊢
      obtain ⟨_, hlen, hh, hkids⟩ := hn
      have hlen' : node.children.length = node.objects.length + 1 := hlen
      have hdown : ∀ c ∈ node.children, ∀ r, _traverse (some cb) fuel c r (d + 1) =
          (depthVisits c (d + 1)).foldl (fun r v => (cb v.1 r v.2).1) r := by
        intro c hc r
        exact ih c (h - 1) (hkids c hc).2 (by omega) r (d + 1)
      rw [traverseLoop_internal _ cb hcb node d hl0 node.objects
        (node.children.take node.objects.length) 0 s (by simp; omega)
        (fun j hj => by
          rw [zero_add, List.getD_eq_getElem _ _ (by omega),
            List.getD_eq_getElem _ _ (by simp; omega)]
          simp)
        (fun c hc r => hdown c (List.mem_of_mem_take hc) r)]
      simp only [and_self, if_true]
      rw [hdown _ (getD_mem (show node.objCount < node.children.length by omega)),
        depthVisitsKids_last d node.objects node.children hlen', List.foldl_append]
      rfl

theorem traverseLoop_none {σ : Type} (down : TreeNode → σ → σ) (hdown : ∀ c s, down c s = s)
    (node : TreeNode) (d : Nat) : ∀ (objs : List DbObj) (ctr : Nat) (r : σ),
    traverseLoop down none node d objs ctr r = (r, true) := by
  intro objs
  induction objs with
  | nil => intro ctr r; rfl
  | cons o objs iho =>
    intro ctr r
    simp only [traverseLoop, callBack, hdown, ite_self, if_true]
    exact iho _ _

/-- Without a callback `_traverse` leaves the reference object as it is. -/
theorem traverse_none {σ : Type} : ∀ (fuel : Nat) (node : TreeNode) (s : σ) (d : Nat),
    _traverse (none : Option (traverseCallback σ)) fuel node s d = s := by
  intro fuel
  induction fuel with
  | zero => intro node s d; rfl
  | succ fuel ih =>
    intro node s d
    simp only [_traverse]
    rw [traverseLoop_none _ (fun c s => ih c s (d + 1))]
    simp only [ih, ite_self]

/-- C11: on a valid tree, `traverse` with a callback that always returns true calls it
once for every stored record, in in-order, which is ascending under the
comparator, and passes as depth the depth of the node that holds the record,
the root being at depth 0: the reference object after the call is the one the
calls on the depth-tagged in-order sequence leave, in this order.  With no
callback the reference object stays as it is. -/
theorem traverse_visits_records_in_order {σ : Type} (db : BTreeDB) (hv : db.Valid) (s : σ)
    (cb : traverseCallback σ) (hcb : ∀ o r d, (cb o r d).2 = true) :
    db.traverse s (some cb) =
      (depthVisits db._root 0).foldl (fun r v => (cb v.1 r v.2).1) s ∧
    db.traverse s (none : Option (traverseCallback σ)) = s ∧
    (depthVisits db._root 0).map Prod.fst = db.records ∧
    Ascending db._compFunc db.records := by
  obtain ⟨h, hs⟩ := hv.shape
  refine ⟨?_, traverse_none _ _ _ _, depthVisits_map_fst _ _, hv.ascending⟩
  exact traverse_fold cb hcb db._root.height db._root h hs (by rw [hs.height_eq]; omega) s 0

/-- Witness for C11: the tree with root `2` over the leaves `1` and `3, 4, 5`, and the
callback that appends the record and the depth to a list. -/
theorem traverse_visits_records_in_order_witness :
    (scenario [Op.put (rec4 1), Op.put (rec4 2), Op.put (rec4 3), Op.put (rec4 4),
      Op.put (rec4 5)]).Valid ∧
    (scenario [Op.put (rec4 1), Op.put (rec4 2), Op.put (rec4 3), Op.put (rec4 4),
      Op.put (rec4 5)]).traverse ([] : List (DbObj × Nat))
        (some (fun o r d => (r ++ [(o, d)], true)))
      = [(rec4 1, 1), (rec4 2, 0), (rec4 3, 1), (rec4 4, 1), (rec4 5, 1)] :=
  have hv : (scenario [Op.put (rec4 1), Op.put (rec4 2), Op.put (rec4 3), Op.put (rec4 4),
      Op.put (rec4 5)]).Valid :=
    { degree := by decide
      order := defaultCompare_totalOrder 4
      shape := (run_shapeInv 4 4 2 none (by decide) _).1
      sep := by decide
      sorted := by decide
      sizes := by decide
      root := by decide }
  ⟨hv, (traverse_visits_records_in_order _ hv ([] : List (DbObj × Nat))
    (fun o r d => (r ++ [(o, d)], true)) (fun _ _ _ => rfl)).1.trans (by decide)⟩

open TreeNode

/-! ## Comparison of the leading bytes -/

theorem memcmp_take : ∀ (a b : List Nat) (n : Nat),
    memcmp (a.take n) (b.take n) n = memcmp a b n := by
  intro a
  induction a with
  | nil => intro b n; cases n <;> simp [memcmp]
  | cons x a ih =>
    intro b n
    cases b with
    | nil => cases n <;> simp [memcmp]
    | cons y b =>
      cases n with
      | zero => simp [memcmp]
      | succ n => simp [memcmp, ih b n]

/-- Comparing fewer bytes gives equality or the same result. -/
theorem memcmp_shorter : ∀ (a b : List Nat) (k n : Nat), k ≤ n →
    memcmp a b k = 0 ∨ memcmp a b k = memcmp a b n := by
  intro a
  induction a with
  | nil => intro b k n _; left; cases k <;> simp [memcmp]
  | cons x a ih =>
    intro b k n hk
    cases b with
    | nil => left; cases k <;> simp [memcmp]
    | cons y b =>
      cases k with
      | zero => left; simp [memcmp]
      | succ k =>
        cases n with
        | zero => omega
        | succ n =>
          simp only [memcmp]
          split
          · exact ih b k n (by omega)
          · right; rfl

theorem memcmp_eq_zero : ∀ (a b : List Nat), a.length = b.length →
    (memcmp a b a.length = 0 ↔ a = b) := by
  intro a
  induction a with
  | nil =>
    intro b hb
    cases b with
    | nil => simp [memcmp]
    | cons y b => simp at hb
  | cons x a ih =>
    intro b hb
    cases b with
    | nil => simp at hb
    | cons y b =>
      simp only [List.length_cons, add_left_inj] at hb
      simp only [List.length_cons, memcmp, List.cons.injEq]
      by_cases hxy : x = y
      · simp [hxy, ih b hb]
      · simp only [hxy, if_false, false_and, iff_false]
        omega

/-- A record matches the pattern of `findAll` exactly when its leading bytes are those
of the pattern. -/
theorem match_iff_take (r p : DbObj) :
    memcmp r p (min r.length p.length) = 0 ↔
      r.take (min r.length p.length) = p.take (min r.length p.length) := by
  rw [← memcmp_take]
  have h1 : (r.take (min r.length p.length)).length = min r.length p.length := by simp
  have h2 : (p.take (min r.length p.length)).length = min r.length p.length := by simp
  have := memcmp_eq_zero (r.take (min r.length p.length)) (p.take (min r.length p.length))
    (by rw [h1, h2])
  rw [h1] at this
  exact this

/-- Between two records that match the pattern, every record matches it. -/
theorem match_between {n : Nat} {x z y p : DbObj} (hx : x.length = n) (hz : z.length = n)
    (hy : y.length = n) (hxz : _defaultCompare x z < 0) (hzy : _defaultCompare z y < 0)
    (mx : memcmp x p (min x.length p.length) = 0)
    (my : memcmp y p (min y.length p.length) = 0) :
    memcmp z p (min z.length p.length) = 0 := by
  rw [match_iff_take] at mx my ⊢
  rw [hx] at mx
  rw [hy] at my
  rw [hz]
  simp only [_defaultCompare, hx, hz, hy, min_self] at hxz hzy
  generalize hk : min n p.length = k at *
  have hkn : k ≤ n := by rw [← hk]; exact Nat.min_le_left _ _
  have lx : (x.take k).length = k := by simp; omega
  have lz : (z.take k).length = k := by simp; omega
  have ly : (y.take k).length = k := by simp; omega
  have h1 : memcmp (x.take k) (z.take k) k ≤ 0 := by
    rw [memcmp_take]
    rcases memcmp_shorter x z k n hkn with h | h <;> omega
  have h2 : memcmp (z.take k) (y.take k) k ≤ 0 := by
    rw [memcmp_take]
    rcases memcmp_shorter z y k n hkn with h | h <;> omega
  have hxy : x.take k = y.take k := by rw [mx, my]
  rw [← hxy] at h2
  have hflip := memcmp_flip (x.take k) (z.take k) (by rw [lx, lz])
  rw [lx, lz] at hflip
  have h0 : memcmp (x.take k) (z.take k) k = 0 := by
    by_contra hne
    have : memcmp (x.take k) (z.take k) k < 0 := by omega
    have := hflip.1 this
    omega
  have := (memcmp_eq_zero (x.take k) (z.take k) (by rw [lx, lz]))
  rw [lx] at this
  rw [← this.1 h0, mx]

/-! ## Runs of matches -/

theorem oneRun_of_none (m : DbObj → Bool) : ∀ (b : Bool) (l : List DbObj),
    (∀ y ∈ l, m y = false) → OneRun m b l := by
  intro b l
  induction l generalizing b with
  | nil => intro _; trivial
  | cons x l ih =>
    intro h
    simp only [OneRun, h x (by simp), Bool.false_eq_true, if_false]
    split
    · exact fun y hy => h y (by simp [hy])
    · exact ih _ (fun y hy => h y (by simp [hy]))

theorem oneRun_left (m : DbObj → Bool) : ∀ (l1 l2 : List DbObj) (b : Bool),
    OneRun m b (l1 ++ l2) → OneRun m b l1 := by
  intro l1
  induction l1 with
  | nil => intro l2 b _; trivial
  | cons x l1 ih =>
    intro l2 b h
    simp only [List.cons_append, OneRun] at h ⊢
    split
    · rename_i hm
      rw [if_pos hm] at h
      exact ih l2 true h
    · rename_i hm
      rw [if_neg hm] at h
      split
      · rename_i hb
        rw [if_pos hb] at h
        exact fun y hy => h y (by simp [hy])
      · rename_i hb
        rw [if_neg hb] at h
        exact ih l2 false h

theorem oneRun_right (m : DbObj → Bool) : ∀ (l1 l2 : List DbObj) (b : Bool),
    OneRun m b (l1 ++ l2) → OneRun m (b || l1.any m) l2 := by
  intro l1
  induction l1 with
  | nil => intro l2 b h; simpa using h
  | cons x l1 ih =>
    intro l2 b h
    simp only [List.cons_append, OneRun] at h
    by_cases hm : m x = true
    · rw [if_pos hm] at h
      have := ih l2 true h
      simpa [hm] using this
    · rw [if_neg hm] at h
      have hmf : m x = false := by simpa using hm
      by_cases hb : b = true
      · rw [if_pos hb] at h
        exact oneRun_of_none m _ l2 (fun y hy => h y (by simp [hy]))
      · rw [if_neg hb] at h
        have hbf : b = false := by simpa using hb
        have := ih l2 false h
        simpa [hmf, hbf] using this

/-- In an ascending list of records of one size the matches of a pattern form one run. -/
theorem oneRun_of_ascending {n : Nat} (p : DbObj) : ∀ (l : List DbObj),
    Ascending _defaultCompare l → (∀ r ∈ l, r.length = n) →
    OneRun (fun r => decide (memcmp r p (min r.length p.length) = 0)) false l ∧
    ∀ x, x.length = n → memcmp x p (min x.length p.length) = 0 →
      (∀ r ∈ l, _defaultCompare x r < 0) →
      OneRun (fun r => decide (memcmp r p (min r.length p.length) = 0)) true l := by
  intro l
  induction l with
  | nil => intro _ _; exact ⟨trivial, fun _ _ _ _ => trivial⟩
  | cons z l ih =>
    intro hasc hsz
    rw [Ascending.cons_iff] at hasc
    obtain ⟨i1, i2⟩ := ih hasc.2 (fun r hr => hsz r (by simp [hr]))
    have hzl : z.length = n := hsz z (by simp)
    constructor
    · simp only [OneRun, decide_eq_true_eq, Bool.false_eq_true, if_false]
      split
      · rename_i hm
        exact i2 z hzl hm hasc.1
      · exact i1
    · intro x hx mx hlt
      simp only [OneRun, decide_eq_true_eq, if_true]
      split
      · rename_i hm
        exact i2 z hzl hm hasc.1
      · rename_i hm
        intro y hy
        simp only [decide_eq_false_iff_not]
        intro my
        exact hm (match_between hx hzl (hsz y (by simp [hy])) (hlt z (by simp))
          (hasc.1 y hy) mx my)

open TreeNode

theorem scan_pKey (m : DbObj → Bool) (sd : SearchData) (l : List DbObj) :
    (sd.scan m l).pKey = sd.pKey := rfl

theorem scan_started (m : DbObj → Bool) (sd : SearchData) (l : List DbObj) :
    (sd.scan m l).started = (sd.started || l.any m) := rfl

theorem scan_nil (m : DbObj → Bool) (sd : SearchData) : sd.scan m [] = sd := by
  cases sd; simp [SearchData.scan]

theorem scan_append (m : DbObj → Bool) (sd : SearchData) (l1 l2 : List DbObj) :
    sd.scan m (l1 ++ l2) = (sd.scan m l1).scan m l2 := by
  cases sd
  simp [SearchData.scan, List.filter_append, Bool.or_assoc, Nat.add_assoc]

theorem scan_of_none (m : DbObj → Bool) (sd : SearchData) (l : List DbObj)
    (h : ∀ y ∈ l, m y = false) : sd.scan m l = sd := by
  have hf : l.filter m = [] := by
    rw [List.filter_eq_nil_iff]
    intro y hy
    simp [h y hy]
  have ha : l.any m = false := by
    rw [List.any_eq_false]
    intro y hy
    simp [h y hy]
  cases sd
  simp [SearchData.scan, hf, ha]

/-- One call of `_searchCallback` on a record that matches the pattern. -/
theorem searchCallback_match (o : DbObj) (sd : SearchData) (d : Nat)
    (h : memcmp o sd.pKey (min o.length sd.pKey.length) = 0) :
    _searchCallback o sd d =
      (sd.scan (fun r => decide (memcmp r sd.pKey (min r.length sd.pKey.length) = 0)) [o],
        true) := by
  cases sd
  simp only at h
  simp [_searchCallback, SearchData.scan, h]

/-- One call of `_searchCallback` on a record that does not match the pattern. -/
theorem searchCallback_other (o : DbObj) (sd : SearchData) (d : Nat)
    (h : ¬ memcmp o sd.pKey (min o.length sd.pKey.length) = 0) :
    _searchCallback o sd d = (sd, !sd.started) := by
  simp only [_searchCallback, h, if_false]
  cases sd.started <;> simp

/-- The loop of `_traverse` with `_searchCallback` on a leaf: the matches among the
records are appended. -/
theorem traverseLoop_search_leaf (p : DbObj) (down : TreeNode → SearchData → SearchData)
    (node : TreeNode) (d : Nat) (hl : node.isLeaf = true) :
    ∀ (objs : List DbObj) (ctr : Nat) (sd : SearchData), sd.pKey = p →
    OneRun (fun r => decide (memcmp r p (min r.length p.length) = 0)) sd.started objs →
    (traverseLoop down (some _searchCallback) node d objs ctr sd).1 =
      sd.scan (fun r => decide (memcmp r p (min r.length p.length) = 0)) objs := by
  intro objs
  induction objs with
  | nil => intro ctr sd _ _; simp [traverseLoop, scan_nil]
  | cons o objs ih =>
    intro ctr sd hp hrun
    simp only [traverseLoop, hl, if_true, callBack]
    have e : o :: objs = [o] ++ objs := rfl
    by_cases hm : memcmp o p (min o.length p.length) = 0
    · have hm' : memcmp o sd.pKey (min o.length sd.pKey.length) = 0 := by rw [hp]; exact hm
      rw [searchCallback_match o sd d hm', hp]
      simp only [if_true]
      simp only [OneRun, hm, decide_True, if_true] at hrun
      rw [ih (ctr + 1)
        (sd.scan (fun r => decide (memcmp r p (min r.length p.length) = 0)) [o]) hp (by
        simp only [scan_started, List.any_cons, hm, decide_True, List.any_nil,
          Bool.or_false, Bool.or_true]
        exact hrun), e, scan_append]
    · have hm' : ¬ memcmp o sd.pKey (min o.length sd.pKey.length) = 0 := by
        rw [hp]; exact hm
      rw [searchCallback_other o sd d hm']
      simp only [OneRun, hm, decide_False, Bool.false_eq_true, if_false] at hrun
      cases hst : sd.started with
      | true =>
        rw [hst] at hrun
        simp only [if_true] at hrun
        simp only [Bool.not_true, Bool.false_eq_true, if_false]
        rw [scan_of_none]
        intro y hy
        rcases List.mem_cons.1 hy with rfl | hy
        · simpa using hm
        · exact hrun y hy
      | false =>
        rw [hst] at hrun
        simp only [Bool.false_eq_true, if_false] at hrun
        simp only [Bool.not_false, if_true]
        rw [ih (ctr + 1) sd hp (by rw [hst]; exact hrun), e, scan_append,
          scan_of_none _ sd [o]]
        intro y hy
        simp only [List.mem_singleton] at hy
        subst hy
        simpa using hm

/-- The loop of `_traverse` with `_searchCallback` on an internal node, followed by the
descent into the last child when the loop was not stopped: the matches of the
records below the node are appended. -/
theorem traverseLoop_search (p : DbObj) (down : TreeNode → SearchData → SearchData)
    (node : TreeNode) (d : Nat) (hl0 : node.isLeaf = false) :
    ∀ (objs : List DbObj) (kids : List TreeNode) (ctr : Nat) (sd : SearchData),
    kids.length = objs.length + 1 →
    (∀ j, j ≤ objs.length → node.children.getD (ctr + j) default = kids.getD j default) →
    (∀ c ∈ kids, ∀ s : SearchData, s.pKey = p →
      OneRun (fun r => decide (memcmp r p (min r.length p.length) = 0)) s.started (inorder c) →
      down c s = s.scan (fun r => decide (memcmp r p (min r.length p.length) = 0))
        (inorder c)) →
    sd.pKey = p →
    OneRun (fun r => decide (memcmp r p (min r.length p.length) = 0)) sd.started
      (inorderKids kids objs) →
    (if (traverseLoop down (some _searchCallback) node d objs ctr sd).2 = true ∧
        node.isLeaf = false then
      down (node.children.getD (ctr + objs.length) default)
        (traverseLoop down (some _searchCallback) node d objs ctr sd).1
    else (traverseLoop down (some _searchCallback) node d objs ctr sd).1) =
      sd.scan (fun r => decide (memcmp r p (min r.length p.length) = 0))
        (inorderKids kids objs) := by
  intro objs
  induction objs with
  | nil =>
    intro kids ctr sd hlen hk hdown hp hrun
    simp only [traverseLoop, true_and, List.length_nil, add_zero]
    match kids, hlen with
    | [c], _ =>
      have h0 := hk 0 (by simp)
      simp only [add_zero, List.getD_cons_zero] at h0
      simp only [hl0, if_true, h0, inorderKids] at hrun ⊢
      exact hdown c (by simp) sd hp hrun
  | cons o objs ih =>
    intro kids ctr sd hlen hk hdown hp hrun
    match kids, hlen with
    | c :: kids, hlen =>
      simp only [List.length_cons, add_left_inj] at hlen
      have h0 := hk 0 (by simp)
      simp only [add_zero, List.getD_cons_zero] at h0
      simp only [inorderKids] at hrun ⊢
      have hc := hdown c (by simp) sd hp (oneRun_left _ _ _ _ hrun)
      have hrun1 := oneRun_right _ _ _ _ hrun
      have hidx : ctr + (objs.length + 1) = ctr + 1 + objs.length := by omega
      have hrest := ih kids (ctr + 1)
      simp only [traverseLoop, hl0, Bool.false_eq_true, if_false, callBack, h0, hc,
        List.length_cons, hidx]
      generalize hsd1 : sd.scan (fun r => decide (memcmp r p (min r.length p.length) = 0))
        (inorder c) = sd1 at *
      have hp1 : sd1.pKey = p := by rw [← hsd1, scan_pKey]; exact hp
      have hst1 : sd1.started = (sd.started || (inorder c).any
          (fun r => decide (memcmp r p (min r.length p.length) = 0))) := by
        rw [← hsd1, scan_started]
      rw [← hst1] at hrun1
      have hargs : ∀ s : SearchData, s.pKey = p →
          OneRun (fun r => decide (memcmp r p (min r.length p.length) = 0)) s.started
            (inorderKids kids objs) →
          (if (traverseLoop down (some _searchCallback) node d objs (ctr + 1) s).2 = true ∧
              node.isLeaf = false then
            down (node.children.getD (ctr + 1 + objs.length) default)
              (traverseLoop down (some _searchCallback) node d objs (ctr + 1) s).1
          else (traverseLoop down (some _searchCallback) node d objs (ctr + 1) s).1) =
            s.scan (fun r => decide (memcmp r p (min r.length p.length) = 0))
              (inorderKids kids objs) := by
        intro s hs hr
        apply hrest s hlen _ (fun x hx => hdown x (by simp [hx])) hs hr
        intro j hj
        have := hk (j + 1) (by simpa using hj)
        simp only [List.getD_cons_succ] at this
        rw [show ctr + 1 + j = ctr + (j + 1) by omega]
        exact this
      simp only [hl0] at hargs
      have e : o :: inorderKids kids objs = [o] ++ inorderKids kids objs := rfl
      rw [scan_append, hsd1]
      by_cases hm : memcmp o p (min o.length p.length) = 0
      · have hm' : memcmp o sd1.pKey (min o.length sd1.pKey.length) = 0 := by
          rw [hp1]; exact hm
        rw [searchCallback_match o sd1 d hm', hp1]
        simp only [if_true]
        simp only [OneRun, hm, decide_True, if_true] at hrun1
        rw [hargs (sd1.scan (fun r => decide (memcmp r p (min r.length p.length) = 0)) [o])
          hp1 (by
          simp only [scan_started, List.any_cons, hm, decide_True, List.any_nil,
            Bool.or_false, Bool.or_true]
          exact hrun1), e, scan_append]
      · have hm' : ¬ memcmp o sd1.pKey (min o.length sd1.pKey.length) = 0 := by
          rw [hp1]; exact hm
        rw [searchCallback_other o sd1 d hm']
        simp only [OneRun, hm, decide_False, Bool.false_eq_true, if_false] at hrun1
        cases hst : sd1.started with
        | true =>
          rw [hst] at hrun1
          simp only [if_true] at hrun1
          simp only [Bool.not_true, Bool.false_eq_true, if_false, false_and]
          rw [scan_of_none]
          intro y hy
          rcases List.mem_cons.1 hy with rfl | hy
          · simpa using hm
          · exact hrun1 y hy
        | false =>
          rw [hst] at hrun1
          simp only [Bool.false_eq_true, if_false] at hrun1
          simp only [Bool.not_false, if_true]
          rw [hargs sd1 hp1 (by rw [hst]; exact hrun1), e, scan_append,
            scan_of_none _ sd1 [o]]
          intro y hy
          simp only [List.mem_singleton] at hy
          subst hy
          simpa using hm

open TreeNode

/-- Method `_traverse` with `_searchCallback` appends the matches among the records of
the subtree when they form one run. -/
theorem traverse_search (p : DbObj) {t : Nat} :
    ∀ (fuel : Nat) (node : TreeNode) (h : Nat), Shaped t node h → h < fuel →
      ∀ (sd : SearchData) (d : Nat), sd.pKey = p →
        OneRun (fun r => decide (memcmp r p (min r.length p.length) = 0)) sd.started
          (inorder node) →
        _traverse (some _searchCallback) fuel node sd d =
          sd.scan (fun r => decide (memcmp r p (min r.length p.length) = 0)) (inorder node) := by
  intro fuel
  induction fuel with
  | zero => intro node h _ hf; omega
  | succ fuel ih =>
    intro node h hn hf sd d hp hrun
    rw [shaped_iff] at hn
    rw [inorder_eq] at hrun ⊢
    simp only [_traverse]
    by_cases hl : node.isLeaf = true
    · simp only [hl, if_true, Bool.true_eq_false, and_false, if_false] at hrun ⊢
      exact traverseLoop_search_leaf p _ node d hl node.objects 0 sd hp hrun
    · have hl0 : node.isLeaf = false := by simpa using hl
      simp only [hl0, Bool.false_eq_true, if_false] at hn hrun ⊢
      obtain ⟨_, hlen, hh, hkids⟩ := hn
      have := traverseLoop_search p (fun c s => _traverse (some _searchCallback) fuel c s (d + 1))
        node d hl0 node.objects node.children 0 sd hlen (fun j _ => by rw [zero_add])
        (fun c hc s hs hr => ih c (h - 1) (hkids c hc).2 (by omega) s (d + 1) hs hr) hp hrun
      simp only [hl0, zero_add] at this
      exact this

/-- C12: on a valid tree whose records are ordered by the default comparator, `findAll`
leaves in the vector, whatever it held before, exactly the stored records
whose first `min(|r|, |p|)` bytes are those of the pattern `p`, each once and
in the order of the in-order sequence, which is ascending: the early stop of
the callback skips no match. -/
theorem findAll_returns_the_matches (db : BTreeDB) (p : DbObj) (out : List DbObj)
    (hv : db.Valid) (hcmp : db._compFunc = _defaultCompare) :
    db.findAll p out = db.records.filter
      (fun r => decide (r.take (min r.length p.length) = p.take (min r.length p.length))) ∧
    Ascending _defaultCompare (db.findAll p out) := by
  obtain ⟨h, hs⟩ := hv.shape
  have hasc : Ascending _defaultCompare db._root.inorder := by
    rw [← hcmp]; exact hv.ascending
  have hrun := (oneRun_of_ascending p db._root.inorder hasc hv.sizes).1
  have hfind : db.findAll p out = db.records.filter
      (fun r => decide (memcmp r p (min r.length p.length) = 0)) := by
    simp only [BTreeDB.findAll, BTreeDB.traverse, BTreeDB.records]
    rw [traverse_search p db._root.height db._root h hs (by rw [hs.height_eq]; omega) _ 0 rfl
      hrun]
    simp [SearchData.scan]
  have hfun : (fun r : DbObj => decide (memcmp r p (min r.length p.length) = 0)) =
      (fun r => decide (r.take (min r.length p.length) = p.take (min r.length p.length))) := by
    funext r
    simp only [match_iff_take]
  rw [hfun] at hfind
  refine ⟨hfind, ?_⟩
  rw [hfind]
  exact List.Pairwise.sublist (List.filter_sublist _) hasc

/-- Witness for C12: the records `[1,0,0,0]`, `[2,1,0,0]`, `[2,2,0,0]`, `[2,3,0,0]`,
`[3,0,0,0]` and the pattern `[2]`. -/
theorem findAll_returns_the_matches_witness :
    (scenario [Op.put [1, 0, 0, 0], Op.put [2, 1, 0, 0], Op.put [2, 2, 0, 0],
      Op.put [2, 3, 0, 0], Op.put [3, 0, 0, 0]]).Valid ∧
    (scenario [Op.put [1, 0, 0, 0], Op.put [2, 1, 0, 0], Op.put [2, 2, 0, 0],
      Op.put [2, 3, 0, 0], Op.put [3, 0, 0, 0]]).findAll [2] [[9, 9, 9, 9]]
      = [[2, 1, 0, 0], [2, 2, 0, 0], [2, 3, 0, 0]] :=
  have hv : (scenario [Op.put [1, 0, 0, 0], Op.put [2, 1, 0, 0], Op.put [2, 2, 0, 0],
      Op.put [2, 3, 0, 0], Op.put [3, 0, 0, 0]]).Valid :=
    { degree := by decide
      order := defaultCompare_totalOrder 4
      shape := (run_shapeInv 4 4 2 none (by decide) _).1
      sep := by decide
      sorted := by decide
      sizes := by decide
      root := by decide }
  ⟨hv, (findAll_returns_the_matches _ [2] [[9, 9, 9, 9]] hv rfl).1.trans (by decide)⟩

open TreeNode

/-- In an ascending list a record that compares equal to a member is found at one
place only. -/
theorem Ascending.split_unique {D : DbObj → Prop} {cmp : compareFn} (ho : TotalOrderOn D cmp) :
    ∀ {l1 l2 m1 m2 : List DbObj} {x y : DbObj}, Ascending cmp (l1 ++ x :: l2) →
      (∀ a ∈ l1 ++ x :: l2, D a) → l1 ++ x :: l2 = m1 ++ y :: m2 → cmp x y = 0 →
      l1 = m1 ∧ x = y ∧ l2 = m2 := by
  intro l1
  induction l1 with
  | nil =>
    intro l2 m1 m2 x y h hD e hz
    cases m1 with
    | nil =>
      simp only [List.nil_append, List.cons.injEq] at e
      exact ⟨rfl, e.1, e.2⟩
    | cons a m1 =>
      exfalso
      simp only [List.nil_append, List.cons_append, List.cons.injEq] at e
      have hy : y ∈ l2 := by rw [e.2]; simp
      have := (Ascending.cons_iff.1 h).1 y hy
      omega
  | cons a l1 ih =>
    intro l2 m1 m2 x y h hD e hz
    cases m1 with
    | nil =>
      exfalso
      simp only [List.nil_append, List.cons_append, List.cons.injEq] at e
      have hx : x ∈ l1 ++ x :: l2 := by simp
      have h1 := (Ascending.cons_iff.1 h).1 x hx
      rw [e.1] at h1
      have := (ho.flip y x (hD y (by rw [← e.1]; simp)) (hD x (by simp))).1 h1
      omega
    | cons b m1 =>
      simp only [List.cons_append, List.cons.injEq] at e
      obtain ⟨r1, r2, r3⟩ := ih (Ascending.cons_iff.1 h).2
        (fun c hc => hD c (by simp only [List.cons_append, List.mem_cons]; exact Or.inr hc))
        e.2 hz
      exact ⟨by rw [e.1, r1], r2, r3⟩

/-- An ascending list stays ascending when a record is taken out. -/
theorem Ascending.remove {cmp : compareFn} {l1 l2 : List DbObj} {x : DbObj}
    (h : Ascending cmp (l1 ++ x :: l2)) : Ascending cmp (l1 ++ l2) := by
  rw [Ascending.append_iff, Ascending.cons_iff] at h
  rw [Ascending.append_iff]
  exact ⟨h.1, h.2.1.2, fun a ha b hb => h.2.2 a ha b (by simp [hb])⟩

theorem BTreeDB.Sound.ordered {db : BTreeDB} (hs : db.Sound) : db.Ordered :=
  { degree := hs.degree, fit := hs.fit, order := hs.order, shape := hs.shape, asc := hs.asc,
    sizes := hs.sizes, root := hs.root }

/-- Method `del` changes neither the comparator nor the sizes of the database. -/
theorem del_params (db : BTreeDB) (key : DbObj) :
    (db.del key).1._compFunc = db._compFunc ∧ (db.del key).1._recSize = db._recSize ∧
    (db.del key).1._minDegree = db._minDegree ∧ (db.del key).1._nodeSize = db._nodeSize := by
  simp only [BTreeDB.del]
  split
  · exact ⟨rfl, rfl, rfl, rfl⟩
  · split <;> exact ⟨rfl, rfl, rfl, rfl⟩

/-- In an ordered state `del` of a key that compares equal to a stored record returns
true, takes exactly that record out of the in-order sequence and leaves an
ordered state. -/
theorem del_ordered (db : BTreeDB) (key : DbObj) (hv : db.Ordered)
    (hsize : key.length = db._recSize)
    (hex : ∃ r ∈ db._root.inorder, db._compFunc key r = 0) :
    (db.del key).2 = true ∧ (db.del key).1.Ordered ∧
    ∃ l1 x l2, db._root.inorder = l1 ++ x :: l2 ∧ db._compFunc key x = 0 ∧
      (db.del key).1._root.inorder = l1 ++ l2 := by
  obtain ⟨h, hs⟩ := hv.shape
  have ht1 : 1 ≤ db._minDegree := by have := hv.degree; omega
  have hpos : db._root.objCount ≠ 0 := by
    intro h0
    obtain ⟨r, hr, _⟩ := hex
    rcases hv.root with hl | hp
    · rw [inorder_eq, hl, if_pos rfl, List.eq_nil_of_length_eq_zero h0] at hr
      cases hr
    · omega
  have hd := delete_inorder hv.order hv.degree hv.fit db._root.height db._root key h hs
    (by rw [hs.height_eq]; omega) hv.root hv.asc hv.sizes hsize hex
  have hsh := delete_shaped db._compFunc ht1 db._root.height db._root key h hs
    (by rw [hs.height_eq]; omega)
  have hshape := (del_shapeInv db key ht1 hv.shape).1
  obtain ⟨p1, p2, p3, _⟩ := del_params db key
  obtain ⟨hd1, l1, x, l2, e1, e2, e3⟩ := hd
  have hres : (db.del key).2 = true ∧ (db.del key).1._root.inorder = l1 ++ l2 ∧
      ((db.del key).1._root.isLeaf = true ∨ 0 < (db.del key).1._root.objCount) := by
    simp only [BTreeDB.del, hpos, if_false]
    split
    · rename_i hcol
      refine ⟨rfl, ?_, ?_⟩
      · show inorder ((_delete db._compFunc db._minDegree db._root.height db._root
          key).1.children.getD 0 default) = l1 ++ l2
        rw [inorder_collapse hsh.1 hcol.2.2 hcol.2.1]
        exact e3
      · show ((_delete db._compFunc db._minDegree db._root.height db._root
            key).1.children.getD 0 default).isLeaf = true ∨
          0 < ((_delete db._compFunc db._minDegree db._root.height db._root
            key).1.children.getD 0 default).objCount
        have := hsh.1
        rw [shaped_iff] at this
        simp only [hcol.2.2, Bool.false_eq_true, if_false] at this
        have hk := (this.2.2.2 _ (getD_mem (show 0 < (_delete db._compFunc db._minDegree
          db._root.height db._root key).1.children.length by omega))).1
        have := hv.degree
        exact Or.inr (by omega)
    · rename_i hcol
      refine ⟨hd1, e3, ?_⟩
      show (_delete db._compFunc db._minDegree db._root.height db._root key).1.isLeaf = true ∨
        0 < (_delete db._compFunc db._minDegree db._root.height db._root key).1.objCount
      by_cases hl : (_delete db._compFunc db._minDegree db._root.height db._root
          key).1.isLeaf = true
      · exact Or.inl hl
      · right
        by_contra hc
        exact hcol ⟨hd1, by omega, by simpa using hl⟩
  refine ⟨hres.1, ?_, l1, x, l2, e1, e2, hres.2.1⟩
  exact
    { degree := by rw [p3]; exact hv.degree
      fit := by rw [p3]; exact hv.fit
      order := by rw [p1, p2]; exact hv.order
      shape := by rw [p3]; exact hshape
      asc := by
        rw [p1, hres.2.1]
        exact Ascending.remove (by rw [← e1]; exact hv.asc)
      sizes := by
        rw [p2, hres.2.1]
        intro r hr
        apply hv.sizes r
        rw [e1]
        simp only [List.mem_append, List.mem_cons] at hr ⊢
        tauto
      root := hres.2.2 }

open TreeNode

/-- After `put` of a record of `recSize` bytes that compares unequal to every stored
record, `del` of that record returns true and the in-order sequence is the
one before the `put`. -/
theorem put_del_records (db : BTreeDB) (k : DbObj) (hs : db.Sound)
    (hk : k.length = db._recSize) (hnew : ∀ r ∈ db._root.inorder, db._compFunc k r ≠ 0) :
    (db.put k).2 = true ∧ ((db.put k).1.del k).2 = true ∧
    ((db.put k).1.del k).1._root.inorder = db._root.inorder := by
  obtain ⟨p1, p2, _, _⟩ := put_params db k
  have hflag : (db.put k).2 = true := by
    simp only [BTreeDB.put, BTreeDB.getRecSize, hk, ne_eq, not_true_eq_false, if_false]
    split
    · rfl
    · split <;> rfl
  have hins : ∃ l1 l2, db._root.inorder = l1 ++ l2 ∧
      (db.put k).1._root.inorder = l1 ++ k :: l2 := by
    rcases put_records db k hs with ⟨e, _⟩ | ⟨_, l1, x, l2, e1, hz, _⟩ |
      ⟨_, _, ⟨l1, l2, e1, e2, _⟩, _⟩
    · exact absurd hk e
    · exact absurd hz (hnew x (by rw [e1]; simp))
    · exact ⟨l1, l2, e1, e2⟩
  obtain ⟨l1, l2, e1, e2⟩ := hins
  have hs2 := (put_sound db k hs).ordered
  have hkk : (db.put k).1._compFunc k k = 0 := hs2.order.refl (by rw [p2]; exact hk)
  obtain ⟨d1, _, m1, x, m2, f1, f2, f3⟩ := del_ordered (db.put k).1 k hs2
    (by rw [p2]; exact hk) ⟨k, by rw [e2]; simp, hkk⟩
  refine ⟨hflag, d1, ?_⟩
  rw [e2] at f1
  obtain ⟨u1, u2, u3⟩ := Ascending.split_unique hs2.order (by rw [← e2]; exact hs2.asc)
    (by rw [← e2]; exact hs2.sizes) f1 f2
  rw [f3, e1, u1, u3]

/-- C16, amended: on every tree that `put` operations built on a freshly created
database (`t ≥ 2`, the capacity `2t - 1` a value of `size_t`, the comparator a
total order on records of `recSize` bytes), for every key of `recSize` bytes
that compares unequal to every stored record, `put` of the key returns true,
the `del` of it that follows returns true, and the in-order sequence of
records is again the one before the `put`. -/
theorem put_then_del_restores_records (recSize keySize t : Nat) (cfn : Option compareFn)
    (recs : List DbObj) (k : DbObj) (ht : 2 ≤ t) (hfit : 2 * t - 1 ≤ SIZE_MAX)
    (ho : TotalOrderOn (fun r => r.length = recSize) (cfn.getD _defaultCompare))
    (hk : k.length = recSize)
    (hnew : ∀ r ∈ ((BTreeDB.create recSize keySize t cfn).run (recs.map Op.put)).records,
      (cfn.getD _defaultCompare) k r ≠ 0) :
    (((BTreeDB.create recSize keySize t cfn).run (recs.map Op.put)).put k).2 = true ∧
    ((((BTreeDB.create recSize keySize t cfn).run (recs.map Op.put)).put k).1.del k).2 = true ∧
    ((((BTreeDB.create recSize keySize t cfn).run (recs.map Op.put)).put k).1.del k).1.records
      = ((BTreeDB.create recSize keySize t cfn).run (recs.map Op.put)).records := by
  obtain ⟨hs, _, _, hcmp⟩ := run_puts_sound recSize keySize t cfn ht hfit ho recs
  have hrec : ((BTreeDB.create recSize keySize t cfn).run (recs.map Op.put))._recSize
      = recSize := by
    have : ∀ (ops : List DbObj) (db : BTreeDB),
        (db.run (ops.map Op.put))._recSize = db._recSize := by
      intro ops
      induction ops with
      | nil => intro db; rfl
      | cons r ops ih =>
        intro db
        have hrun : db.run ((r :: ops).map Op.put) = (db.put r).1.run (ops.map Op.put) := by
          simp [BTreeDB.run, BTreeDB.step]
        rw [hrun, ih, (put_params db r).2.1]
    rw [this]
    rfl
  exact put_del_records _ k hs (by rw [hrec]; exact hk) (by rw [hcmp]; exact hnew)

/-- Witness for C16, amended: the leaf root `1, 2, 3` and the key `4`. -/
theorem put_then_del_restores_records_witness :
    (((BTreeDB.create 4 4 2 none).run
      ([rec4 1, rec4 2, rec4 3].map Op.put)).put (rec4 4)).2 = true ∧
    ((((BTreeDB.create 4 4 2 none).run
      ([rec4 1, rec4 2, rec4 3].map Op.put)).put (rec4 4)).1.del (rec4 4)).2 = true ∧
    ((((BTreeDB.create 4 4 2 none).run
      ([rec4 1, rec4 2, rec4 3].map Op.put)).put (rec4 4)).1.del (rec4 4)).1.records
      = ((BTreeDB.create 4 4 2 none).run ([rec4 1, rec4 2, rec4 3].map Op.put)).records :=
  put_then_del_restores_records 4 4 2 none [rec4 1, rec4 2, rec4 3] (rec4 4) (by decide)
    (by decide) (defaultCompare_totalOrder 4) (by decide) (by decide)

/-- C16, counterexample: `put` of `4` into the full leaf root `1, 2, 3` splits it, and
`del` of `4` leaves the root `2` over the leaves `1` and `3`, not the leaf
`1, 2, 3`: the tree after `put` and `del` is not the tree before. -/
theorem put_del_changes_structure :
    (((scenario [Op.put (rec4 1), Op.put (rec4 2), Op.put (rec4 3)]).put (rec4 4)).1.del
        (rec4 4)).1._root
      ≠ (scenario [Op.put (rec4 1), Op.put (rec4 2), Op.put (rec4 3)])._root ∧
    (scenario [Op.put (rec4 1), Op.put (rec4 2), Op.put (rec4 3)])._root.objects
      = [rec4 1, rec4 2, rec4 3] ∧
    (((scenario [Op.put (rec4 1), Op.put (rec4 2), Op.put (rec4 3)]).put (rec4 4)).1.del
        (rec4 4)).1._root.objects = [rec4 2] := by
  refine ⟨fun h => ?_, by decide, by decide⟩
  have := congrArg TreeNode.objects h
  revert this
  decide

/-- Deleting the stored records one by one, in any order, from an ordered state. -/
theorem run_dels (perm : List DbObj) : ∀ (db : BTreeDB), db.Ordered → perm.Nodup →
    (∀ x, x ∈ db._root.inorder ↔ x ∈ perm) →
    db.flags (perm.map Op.del) = perm.map (fun _ => true) ∧
    (db.run (perm.map Op.del)).Ordered ∧ (db.run (perm.map Op.del))._root.inorder = [] := by
  induction perm with
  | nil =>
    intro db hv _ hmem
    refine ⟨rfl, hv, ?_⟩
    apply List.eq_nil_iff_forall_not_mem.2
    intro x hx
    simpa using (hmem x).1 hx
  | cons k rest ih =>
    intro db hv hnd hmem
    rw [List.nodup_cons] at hnd
    have hkin : k ∈ db._root.inorder := (hmem k).2 (by simp)
    have hksz := hv.sizes k hkin
    obtain ⟨d1, d2, l1, x, l2, e1, e2, e3⟩ := del_ordered db k hv hksz
      ⟨k, hkin, hv.order.refl hksz⟩
    have hasc := hv.asc
    rw [e1] at hasc hkin
    have hD : ∀ a ∈ l1 ++ x :: l2, a.length = db._recSize := by rw [← e1]; exact hv.sizes
    have hxk : x = k := by
      rw [Ascending.append_iff, Ascending.cons_iff] at hasc
      simp only [List.mem_append, List.mem_cons] at hkin
      rcases hkin with h1 | h1 | h1
      · have := hasc.2.2 k h1 x (by simp)
        omega
      · exact h1.symm
      · have := hasc.2.1.1 k h1
        have := (hv.order.flip x k (hD x (by simp)) hksz).1 this
        omega
    subst hxk
    have hnot : x ∉ l1 ++ l2 := by
      intro hin
      rw [Ascending.append_iff, Ascending.cons_iff] at hasc
      have hr := hv.order.refl hksz
      rcases List.mem_append.1 hin with h1 | h1
      · have := hasc.2.2 x h1 x (by simp)
        omega
      · have := hasc.2.1.1 x h1
        omega
    have hstep := ih (db.del x).1 d2 hnd.2 (fun y => by
      rw [e3]
      constructor
      · intro hy
        have : y ∈ x :: rest := (hmem y).1 (by
          rw [e1]
          simp only [List.mem_append, List.mem_cons] at hy ⊢
          tauto)
        rcases List.mem_cons.1 this with rfl | h1
        · exact absurd hy hnot
        · exact h1
      · intro hy
        have h1 : y ∈ l1 ++ x :: l2 := by rw [← e1]; exact (hmem y).2 (by simp [hy])
        have hne : y ≠ x := fun e => hnd.1 (e ▸ hy)
        simp only [List.mem_append, List.mem_cons] at h1 ⊢
        tauto)
    have hrun : db.run ((x :: rest).map Op.del) = (db.del x).1.run (rest.map Op.del) := by
      simp [BTreeDB.run, BTreeDB.step]
    rw [hrun]
    refine ⟨?_, hstep.2.1, hstep.2.2⟩
    simp only [List.map_cons, BTreeDB.flags, BTreeDB.flag, BTreeDB.step, d1, hstep.1]

/-- Value model of deleting everything: after the keys of a finite list, of `recSize` bytes
each and pairwise unequal under the comparator, have been put into the tree
value of a freshly created database (`t ≥ 2`, the capacity `2t - 1` a value of
`size_t`, the comparator a total order on records of `recSize` bytes),
`BTreeDB.del` of each of them once, in any order, returns true every time and
leaves an empty tree value.  The source follows the value model up to the
first `del` that deletes a node which lists a child;
`delete_all_leaves_a_record` is a run of the source that ends otherwise. -/
theorem delete_all_leaves_empty_leaf (recSize keySize t : Nat) (cfn : Option compareFn)
    (keys perm : List DbObj) (ht : 2 ≤ t) (hfit : 2 * t - 1 ≤ SIZE_MAX)
    (ho : TotalOrderOn (fun r => r.length = recSize) (cfn.getD _defaultCompare))
    (hsz : ∀ r ∈ keys, r.length = recSize)
    (hdist : keys.Pairwise (fun a b => (cfn.getD _defaultCompare) a b ≠ 0))
    (hperm : perm.Perm keys) :
    ((BTreeDB.create recSize keySize t cfn).run (keys.map Op.put)).flags (perm.map Op.del)
      = perm.map (fun _ => true) ∧
    (((BTreeDB.create recSize keySize t cfn).run (keys.map Op.put)).run
      (perm.map Op.del)).records = [] ∧
    (((BTreeDB.create recSize keySize t cfn).run (keys.map Op.put)).run
      (perm.map Op.del))._root.isLeaf = true ∧
    (((BTreeDB.create recSize keySize t cfn).run (keys.map Op.put)).run
      (perm.map Op.del))._root.objCount = 0 := by
  have hc := create_sound recSize keySize t cfn ht hfit ho
  obtain ⟨r1, _, _, r4⟩ := run_puts_distinct keys (BTreeDB.create recSize keySize t cfn) hc
    hsz hdist (fun s hs1 => by
      simp [BTreeDB.create, _allocateNode, inorder, setIsLeaf] at hs1)
  have hempty : ∀ x, x ∉ (BTreeDB.create recSize keySize t cfn)._root.inorder := by
    intro x hx
    simp [BTreeDB.create, _allocateNode, inorder, setIsLeaf] at hx
  have hknd : keys.Nodup := by
    refine List.Pairwise.imp_of_mem ?_ hdist
    intro a b ha _ hab e
    subst e
    exact hab (ho.refl (hsz a ha))
  obtain ⟨q1, q2, q3⟩ := run_dels perm _ r1.ordered (hperm.nodup_iff.2 hknd) (fun x => by
    rw [r4 x, hperm.mem_iff]
    exact ⟨fun h => h.resolve_left (hempty x), Or.inr⟩)
  refine ⟨q1, q3, ?_⟩
  have hroot : ∀ (n : TreeNode), (n.isLeaf = true ∨ 0 < n.objCount) → n.inorder = [] →
      n.isLeaf = true ∧ n.objCount = 0 := by
    intro n hr he
    have hno : n.objects = [] := by
      apply List.eq_nil_iff_forall_not_mem.2
      intro o hoo
      have := mem_inorder_of_mem_objects hoo
      rw [he] at this
      cases this
    have hc0 : n.objCount = 0 := by
      show n.objects.length = 0
      rw [hno]; rfl
    rcases hr with hl | hp
    · exact ⟨hl, hc0⟩
    · omega
  exact hroot _ q2.root q3

/-- An instance of the value model of deleting everything: the keys `1` to `10` put in order
with `t = 2` and deleted in reverse order. -/
theorem delete_all_leaves_empty_leaf_witness :
    ((BTreeDB.create 4 4 2 none).run
        ([rec4 1, rec4 2, rec4 3, rec4 4, rec4 5, rec4 6, rec4 7, rec4 8, rec4 9,
          rec4 10].map Op.put)).flags
        ([rec4 10, rec4 9, rec4 8, rec4 7, rec4 6, rec4 5, rec4 4, rec4 3, rec4 2,
          rec4 1].map Op.del)
      = [rec4 10, rec4 9, rec4 8, rec4 7, rec4 6, rec4 5, rec4 4, rec4 3, rec4 2,
          rec4 1].map (fun _ => true) ∧
    (((BTreeDB.create 4 4 2 none).run
        ([rec4 1, rec4 2, rec4 3, rec4 4, rec4 5, rec4 6, rec4 7, rec4 8, rec4 9,
          rec4 10].map Op.put)).run
        ([rec4 10, rec4 9, rec4 8, rec4 7, rec4 6, rec4 5, rec4 4, rec4 3, rec4 2,
          rec4 1].map Op.del)).records = [] ∧
    (((BTreeDB.create 4 4 2 none).run
        ([rec4 1, rec4 2, rec4 3, rec4 4, rec4 5, rec4 6, rec4 7, rec4 8, rec4 9,
          rec4 10].map Op.put)).run
        ([rec4 10, rec4 9, rec4 8, rec4 7, rec4 6, rec4 5, rec4 4, rec4 3, rec4 2,
          rec4 1].map Op.del))._root.isLeaf = true ∧
    (((BTreeDB.create 4 4 2 none).run
        ([rec4 1, rec4 2, rec4 3, rec4 4, rec4 5, rec4 6, rec4 7, rec4 8, rec4 9,
          rec4 10].map Op.put)).run
        ([rec4 10, rec4 9, rec4 8, rec4 7, rec4 6, rec4 5, rec4 4, rec4 3, rec4 2,
          rec4 1].map Op.del))._root.objCount = 0 :=
  delete_all_leaves_empty_leaf 4 4 2 none
    [rec4 1, rec4 2, rec4 3, rec4 4, rec4 5, rec4 6, rec4 7, rec4 8, rec4 9, rec4 10]
    [rec4 10, rec4 9, rec4 8, rec4 7, rec4 6, rec4 5, rec4 4, rec4 3, rec4 2, rec4 1]
    (by decide) (by decide) (defaultCompare_totalOrder 4) (by decide) (by decide)
    (by decide)

open TreeNode

/-- C15: `put` is not idempotent in every reachable state.  After `put` of `1` to
`10`, `del` of `10` and of `9` and `del` of `0`, which is not stored, the root
is an internal node without records over a single child that is not full;
`put` of `20` does not find `20` afterwards, so a second `put` of `20`
inserts it once more. -/
theorem put_twice_inserts_twice :
    ((scenario [Op.put (rec4 1), Op.put (rec4 2), Op.put (rec4 3), Op.put (rec4 4),
        Op.put (rec4 5), Op.put (rec4 6), Op.put (rec4 7), Op.put (rec4 8), Op.put (rec4 9),
        Op.put (rec4 10), Op.del (rec4 10), Op.del (rec4 9), Op.del (rec4 0)]).put
        (rec4 20)).1.records
      = [rec4 1, rec4 2, rec4 3, rec4 4, rec4 5, rec4 6, rec4 7, rec4 8, rec4 20] ∧
    (((scenario [Op.put (rec4 1), Op.put (rec4 2), Op.put (rec4 3), Op.put (rec4 4),
        Op.put (rec4 5), Op.put (rec4 6), Op.put (rec4 7), Op.put (rec4 8), Op.put (rec4 9),
        Op.put (rec4 10), Op.del (rec4 10), Op.del (rec4 9), Op.del (rec4 0)]).put
        (rec4 20)).1.put (rec4 20)).1.records
      = [rec4 1, rec4 2, rec4 3, rec4 4, rec4 5, rec4 6, rec4 7, rec4 8, rec4 20, rec4 20] := by
  decide

open TreeNode

/-- C18: `search` with a comparator of the caller does not use it below the first
node.  On the tree with root `2` over the leaves `1` and `3, 4`, built with the
default comparator, the key `3, 9, 9, 9` and the comparator that compares the
first byte, the reference descent finds the record `3` in the right leaf,
while `search` compares with the default comparator inside that leaf and
returns the null location. -/
theorem search_drops_caller_comparator :
    searchUniform (fun a b => (a.headD 0 : Int) - (b.headD 0 : Int))
        (scenario [Op.put (rec4 1), Op.put (rec4 2), Op.put (rec4 3),
          Op.put (rec4 4)])._root.height
        (scenario [Op.put (rec4 1), Op.put (rec4 2), Op.put (rec4 3), Op.put (rec4 4)])._root
        [3, 9, 9, 9]
      = (some (((scenario [Op.put (rec4 1), Op.put (rec4 2), Op.put (rec4 3),
          Op.put (rec4 4)])._root.children.getD 1 default).fpos), 0) ∧
    (scenario [Op.put (rec4 1), Op.put (rec4 2), Op.put (rec4 3), Op.put (rec4 4)]).search
        [3, 9, 9, 9] (some (fun a b => (a.headD 0 : Int) - (b.headD 0 : Int)))
      = (none, SIZE_MAX) := by
  decide

open TreeNode

/-! ## The header of the file is kept -/

theorem kept_iff (h : List Nat) (f : File) :
    f.Kept h ↔ 32 ≤ f.length ∧ (f.drop 8).take 24 = h := Iff.rfl

/-- A write behind the header keeps it. -/
theorem kept_pwrite {h : List Nat} {f : File} (pos : Nat) (bs : List Nat) (hpos : 32 ≤ pos)
    (hf : f.Kept h) : (f.pwrite pos bs).Kept h := by
  rw [kept_iff] at hf ⊢
  obtain ⟨hlen, hh⟩ := hf
  have e : f.pwrite pos bs = f.take 32 ++ ((f.take pos).drop 32 ++
      (List.replicate (pos - f.length) 0 ++ bs ++ f.drop (pos + bs.length))) := by
    simp only [File.pwrite, List.append_assoc]
    rw [← List.append_assoc (f.take 32)]
    congr 1
    conv_lhs => rw [← List.take_append_drop 32 (f.take pos)]
    rw [List.take_take, min_eq_left hpos]
  have hl : (f.take 32).length = 32 := by simp; omega
  refine ⟨by rw [e]; simp; omega, ?_⟩
  rw [← hh, e]
  rw [List.drop_append_of_le_length (by omega), List.take_append_of_le_length (by simp; omega)]
  rw [List.drop_take, List.take_take]
  rfl

/-- A write of at most eight bytes at the start of the file keeps the sizes. -/
theorem kept_pwrite_zero {h : List Nat} {f : File} (bs : List Nat) (hbs : bs.length ≤ 8)
    (hf : f.Kept h) : (f.pwrite 0 bs).Kept h := by
  rw [kept_iff] at hf ⊢
  obtain ⟨hlen, hh⟩ := hf
  have e : f.pwrite 0 bs = bs ++ f.drop bs.length := by simp [File.pwrite]
  refine ⟨by rw [e]; simp; omega, ?_⟩
  rw [← hh, e, List.drop_append_eq_append_drop, List.drop_eq_nil_of_le hbs, List.nil_append,
    List.drop_drop]
  congr 2
  omega

/-- A change of the length that leaves the header in the file keeps it. -/
theorem kept_chsize {h : List Nat} {f : File} (len : Nat) (hlen : 32 ≤ len)
    (hf : f.Kept h) : (f.chsize len).Kept h := by
  rw [kept_iff] at hf ⊢
  obtain ⟨hl, hh⟩ := hf
  simp only [File.chsize]
  refine ⟨by simp; omega, ?_⟩
  rw [← hh, List.drop_append_of_le_length (by simp; omega),
    List.take_append_of_le_length (by simp; omega), List.drop_take, List.take_take]
  congr 1
  omega

theorem above_iff (n : TreeNode) :
    n.Above ↔ 32 ≤ n.fpos ∧ ∀ c ∈ n.children, c.Above := by
  have e : sizeofHeader = 32 := rfl
  unfold Above
  rw [fposs_eq, e]
  simp only [List.mem_cons, mem_fpossList]
  constructor
  · intro h
    exact ⟨h _ (Or.inl rfl), fun c hc a ha => h a (Or.inr ⟨c, hc, ha⟩)⟩
  · rintro ⟨h1, h2⟩ a (rfl | ⟨c, hc, ha⟩)
    · exact h1
    · exact h2 c hc a ha

theorem above_mk (c : Nat) (l : Bool) (fp : Nat) (os : List DbObj) (cs : List TreeNode)
    (p : Option Nat) : (TreeNode.mk c l fp os cs p).Above ↔ 32 ≤ fp ∧ ∀ x ∈ cs, x.Above :=
  above_iff _

@[simp] theorem above_setObjects (n : TreeNode) (os : List DbObj) :
    (n.setObjects os).Above ↔ n.Above := by
  rw [above_iff, above_iff n]; simp

@[simp] theorem above_setChildNo (n : TreeNode) (j : Nat) : (n.setChildNo j).Above ↔ n.Above := by
  cases n; simp only [setChildNo, above_mk]

@[simp] theorem above_setParent (n : TreeNode) (p : Option Nat) :
    (n.setParent p).Above ↔ n.Above := by
  cases n; simp only [setParent, above_mk]

theorem above_setChildren (n : TreeNode) (cs : List TreeNode) :
    (n.setChildren cs).Above ↔ 32 ≤ n.fpos ∧ ∀ c ∈ cs, c.Above := by
  rw [above_iff]; simp

theorem TreeNode.Above.child {n : TreeNode} (hn : n.Above) {i : Nat} (hi : i < n.children.length) :
    (n.children.getD i default).Above :=
  ((above_iff n).1 hn).2 _ (getD_mem hi)

theorem TreeNode.Above.setChild {n c : TreeNode} (hn : n.Above) (hc : c.Above) (i : Nat) :
    (n.setChildren (n.children.set i c)).Above := by
  rw [above_setChildren]
  refine ⟨((above_iff n).1 hn).1, fun x hx => ?_⟩
  rcases List.mem_or_eq_of_mem_set hx with hx | rfl
  · exact ((above_iff n).1 hn).2 x hx
  · exact hc

theorem above_renumber {cs : List TreeNode} (h : ∀ c ∈ cs, c.Above) (k : Nat) :
    ∀ c ∈ renumber k cs, c.Above := by
  intro c hc
  obtain ⟨c1, hc1, j, rfl⟩ := mem_renumber hc
  simpa using h c1 hc1

/-- A node whose page lies behind the header is written without touching the header. -/
theorem kept_write {h : List Nat} {f : File} (n : TreeNode) (hn : 32 ≤ n.fpos) (hf : f.Kept h) :
    (n.write f).1.Kept h := by
  simp only [TreeNode.write]
  exact kept_pwrite _ _ hn hf

/-- After `_split` of child `i`, every page still lies behind the header, and the writes of
`_split` keep the header. -/
theorem split_kept {t ns fl : Nat} {p : TreeNode} {i : Nat} {h : List Nat} {f : File}
    (hp : p.Above) (hi : i < p.children.length) (hfl : 32 ≤ fl) (hf : f.Kept h) :
    (_split t ns fl p i (p.children.getD i default)).1.Above ∧
    (_splitFile t ns fl p i (p.children.getD i default) f).Kept h := by
  have hc := hp.child hi
  obtain ⟨hp1, hp2⟩ := (above_iff p).1 hp
  obtain ⟨hc1, hc2⟩ := (above_iff _).1 hc
  have hA : (_split t ns fl p i (p.children.getD i default)).1.Above := by
    rw [above_iff, split_children]
    refine ⟨by simpa [_split] using hp1, ?_⟩
    intro x hx
    simp only [List.mem_append, List.mem_cons] at hx
    rcases hx with hx | rfl | rfl | hx
    · exact hp2 x (List.mem_of_mem_take hx)
    · rw [above_setChildren]
      exact ⟨by simpa using hc1, fun y hy => hc2 y (List.mem_of_mem_take hy)⟩
    · rw [above_mk]
      refine ⟨hfl, ?_⟩
      split
      · simp
      · intro y hy
        simp only [List.mem_map] at hy
        obtain ⟨z, hz, rfl⟩ := hy
        rw [above_setParent]
        exact above_renumber (fun c hc => hc2 c (List.mem_of_mem_drop (List.mem_of_mem_take hc)))
          0 z hz
    · exact above_renumber (fun c hc => hp2 c (List.mem_of_mem_drop hc)) _ x hx
  refine ⟨hA, ?_⟩
  simp only [_splitFile]
  have hlen : i + 1 < (_split t ns fl p i (p.children.getD i default)).1.children.length := by
    rw [split_children]
    simp
    omega
  refine kept_write _ ((above_iff _).1 hA).1 (kept_write _ ((above_iff _).1 (hA.child hlen)).1
    (kept_write _ ((above_iff _).1 (hA.child (by omega))).1 (kept_chsize _ (by omega) hf)))

/-- After `_insertNonFull`, every page lies behind the header, and the writes keep the header. -/
theorem insertNonFull_kept (cfn : compareFn) {t : Nat} (ns : Nat) (key : DbObj) (ht : 1 ≤ t)
    (hd : List Nat) :
    ∀ (fuel fl : Nat) (node : TreeNode) (h : Nat) (f : File), Shaped t node h →
      node.objCount < 2 * t - 1 → h < fuel → node.Above → 32 ≤ fl → f.Kept hd →
      (_insertNonFull cfn t ns fuel fl node key).1.Above ∧
      32 ≤ (_insertNonFull cfn t ns fuel fl node key).2 ∧
      (_insertNonFullFile cfn t ns fuel fl node key f).Kept hd := by
  intro fuel
  induction fuel with
  | zero => intro fl node h f _ _ hf; omega
  | succ fuel ih =>
    intro fl node h f hn hnf hf ha hfl hk
    have hn0 := hn
    rw [shaped_iff] at hn
    have hsp := scanPos_le cfn key node.objects node.objCount
    simp only [_insertNonFull, _insertNonFullFile]
    by_cases hl : node.isLeaf = true
    · simp only [hl, if_true]
      refine ⟨by simpa using ha, hfl, kept_write _ ?_ hk⟩
      simpa using ((above_iff node).1 ha).1
    · simp only [hl] at hn ⊢
      simp only [Bool.false_eq_true, if_false] at hn ⊢
      have hl0 : node.isLeaf = false := by simpa using hl
      obtain ⟨_, hlen, hh, hkids⟩ := hn
      have hi : scanPos cfn key node.objects node.objCount < node.children.length := by omega
      by_cases hfull : (node.children.getD (scanPos cfn key node.objects node.objCount)
          default).objCount = t * 2 - 1
      · simp only [hfull, if_true]
        obtain ⟨hs1, hs2, hs3, hs4⟩ := @split_shaped _ ns fl _ _ _ ht hn0 hl0 hnf hi
          (by omega)
        obtain ⟨ka, kf⟩ := @split_kept t ns fl _ _ hd f ha hi hfl hk
        have hfl2 := split_fileLen t ns fl node (scanPos cfn key node.objects node.objCount)
          (node.children.getD (scanPos cfn key node.objects node.objCount) default)
        generalize _splitFile t ns fl node (scanPos cfn key node.objects node.objCount)
          (node.children.getD (scanPos cfn key node.objects node.objCount) default) f = F at *
        generalize hS : _split t ns fl node (scanPos cfn key node.objects node.objCount)
          (node.children.getD (scanPos cfn key node.objects node.objCount) default) = S at *
        have hsl : S.1.isLeaf = false := by rw [← hS]; simpa using hl0
        have hs1' := hs1
        rw [shaped_iff] at hs1'
        simp only [hsl, Bool.false_eq_true, if_false] at hs1'
        generalize hc1 : (if cfn key (S.1.objects.getD (scanPos cfn key node.objects
          node.objCount) []) > 0 then scanPos cfn key node.objects node.objCount + 1
          else scanPos cfn key node.objects node.objCount) = ctr1
        have hctr1 : ctr1 = scanPos cfn key node.objects node.objCount ∨
            ctr1 = scanPos cfn key node.objects node.objCount + 1 := by
          rw [← hc1]; split <;> simp
        have hcnt : (S.1.children.getD ctr1 default).objCount = t - 1 := by
          rcases hctr1 with h1 | h1 <;> rw [h1] <;> assumption
        have hlt : ctr1 < S.1.children.length := by
          rcases hctr1 with h1 | h1 <;> omega
        have hcs := hs1'.2.2.2 _ (getD_mem hlt)
        obtain ⟨i1, i2, i3⟩ := ih S.2 (S.1.children.getD ctr1 default) (h - 1) F hcs.2
          (by omega) (by omega) (ka.child hlt) (by omega) kf
        exact ⟨ka.setChild i1 ctr1, i2, i3⟩
      · simp only [hfull, if_false]
        have hcs := hkids _ (getD_mem hi)
        have hcs2 := hcs.2
        rw [shaped_iff] at hcs2
        obtain ⟨i1, i2, i3⟩ := ih fl (node.children.getD (scanPos cfn key node.objects
          node.objCount) default) (h - 1) f hcs.2 (by omega) (by omega) (ha.child hi) hfl hk
        exact ⟨ha.setChild i1 _, i2, i3⟩

/-- After `_insert`, every page lies behind the header, and the writes keep the header. -/
theorem insert_kept (cfn : compareFn) {t : Nat} (ns fl : Nat) (key : DbObj) (ht2 : 2 ≤ t)
    (hd : List Nat) {root : TreeNode} {h : Nat} {f : File} (hr : Shaped t root h)
    (ha : root.Above) (hfl : 32 ≤ fl) (hk : f.Kept hd) :
    (_insert cfn t ns fl root key).1.Above ∧ 32 ≤ (_insert cfn t ns fl root key).2 ∧
    (_insertFile cfn t ns fl root key f).Kept hd := by
  have ht : 1 ≤ t := by omega
  have hh := hr.height_eq
  simp only [_insert, _insertFile]
  by_cases hfull : root.objCount = t * 2 - 1
  · simp only [hfull, if_true]
    have hnew : Shaped t (((_allocateNode ns fl).1.setIsLeaf false).setChildren
        [(root.setChildNo 0).setParent (some (_allocateNode ns fl).1.fpos)]) (h + 1) := by
      rw [shaped_iff]
      simp [_allocateNode, hr]
      omega
    have hnewA : (((_allocateNode ns fl).1.setIsLeaf false).setChildren
        [(root.setChildNo 0).setParent (some (_allocateNode ns fl).1.fpos)]).Above := by
      rw [above_setChildren]
      simp [_allocateNode, setIsLeaf, ha, hfl]
    have hsp := @split_shaped _ ns ((_allocateNode ns fl).2) _ 0 _ ht hnew
      (by simp) (by simp [_allocateNode]; omega) (by simp) (by simp; omega)
    have hal : (_allocateNode ns fl).2 = fl + ns := rfl
    obtain ⟨ka, kf⟩ := @split_kept t ns ((_allocateNode ns fl).2) _ 0 hd
      (f.chsize (fl + ns)) hnewA (by simp) (by omega) (kept_chsize _ (by omega) hk)
    have hfl2 := split_fileLen t ns (_allocateNode ns fl).2
      (((_allocateNode ns fl).1.setIsLeaf false).setChildren
        [(root.setChildNo 0).setParent (some (_allocateNode ns fl).1.fpos)]) 0
      ((root.setChildNo 0).setParent (some (_allocateNode ns fl).1.fpos))
    simp only [children_setChildren, List.getD_cons_zero] at hsp ka kf
    generalize _splitFile t ns (_allocateNode ns fl).2
      (((_allocateNode ns fl).1.setIsLeaf false).setChildren
        [(root.setChildNo 0).setParent (some (_allocateNode ns fl).1.fpos)]) 0
      ((root.setChildNo 0).setParent (some (_allocateNode ns fl).1.fpos))
      (f.chsize (fl + ns)) = F at *
    generalize _split t ns (_allocateNode ns fl).2
      (((_allocateNode ns fl).1.setIsLeaf false).setChildren
        [(root.setChildNo 0).setParent (some (_allocateNode ns fl).1.fpos)]) 0
      ((root.setChildNo 0).setParent (some (_allocateNode ns fl).1.fpos)) = S at *
    obtain ⟨i1, i2, i3⟩ := insertNonFull_kept cfn ns key ht hd (root.height + 1) S.2 S.1 (h + 1) F
      hsp.1 (by
        rw [hsp.2.1]
        simp [_allocateNode, objCount]
        omega) (by omega) ka (by omega) kf
    exact ⟨i1, i2, kept_pwrite_zero _ (by simp [leBytes, sizeofLong]) i3⟩
  · simp only [hfull, if_false]
    have hr' := hr
    rw [shaped_iff] at hr'
    exact insertNonFull_kept cfn ns key ht hd root.height fl root h f hr (by omega) (by omega)
      ha hfl hk

/-- A file position of the subtree leads to a node. -/
theorem findNode_isSome : ∀ (n : TreeNode) (a : Nat), a ∈ n.fposs →
    ∃ x, n.findNode a = some x := by
  intro n
  induction n using TreeNode.induct with
  | step c l f os cs p ih =>
    intro a ha
    rw [fposs_eq] at ha
    simp only [findNode]
    by_cases hf : f = a
    · exact ⟨_, if_pos hf⟩
    · rw [if_neg hf]
      simp only [List.mem_cons, fpos_mk, children_mk] at ha
      rcases ha with ha | ha
      · exact absurd ha.symm hf
      · have : ∀ (ds : List TreeNode), (∀ d ∈ ds, d ∈ cs) → a ∈ fpossList ds →
            ∃ x, findNodeList ds a = some x := by
          intro ds
          induction ds with
          | nil => intro _ h; simp at h
          | cons d ds ihd =>
            intro hsub h
            simp only [fpossList_cons, List.mem_append] at h
            simp only [findNodeList]
            cases hfd : d.findNode a with
            | some y => exact ⟨y, rfl⟩
            | none =>
              rcases h with h | h
              · obtain ⟨x, hx⟩ := ih d (hsub d (by simp)) a h
                rw [hx] at hfd
                cases hfd
              · exact ihd (fun e he => hsub e (by simp [he])) h
        exact this cs (fun _ h => h) ha

/-- The node pointer that `_search` returns points into the subtree searched. -/
theorem search_mem (cf : compareFn) (key : DbObj) :
    ∀ (fuel : Nat) (node : TreeNode) (c : Option compareFn) (a slot : Nat),
      _search cf fuel node key c = (some a, slot) → a ∈ node.fposs := by
  intro fuel
  induction fuel with
  | zero => intro node c a slot h; simp [_search] at h
  | succ fuel ih =>
    intro node c a slot h
    have hdef : ∀ (i : Nat), _search cf fuel (node.children.getD i default) key none
        = (some a, slot) → a ∈ node.fposs := by
      intro i hi
      by_cases hlt : i < node.children.length
      · have := ih _ _ _ _ hi
        rw [fposs_eq]
        exact List.mem_cons_of_mem _ (mem_fpossList.2 ⟨_, getD_mem hlt, this⟩)
      · rw [List.getD_eq_default _ _ (by omega)] at hi
        exfalso
        cases fuel with
        | zero => simp [_search] at hi
        | succ fuel =>
          simp [_search, findPos, findPosLoop, default, TreeNode.new] at hi
    simp only [_search] at h
    split at h
    · split at h
      · simp only [Prod.mk.injEq, Option.some.injEq] at h
        rw [fposs_eq, ← h.1]
        exact List.mem_cons_self _ _
      · exact hdef _ h
      · exact hdef _ h
      · simp at h
    · simp at h

theorem Store.put_db (s : Store) (rec : DbObj) : (s.put rec).1.db = (s.db.put rec).1 := by
  simp only [Store.put, BTreeDB.put]
  split
  · rfl
  · split
    · rfl
    · split <;> rfl

/-- After `put`, every page lies behind the header, and the writes keep the header. -/
theorem put_kept (s : Store) (rec : DbObj) (hd : List Nat) (ht : 2 ≤ s.db._minDegree)
    (hsh : s.db._root.ShapeInv s.db._minDegree) (ha : s.db._root.Above)
    (hfl : 32 ≤ s.db.fileLen) (hk : s.file.Kept hd) :
    (s.put rec).1.db._root.Above ∧ 32 ≤ (s.put rec).1.db.fileLen ∧
    (s.put rec).1.file.Kept hd := by
  obtain ⟨h, hs⟩ := hsh
  have hins := @insert_kept s.db._compFunc _ s.db._nodeSize s.db.fileLen rec ht hd _ _ _ hs ha
    hfl hk
  simp only [Store.put, BTreeDB.put]
  split
  · exact ⟨ha, hfl, hk⟩
  · split
    · exact hins
    · rename_i a hloc
      split
      · exact hins
      · have hmem : a ∈ s.db._root.fposs :=
          search_mem _ _ _ _ _ a (_search s.db._compFunc s.db._root.height s.db._root rec none).2
            (by rw [← hloc])
        have hA : (s.db._root.storeObject a
            (_search s.db._compFunc s.db._root.height s.db._root rec none).2 rec).Above := by
          unfold Above
          rw [storeObject_fposs]
          exact ha
        refine ⟨hA, hfl, ?_⟩
        obtain ⟨x, hx⟩ := findNode_isSome (s.db._root.storeObject a
          (_search s.db._compFunc s.db._root.height s.db._root rec none).2 rec) a
          (by rw [storeObject_fposs]; exact hmem)
        simp only [hx, Option.getD_some]
        have := findNode_some _ _ _ hx
        exact kept_write _ (hA _ (mem_fposs_of_mem_nodes this.1)) hk

theorem TreeNode.Shaped.kids {t h : Nat} {n : TreeNode} (hn : Shaped t n h)
    (hl : n.isLeaf = false) :
    n.children.length = n.objCount + 1 ∧ ∀ c ∈ n.children, Shaped t c (h - 1) := by
  rw [shaped_iff] at hn
  simp only [hl, Bool.false_eq_true, if_false] at hn
  exact ⟨hn.2.1, fun c hc => (hn.2.2.2 c hc).2⟩

/-- After `_merge` of the children `i` and `i + 1`, every page lies behind the header, and the
writes of `_merge` keep the header. -/
theorem merge_kept {t : Nat} {p : TreeNode} {i : Nat} {hd : List Nat} {f : File}
    (hp : p.Above) (hi : i + 1 < p.children.length) (hf : f.Kept hd) :
    (_merge t p i).1.Above ∧ (_merge t p i).2.Above ∧ (_mergeFile t p i f).Kept hd := by
  have hc1 := hp.child (show i < p.children.length by omega)
  have hc2 := hp.child hi
  obtain ⟨hp1, hp2⟩ := (above_iff p).1 hp
  have hB : (_merge t p i).2.Above := by
    rw [merge_snd, above_setChildren]
    refine ⟨by simpa using ((above_iff _).1 hc1).1, ?_⟩
    split
    · exact ((above_iff _).1 hc1).2
    · intro x hx
      simp only [List.mem_append] at hx
      rcases hx with hx | hx
      · exact ((above_iff _).1 hc1).2 x (List.mem_of_mem_take hx)
      · exact above_renumber (fun c hc => ((above_iff _).1 hc2).2 c (List.mem_of_mem_take hc))
          _ x hx
  have hA : (_merge t p i).1.Above := by
    rw [above_iff, merge_children]
    refine ⟨by simpa [_merge] using hp1, ?_⟩
    intro x hx
    simp only [List.mem_append, List.mem_cons] at hx
    rcases hx with hx | rfl | hx
    · exact hp2 x (List.mem_of_mem_take hx)
    · exact hB
    · exact above_renumber (fun c hc => hp2 c (List.mem_of_mem_drop hc)) _ x hx
  refine ⟨hA, hB, ?_⟩
  simp only [_mergeFile]
  exact kept_write _ ((above_iff _).1 hA).1 (kept_write _ ((above_iff _).1 hB).1 hf)

/-- After the borrow from the left sibling every page lies behind the header. -/
theorem borrowLeft_above {t : Nat} {p : TreeNode} {k h : Nat} (hs : Shaped t p h)
    (hl : p.isLeaf = false) (hp : p.Above) (hk0 : 0 < k) (hk : k < p.children.length) :
    (borrowLeft t p k).Above := by
  have hc := hp.child hk
  have hls := hp.child (show k - 1 < p.children.length by omega)
  have hlss := (hs.kids hl).2 _ (getD_mem (show k - 1 < p.children.length by omega))
  obtain ⟨hp1, hp2⟩ := (above_iff p).1 hp
  simp only [borrowLeft]
  rw [above_setChildren]
  refine ⟨by simpa using hp1, ?_⟩
  intro x hx
  rcases List.mem_or_eq_of_mem_set hx with hx | rfl
  · rcases List.mem_or_eq_of_mem_set hx with hx | rfl
    · exact hp2 x hx
    · rw [above_setChildren]
      refine ⟨by simpa using ((above_iff _).1 hls).1, ?_⟩
      split
      · exact ((above_iff _).1 hls).2
      · intro y hy
        exact ((above_iff _).1 hls).2 y (List.mem_of_mem_take hy)
  · rw [above_mk]
    refine ⟨((above_iff _).1 hc).1, ?_⟩
    split
    · intro y hy
      simp only [List.mem_append] at hy
      rcases hy with hy | hy <;> exact ((above_iff _).1 hc).2 y (List.mem_of_mem_take hy)
    · rename_i hlf
      intro y hy
      simp only [List.mem_cons] at hy
      rcases hy with rfl | hy
      · exact hls.child (by
          have := (hlss.kids (by simpa using hlf)).1
          omega)
      · exact ((above_iff _).1 hc).2 y (List.mem_of_mem_take hy)

/-- After the borrow from the right sibling every page lies behind the header. -/
theorem borrowRight_above {t : Nat} {p : TreeNode} {k h : Nat} (i : Nat) (hs : Shaped t p h)
    (hl : p.isLeaf = false) (hp : p.Above) (hk : k + 1 < p.children.length) :
    (borrowRight t p k i).Above := by
  have hc := hp.child (show k < p.children.length by omega)
  have hrs := hp.child hk
  have hrss := (hs.kids hl).2 _ (getD_mem hk)
  obtain ⟨hp1, hp2⟩ := (above_iff p).1 hp
  simp only [borrowRight]
  rw [above_setChildren]
  refine ⟨by simpa using hp1, ?_⟩
  intro x hx
  rcases List.mem_or_eq_of_mem_set hx with hx | rfl
  · rcases List.mem_or_eq_of_mem_set hx with hx | rfl
    · exact hp2 x hx
    · rw [above_setChildren]
      refine ⟨by simpa using ((above_iff _).1 hrs).1, ?_⟩
      split
      · intro y hy
        exact ((above_iff _).1 hrs).2 y (List.mem_of_mem_take hy)
      · intro y hy
        exact ((above_iff _).1 hrs).2 y (List.mem_of_mem_drop (List.mem_of_mem_take hy))
  · rw [above_setChildren]
    refine ⟨by simpa using ((above_iff _).1 hc).1, ?_⟩
    split
    · intro y hy
      exact ((above_iff _).1 hc).2 y (List.mem_of_mem_take hy)
    · rename_i hlf
      intro y hy
      simp only [List.mem_append, List.mem_singleton] at hy
      rcases hy with hy | rfl
      · exact ((above_iff _).1 hc).2 y (List.mem_of_mem_take hy)
      · exact hrs.child (by
          have := (hrss.kids (by simpa using hlf)).1
          omega)

mutual
/-- The writes of `_flush` on a subtree behind the header keep the header. -/
theorem flush_kept (hd : List Nat) : ∀ (n : TreeNode) (f : File), n.Above → f.Kept hd →
    (_flush n f).1.Kept hd
  | TreeNode.mk c l fp os cs p, f, hn, hf => by
    have h1 := (above_mk c l fp os cs p).1 hn
    simp only [_flush]
    have hw := kept_write (TreeNode.mk c l fp os cs p) h1.1 hf
    split
    · exact flushKids_kept hd cs _ h1.2 hw
    · exact hw
/-- The writes of `_flush` on a list of subtrees behind the header keep the header. -/
theorem flushKids_kept (hd : List Nat) : ∀ (cs : List TreeNode) (f : File),
    (∀ c ∈ cs, c.Above) → f.Kept hd → (_flushKids cs f).1.Kept hd
  | [], f, _, hf => by simpa [_flushKids] using hf
  | c :: cs, f, hcs, hf => by
    simp only [_flushKids]
    have h1 := flush_kept hd c f (hcs c (by simp)) hf
    split
    · exact flushKids_kept hd cs _ (fun x hx => hcs x (by simp [hx])) h1
    · exact h1
end

/-! ## The cases of the file effect of `_delete` -/

section DeleteFileCases
variable (cfn : compareFn) (t fuel : Nat) (node : TreeNode) (key : DbObj) (i : Nat) (f : File)

theorem deleteFile_sentinel (h : (node.findPos key cfn).1 = SIZE_MAX) :
    _deleteFile cfn t (fuel + 1) node key f = f := by
  simp [_deleteFile, h]

theorem deleteFile_none (h : (node.findPos key cfn).2 = EChildPos.ECP_NONE) :
    _deleteFile cfn t (fuel + 1) node key f = f := by
  simp only [_deleteFile, h]
  split <;> rfl

theorem deleteFile_case1 (hop : node.findPos key cfn = (i, EChildPos.ECP_INTHIS))
    (hi : i ≠ SIZE_MAX) (hl : node.isLeaf = true) :
    _deleteFile cfn t (fuel + 1) node key f = f := by
  simp only [_deleteFile, hop, hi, hl, ↓reduceIte]

theorem deleteFile_case2a (hop : node.findPos key cfn = (i, EChildPos.ECP_INTHIS))
    (hi : i ≠ SIZE_MAX) (hl : node.isLeaf = false)
    (ha : t ≤ (node.children.getD i default).objCount) :
    _deleteFile cfn t (fuel + 1) node key f =
      _deleteFile cfn t fuel (node.children.getD i default)
        ((_findPred fuel (node.children.getD i default)).1.objects.getD
          (_findPred fuel (node.children.getD i default)).2 []) f := by
  simp only [_deleteFile, hop, hi, hl, ha, ↓reduceIte, Bool.false_eq_true]

theorem deleteFile_case2b (hop : node.findPos key cfn = (i, EChildPos.ECP_INTHIS))
    (hi : i ≠ SIZE_MAX) (hl : node.isLeaf = false)
    (ha : ¬ t ≤ (node.children.getD i default).objCount)
    (hb : t ≤ (node.children.getD (i + 1) default).objCount) :
    _deleteFile cfn t (fuel + 1) node key f =
      _deleteFile cfn t fuel (node.children.getD (i + 1) default)
        ((_findSucc fuel (node.children.getD (i + 1) default)).1.objects.getD
          (_findSucc fuel (node.children.getD (i + 1) default)).2 []) f := by
  simp only [_deleteFile, hop, hi, hl, ha, hb, ↓reduceIte, Bool.false_eq_true]

theorem deleteFile_case2c (hop : node.findPos key cfn = (i, EChildPos.ECP_INTHIS))
    (hi : i ≠ SIZE_MAX) (hl : node.isLeaf = false)
    (ha : ¬ t ≤ (node.children.getD i default).objCount)
    (hb : ¬ t ≤ (node.children.getD (i + 1) default).objCount) :
    _deleteFile cfn t (fuel + 1) node key f =
      _deleteFile cfn t fuel (_merge t node i).2 key (_mergeFile t node i f) := by
  simp only [_deleteFile, hop, hi, hl, ha, hb, ↓reduceIte, Bool.false_eq_true]

theorem deleteFile_case3 (pos : EChildPos) (hop : node.findPos key cfn = (i, pos))
    (hi : i ≠ SIZE_MAX) (hpos : pos = EChildPos.ECP_INLEFT ∨ pos = EChildPos.ECP_INRIGHT)
    (k : Nat) (hk : k = if pos = EChildPos.ECP_INLEFT then i else i + 1)
    (hc : t ≤ (node.children.getD k default).objCount) :
    _deleteFile cfn t (fuel + 1) node key f =
      _deleteFile cfn t fuel (node.children.getD k default) key f := by
  subst hk
  rcases hpos with rfl | rfl
  · simp only [↓reduceIte] at hc
    simp only [_deleteFile, hop, hi, hc, ↓reduceIte]
  · simp only [reduceCtorEq, ↓reduceIte] at hc
    simp only [_deleteFile, hop, hi, hc, ↓reduceIte, reduceCtorEq]

theorem deleteFile_case3a_left (pos : EChildPos) (hop : node.findPos key cfn = (i, pos))
    (hi : i ≠ SIZE_MAX) (hpos : pos = EChildPos.ECP_INLEFT ∨ pos = EChildPos.ECP_INRIGHT)
    (k : Nat) (hk : k = if pos = EChildPos.ECP_INLEFT then i else i + 1)
    (hc : ¬ t ≤ (node.children.getD k default).objCount)
    (hk0 : 0 < k) (hleft : t ≤ (node.children.getD (k - 1) default).objCount) :
    _deleteFile cfn t (fuel + 1) node key f =
      _deleteFile cfn t fuel ((borrowLeft t node k).children.getD k default) key f := by
  subst hk
  rcases hpos with rfl | rfl
  · simp only [↓reduceIte] at hc hk0 hleft
    simp only [_deleteFile, hop, hi, hc, hk0, hleft, ↓reduceIte, true_or]
  · simp only [reduceCtorEq, ↓reduceIte] at hc hk0 hleft
    simp only [Nat.add_sub_cancel] at hleft
    simp only [_deleteFile, hop, hi, hc, hleft, ↓reduceIte, reduceCtorEq, true_or,
      Nat.add_sub_cancel, Nat.zero_lt_succ]

theorem deleteFile_case3a_right (pos : EChildPos) (hop : node.findPos key cfn = (i, pos))
    (hi : i ≠ SIZE_MAX) (hpos : pos = EChildPos.ECP_INLEFT ∨ pos = EChildPos.ECP_INRIGHT)
    (k : Nat) (hk : k = if pos = EChildPos.ECP_INLEFT then i else i + 1)
    (hc : ¬ t ≤ (node.children.getD k default).objCount)
    (hleft : ¬ (0 < k ∧ t ≤ (node.children.getD (k - 1) default).objCount))
    (hkr : k < node.objCount) (hright : t ≤ (node.children.getD (k + 1) default).objCount) :
    _deleteFile cfn t (fuel + 1) node key f =
      _deleteFile cfn t fuel ((borrowRight t node k i).children.getD k default) key f := by
  have hl2 : ¬ t ≤ (if 0 < k then (node.children.getD (k - 1) default).objCount else 0) := by
    intro h
    by_cases h0 : 0 < k
    · rw [if_pos h0] at h
      exact hleft ⟨h0, h⟩
    · rw [if_neg h0] at h
      exact hc (le_trans h (Nat.zero_le _))
  subst hk
  rcases hpos with rfl | rfl
  · simp only [↓reduceIte] at hc hl2 hkr hright
    simp only [_deleteFile, hop, hi, hc, hl2, hkr, hright, ↓reduceIte, or_true, false_or]
  · simp only [reduceCtorEq, ↓reduceIte] at hc hl2 hkr hright
    simp only [_deleteFile, hop, hi, hc, hl2, hkr, hright, ↓reduceIte, reduceCtorEq, or_true,
      false_or]

theorem deleteFile_case3b (pos : EChildPos) (hop : node.findPos key cfn = (i, pos))
    (hi : i ≠ SIZE_MAX) (hpos : pos = EChildPos.ECP_INLEFT ∨ pos = EChildPos.ECP_INRIGHT)
    (k : Nat) (hk : k = if pos = EChildPos.ECP_INLEFT then i else i + 1)
    (hc : ¬ t ≤ (node.children.getD k default).objCount)
    (hleft : ¬ (0 < k ∧ t ≤ (node.children.getD (k - 1) default).objCount))
    (hright : ¬ (k < node.objCount ∧ t ≤ (node.children.getD (k + 1) default).objCount)) :
    _deleteFile cfn t (fuel + 1) node key f =
      _deleteFile cfn t fuel (_merge t node i).2 key (_mergeFile t node i f) := by
  have hl2 : ¬ t ≤ (if 0 < k then (node.children.getD (k - 1) default).objCount else 0) := by
    intro h
    by_cases h0 : 0 < k
    · rw [if_pos h0] at h
      exact hleft ⟨h0, h⟩
    · rw [if_neg h0] at h
      exact hc (le_trans h (Nat.zero_le _))
  have hr2 : ¬ t ≤ (if k < node.objCount then (node.children.getD (k + 1) default).objCount
      else 0) := by
    intro h
    by_cases h0 : k < node.objCount
    · rw [if_pos h0] at h
      exact hright ⟨h0, h⟩
    · rw [if_neg h0] at h
      exact hc (le_trans h (Nat.zero_le _))
  subst hk
  rcases hpos with rfl | rfl
  · simp only [↓reduceIte] at hc hl2 hr2
    simp only [_deleteFile, hop, hi, hc, hl2, hr2, ↓reduceIte, or_self]
  · simp only [reduceCtorEq, ↓reduceIte] at hc hl2 hr2
    simp only [_deleteFile, hop, hi, hc, hl2, hr2, ↓reduceIte, reduceCtorEq, or_self]

end DeleteFileCases

/-- After `_delete`, every page lies behind the header, and the writes keep the header. -/
theorem delete_kept (cfn : compareFn) {t : Nat} (ht : 1 ≤ t) (hd : List Nat) :
    ∀ (fuel : Nat) (node : TreeNode) (key : DbObj) (h : Nat) (f : File), Shaped t node h →
      h < fuel → node.Above → f.Kept hd →
      (_delete cfn t fuel node key).1.Above ∧ (_deleteFile cfn t fuel node key f).Kept hd := by
  intro fuel
  induction fuel with
  | zero => intro node key h f _ hf; omega
  | succ fuel ih =>
    intro node key h f hn hf ha hk
    have hn0 := hn
    rw [shaped_iff] at hn
    -- the descent into child `k` of a node `q`
    have descend : ∀ (q : TreeNode) (k : Nat) (key1 : DbObj) (g : File), Shaped t q h →
        q.isLeaf = false → q.Above → g.Kept hd → k < q.children.length →
        (q.setChildren (q.children.set k
          (_delete cfn t fuel (q.children.getD k default) key1).1)).Above ∧
        (_deleteFile cfn t fuel (q.children.getD k default) key1 g).Kept hd := by
      intro q k key1 g hq hql hqa hg hk
      have hq' := hq
      rw [shaped_iff] at hq'
      simp only [hql, Bool.false_eq_true, if_false] at hq'
      have hc := hq'.2.2.2 _ (getD_mem hk)
      have := ih (q.children.getD k default) key1 (h - 1) g hc.2 (by omega) (hqa.child hk) hg
      exact ⟨hqa.setChild this.1 k, this.2⟩
    by_cases hmax : (node.findPos key cfn).1 = SIZE_MAX
    · rw [delete_sentinel _ _ _ _ _ hmax, deleteFile_sentinel _ _ _ _ _ _ hmax]
      exact ⟨ha, hk⟩
    generalize hop : node.findPos key cfn = op at hmax
    obtain ⟨i, pos⟩ := op
    simp only at hmax
    have hmerge : ∀ (hl0 : node.isLeaf = false), i < node.objCount →
        (node.children.getD i default).objCount = t - 1 →
        (node.children.getD (i + 1) default).objCount = t - 1 →
        ((_merge t node i).1.setChildren ((_merge t node i).1.children.set i
          (_delete cfn t fuel (_merge t node i).2 key).1)).Above ∧
        (_deleteFile cfn t fuel (_merge t node i).2 key (_mergeFile t node i f)).Kept hd := by
      intro hl0 hi h1 h2
      obtain ⟨m1, m2, m3, m4, m5, m6⟩ := merge_shaped ht hn0 hl0 hi h1 h2
      have hlen := (hn0.kids hl0).1
      obtain ⟨k1, k2, k3⟩ := @merge_kept t node i hd f ha (by omega) hk
      have := ih (_merge t node i).2 key (h - 1) _ m5 (by
        simp only [hl0, Bool.false_eq_true, if_false] at hn
        omega) k2 k3
      exact ⟨k1.setChild this.1 i, this.2⟩
    cases pos with
    | ECP_NONE =>
      rw [delete_none _ _ _ _ _ (by rw [hop]), deleteFile_none _ _ _ _ _ _ (by rw [hop])]
      exact ⟨ha, hk⟩
    | ECP_INTHIS =>
      have hi : i < node.objCount := by
        have := @findPos_inthis node key cfn (by rw [hop])
        simpa [hop] using this
      by_cases hl : node.isLeaf = true
      · rw [delete_case1 _ _ _ _ _ _ hop hmax hl, deleteFile_case1 _ _ _ _ _ _ _ hop hmax hl]
        refine ⟨?_, hk⟩
        simp only [delFromLeaf, hl, if_true]
        simpa using ha
      · have hl0 : node.isLeaf = false := by simpa using hl
        simp only [hl0, Bool.false_eq_true, if_false] at hn
        obtain ⟨hcnt, hlen, hh, hkids⟩ := hn
        by_cases h2a : t ≤ (node.children.getD i default).objCount
        · rw [delete_case2a _ _ _ _ _ _ hop hmax hl0 h2a,
            deleteFile_case2a _ _ _ _ _ _ _ hop hmax hl0 h2a]
          have := descend node i ((_findPred fuel (node.children.getD i default)).1.objects.getD
            (_findPred fuel (node.children.getD i default)).2 []) f hn0 hl0 ha hk (by omega)
          exact ⟨by simpa using this.1, this.2⟩
        · by_cases h2b : t ≤ (node.children.getD (i + 1) default).objCount
          · rw [delete_case2b _ _ _ _ _ _ hop hmax hl0 h2a h2b,
              deleteFile_case2b _ _ _ _ _ _ _ hop hmax hl0 h2a h2b]
            have := descend node (i + 1)
              ((_findSucc fuel (node.children.getD (i + 1) default)).1.objects.getD
              (_findSucc fuel (node.children.getD (i + 1) default)).2 []) f hn0 hl0 ha hk
              (by omega)
            exact ⟨by simpa using this.1, this.2⟩
          · rw [delete_case2c _ _ _ _ _ _ hop hmax hl0 h2a h2b,
              deleteFile_case2c _ _ _ _ _ _ _ hop hmax hl0 h2a h2b]
            have c1 := hkids _ (getD_mem (show i < node.children.length by omega))
            have c2 := hkids _ (getD_mem (show i + 1 < node.children.length by omega))
            exact hmerge hl0 hi (by omega) (by omega)
    | ECP_INLEFT =>
      obtain ⟨hl0, hi⟩ : node.isLeaf = false ∧ i < node.objCount := by
        have := @findPos_inleft node key cfn (by rw [hop])
        simpa [hop] using this
      simp only [hl0, Bool.false_eq_true, if_false] at hn
      obtain ⟨hcnt, hlen, hh, hkids⟩ := hn
      have hpos : EChildPos.ECP_INLEFT = EChildPos.ECP_INLEFT ∨
        EChildPos.ECP_INLEFT = EChildPos.ECP_INRIGHT := Or.inl rfl
      have hki : i = if EChildPos.ECP_INLEFT = EChildPos.ECP_INLEFT then i else i + 1 := by simp
      have c1 := hkids _ (getD_mem (show i < node.children.length by omega))
      by_cases hc : t ≤ (node.children.getD i default).objCount
      · rw [delete_case3 _ _ _ _ _ _ _ hop hmax hpos i hki hc,
          deleteFile_case3 _ _ _ _ _ _ _ _ hop hmax hpos i hki hc]
        exact descend node i key f hn0 hl0 ha hk (by omega)
      · by_cases hleft : 0 < i ∧ t ≤ (node.children.getD (i - 1) default).objCount
        · rw [delete_case3a_left _ _ _ _ _ _ _ hop hmax hpos i hki hc hleft.1 hleft.2,
            deleteFile_case3a_left _ _ _ _ _ _ _ _ hop hmax hpos i hki hc hleft.1 hleft.2]
          obtain ⟨b1, b2, b3, b4, b5⟩ := borrowLeft_shaped ht hn0 hl0 hleft.1 (by omega)
            (by omega) hleft.2
          exact descend _ i key f b1 b3 (borrowLeft_above hn0 hl0 ha hleft.1 (by omega)) hk b4
        · by_cases hright : i < node.objCount ∧ t ≤ (node.children.getD (i + 1) default).objCount
          · rw [delete_case3a_right _ _ _ _ _ _ _ hop hmax hpos i hki hc hleft hright.1 hright.2,
              deleteFile_case3a_right _ _ _ _ _ _ _ _ hop hmax hpos i hki hc hleft hright.1
                hright.2]
            obtain ⟨b1, b2, b3, b4, b5⟩ := borrowRight_shaped i ht hn0 hl0 (by omega)
              (by omega) hright.2
            exact descend _ i key f b1 b3 (borrowRight_above i hn0 hl0 ha (by omega)) hk b4
          · rw [delete_case3b _ _ _ _ _ _ _ hop hmax hpos i hki hc hleft hright,
              deleteFile_case3b _ _ _ _ _ _ _ _ hop hmax hpos i hki hc hleft hright]
            have c2 := hkids _ (getD_mem (show i + 1 < node.children.length by omega))
            exact hmerge hl0 hi (by omega) (by
              have : ¬ t ≤ (node.children.getD (i + 1) default).objCount := fun h =>
                hright ⟨hi, h⟩
              omega)
    | ECP_INRIGHT =>
      obtain ⟨hl0, hi⟩ : node.isLeaf = false ∧ i = decr node.objCount := by
        have := @findPos_inright node key cfn (by rw [hop])
        simpa [hop] using this
      obtain ⟨hpos0, hdec⟩ := decr_ne_max (by rw [← hi]; exact hmax)
      have hi' : i = node.objCount - 1 := by rw [hi, hdec]
      simp only [hl0, Bool.false_eq_true, if_false] at hn
      obtain ⟨hcnt, hlen, hh, hkids⟩ := hn
      have hpos : EChildPos.ECP_INRIGHT = EChildPos.ECP_INLEFT ∨
        EChildPos.ECP_INRIGHT = EChildPos.ECP_INRIGHT := Or.inr rfl
      have hki : i + 1 = if EChildPos.ECP_INRIGHT = EChildPos.ECP_INLEFT then i else i + 1 := by
        simp
      have c1 := hkids _ (getD_mem (show i + 1 < node.children.length by omega))
      by_cases hc : t ≤ (node.children.getD (i + 1) default).objCount
      · rw [delete_case3 _ _ _ _ _ _ _ hop hmax hpos (i + 1) hki hc,
          deleteFile_case3 _ _ _ _ _ _ _ _ hop hmax hpos (i + 1) hki hc]
        exact descend node (i + 1) key f hn0 hl0 ha hk (by omega)
      · by_cases hleft : 0 < i + 1 ∧ t ≤ (node.children.getD (i + 1 - 1) default).objCount
        · rw [delete_case3a_left _ _ _ _ _ _ _ hop hmax hpos (i + 1) hki hc hleft.1 hleft.2,
            deleteFile_case3a_left _ _ _ _ _ _ _ _ hop hmax hpos (i + 1) hki hc hleft.1 hleft.2]
          obtain ⟨b1, b2, b3, b4, b5⟩ := borrowLeft_shaped ht hn0 hl0 hleft.1 (by omega)
            (by omega) hleft.2
          exact descend _ (i + 1) key f b1 b3
            (borrowLeft_above hn0 hl0 ha hleft.1 (by omega)) hk b4
        · have hright : ¬ (i + 1 < node.objCount ∧
              t ≤ (node.children.getD (i + 1 + 1) default).objCount) := fun h => by omega
          rw [delete_case3b _ _ _ _ _ _ _ hop hmax hpos (i + 1) hki hc hleft hright,
            deleteFile_case3b _ _ _ _ _ _ _ _ hop hmax hpos (i + 1) hki hc hleft hright]
          have c0 := hkids _ (getD_mem (show i < node.children.length by omega))
          exact hmerge hl0 (by omega) (by
              have : ¬ t ≤ (node.children.getD i default).objCount := fun h =>
                hleft ⟨by omega, by simpa using h⟩
              omega) (by omega)

theorem Store.del_db (s : Store) (key : DbObj) : (s.del key).1.db = (s.db.del key).1 := by
  simp only [Store.del, BTreeDB.del]
  split
  · rfl
  · split <;> rfl

/-- After `del`, every page lies behind the header, and the writes keep the header. -/
theorem del_kept (s : Store) (key : DbObj) (hd : List Nat) (ht : 1 ≤ s.db._minDegree)
    (hsh : s.db._root.ShapeInv s.db._minDegree) (ha : s.db._root.Above)
    (hk : s.file.Kept hd) :
    (s.del key).1.db._root.Above ∧ (s.del key).1.db.fileLen = s.db.fileLen ∧
    (s.del key).1.file.Kept hd := by
  obtain ⟨h, hs⟩ := hsh
  obtain ⟨d1, d2⟩ := delete_kept s.db._compFunc ht hd s.db._root.height s.db._root key h s.file hs
    (by rw [hs.height_eq]; omega) ha hk
  have dsh := (delete_shaped s.db._compFunc ht s.db._root.height s.db._root key h hs
    (by rw [hs.height_eq]; omega)).1
  simp only [Store.del, BTreeDB.del]
  split
  · exact ⟨ha, rfl, hk⟩
  · split
    · rename_i hc
      have hlen := (dsh.kids hc.2.2).1
      have hA := d1.child (show 0 < _ by omega)
      refine ⟨hA, rfl, ?_⟩
      exact flush_kept hd _ _ hA (kept_pwrite_zero _ (by simp [leBytes, sizeofLong]) d2)
    · exact ⟨d1, rfl, d2⟩

/-- The header is kept by every sequence of operations. -/
theorem run_kept (hd : List Nat) (t : Nat) (ht : 2 ≤ t) : ∀ (ops : List Op) (s : Store),
    s.db._minDegree = t → s.db._root.ShapeInv t → s.db._root.Above → 32 ≤ s.db.fileLen →
    s.file.Kept hd → (s.run ops).file.Kept hd := by
  intro ops
  induction ops with
  | nil => intro s _ _ _ _ hk; exact hk
  | cons op ops ih =>
    intro s hm hsh ha hfl hk
    simp only [Store.run, List.foldl_cons]
    cases op with
    | put rec =>
      have h1 := put_shapeInv s.db rec (by omega) (by rw [hm]; exact hsh)
      obtain ⟨k1, k2, k3⟩ := put_kept s rec hd (by omega) (by rw [hm]; exact hsh) ha hfl hk
      rw [← Store.put_db, hm] at h1
      exact ih (s.put rec).1 h1.2 h1.1 k1 k2 k3
    | del key =>
      have h1 := del_shapeInv s.db key (by omega) (by rw [hm]; exact hsh)
      obtain ⟨k1, k2, k3⟩ := del_kept s key hd (by omega) (by rw [hm]; exact hsh) ha hk
      rw [← Store.del_db, hm] at h1
      exact ih (s.del key).1 h1.2 h1.1 k1 (by omega) k3

@[simp] theorem leBytes_length (w v : Nat) : (leBytes w v).length = w := by
  induction w generalizing v with
  | zero => rfl
  | succ w ih => simp [leBytes, ih]

theorem leValue_leBytes (w v : Nat) : leValue (leBytes w v) = v % 256 ^ w := by
  induction w generalizing v with
  | zero => simp [leBytes, leValue, Nat.mod_one]
  | succ w ih =>
    simp only [leBytes, leValue, ih]
    rw [pow_succ, Nat.mul_comm (256 ^ w) 256, Nat.mod_mul]

/-- The file that `open()` creates holds the three sizes in its header, its root page lies
behind the header and its root is an empty leaf. -/
theorem create_kept (R K T : Nat) (cfn : Option compareFn) :
    (Store.create R K T cfn).file.Kept (leBytes 8 R ++ leBytes 8 K ++ leBytes 8 T) ∧
    (Store.create R K T cfn).db._root.Above ∧ 32 ≤ (Store.create R K T cfn).db.fileLen ∧
    (Store.create R K T cfn).db._minDegree = T ∧
    (Store.create R K T cfn).db._root.ShapeInv T := by
  have hA : (BTreeDB.create R K T cfn)._root.Above := by
    rw [above_iff]
    simp [BTreeDB.create, _allocateNode, setIsLeaf, sizeofHeader, sizeofSizeT]
  refine ⟨?_, hA, ?_, rfl, ⟨0, ?_⟩⟩
  · simp only [Store.create]
    refine kept_write _ ((above_iff _).1 hA).1 (kept_chsize _ (by simp [sizeofHeader, sizeofSizeT])
      ?_)
    rw [kept_iff]
    have e : File.pwrite [] 0 (headerImage sizeofHeader R K T)
        = (leBytes 4 32 ++ [0, 0, 0, 0]) ++ (leBytes 8 R ++ leBytes 8 K ++ leBytes 8 T) := by
      simp [File.pwrite, headerImage, sizeofHeader, sizeofSizeT, sizeofLong]
    rw [e]
    refine ⟨by simp, ?_⟩
    rw [List.drop_append_of_le_length (by simp), List.drop_eq_nil_of_le (by simp)]
    simp
  · simp [Store.create, BTreeDB.create, _allocateNode, sizeofHeader, sizeofSizeT]
  · rw [shaped_iff]
    simp [Store.create, BTreeDB.create, _allocateNode, objCount]

/-- What `open()` takes from a file whose header holds the sizes `R`, `K` and `T`. -/
theorem open_of_kept (R K T : Nat) (hR : R < SIZE_MAX) (hK : K < SIZE_MAX) (hT : T < SIZE_MAX)
    (f : File) (hf : f.Kept (leBytes 8 R ++ leBytes 8 K ++ leBytes 8 T))
    (R1 K1 T1 : Nat) (cfn1 : Option compareFn) :
    ∃ r, dbOpen (some f) R1 K1 T1 cfn1 = OpenResult.loaded r ∧ r.getRecSize = R ∧
      r.getKeySize = K ∧ r._minDegree = T ∧ r._nodeSize = nodeSizeOf R T ∧
      r._compFunc = cfn1.getD _defaultCompare ∧ r.file = f := by
  rw [kept_iff] at hf
  obtain ⟨hlen, hh⟩ := hf
  have hread : File.readItem f 0 sizeofHeader = some (f.take 32) := by
    simp only [File.readItem, sizeofHeader, sizeofSizeT]
    rw [if_neg (by omega)]
    simp
  have hsfh : (f.take 32).drop 8 = leBytes 8 R ++ leBytes 8 K ++ leBytes 8 T := by
    rw [List.drop_take]; exact hh
  have hmod : ∀ v, v < SIZE_MAX → v % 256 ^ 8 = v := by
    intro v hv
    apply Nat.mod_eq_of_lt
    have : SIZE_MAX < 256 ^ 8 := by decide
    omega
  have e1 : leValue (((f.take 32).drop sizeofSizeT).take sizeofSizeT) = R := by
    simp only [sizeofSizeT]
    rw [hsfh, List.append_assoc, List.take_append_of_le_length (by simp),
      List.take_of_length_le (by simp), leValue_leBytes, hmod R hR]
  have e2 : leValue (((f.take 32).drop (2 * sizeofSizeT)).take sizeofSizeT) = K := by
    simp only [sizeofSizeT]
    rw [show 2 * 8 = 8 + 8 from rfl, ← List.drop_drop, hsfh, List.append_assoc,
      List.drop_append_of_le_length (by simp), List.drop_of_length_le (by simp), List.nil_append,
      List.take_append_of_le_length (by simp), List.take_of_length_le (by simp), leValue_leBytes,
      hmod K hK]
  have e3 : leValue (((f.take 32).drop (3 * sizeofSizeT)).take sizeofSizeT) = T := by
    simp only [sizeofSizeT]
    rw [show 3 * 8 = 8 + 16 from rfl, ← List.drop_drop, hsfh,
      List.drop_append_of_le_length (by simp), List.drop_of_length_le (by simp), List.nil_append,
      List.take_of_length_le (by simp), leValue_leBytes, hmod T hT]
  simp only [dbOpen, hread]
  refine ⟨_, rfl, ?_, ?_, ?_, ?_, rfl, rfl⟩
  · exact e1
  · exact e2
  · exact e3
  · show nodeSizeOf _ _ = _
    rw [e1, e3]

/-- Header sizes after `put` calls: the file that `open()` creates with sizes `R`, `K` and
minimum degree `T ≥ 2`, on which the session puts any list of records before
the close, is opened with any constructor arguments; `open()` returns true and
takes the three sizes of the header.  A run of `put` calls deletes no node, so
`Store.put` is the method of the source on it. -/
theorem reopen_after_puts_takes_header_sizes (R K T : Nat) (cfn : Option compareFn)
    (recs : List DbObj) (hR : R < SIZE_MAX) (hK : K < SIZE_MAX) (hT : T < SIZE_MAX)
    (ht : 2 ≤ T) (R' K' T' : Nat) (cfn' : Option compareFn) :
    ∃ r, dbOpen (some ((Store.create R K T cfn).run (recs.map Op.put)).close) R' K' T' cfn'
        = OpenResult.loaded r ∧
      r.getRecSize = R ∧ r.getKeySize = K ∧ r._minDegree = T ∧
      r._nodeSize = nodeSizeOf R T := by
  obtain ⟨c1, c2, c3, c4, c5⟩ := create_kept R K T cfn
  have hk : ((Store.create R K T cfn).run (recs.map Op.put)).close.Kept
      (leBytes 8 R ++ leBytes 8 K ++ leBytes 8 T) :=
    run_kept _ T ht _ _ c4 c5 c2 c3 c1
  obtain ⟨r, h1, h2, h3, h4, h5, _⟩ := open_of_kept R K T hR hK hT _ hk R' K' T' cfn'
  exact ⟨r, h1, h2, h3, h4, h5⟩

/-- An instance of the header sizes after `put` calls: five records put with sizes 4, 4 and
minimum degree 2 (the root splits), then an open with the arguments 9, 9, 9. -/
theorem reopen_after_puts_takes_header_sizes_witness :
    (4 < SIZE_MAX ∧ 2 < SIZE_MAX ∧ 2 ≤ 2) ∧
    ∃ r, dbOpen (some ((Store.create 4 4 2 none).run
          ([rec4 1, rec4 2, rec4 3, rec4 4, rec4 5].map Op.put)).close) 9 9 9 none
        = OpenResult.loaded r ∧
      r.getRecSize = 4 ∧ r.getKeySize = 4 ∧ r._minDegree = 2 ∧ r._nodeSize = nodeSizeOf 4 2 :=
  ⟨⟨by decide, by decide, le_refl 2⟩,
    reopen_after_puts_takes_header_sizes 4 4 2 none [rec4 1, rec4 2, rec4 3, rec4 4, rec4 5]
      (by decide) (by decide) (by decide) (le_refl 2) 9 9 9 none⟩

/-- C14: a `put` of a record whose size differs from the record size of the database
returns false and leaves the session as it is: the data members, with the
tree, are unchanged and so is every byte of the file. -/
theorem put_wrong_size_changes_nothing (s : Store) (rec : DbObj)
    (h : rec.length ≠ s.db.getRecSize) :
    (s.put rec).2 = false ∧ (s.put rec).1.db = s.db ∧ (s.put rec).1.file = s.file ∧
    s.db.put rec = (s.db, false) := by
  simp [Store.put, BTreeDB.put, h]

/-- Witness for C14: a record of three bytes put into a database of four-byte records that
holds two records. -/
theorem put_wrong_size_changes_nothing_witness :
    [7, 7, 7].length ≠
      ((Store.create 4 4 2 none).run [Op.put (rec4 1), Op.put (rec4 2)]).db.getRecSize ∧
    (((Store.create 4 4 2 none).run [Op.put (rec4 1), Op.put (rec4 2)]).put [7, 7, 7]).2
      = false ∧
    (((Store.create 4 4 2 none).run [Op.put (rec4 1), Op.put (rec4 2)]).put [7, 7, 7]).1.file
      = ((Store.create 4 4 2 none).run [Op.put (rec4 1), Op.put (rec4 2)]).file :=
  have h := put_wrong_size_changes_nothing
    ((Store.create 4 4 2 none).run [Op.put (rec4 1), Op.put (rec4 2)]) [7, 7, 7] (by decide)
  ⟨by decide, h.1, h.2.2.1⟩

set_option maxRecDepth 100000

/-- C13: a database of four-byte records with minimum degree 2 is created, the record `1`
is put and deleted again, and the file is closed.  Before the close the
traversal visits no record; the file still holds the page that the `put` wrote
(the delete from the leaf changed the node in memory only and `close()` does
not flush), and the traversal of the re-opened file visits the record `1`. -/
theorem close_loses_delete_from_leaf :
    ((Store.create 4 4 2 none).run [Op.put (rec4 1), Op.del (rec4 1)]).db.traverse
      ([] : List (DbObj × Nat)) (some logVisit) = [] ∧
    ((dbOpen
        (some ((Store.create 4 4 2 none).run [Op.put (rec4 1), Op.del (rec4 1)]).close)
        4 4 2 none).reopened?.map
      (fun r => r.traverse ([] : List (DbObj × Nat)) (some logVisit))) = some [(rec4 1, 0)] := by
  decide

/-- C20 (amended): the creating branch of `open()` returns false exactly when `recSize`,
`keySize` or `minDegree` is the sentinel `(size_t)-1`; it then leaves the empty
file that `fopen` has created and installs no root.  For all other values,
a minimum degree below 2 included, it returns true and starts the session
with an empty leaf root behind the header. -/
theorem open_creating_checks_sentinels_only (R K T : Nat) (cfn : Option compareFn) :
    ((dbOpen none R K T cfn).returns = false ↔
      (R = SIZE_MAX ∨ K = SIZE_MAX ∨ T = SIZE_MAX)) ∧
    ((R = SIZE_MAX ∨ K = SIZE_MAX ∨ T = SIZE_MAX) →
      dbOpen none R K T cfn = OpenResult.failed (some [])) ∧
    (¬ (R = SIZE_MAX ∨ K = SIZE_MAX ∨ T = SIZE_MAX) →
      dbOpen none R K T cfn = OpenResult.created (Store.create R K T cfn) ∧
      (Store.create R K T cfn).db._minDegree = T ∧
      (Store.create R K T cfn).db._root = TreeNode.mk SIZE_MAX true 32 [] [] none) := by
  by_cases h : R = SIZE_MAX ∨ K = SIZE_MAX ∨ T = SIZE_MAX
  · have e : dbOpen none R K T cfn = OpenResult.failed (some []) := by
      simp only [dbOpen]
      rw [if_pos h]
    refine ⟨?_, fun _ => e, fun h1 => absurd h h1⟩
    rw [e]
    exact ⟨fun _ => h, fun _ => rfl⟩
  · have e : dbOpen none R K T cfn = OpenResult.created (Store.create R K T cfn) := by
      simp only [dbOpen]
      rw [if_neg h]
    refine ⟨?_, fun h1 => absurd h1 h, fun _ => ⟨e, rfl, rfl⟩⟩
    rw [e]
    exact ⟨fun h1 => by simp [OpenResult.returns] at h1, fun h1 => absurd h1 h⟩

/-- Witness for C20 (amended): record and key size 4 and minimum degree 2. -/
theorem open_creating_checks_sentinels_only_witness :
    ¬ (4 = SIZE_MAX ∨ 4 = SIZE_MAX ∨ 2 = SIZE_MAX) ∧
    dbOpen none 4 4 2 none = OpenResult.created (Store.create 4 4 2 none) :=
  ⟨by decide, ((open_creating_checks_sentinels_only 4 4 2 none).2.2 (by decide)).1⟩

/-- C20, counterexample: with `minDegree = 1` the creating branch of `open()` returns true,
and the session holds minimum degree 1 and a leaf root allocated behind the
header; with `minDegree = 0` it returns true as well.  With one of the three
sizes at the sentinel `(size_t)-1` it returns false and leaves an empty
file. -/
theorem open_accepts_degree_below_two :
    (∀ K T cfn, dbOpen none SIZE_MAX K T cfn = OpenResult.failed (some [])) ∧
    (∀ R T cfn, dbOpen none R SIZE_MAX T cfn = OpenResult.failed (some [])) ∧
    (∀ R K cfn, dbOpen none R K SIZE_MAX cfn = OpenResult.failed (some [])) ∧
    (dbOpen none 4 4 1 none).returns = true ∧
    (dbOpen none 4 4 1 none).created?.map (fun s => (s.db._minDegree, s.db._root))
      = some (1, TreeNode.mk SIZE_MAX true 32 [] [] none) ∧
    (dbOpen none 4 4 0 none).returns = true := by
  refine ⟨fun K T cfn => by simp [dbOpen], fun R T cfn => by simp [dbOpen],
    fun R K cfn => by simp [dbOpen], by decide, by rfl, by decide⟩

open TreeNode

/-! ## The default comparator on blobs of one size -/

theorem memcmp_neg : ∀ (a b : List Nat) (n : Nat), memcmp b a n = - memcmp a b n := by
  intro a
  induction a with
  | nil => intro b n; cases b <;> cases n <;> simp [memcmp]
  | cons x a ih =>
    intro b n
    cases b with
    | nil => cases n <;> simp [memcmp]
    | cons y b =>
      cases n with
      | zero => simp [memcmp]
      | succ n =>
        simp only [memcmp]
        by_cases h : x = y
        · subst h; simp [ih b n]
        · rw [if_neg h, if_neg (fun e => h e.symm)]
          omega

theorem memcmp_lex : ∀ (a b : List Nat), a.length = b.length →
    (memcmp a b a.length < 0 ↔ List.Lex (· < ·) a b) := by
  intro a
  induction a with
  | nil =>
    intro b hb
    cases b with
    | nil => simp [memcmp]
    | cons y b => simp at hb
  | cons x a ih =>
    intro b hb
    cases b with
    | nil => simp at hb
    | cons y b =>
      simp only [List.length_cons, add_left_inj] at hb
      simp only [memcmp, List.length_cons]
      by_cases h : x = y
      · subst h
        rw [if_pos rfl, ih b hb]
        constructor
        · intro hl; exact List.Lex.cons hl
        · intro hl
          cases hl with
          | cons hl => exact hl
          | rel hr => exact absurd hr (lt_irrefl _)
      · rw [if_neg h]
        constructor
        · intro hl; exact List.Lex.rel (by omega)
        · intro hl
          cases hl with
          | cons hl => exact absurd rfl h
          | rel hr => omega

/-- C21: on blobs of one common size the default comparator is a total order that
agrees with byte equality: it yields 0 exactly for identical bytes, swapping
the arguments negates the sign, `cmp a b < 0` and `cmp b c < 0` give
`cmp a c < 0`, and its sign is that of the lexicographic comparison of the
bytes as unsigned values. -/
theorem defaultCompare_orders_blobs (n : Nat) (a b c : DbObj) (ha : a.length = n)
    (hb : b.length = n) (hc : c.length = n) :
    (_defaultCompare a b = 0 ↔ a = b) ∧
    Int.sign (_defaultCompare a b) = - Int.sign (_defaultCompare b a) ∧
    (_defaultCompare a b < 0 → _defaultCompare b c < 0 → _defaultCompare a c < 0) ∧
    (_defaultCompare a b < 0 ↔ List.Lex (· < ·) a b) ∧
    (0 < _defaultCompare a b ↔ List.Lex (· < ·) b a) := by
  have hab : a.length = b.length := by rw [ha, hb]
  have hbc : b.length = c.length := by rw [hb, hc]
  have e1 : _defaultCompare a b = memcmp a b a.length := by
    simp [_defaultCompare, hab]
  have e2 : _defaultCompare b a = memcmp b a b.length := by
    simp [_defaultCompare, hab]
  have e3 : _defaultCompare b c = memcmp b c b.length := by
    simp [_defaultCompare, hbc]
  have e4 : _defaultCompare a c = memcmp a c a.length := by
    simp [_defaultCompare, hab, hbc]
  have hneg : _defaultCompare b a = - _defaultCompare a b := by
    rw [e1, e2, ← hab]; exact memcmp_neg a b a.length
  refine ⟨?_, ?_, ?_, ?_, ?_⟩
  · rw [e1]; exact memcmp_eq_zero a b hab
  · rw [hneg, Int.sign_neg, neg_neg]
  · intro h1 h2
    rw [e1] at h1
    rw [e3] at h2
    rw [e4]
    have hle := memcmp_trans a b c hab hbc (le_of_lt h1) (le_of_lt h2)
    rcases lt_or_eq_of_le hle with h | h
    · exact h
    · exfalso
      have hac : a = c := (memcmp_eq_zero a c (hab.trans hbc)).1 h
      subst hac
      have : memcmp a b a.length = - memcmp b a b.length := by
        rw [hab]; exact memcmp_neg b a b.length
      omega
  · rw [e1]; exact memcmp_lex a b hab
  · rw [show (0 < _defaultCompare a b) ↔ (_defaultCompare b a < 0) by rw [hneg]; omega, e2]
    exact memcmp_lex b a hab.symm

/-- Witness for C21: three blobs of four bytes, the first two differing in the last byte,
one of them with byte value 200. -/
theorem defaultCompare_orders_blobs_witness :
    ([1, 2, 3, 4].length = 4 ∧ [1, 2, 3, 200].length = 4 ∧ [1, 3, 0, 0].length = 4) ∧
    _defaultCompare [1, 2, 3, 4] [1, 2, 3, 200] < 0 ∧
    List.Lex (· < ·) [1, 2, 3, 4] [1, 2, 3, 200] ∧
    (_defaultCompare [1, 2, 3, 4] [1, 2, 3, 200] < 0 → _defaultCompare [1, 2, 3, 200] [1, 3, 0, 0] < 0 →
      _defaultCompare [1, 2, 3, 4] [1, 3, 0, 0] < 0) :=
  have h := defaultCompare_orders_blobs 4 [1, 2, 3, 4] [1, 2, 3, 200] [1, 3, 0, 0] rfl rfl rfl
  ⟨⟨rfl, rfl, rfl⟩, by decide, h.2.2.2.1.1 (by decide), h.2.2.1⟩

open TreeNode

/-! ## `findPos` on a sorted node -/

/-- The loop of `findPos` stops at the first record that is not below the key. -/
theorem findPosLoop_stop (key : DbObj) (cfn : compareFn) (leaf : Bool) :
    ∀ (l1 : List DbObj) (o : DbObj) (l2 : List DbObj) (ctr : Nat),
      (∀ x ∈ l1, 0 < cfn key x) → cfn key o ≤ 0 →
      findPosLoop key cfn leaf (l1 ++ o :: l2) ctr =
        if cfn key o = 0 then (ctr + l1.length, EChildPos.ECP_INTHIS)
        else if leaf then (SIZE_MAX, EChildPos.ECP_NONE)
        else (ctr + l1.length, EChildPos.ECP_INLEFT) := by
  intro l1
  induction l1 with
  | nil =>
    intro o l2 ctr _ ho
    simp only [List.nil_append, findPosLoop, List.length_nil, Nat.add_zero]
    by_cases h0 : cfn key o = 0
    · simp [h0]
    · have : cfn key o < 0 := by omega
      simp [h0, this]
  | cons x l1 ih =>
    intro o l2 ctr hx ho
    have h1 := hx x (by simp)
    show findPosLoop key cfn leaf (x :: (l1 ++ o :: l2)) ctr = _
    rw [findPosLoop, if_neg (by omega), if_neg (by omega),
      ih o l2 (ctr + 1) (fun y hy => hx y (by simp [hy])) ho, List.length_cons,
      show ctr + 1 + l1.length = ctr + (l1.length + 1) by omega]

/-- The loop of `findPos` runs to the end when every record is below the key. -/
theorem findPosLoop_end (key : DbObj) (cfn : compareFn) (leaf : Bool) :
    ∀ (os : List DbObj) (ctr : Nat), (∀ x ∈ os, 0 < cfn key x) →
      findPosLoop key cfn leaf os ctr =
        if leaf then (SIZE_MAX, EChildPos.ECP_NONE)
        else (decr (ctr + os.length), EChildPos.ECP_INRIGHT) := by
  intro os
  induction os with
  | nil => intro ctr _; simp [findPosLoop]
  | cons x os ih =>
    intro ctr hx
    have h1 := hx x (by simp)
    simp only [findPosLoop, List.length_cons]
    rw [if_neg (by omega), if_neg (by omega), ih (ctr + 1) (fun y hy => hx y (by simp [hy]))]
    rw [show ctr + 1 + os.length = ctr + (os.length + 1) by omega]

theorem take_getD_drop_obj (os : List DbObj) (i : Nat) (hi : i < os.length) :
    os = os.take i ++ os.getD i [] :: os.drop (i + 1) := by
  conv_lhs => rw [← List.take_append_drop i os]
  rw [List.drop_eq_getElem_cons hi, List.getD_eq_getElem _ _ hi]

theorem countP_split (p : DbObj → Bool) (l1 l2 : List DbObj) (h1 : ∀ x ∈ l1, p x = true)
    (h2 : ∀ x ∈ l2, p x = false) : (l1 ++ l2).countP p = l1.length := by
  rw [List.countP_append, List.countP_eq_length.2 h1, List.countP_eq_zero.2 (by simpa using h2)]
  rfl

/-- C22: `findPos` on a node whose records are strictly ascending under a comparator that
is a total order.  If the key equals a record, that record is the only one and
`findPos` returns its slot with `ECP_INTHIS`.  Otherwise a leaf gives
`((size_t)-1, ECP_NONE)`, and an internal node gives the first slot whose
record is above the key with `ECP_INLEFT`, or `(objCount - 1, ECP_INRIGHT)`
when the key is above every record; the child index derived from the result
(`i` for `ECP_INLEFT`, `i + 1` in `size_t` arithmetic for `ECP_INRIGHT`) is
the number of records of the node that are below the key. -/
theorem findPos_on_ascending_node {D : DbObj → Prop} {cmp : compareFn}
    (ho : TotalOrderOn D cmp) (n : TreeNode) (key : DbObj) (hk : D key)
    (hD : ∀ o ∈ n.objects, D o) (hasc : Ascending cmp n.objects)
    (hfit : n.objCount ≤ SIZE_MAX) :
    (∀ i, i < n.objCount → cmp key (n.objects.getD i []) = 0 →
      n.findPos key cmp = (i, EChildPos.ECP_INTHIS) ∧
      ∀ j, j < n.objCount → cmp key (n.objects.getD j []) = 0 → j = i) ∧
    ((∀ o ∈ n.objects, cmp key o ≠ 0) →
      (n.isLeaf = true → n.findPos key cmp = (SIZE_MAX, EChildPos.ECP_NONE)) ∧
      (n.isLeaf = false →
        (∀ i, i < n.objCount → cmp key (n.objects.getD i []) < 0 →
          (∀ j, j < i → ¬ cmp key (n.objects.getD j []) < 0) →
          n.findPos key cmp = (i, EChildPos.ECP_INLEFT) ∧
          n.objects.countP (fun o => decide (cmp o key < 0)) = i) ∧
        ((∀ o ∈ n.objects, 0 < cmp key o) →
          n.findPos key cmp = (decr n.objCount, EChildPos.ECP_INRIGHT) ∧
          n.objects.countP (fun o => decide (cmp o key < 0))
            = (decr n.objCount + 1) % (SIZE_MAX + 1)))) := by
  have hoc : n.objCount = n.objects.length := rfl
  have hmemi : ∀ i, i < n.objCount → n.objects.getD i [] ∈ n.objects := by
    intro i hi
    rw [List.getD_eq_getElem _ _ hi]; exact List.getElem_mem hi
  have hpos : ∀ x, D x → cmp x key < 0 → 0 < cmp key x := fun x hx h =>
    (ho.flip x key hx hk).1 h
  have hlenT : ∀ i, i < n.objCount → (n.objects.take i).length = i := by
    intro i hi
    rw [List.length_take]
    exact min_eq_left (le_of_lt hi)
  -- records before a record that equals the key
  have hbefore : ∀ i, i < n.objCount → cmp key (n.objects.getD i []) = 0 →
      ∀ x ∈ n.objects.take i, cmp x key < 0 := by
    intro i hi he x hx
    have hsplit := take_getD_drop_obj n.objects i hi
    have hoD := hD _ (hmemi i hi)
    have hxo : cmp x (n.objects.getD i []) < 0 := by
      rw [hsplit] at hasc
      exact (Ascending.append_iff.1 hasc).2.2 x hx _ (by simp)
    exact ho.lt_of_lt_of_le (hD x (List.mem_of_mem_take hx)) hoD hk hxo
      (le_of_eq (ho.eq_symm hk hoD he))
  -- records behind a record that is not below the key
  have hafter : ∀ i, i < n.objCount → cmp key (n.objects.getD i []) ≤ 0 →
      ∀ x ∈ n.objects.drop (i + 1), cmp key x < 0 := by
    intro i hi hle x hx
    have hsplit := take_getD_drop_obj n.objects i hi
    have hoD := hD _ (hmemi i hi)
    have hox : cmp (n.objects.getD i []) x < 0 := by
      rw [hsplit] at hasc
      exact (Ascending.cons_iff.1 (Ascending.append_iff.1 hasc).2.1).1 x hx
    exact ho.lt_of_le_of_lt hk hoD (hD x (List.mem_of_mem_drop hx)) hle hox
  have hfind : ∀ i, i < n.objCount → cmp key (n.objects.getD i []) ≤ 0 →
      (∀ x ∈ n.objects.take i, 0 < cmp key x) →
      n.findPos key cmp =
        if cmp key (n.objects.getD i []) = 0 then (i, EChildPos.ECP_INTHIS)
        else if n.isLeaf then (SIZE_MAX, EChildPos.ECP_NONE)
        else (i, EChildPos.ECP_INLEFT) := by
    intro i hi hle hx
    have h := findPosLoop_stop key cmp n.isLeaf (n.objects.take i) (n.objects.getD i [])
      (n.objects.drop (i + 1)) 0 hx hle
    rw [← take_getD_drop_obj n.objects i hi, hlenT i hi, Nat.zero_add] at h
    exact h
  refine ⟨?_, ?_⟩
  · intro i hi he
    have hx : ∀ x ∈ n.objects.take i, 0 < cmp key x := fun x hx =>
      hpos x (hD x (List.mem_of_mem_take hx)) (hbefore i hi he x hx)
    refine ⟨by rw [hfind i hi (le_of_eq he) hx, if_pos he], ?_⟩
    intro j hj hje
    rcases Nat.lt_trichotomy j i with h | h | h
    · exfalso
      have hm : n.objects.getD j [] ∈ n.objects.take i := by
        rw [List.getD_eq_getElem _ _ hj]
        exact List.mem_take_iff_getElem.2 ⟨j, by omega, rfl⟩
      have := hx _ hm
      omega
    · exact h
    · exfalso
      have hm : n.objects.getD j [] ∈ n.objects.drop (i + 1) := by
        rw [List.getD_eq_getElem _ _ hj]
        exact List.mem_drop_iff_getElem.2 ⟨j - (i + 1), by
          have : j < n.objects.length := hj
          omega, by congr 1; omega⟩
      have := hafter i hi (le_of_eq he) _ hm
      omega
  · intro hne
    have hall : (∀ o ∈ n.objects, 0 < cmp key o) →
        n.findPos key cmp = if n.isLeaf then (SIZE_MAX, EChildPos.ECP_NONE)
          else (decr n.objCount, EChildPos.ECP_INRIGHT) := by
      intro h
      have := findPosLoop_end key cmp n.isLeaf n.objects 0 h
      rw [Nat.zero_add] at this
      exact this
    refine ⟨?_, ?_⟩
    · intro hl
      -- the first record that is not below the key, if there is one
      by_cases hex : ∃ i, i < n.objCount ∧ cmp key (n.objects.getD i []) ≤ 0
      · classical
        let i := Nat.find hex
        obtain ⟨hi, hle⟩ := Nat.find_spec hex
        have hx : ∀ x ∈ n.objects.take i, 0 < cmp key x := by
          intro x hx
          obtain ⟨j, hj, rfl⟩ := List.mem_take_iff_getElem.1 hx
          have hj2 : j < i := by
            have := hlenT i hi
            omega
          have hmin := Nat.find_min hex hj2
          have hjc : j < n.objCount := by
            have : i < n.objCount := hi
            omega
          rw [← List.getD_eq_getElem _ [] (by exact hjc)]
          by_contra hc
          exact hmin ⟨hjc, by omega⟩
        rw [hfind i hi hle hx, if_neg (hne _ (hmemi i hi)), hl]
        rfl
      · rw [hall (fun o ho1 => by
          obtain ⟨j, hj, rfl⟩ := List.mem_iff_getElem.1 ho1
          by_contra hc
          exact hex ⟨j, hj, by rw [List.getD_eq_getElem _ _ hj]; omega⟩), hl]
        rfl
    · intro hl
      refine ⟨?_, ?_⟩
      · intro i hi hlt hfirst
        have hx : ∀ x ∈ n.objects.take i, 0 < cmp key x := by
          intro x hx
          obtain ⟨j, hj, rfl⟩ := List.mem_take_iff_getElem.1 hx
          have hj2 : j < i := by
            have := hlenT i hi
            omega
          have hjc : j < n.objCount := by omega
          have h1 := hfirst j hj2
          have h2 := hne _ (hmemi j hjc)
          rw [List.getD_eq_getElem _ _ hjc] at h1 h2
          omega
        refine ⟨by rw [hfind i hi (le_of_lt hlt) hx, if_neg (by omega), hl]; rfl, ?_⟩
        have hsplit : n.objects = n.objects.take i ++ n.objects.drop i := by simp
        rw [hsplit, countP_split _ _ _ ?_ ?_, hlenT i hi]
        · intro x hx1
          have := hx x hx1
          simpa using ho.gt_flip hk (hD x (List.mem_of_mem_take hx1)) this
        · intro x hx1
          have hxD := hD x (List.mem_of_mem_drop hx1)
          rw [List.drop_eq_getElem_cons hi] at hx1
          have hkx : cmp key x < 0 := by
            rcases List.mem_cons.1 hx1 with rfl | hx2
            · rw [← List.getD_eq_getElem _ [] hi]; exact hlt
            · exact hafter i hi (le_of_lt hlt) x hx2
          have := (ho.flip key x hk hxD).1 hkx
          simp only [decide_eq_false_iff_not, not_lt]
          omega
      · intro habove
        refine ⟨by rw [hall habove, hl]; rfl, ?_⟩
        have hc : n.objects.countP (fun o => decide (cmp o key < 0)) = n.objCount :=
          List.countP_eq_length.2 (fun x hx => by
            simpa using ho.gt_flip hk (hD x hx) (habove x hx))
        rw [hc]
        unfold decr
        by_cases h0 : n.objCount = 0
        · simp [h0]
        · rw [if_neg h0, Nat.sub_add_cancel (by omega), Nat.mod_eq_of_lt (by omega)]

/-- Witness for C22: the internal node with the records `2` and `5` and the key `3`, which
lies between them and equals neither. -/
theorem findPos_on_ascending_node_witness :
    Ascending _defaultCompare (TreeNode.mk 0 false 32 [rec4 2, rec4 5] [] none).objects ∧
    (TreeNode.mk 0 false 32 [rec4 2, rec4 5] [] none).findPos (rec4 3) _defaultCompare
      = (1, EChildPos.ECP_INLEFT) ∧
    (TreeNode.mk 0 false 32 [rec4 2, rec4 5] [] none).objects.countP
      (fun o => decide (_defaultCompare o (rec4 3) < 0)) = 1 :=
  have hasc : Ascending _defaultCompare
      (TreeNode.mk 0 false 32 [rec4 2, rec4 5] [] none).objects := by
    unfold Ascending; decide
  have h := findPos_on_ascending_node (defaultCompare_totalOrder 4)
    (TreeNode.mk 0 false 32 [rec4 2, rec4 5] [] none) (rec4 3) rfl (by decide) hasc (by decide)
  have h2 := ((h.2 (by decide)).2 rfl).1 1 (by decide) (by decide) (by decide)
  ⟨hasc, h2.1, h2.2⟩

open TreeNode

/-- C24: on an empty tree (the root is a leaf with `objCount == 0`) a call of `seq` with a
null location does not report the end of the sequence: in both directions it
takes the root as the leaf to start from and reads a record slot of its empty
`objects` vector (`objects[0]` forward, `objects[objCount - 1]` backward),
which is out of range. -/
theorem seq_on_empty_tree_reads_slot (db : BTreeDB) (hl : db._root.isLeaf = true)
    (h0 : db._root.objCount = 0) (slot : Nat) (sdir : ESeqDirection) :
    db.seq (none, slot) sdir = SeqResult.fault := by
  have hL : ∀ fuel, leftmostLeaf fuel db._root = db._root := by
    intro fuel; cases fuel <;> simp [leftmostLeaf, hl]
  have hR : ∀ fuel, rightmostLeaf fuel db._root = db._root := by
    intro fuel; cases fuel <;> simp [rightmostLeaf, hl]
  cases sdir with
  | ESD_FORWARD => simp [BTreeDB.seq, BTreeDB._seqNext, hL, h0]
  | ESD_BACKWARD => simp [BTreeDB.seq, BTreeDB._seqPrev, hR, h0]

/-- Witness for C24: the database as `open()` creates it, and the database after a `put`
and the `del` of the same record. -/
theorem seq_on_empty_tree_reads_slot_witness :
    ((BTreeDB.create 4 4 2 none)._root.isLeaf = true ∧
      (BTreeDB.create 4 4 2 none)._root.objCount = 0) ∧
    (BTreeDB.create 4 4 2 none).seq (none, SIZE_MAX) ESeqDirection.ESD_FORWARD
      = SeqResult.fault ∧
    (scenario [Op.put (rec4 1), Op.del (rec4 1)]).seq (none, SIZE_MAX) ESeqDirection.ESD_BACKWARD
      = SeqResult.fault :=
  ⟨⟨rfl, rfl⟩,
    seq_on_empty_tree_reads_slot (BTreeDB.create 4 4 2 none) rfl rfl SIZE_MAX
      ESeqDirection.ESD_FORWARD,
    seq_on_empty_tree_reads_slot (scenario [Op.put (rec4 1), Op.del (rec4 1)]) (by decide)
      (by decide) SIZE_MAX ESeqDirection.ESD_BACKWARD⟩

open TreeNode

/-! ## Postconditions of `_split` and `_merge` -/

theorem sameUpToLink_setChildNo (n : TreeNode) (j : Nat) : (n.setChildNo j).SameUpToLink n := by
  cases n; exact ⟨rfl, rfl, rfl, rfl⟩

theorem sameUpToLink_setParent (n : TreeNode) (p : Option Nat) :
    (n.setParent p).SameUpToLink n := by
  cases n; exact ⟨rfl, rfl, rfl, rfl⟩

theorem TreeNode.SameUpToLink.trans {a b c : TreeNode} (h1 : a.SameUpToLink b) (h2 : b.SameUpToLink c) :
    a.SameUpToLink c :=
  ⟨h1.1.trans h2.1, h1.2.1.trans h2.2.1, h1.2.2.1.trans h2.2.2.1, h1.2.2.2.trans h2.2.2.2⟩

theorem forall2_renumber (k : Nat) (cs : List TreeNode) :
    List.Forall₂ SameUpToLink (renumber k cs) cs := by
  induction cs generalizing k with
  | nil => exact List.Forall₂.nil
  | cons c cs ih => exact List.Forall₂.cons (sameUpToLink_setChildNo c k) (ih (k + 1))

theorem forall2_renumber_setParent (k : Nat) (q : Option Nat) (cs : List TreeNode) :
    List.Forall₂ SameUpToLink ((renumber k cs).map (fun m => m.setParent q)) cs := by
  induction cs generalizing k with
  | nil => exact List.Forall₂.nil
  | cons c cs ih =>
    exact List.Forall₂.cons ((sameUpToLink_setParent _ q).trans (sameUpToLink_setChildNo c k))
      (ih (k + 1))

theorem forall2_sameUpToLink_refl (cs : List TreeNode) : List.Forall₂ SameUpToLink cs cs := by
  induction cs with
  | nil => exact List.Forall₂.nil
  | cons c cs ih => exact List.Forall₂.cons ⟨rfl, rfl, rfl, rfl⟩ ih

/-- Value model of the postcondition of `_split`, for a call in which the assignments of
`parent` delete no node (every call made in a run of `put` calls alone;
`split_changes_inorder` is a call of the source that deletes one).  The
parent is a well-formed internal node with fewer
than `2t-1` records and its child `i` holds exactly `2t-1`.  After
`_split(parent, i, child)`: the child, still at `children[i]`, keeps its first
`t-1` records and its first `t` children; `children[i+1]` is a new node (at
the end of the file) with the leaf flag of the child, the last `t-1` records
and the last `t` children of the child, which now carry the new node as
parent; `objects[i]` of the parent is the old median `child.objects[t-1]`,
the parent holds one record more, its other records and children keep their
relative order; and the in-order sequence of the subtree is unchanged. -/
theorem split_postcondition {t ns fl : Nat} {p : TreeNode} {i h : Nat} (ht : 1 ≤ t)
    (hp : Shaped t p h) (hleaf : p.isLeaf = false) (hroom : p.objCount < 2 * t - 1)
    (hi : i < p.children.length) (hc : (p.children.getD i default).objCount = 2 * t - 1) :
    -- the child
    ((_split t ns fl p i (p.children.getD i default)).1.children.getD i default).objects
      = (p.children.getD i default).objects.take (t - 1) ∧
    ((_split t ns fl p i (p.children.getD i default)).1.children.getD i default).children
      = (p.children.getD i default).children.take t ∧
    ((_split t ns fl p i (p.children.getD i default)).1.children.getD i default).fpos
      = (p.children.getD i default).fpos ∧
    -- the new node
    ((_split t ns fl p i (p.children.getD i default)).1.children.getD (i + 1) default).fpos
      = fl ∧
    ((_split t ns fl p i (p.children.getD i default)).1.children.getD (i + 1) default).isLeaf
      = (p.children.getD i default).isLeaf ∧
    ((_split t ns fl p i (p.children.getD i default)).1.children.getD (i + 1) default).objects
      = (p.children.getD i default).objects.drop t ∧
    ((_split t ns fl p i (p.children.getD i default)).1.children.getD (i + 1)
        default).objCount = t - 1 ∧
    List.Forall₂ SameUpToLink
      ((_split t ns fl p i (p.children.getD i default)).1.children.getD (i + 1) default).children
      ((p.children.getD i default).children.drop t) ∧
    (∀ m ∈ ((_split t ns fl p i (p.children.getD i default)).1.children.getD (i + 1)
        default).children, m.parent = some fl) ∧
    -- the parent
    (_split t ns fl p i (p.children.getD i default)).1.objects.getD i []
      = (p.children.getD i default).objects.getD (t - 1) [] ∧
    (_split t ns fl p i (p.children.getD i default)).1.objCount = p.objCount + 1 ∧
    (_split t ns fl p i (p.children.getD i default)).1.objects.take i = p.objects.take i ∧
    (_split t ns fl p i (p.children.getD i default)).1.objects.drop (i + 1)
      = p.objects.drop i ∧
    (_split t ns fl p i (p.children.getD i default)).1.children.take i = p.children.take i ∧
    List.Forall₂ SameUpToLink
      ((_split t ns fl p i (p.children.getD i default)).1.children.drop (i + 2))
      (p.children.drop (i + 1)) ∧
    -- the records of the subtree
    inorder (_split t ns fl p i (p.children.getD i default)).1 = inorder p := by
  have hin := @split_inorder t ns fl p i h ht hp hleaf hi hc
  have hsh := @split_shaped t ns fl p i h ht hp hleaf hroom hi hc
  obtain ⟨hlen, hkids⟩ := hp.kids hleaf
  have hcs := hkids _ (getD_mem hi)
  have hio : i ≤ p.objects.length := by
    have : p.objCount = p.objects.length := rfl
    omega
  generalize hcdef : p.children.getD i default = c at *
  have hcl : c.objects.length = 2 * t - 1 := hc
  have hT : (p.children.take i).length = i := by
    rw [List.length_take]; exact min_eq_left (le_of_lt hi)
  have hTo : (p.objects.take i).length = i := by
    rw [List.length_take]; exact min_eq_left hio
  have hch := split_children t ns fl p i c
  have hob := split_objects t ns fl p i c
  have g0 : (_split t ns fl p i c).1.children.getD i default
      = (c.setObjects (c.objects.take (t - 1))).setChildren (c.children.take t) := by
    rw [hch, List.getD_append_right _ _ _ _ (by omega), hT, Nat.sub_self]
    rfl
  have g1 : (_split t ns fl p i c).1.children.getD (i + 1) default
      = TreeNode.mk (i + 1) c.isLeaf fl ((c.objects.drop t).take (t - 1))
          (if c.isLeaf then [] else
            (renumber 0 ((c.children.drop t).take t)).map (fun m => m.setParent (some fl)))
          (some p.fpos) := by
    rw [hch, List.getD_append_right _ _ _ _ (by omega), hT, Nat.add_sub_cancel_left]
    rfl
  have htk : (c.objects.drop t).take (t - 1) = c.objects.drop t :=
    List.take_of_length_le (by rw [List.length_drop]; omega)
  have hckids : (if c.isLeaf then ([] : List TreeNode) else c.children.drop t)
      = c.children.drop t := by
    by_cases hl : c.isLeaf = true
    · rw [if_pos hl]
      rw [shaped_iff] at hcs
      simp only [hl, if_true] at hcs
      rw [hcs.2.1, List.drop_nil]
    · rw [if_neg hl]
  have hctk : c.isLeaf = false → (c.children.drop t).take t = c.children.drop t := by
    intro hl
    have := (hcs.kids hl).1
    have hoc : c.objCount = c.objects.length := rfl
    exact List.take_of_length_le (by rw [List.length_drop]; omega)
  refine ⟨by rw [g0]; simp, by rw [g0]; simp, by rw [g0]; simp, by rw [g1]; rfl,
    by rw [g1]; rfl, by rw [g1]; exact htk, hsh.2.2.2, ?_, ?_, ?_, hsh.2.1, ?_, ?_, ?_, ?_,
    hin⟩
  · rw [g1]
    simp only [children_mk]
    by_cases hl : c.isLeaf = true
    · rw [if_pos hl, ← hckids, if_pos hl]
      exact List.Forall₂.nil
    · rw [if_neg hl, hctk (by simpa using hl)]
      exact forall2_renumber_setParent 0 (some fl) _
  · rw [g1]
    simp only [children_mk]
    intro m hm
    split at hm
    · simp at hm
    · obtain ⟨z, _, rfl⟩ := List.mem_map.1 hm
      simp
  · rw [hob, List.getD_append_right _ _ _ _ (by omega), hTo, Nat.sub_self]
    rfl
  · rw [hob, List.take_append_of_le_length (by omega), List.take_take, min_self]
  · rw [hob, List.drop_append_eq_append_drop, hTo, List.drop_eq_nil_of_le (by omega)]
    simp
  · rw [hch, List.take_append_of_le_length (by omega), List.take_take, min_self]
  · rw [hch, List.drop_append_eq_append_drop, hT, List.drop_eq_nil_of_le (by omega)]
    simp only [List.nil_append, show i + 2 - i = 2 by omega, List.drop_succ_cons, List.drop_zero]
    exact forall2_renumber _ _

open TreeNode

/-- An instance of the value model of `_split`: the root `2` over the leaves `1` and `3, 4, 5`
with minimum degree 2; the split of the full leaf moves the median `4` up. -/
theorem split_postcondition_witness :
    (Shaped 2 exampleSplit 1 ∧ exampleSplit.isLeaf = false ∧ exampleSplit.objCount < 2 * 2 - 1 ∧
      1 < exampleSplit.children.length ∧
      (exampleSplit.children.getD 1 default).objCount = 2 * 2 - 1) ∧
    (_split 2 37 143 exampleSplit 1 (exampleSplit.children.getD 1 default)).1.objects.getD 1 []
      = (exampleSplit.children.getD 1 default).objects.getD (2 - 1) [] ∧
    inorder (_split 2 37 143 exampleSplit 1 (exampleSplit.children.getD 1 default)).1
      = inorder exampleSplit :=
  have hs : Shaped 2 exampleSplit 1 := by simp [exampleSplit, Shaped, ShapedKids]
  have h := @split_postcondition 2 37 143 exampleSplit 1 1 (by decide) hs rfl (by decide)
    (by decide) (by decide)
  ⟨⟨hs, rfl, by decide, by decide, by decide⟩, h.2.2.2.2.2.2.2.2.2.1,
    h.2.2.2.2.2.2.2.2.2.2.2.2.2.2.2⟩

/-- Value model of the postcondition of `_merge`, for a call whose `c2` lists no child when
it is deleted (a merge of two leaves; `merge_changes_inorder` is a call of the
source that merges two internal nodes).  The parent is a well-formed internal
node and its children `i` and `i+1` hold exactly `t-1` records each.  After
`_merge(parent, i)` the returned node is the page of `c1` with `2t-1`
records: those of `c1`, the old separator `parent.objects[i]`, those of `c2`,
and, when internal, the `t` children of `c1` followed by the `t` children of
`c2`; the parent holds one record less, `children[i]` is the returned node,
the other records and children keep their relative order (those behind move
one slot to the left); and the in-order sequence of the subtree is
unchanged. -/
theorem merge_postcondition {t : Nat} {p : TreeNode} {i h : Nat} (ht : 1 ≤ t)
    (hp : Shaped t p h) (hl : p.isLeaf = false) (hi : i < p.objCount)
    (h1 : (p.children.getD i default).objCount = t - 1)
    (h2 : (p.children.getD (i + 1) default).objCount = t - 1) :
    -- the returned node
    (_merge t p i).2.fpos = (p.children.getD i default).fpos ∧
    (_merge t p i).2.isLeaf = (p.children.getD i default).isLeaf ∧
    (_merge t p i).2.objects = (p.children.getD i default).objects ++
      p.objects.getD i [] :: (p.children.getD (i + 1) default).objects ∧
    (_merge t p i).2.objCount = 2 * t - 1 ∧
    (_merge t p i).2.children.take (p.children.getD i default).children.length
      = (p.children.getD i default).children ∧
    List.Forall₂ SameUpToLink
      ((_merge t p i).2.children.drop (p.children.getD i default).children.length)
      (p.children.getD (i + 1) default).children ∧
    ((_merge t p i).2.isLeaf = false → (_merge t p i).2.children.length = 2 * t) ∧
    -- the parent
    (_merge t p i).1.objCount = p.objCount - 1 ∧
    (_merge t p i).1.children.getD i default = (_merge t p i).2 ∧
    (_merge t p i).1.objects = p.objects.eraseIdx i ∧
    (_merge t p i).1.children.take i = p.children.take i ∧
    List.Forall₂ SameUpToLink ((_merge t p i).1.children.drop (i + 1))
      (p.children.drop (i + 2)) ∧
    -- the records of the subtree
    inorder (_merge t p i).1 = inorder p := by
  have hin := merge_inorder ht hp hl hi h1 h2
  obtain ⟨m1, m2, m3, m4, m5, m6⟩ := merge_shaped ht hp hl hi h1 h2
  obtain ⟨hlen, hkids⟩ := hp.kids hl
  have hc1 := hkids _ (getD_mem (show i < p.children.length by omega))
  have hc2 := hkids _ (getD_mem (show i + 1 < p.children.length by omega))
  have hget := @merge_snd_eq_getD t p i (by omega)
  have hch := merge_children t p i
  have hsnd := merge_snd t p i
  have hT : (p.children.take i).length = i := by
    rw [List.length_take]; exact min_eq_left (by omega)
  generalize p.children.getD i default = c1 at *
  generalize p.children.getD (i + 1) default = c2 at *
  have e1 : c1.objects.take (t - 1) = c1.objects := List.take_of_length_le (le_of_eq h1)
  have e2 : c2.objects.take (t - 1) = c2.objects := List.take_of_length_le (le_of_eq h2)
  have hleq : c1.isLeaf = c2.isLeaf := by
    have a := hc1.isLeaf_iff
    have b := hc2.isLeaf_iff
    cases hb1 : c1.isLeaf <;> cases hb2 : c2.isLeaf <;> simp_all
  have hk1 : c1.isLeaf = false → c1.children.length = t := by
    intro hl1
    have := (hc1.kids hl1).1
    omega
  have hk2 : c2.isLeaf = false → c2.children.length = t := by
    intro hl2
    have := (hc2.kids hl2).1
    omega
  have hkids2 : (_merge t p i).2.children =
      c1.children ++ (if c2.isLeaf then [] else renumber t c2.children) := by
    rw [hsnd]
    simp only [children_setChildren]
    by_cases hb : c2.isLeaf = true
    · simp [hb]
    · have hb0 : c2.isLeaf = false := by simpa using hb
      rw [if_neg hb, if_neg hb, List.take_of_length_le (le_of_eq (hk1 (hleq.trans hb0))),
        List.take_of_length_le (le_of_eq (hk2 hb0))]
  have hleaf2 : c2.isLeaf = true → c2.children = [] := by
    intro hb
    have := hc2
    rw [shaped_iff] at this
    simp only [hb, if_true] at this
    exact this.2.1
  refine ⟨by rw [hsnd]; simp, by rw [hsnd]; simp, by rw [hsnd]; simp [e1, e2], m6, ?_, ?_, ?_,
    m2, hget, merge_objects t p i, ?_, ?_, hin⟩
  · rw [hkids2, List.take_left']
    rfl
  · rw [hkids2, List.drop_left']
    · by_cases hb : c2.isLeaf = true
      · rw [if_pos hb, hleaf2 hb]
        exact List.Forall₂.nil
      · rw [if_neg hb]
        exact forall2_renumber _ _
    · rfl
  · intro hlf
    have hl1 : c1.isLeaf = false := by rw [hsnd] at hlf; simpa using hlf
    rw [hkids2, if_neg (by rw [← hleq, hl1]; simp), List.length_append, length_renumber,
      hk1 hl1, hk2 (hleq ▸ hl1)]
    omega
  · rw [hch, List.take_append_of_le_length (by omega), List.take_take, min_self]
  · rw [hch, List.drop_append_eq_append_drop, hT, List.drop_eq_nil_of_le (by omega)]
    simp only [List.nil_append, show i + 1 - i = 1 by omega, List.drop_succ_cons, List.drop_zero]
    exact forall2_renumber _ _

/-- An instance of the value model of `_merge`: the root `2` over the leaves `1` and `3` with
minimum degree 2; the merge gives the leaf `1, 2, 3`. -/
theorem merge_postcondition_witness :
    (Shaped 2 exampleMerge 1 ∧ exampleMerge.isLeaf = false ∧ 0 < exampleMerge.objCount ∧
      (exampleMerge.children.getD 0 default).objCount = 2 - 1 ∧
      (exampleMerge.children.getD (0 + 1) default).objCount = 2 - 1) ∧
    (_merge 2 exampleMerge 0).2.objects = (exampleMerge.children.getD 0 default).objects ++
      exampleMerge.objects.getD 0 [] :: (exampleMerge.children.getD (0 + 1) default).objects ∧
    inorder (_merge 2 exampleMerge 0).1 = inorder exampleMerge :=
  have hs : Shaped 2 exampleMerge 1 := by simp [exampleMerge, Shaped, ShapedKids]
  have h := @merge_postcondition 2 exampleMerge 0 1 (by decide) hs rfl (by decide)
    (by decide) (by decide)
  ⟨⟨hs, rfl, by decide, by decide, by decide⟩, h.2.2.1, h.2.2.2.2.2.2.2.2.2.2.2.2⟩

open TreeNode

/-! ## The size of a page image -/

theorem writeObjects_length (R : Nat) : ∀ (os : List DbObj), (∀ o ∈ os, o.length = R) →
    (writeObjects os).1.length ≤ os.length * R ∧
    (0 < R → (writeObjects os).1.length = os.length * R ∧ (writeObjects os).2 = true) := by
  intro os
  induction os with
  | nil => intro _; simp [writeObjects]
  | cons o os ih =>
    intro h
    have ho := h o (by simp)
    obtain ⟨i1, i2⟩ := ih (fun x hx => h x (by simp [hx]))
    simp only [writeObjects, List.length_cons]
    by_cases h0 : o.length = 0
    · rw [if_pos h0]
      refine ⟨by simp, fun hR => by omega⟩
    · rw [if_neg h0]
      simp only [List.length_append]
      refine ⟨by rw [Nat.add_mul]; omega, fun hR => ?_⟩
      obtain ⟨j1, j2⟩ := i2 hR
      exact ⟨by rw [Nat.add_mul]; omega, j2⟩

theorem childAddresses_length (n : TreeNode) :
    n.childAddresses.length = sizeofLong * (n.objCount + 1) := by
  simp only [childAddresses, List.length_take, List.length_append, List.length_replicate]
  omega

/-- A write of at most `m` bytes at `pos` leaves the bytes from `pos + m` on as they are. -/
theorem pwrite_drop (f : File) (pos : Nat) (bs : List Nat) (m : Nat) (hm : bs.length ≤ m) :
    (f.pwrite pos bs).drop (pos + m) = f.drop (pos + m) := by
  have hl : (f.take pos ++ List.replicate (pos - f.length) 0 ++ bs).length
      = pos + bs.length := by
    simp only [List.length_append, List.length_take, List.length_replicate]
    omega
  simp only [File.pwrite]
  rw [List.drop_append_eq_append_drop, hl, List.drop_eq_nil_of_le (by rw [hl]; omega),
    List.nil_append, List.drop_drop]
  congr 1
  omega

/-- A write inside the file leaves its length as it is. -/
theorem pwrite_length (f : File) (pos : Nat) (bs : List Nat) (h : pos + bs.length ≤ f.length) :
    (f.pwrite pos bs).length = f.length := by
  simp only [File.pwrite, List.length_append, List.length_take, List.length_replicate,
    List.length_drop]
  omega

/-- C30 (amended): page bound.  With
`nodeSize = sizeof(objCount) + (2t-1)*recSize + 2t*sizeof(long) + 1`, which is
the `_nodeSize` that `open()` computes, the bytes that `write` emits for a
node with `objCount <= 2t-1` whose records all have `recSize` bytes are at
most `nodeSize`; they are exactly `nodeSize` for a full internal node when
`recSize > 0`; and the write at `fpos` leaves every byte of the file from
`fpos + nodeSize` on as it is, and the length of a file that holds the page. -/
theorem image_fits_page (t R : Nat) (n : TreeNode) (f : File)
    (hcnt : n.objCount ≤ 2 * t - 1) (hrec : ∀ o ∈ n.objects, o.length = R) :
    (∀ K cfn, (BTreeDB.create R K t cfn)._nodeSize
      = sizeofSizeT + (2 * t - 1) * R + 2 * t * sizeofLong + 1) ∧
    n.image.1.length ≤ sizeofSizeT + (2 * t - 1) * R + 2 * t * sizeofLong + 1 ∧
    (0 < R → n.isLeaf = false → n.objCount = 2 * t - 1 → 0 < n.objCount →
      n.image.1.length = sizeofSizeT + (2 * t - 1) * R + 2 * t * sizeofLong + 1 ∧
      n.image.2 = true) ∧
    (n.write f).1.drop (n.fpos + (sizeofSizeT + (2 * t - 1) * R + 2 * t * sizeofLong + 1))
      = f.drop (n.fpos + (sizeofSizeT + (2 * t - 1) * R + 2 * t * sizeofLong + 1)) ∧
    (n.fpos + (sizeofSizeT + (2 * t - 1) * R + 2 * t * sizeofLong + 1) ≤ f.length →
      (n.write f).1.length = f.length) := by
  obtain ⟨w1, w2⟩ := writeObjects_length R n.objects hrec
  have a2 := childAddresses_length n
  have hoc : n.objCount = n.objects.length := rfl
  have hmul : n.objects.length * R ≤ (2 * t - 1) * R := Nat.mul_le_mul_right R (by omega)
  have hS : sizeofSizeT = 8 := rfl
  have hL : sizeofLong = 4 := rfl
  have hbound : n.image.1.length ≤ sizeofSizeT + (2 * t - 1) * R + 2 * t * sizeofLong + 1 := by
    simp only [image]
    split
    · simp only [List.length_cons, List.length_append, leBytes_length]
      omega
    · split
      · rename_i hc
        simp only [List.length_cons, List.length_append, leBytes_length]
        have : 0 < n.objCount := hc.1
        have h4 : sizeofLong * (n.objCount + 1) ≤ 2 * t * sizeofLong := by
          rw [Nat.mul_comm]; exact Nat.mul_le_mul_right _ (by omega)
        omega
      · simp only [List.length_cons, List.length_append, leBytes_length]
        omega
  refine ⟨fun K cfn => ?_, hbound, ?_, ?_, ?_⟩
  · simp only [BTreeDB.create]
    rw [Nat.mul_comm t 2]
  · intro hR hl hfull hpos
    obtain ⟨j1, j2⟩ := w2 hR
    simp only [image, j2, hl, hpos]
    simp only [Bool.true_eq_false, if_false, and_self, if_true, List.length_cons,
      List.length_append, leBytes_length, j1, a2]
    refine ⟨?_, trivial⟩
    rw [← hoc, hfull, show 2 * t - 1 + 1 = 2 * t by omega, Nat.mul_comm sizeofLong]
    omega
  · simp only [TreeNode.write]
    exact pwrite_drop f n.fpos _ _ hbound
  · intro hlen
    simp only [TreeNode.write]
    exact pwrite_length f n.fpos _ (by omega)

/-- Witness for C30 (amended): the full internal node `2, 4, 6` for minimum degree 2 and
four-byte records, written into a file of 400 zero bytes: 37 bytes, the node
size. -/
theorem image_fits_page_witness :
    (exampleFull.objCount ≤ 2 * 2 - 1 ∧ ∀ o ∈ exampleFull.objects, o.length = 4) ∧
    exampleFull.image.1.length = sizeofSizeT + (2 * 2 - 1) * 4 + 2 * 2 * sizeofLong + 1 ∧
    (exampleFull.write (List.replicate 400 0)).1.drop
        (exampleFull.fpos + (sizeofSizeT + (2 * 2 - 1) * 4 + 2 * 2 * sizeofLong + 1))
      = (List.replicate 400 0).drop
        (exampleFull.fpos + (sizeofSizeT + (2 * 2 - 1) * 4 + 2 * 2 * sizeofLong + 1)) :=
  have h := image_fits_page 2 4 exampleFull (List.replicate 400 0) (by decide) (by decide)
  ⟨⟨by decide, by decide⟩, (h.2.2.1 (by decide) rfl (by decide) (by decide)).1, h.2.2.2.1⟩

/-- C30, counterexample: in a database with record size 0 and minimum degree 2 the node size
is 25, and for a full internal node, three records of no bytes, `write` emits
the leaf flag and `objCount` only, 9 bytes, and returns false, because the
`fwrite` of a record of size 0 returns 0. -/
theorem image_short_without_bytes :
    exampleNoBytes.isLeaf = false ∧ exampleNoBytes.objCount = 2 * 2 - 1 ∧
    (∀ o ∈ exampleNoBytes.objects, o.length = 0) ∧
    exampleNoBytes.image = ([0, 3, 0, 0, 0, 0, 0, 0, 0], false) ∧
    sizeofSizeT + (2 * 2 - 1) * 0 + 2 * 2 * sizeofLong + 1 = 25 := by
  decide

open TreeNode

/-! ## Abort of a traversal -/

/-- The loop of `_traverse` over a list of records in two parts. -/
theorem traverseLoop_append {σ : Type} (down : TreeNode → σ → σ)
    (cbfn : Option (traverseCallback σ)) (node : TreeNode) (d : Nat) :
    ∀ (l1 l2 : List DbObj) (ctr : Nat) (s : σ),
      traverseLoop down cbfn node d (l1 ++ l2) ctr s =
        if (traverseLoop down cbfn node d l1 ctr s).2 then
          traverseLoop down cbfn node d l2 (ctr + l1.length)
            (traverseLoop down cbfn node d l1 ctr s).1
        else traverseLoop down cbfn node d l1 ctr s := by
  intro l1
  induction l1 with
  | nil => intro l2 ctr s; simp [traverseLoop]
  | cons o l1 ih =>
    intro l2 ctr s
    show traverseLoop down cbfn node d (o :: (l1 ++ l2)) ctr s = _
    rw [traverseLoop, traverseLoop]
    simp only [List.length_cons]
    generalize callBack cbfn o (if node.isLeaf = true then s
      else down (node.children.getD ctr default) s) d = r
    by_cases hr : r.2 = true
    · simp only [hr, if_true]
      rw [ih, show ctr + 1 + l1.length = ctr + (l1.length + 1) by omega]
    · simp [hr]

/-- The loop of `_traverse` on a node whose callback returns false at slot `i`. -/
theorem traverseLoop_abort {σ : Type} (cb : traverseCallback σ) (fuel : Nat) (node : TreeNode)
    (d i : Nat) (s : σ) (hi : i < node.objCount)
    (hreach : (loopBefore cb fuel node d i s).2 = true)
    (hstop : (callAt cb fuel node d i s).2 = false) :
    traverseLoop (fun c r => _traverse (some cb) fuel c r (d + 1)) (some cb) node d
      node.objects 0 s = ((callAt cb fuel node d i s).1, false) := by
  have hsplit := take_getD_drop_obj node.objects i hi
  have hlen : (node.objects.take i).length = i := by
    rw [List.length_take]; exact min_eq_left (le_of_lt hi)
  conv_lhs => rw [hsplit]
  rw [traverseLoop_append]
  simp only [loopBefore] at hreach
  simp only [callAt, loopBefore] at hstop
  rw [if_pos hreach, hlen, Nat.zero_add]
  simp only [traverseLoop, callBack, callAt, loopBefore]
  rw [if_neg (by rw [hstop]; simp)]

/-- C25: the abort of a traversal is local to one node.  The traversal of `node`, a child
of the internal node `parent` at slot `j`, arrives at its slot `i` and there
the callback returns false.  Then the call of `_traverse` on `node` ends with
this call of the callback: its result is the reference object that call left,
so no callback is made on `objects[i+1..]` of `node` and none of its
`children[i+1..objCount]` is entered.  The loop of the parent does not see the
abort: it passes that reference object to the callback on its own record `j`
and goes on as this callback says. -/
theorem traverse_abort_is_local {σ : Type} (cb : traverseCallback σ) (fuel : Nat)
    (parent : TreeNode) (j d i : Nat) (s : σ) (hpl : parent.isLeaf = false)
    (hj : j < parent.objCount) (hi : i < (parent.children.getD j default).objCount)
    (hreach : (loopBefore cb fuel (parent.children.getD j default) (d + 1) i s).2 = true)
    (hstop : (callAt cb fuel (parent.children.getD j default) (d + 1) i s).2 = false) :
    _traverse (some cb) (fuel + 1) (parent.children.getD j default) s (d + 1)
      = (callAt cb fuel (parent.children.getD j default) (d + 1) i s).1 ∧
    traverseLoop (fun c r => _traverse (some cb) (fuel + 1) c r (d + 1)) (some cb) parent d
        (parent.objects.drop j) j s =
      if (cb (parent.objects.getD j [])
          (callAt cb fuel (parent.children.getD j default) (d + 1) i s).1 d).2 then
        traverseLoop (fun c r => _traverse (some cb) (fuel + 1) c r (d + 1)) (some cb) parent d
          (parent.objects.drop (j + 1)) (j + 1)
          (cb (parent.objects.getD j [])
            (callAt cb fuel (parent.children.getD j default) (d + 1) i s).1 d).1
      else ((cb (parent.objects.getD j [])
        (callAt cb fuel (parent.children.getD j default) (d + 1) i s).1 d).1, false) := by
  have ha : _traverse (some cb) (fuel + 1) (parent.children.getD j default) s (d + 1)
      = (callAt cb fuel (parent.children.getD j default) (d + 1) i s).1 := by
    simp only [_traverse]
    rw [traverseLoop_abort cb fuel _ (d + 1) i s hi hreach hstop]
    simp
  refine ⟨ha, ?_⟩
  rw [List.drop_eq_getElem_cons hj, ← List.getD_eq_getElem _ [] hj]
  simp only [traverseLoop, callBack, hpl, Bool.false_eq_true, if_false]
  rw [ha]

/-- Witness for C25: the root `2` over the leaves `1` and `3, 4, 5`, with the callback that
logs every call and returns false on the record `1`.  The traversal of the
first leaf makes one call, and the loop of the root goes on with the call on
its own record `2`. -/
theorem traverse_abort_is_local_witness :
    (exampleSplit.isLeaf = false ∧ 0 < exampleSplit.objCount ∧
      0 < (exampleSplit.children.getD 0 default).objCount ∧
      (loopBefore (logUntil (fun o => decide (o ≠ rec4 1))) 1
        (exampleSplit.children.getD 0 default) (0 + 1) 0 []).2 = true ∧
      (callAt (logUntil (fun o => decide (o ≠ rec4 1))) 1
        (exampleSplit.children.getD 0 default) (0 + 1) 0 []).2 = false) ∧
    _traverse (some (logUntil (fun o => decide (o ≠ rec4 1)))) (1 + 1)
        (exampleSplit.children.getD 0 default) [] (0 + 1) = [(rec4 1, 1)] ∧
    traverseLoop (fun c r => _traverse (some (logUntil (fun o => decide (o ≠ rec4 1))))
        (1 + 1) c r (0 + 1)) (some (logUntil (fun o => decide (o ≠ rec4 1)))) exampleSplit 0
        (exampleSplit.objects.drop 0) 0 [] = ([(rec4 1, 1), (rec4 2, 0)], true) :=
  have h := traverse_abort_is_local (logUntil (fun o => decide (o ≠ rec4 1))) 1 exampleSplit
    0 0 0 [] rfl (by decide) (by decide) (by decide) (by decide)
  ⟨⟨rfl, by decide, by decide, by decide, by decide⟩, h.1.trans (by decide),
    h.2.trans (by decide)⟩

theorem height_child {n c : TreeNode} (hc : c ∈ n.children) : c.height < n.height := by
  cases n with
  | mk a l f os cs p =>
    simp only [children_mk] at hc
    simp only [height]
    have : ∀ ds : List TreeNode, c ∈ ds → c.height ≤ heightList ds := by
      intro ds
      induction ds with
      | nil => intro h; cases h
      | cons x ds ih =>
        intro h
        simp only [heightList]
        rcases List.mem_cons.1 h with rfl | h
        · exact le_max_left _ _
        · exact le_trans (ih h) (le_max_right _ _)
    have := this cs hc
    omega

theorem abortVisits_eq (keep : DbObj → Bool) (n : TreeNode) (d : Nat) :
    abortVisits keep n d = abortVisitsKids keep n.isLeaf n.children n.objects d := by
  cases n; simp [abortVisits]

theorem logUntil_apply (keep : DbObj → Bool) (o : DbObj) (r : List (DbObj × Nat)) (d : Nat) :
    logUntil keep o r d = (r ++ [(o, d)], keep o) := rfl

theorem abortVisitsKids_nil (keep : DbObj → Bool) (l : Bool) (os : List DbObj) (d : Nat) :
    abortVisitsKids keep l [] os d = callsUntil keep os d := by
  simp [abortVisitsKids]

/-- The loop of `_traverse` and the step behind it, with the callback `logUntil keep`. -/
theorem traverseLoop_log (keep : DbObj → Bool) (down : TreeNode → List (DbObj × Nat) →
    List (DbObj × Nat)) (node : TreeNode) (d : Nat)
    (hdown : ∀ c ∈ node.children, ∀ r, down c r = r ++ abortVisits keep c (d + 1))
    (hdef : ∀ r, down default r = r) :
    ∀ (objs : List DbObj) (ctr : Nat) (s : List (DbObj × Nat)),
      (if (traverseLoop down (some (logUntil keep)) node d objs ctr s).2 = true ∧
          node.isLeaf = false then
        down (node.children.getD (ctr + objs.length) default)
          (traverseLoop down (some (logUntil keep)) node d objs ctr s).1
       else (traverseLoop down (some (logUntil keep)) node d objs ctr s).1)
      = s ++ abortVisitsKids keep node.isLeaf (node.children.drop ctr) objs d := by
  have hget : ∀ ctr, (node.children.drop ctr = [] ∧ node.children.getD ctr default = default) ∨
      (∃ c cs, node.children.drop ctr = c :: cs ∧ node.children.getD ctr default = c ∧
        c ∈ node.children ∧ node.children.drop (ctr + 1) = cs) := by
    intro ctr
    by_cases h : ctr < node.children.length
    · right
      refine ⟨_, _, List.drop_eq_getElem_cons h, List.getD_eq_getElem _ _ h,
        List.getElem_mem h, rfl⟩
    · left
      exact ⟨List.drop_eq_nil_of_le (by omega), List.getD_eq_default _ _ (by omega)⟩
  intro objs
  induction objs with
  | nil =>
    intro ctr s
    simp only [traverseLoop, List.length_nil, Nat.add_zero, true_and]
    rcases hget ctr with ⟨h1, h2⟩ | ⟨c, cs, h1, h2, h3, _⟩
    · rw [h1, h2, hdef]
      simp [abortVisitsKids, callsUntil]
    · rw [h1, h2, hdown c h3]
      cases hl : node.isLeaf <;> simp [abortVisitsKids]
  | cons o os ih =>
    intro ctr s
    have hstep := ih (ctr + 1)
    simp only [traverseLoop, callBack, logUntil_apply, List.length_cons]
    rw [show ctr + (os.length + 1) = ctr + 1 + os.length by omega]
    rcases hget ctr with ⟨h1, h2⟩ | ⟨c, cs, h1, h2, h3, h4⟩
    · have h5 : node.children.drop (ctr + 1) = [] :=
        List.drop_eq_nil_of_le (by
          have := List.drop_eq_nil_iff.1 h1
          omega)
      rw [h1, h2, hdef]
      rw [h5] at hstep
      simp only [ite_self]
      by_cases hk : keep o = true
      · simp only [hk, if_true]
        rw [hstep]
        simp [abortVisitsKids, callsUntil, hk]
      · simp [abortVisitsKids, callsUntil, hk]
    · rw [h1, h2, hdown c h3]
      rw [h4] at hstep
      by_cases hk : keep o = true
      · simp only [hk, if_true]
        rw [hstep]
        cases hl : node.isLeaf <;> simp [abortVisitsKids, hk]
      · cases hl : node.isLeaf <;> simp [abortVisitsKids, hk]

/-- With the callback `logUntil keep`, `_traverse` makes the calls of `abortVisits`. -/
theorem traverse_log (keep : DbObj → Bool) : ∀ (fuel : Nat) (node : TreeNode)
    (s : List (DbObj × Nat)) (d : Nat), node.height ≤ fuel →
    _traverse (some (logUntil keep)) fuel node s d = s ++ abortVisits keep node d := by
  intro fuel
  induction fuel with
  | zero =>
    intro node s d h
    cases node with
    | mk a l f os cs p => simp [height] at h
  | succ fuel ih =>
    intro node s d h
    simp only [_traverse]
    have := traverseLoop_log keep (fun c r => _traverse (some (logUntil keep)) fuel c r (d + 1))
      node d (fun c hc r => ih c r (d + 1) (by have := height_child hc; omega))
      (fun r => by
        cases fuel with
        | zero => rfl
        | succ k => simp [_traverse, traverseLoop, default, TreeNode.new])
      node.objects 0 s
    simp only [Nat.zero_add, List.drop_zero] at this
    rw [abortVisits_eq]
    exact this

theorem callsUntil_getLast (keep : DbObj → Bool) (d : Nat) :
    ∀ (os : List DbObj) (i : Nat), i < os.length →
      keep (os.getD i []) = false → (∀ j, j < i → keep (os.getD j []) = true) →
      (callsUntil keep os d).getLast? = some (os.getD i [], d) := by
  intro os
  induction os with
  | nil => intro i hi; simp at hi
  | cons o os ih =>
    intro i hi hstop hbefore
    cases i with
    | zero =>
      simp only [List.getD_cons_zero] at hstop
      simp [callsUntil, hstop]
    | succ i =>
      have hk : keep o = true := by simpa using hbefore 0 (by omega)
      simp only [List.getD_cons_succ] at hstop ⊢
      have hrec := ih i (by simpa using hi) hstop (fun j hj => by
          simpa using hbefore (j + 1) (by omega))
      simp only [callsUntil, hk, if_true]
      rw [List.getLast?_cons, hrec]
      rfl

/-- The last call that `abortVisitsKids` lists is the one on the first record on which `keep`
is false. -/
theorem abortVisitsKids_getLast (keep : DbObj → Bool) (l : Bool) (d : Nat) :
    ∀ (os : List DbObj) (cs : List TreeNode) (i : Nat), i < os.length →
      keep (os.getD i []) = false → (∀ j, j < i → keep (os.getD j []) = true) →
      (abortVisitsKids keep l cs os d).getLast? = some (os.getD i [], d) := by
  intro os
  induction os with
  | nil => intro cs i hi; simp at hi
  | cons o os ih =>
    intro cs i hi hstop hbefore
    cases cs with
    | nil =>
      rw [abortVisitsKids_nil]
      exact callsUntil_getLast keep d (o :: os) i hi hstop hbefore
    | cons c cs =>
      cases i with
      | zero =>
        simp only [List.getD_cons_zero] at hstop
        simp [abortVisitsKids, hstop]
      | succ i =>
        have hk : keep o = true := by simpa using hbefore 0 (by omega)
        simp only [List.getD_cons_succ] at hstop ⊢
        have hrec := ih cs i (by simpa using hi) hstop (fun j hj => by
            simpa using hbefore (j + 1) (by omega))
        simp only [abortVisitsKids, hk, if_true]
        rw [List.getLast?_append, List.getLast?_cons, hrec]
        rfl

/-- C26 (amended): when the callback returns false on a record of a node, `_traverse` makes
no further callback in the loop of that node and does not perform the
recursion behind the loop into `children[objCount]`.  With the callback that
logs its calls and returns `keep` of the record, the traversal of a node
appends to the log the calls of `abortVisits`, in which nothing of a node
follows a record that fails `keep`; so if `objects[i]` is the first record of
the node that fails `keep`, the last call of the traversal of the node is the
one on `objects[i]` at the depth of the node. -/
theorem traverse_abort_skips_last_child (keep : DbObj → Bool) (fuel : Nat) (node : TreeNode)
    (s : List (DbObj × Nat)) (d i : Nat) (hf : node.height ≤ fuel) (hi : i < node.objCount)
    (hstop : keep (node.objects.getD i []) = false)
    (hbefore : ∀ j, j < i → keep (node.objects.getD j []) = true) :
    _traverse (some (logUntil keep)) fuel node s d = s ++ abortVisits keep node d ∧
    (abortVisits keep node d).getLast? = some (node.objects.getD i [], d) ∧
    (_traverse (some (logUntil keep)) fuel node s d).getLast?
      = some (node.objects.getD i [], d) := by
  have h1 := traverse_log keep fuel node s d hf
  have h2 : (abortVisits keep node d).getLast? = some (node.objects.getD i [], d) := by
    rw [abortVisits_eq]
    exact abortVisitsKids_getLast keep node.isLeaf d node.objects node.children i hi hstop hbefore
  refine ⟨h1, h2, ?_⟩
  rw [h1, List.getLast?_append, h2]
  rfl

/-- Witness for C26 (amended): the root `2` over the leaves `1` and `3, 4, 5`, with the
callback that returns false on the record `2`. -/
theorem traverse_abort_skips_last_child_witness :
    (exampleSplit.height ≤ 2 ∧ 0 < exampleSplit.objCount ∧
      decide (exampleSplit.objects.getD 0 [] ≠ rec4 2) = false) ∧
    _traverse (some (logUntil (fun o => decide (o ≠ rec4 2)))) 2 exampleSplit [] 0
      = [(rec4 1, 1), (rec4 2, 0)] ∧
    (_traverse (some (logUntil (fun o => decide (o ≠ rec4 2)))) 2 exampleSplit [] 0).getLast?
      = some (exampleSplit.objects.getD 0 [], 0) :=
  have h := traverse_abort_skips_last_child (fun o => decide (o ≠ rec4 2)) 2 exampleSplit [] 0 0
    (by decide) (by decide) (by decide) (fun j hj => absurd hj (Nat.not_lt_zero j))
  ⟨⟨by decide, by decide, by decide⟩, h.1.trans (by decide), h.2.2⟩

/-- C26, counterexample: on the root `2` over the leaves `1` and `3, 4, 5` the callback, which
logs every call, returns false on the record `2` of the root.  The last child
of the root holds three records, but the log ends with the call on `2`: the
recursion behind the loop into `children[objCount]` does not take place. -/
theorem traverse_stops_before_last_child :
    exampleSplit.isLeaf = false ∧
    (exampleSplit.children.getD exampleSplit.objCount default).objects
      = [rec4 3, rec4 4, rec4 5] ∧
    BTreeDB.traverse (scenario [Op.put (rec4 1), Op.put (rec4 2), Op.put (rec4 3),
        Op.put (rec4 4), Op.put (rec4 5)]) [] (some (logUntil (fun o => decide (o ≠ rec4 2))))
      = [(rec4 1, 1), (rec4 2, 0)] ∧
    (scenario [Op.put (rec4 1), Op.put (rec4 2), Op.put (rec4 3), Op.put (rec4 4),
        Op.put (rec4 5)])._root = exampleSplit := by
  refine ⟨rfl, by decide, by decide, rfl⟩

open TreeNode

/-- C23: a database of four-byte records with minimum degree 2 receives the records `1` to
`4` (root `2` over the leaves `1` and `3, 4`) and is closed; the file is opened
again and traversed, which loads both children of the root.  Then `flush()`
returns true and leaves the root loaded with its record, but both children of
the internal root are still loaded and still hold their records: the loop of
`flush()` that unloads runs only while `_root->isLeaf` holds. -/
theorem flush_keeps_children_loaded :
    ((dbOpen (some ((Store.create 4 4 2 none).run
        [Op.put (rec4 1), Op.put (rec4 2), Op.put (rec4 3), Op.put (rec4 4)]).close)
        4 4 2 none).reopened?.map
      (fun r => ((r.traverseState () none).1._root.isLeaf,
        (r.traverseState () none).1._root.children.map LNode.loaded)))
      = some (false, [true, true]) ∧
    ((dbOpen (some ((Store.create 4 4 2 none).run
        [Op.put (rec4 1), Op.put (rec4 2), Op.put (rec4 3), Op.put (rec4 4)]).close)
        4 4 2 none).reopened?.map
      (fun r => ((r.traverseState () none).1.flush.2,
        (r.traverseState () none).1.flush.1._root.loaded,
        (r.traverseState () none).1.flush.1._root.objects)))
      = some (true, true, [rec4 2]) ∧
    ((dbOpen (some ((Store.create 4 4 2 none).run
        [Op.put (rec4 1), Op.put (rec4 2), Op.put (rec4 3), Op.put (rec4 4)]).close)
        4 4 2 none).reopened?.map
      (fun r => ((r.traverseState () none).1.flush.1._root.children.map LNode.loaded,
        (r.traverseState () none).1.flush.1._root.children.map LNode.objects)))
      = some ([true, true], [[rec4 1], [rec4 3, rec4 4]]) := by
  refine ⟨?_, ?_, ?_⟩ <;> decide

/-- C27: the child-index invariant does not survive `del`.  After `put 1, 2, 3, 4, 5, 6, 0` and
`del 3` (case 3a, left sibling) the leaf at `children[1]` of the root has
`childNo` 2.  After `put 1, ..., 10` and `del 1` (case 3a, right sibling, at
the level below the root) the node at `children[0]` of the root, whose page is
at 69, has at `children[1]` a leaf whose `parent` is the page at 254, the
sibling it came from, and the leaves that stayed in that sibling have the
`childNo` 1 and 2 at the indices 0 and 1. -/
theorem child_links_stale_after_del :
    ((scenario [Op.put (rec4 1), Op.put (rec4 2), Op.put (rec4 3), Op.put (rec4 4),
        Op.put (rec4 5), Op.put (rec4 6), Op.put (rec4 0), Op.del (rec4 3)])._root.children.map
      TreeNode.childNo) = [0, 2, 2] ∧
    ((scenario [Op.put (rec4 1), Op.put (rec4 2), Op.put (rec4 3), Op.put (rec4 4),
        Op.put (rec4 5), Op.put (rec4 6), Op.put (rec4 7), Op.put (rec4 8), Op.put (rec4 9),
        Op.put (rec4 10), Op.del (rec4 1)])._root.children.map
      (fun c => (c.fpos, c.children.map (fun g => (g.childNo, g.parent)))))
      = [(69, [(0, some 69), (1, some 254)]), (254, [(1, some 254), (2, some 254)])] := by
  decide

open TreeNode

/-! ## The root position in the header -/

/-- A file whose header is whole, with the bytes of its sizes. -/
theorem kept_zeros : File.Kept (((List.replicate 32 0).drop sizeofSizeT).take
    (sizeofHeader - sizeofSizeT)) (List.replicate 32 0) := ⟨by decide, rfl⟩

theorem rootAt_iff (a : Nat) (f : File) :
    f.RootAt a ↔ 32 ≤ f.length ∧ f.take 4 = leBytes 4 a := Iff.rfl

/-- The root position in the header survives the writes behind the header. -/
theorem rootAt_stable (a : Nat) : File.Stable (File.RootAt a) := by
  constructor
  · intro f pos bs hpos hf
    have hpos : 32 ≤ pos := hpos
    rw [rootAt_iff] at hf ⊢
    obtain ⟨hlen, hh⟩ := hf
    refine ⟨by simp [File.pwrite]; omega, ?_⟩
    rw [← hh]
    simp only [File.pwrite, List.append_assoc]
    rw [List.take_append_of_le_length (by simp; omega), List.take_take]
    congr 1
    omega
  · intro f len hlen hf
    have hlen : 32 ≤ len := hlen
    rw [rootAt_iff] at hf ⊢
    obtain ⟨hl, hh⟩ := hf
    simp only [File.chsize]
    refine ⟨by simp; omega, ?_⟩
    rw [← hh, List.take_append_of_le_length (by simp; omega), List.take_take]
    congr 1
    omega

/-- The write of the root position to the start of the file. -/
theorem rootAt_set {a : Nat} {f : File} (b : Nat) (hf : f.RootAt a) :
    (f.pwrite 0 (leBytes sizeofLong b)).RootAt b := by
  rw [rootAt_iff] at hf ⊢
  have e : f.pwrite 0 (leBytes sizeofLong b) = leBytes 4 b ++ f.drop 4 := by
    simp [File.pwrite, sizeofLong]
  rw [e]
  refine ⟨by simp; omega, ?_⟩
  rw [List.take_append_of_le_length (by simp), List.take_of_length_le (by simp)]

theorem stable_write {P : File → Prop} (hP : File.Stable P) {f : File} (n : TreeNode)
    (hn : 32 ≤ n.fpos) (hf : P f) : P (n.write f).1 :=
  hP.pwrite _ _ _ hn hf

theorem split_stable {P : File → Prop} (hP : File.Stable P) {t ns fl : Nat} {p : TreeNode}
    {i : Nat} {f : File} (hp : p.Above) (hi : i < p.children.length) (hfl : 32 ≤ fl)
    (hf : P f) : P (_splitFile t ns fl p i (p.children.getD i default) f) := by
  have hA := (@split_kept t ns fl p i _ _ hp hi hfl kept_zeros).1
  simp only [_splitFile]
  have hlen : i + 1 < (_split t ns fl p i (p.children.getD i default)).1.children.length := by
    rw [split_children]
    simp
    omega
  exact stable_write hP _ ((above_iff _).1 hA).1 (stable_write hP _
    ((above_iff _).1 (hA.child hlen)).1 (stable_write hP _
      ((above_iff _).1 (hA.child (by omega))).1 (hP.chsize _ _ (show 32 ≤ fl + ns by omega) hf)))

theorem insertNonFull_stable {P : File → Prop} (hP : File.Stable P) (cfn : compareFn) {t : Nat}
    (ns : Nat) (key : DbObj) (ht : 1 ≤ t) :
    ∀ (fuel fl : Nat) (node : TreeNode) (h : Nat) (f : File), Shaped t node h →
      node.objCount < 2 * t - 1 → h < fuel → node.Above → 32 ≤ fl → P f →
      P (_insertNonFullFile cfn t ns fuel fl node key f) := by
  intro fuel
  induction fuel with
  | zero => intro fl node h f _ _ hf; omega
  | succ fuel ih =>
    intro fl node h f hn hnf hf ha hfl hk
    have hn0 := hn
    rw [shaped_iff] at hn
    have hsp := scanPos_le cfn key node.objects node.objCount
    simp only [_insertNonFullFile]
    by_cases hl : node.isLeaf = true
    · simp only [hl, if_true]
      refine stable_write hP _ ?_ hk
      simpa using ((above_iff node).1 ha).1
    · simp only [hl] at hn ⊢
      simp only [Bool.false_eq_true, if_false] at hn ⊢
      have hl0 : node.isLeaf = false := by simpa using hl
      obtain ⟨_, hlen, hh, hkids⟩ := hn
      have hi : scanPos cfn key node.objects node.objCount < node.children.length := by omega
      by_cases hfull : (node.children.getD (scanPos cfn key node.objects node.objCount)
          default).objCount = t * 2 - 1
      · simp only [hfull, if_true]
        obtain ⟨hs1, hs2, hs3, hs4⟩ := @split_shaped _ ns fl _ _ _ ht hn0 hl0 hnf hi
          (by omega)
        have ka := (@split_kept t ns fl _ _ _ _ ha hi hfl kept_zeros).1
        have kf := @split_stable P hP t ns fl _ _ f ha hi hfl hk
        have hfl2 := split_fileLen t ns fl node (scanPos cfn key node.objects node.objCount)
          (node.children.getD (scanPos cfn key node.objects node.objCount) default)
        generalize _splitFile t ns fl node (scanPos cfn key node.objects node.objCount)
          (node.children.getD (scanPos cfn key node.objects node.objCount) default) f = F at *
        generalize hS : _split t ns fl node (scanPos cfn key node.objects node.objCount)
          (node.children.getD (scanPos cfn key node.objects node.objCount) default) = S at *
        have hsl : S.1.isLeaf = false := by rw [← hS]; simpa using hl0
        have hs1' := hs1
        rw [shaped_iff] at hs1'
        simp only [hsl, Bool.false_eq_true, if_false] at hs1'
        generalize hc1 : (if cfn key (S.1.objects.getD (scanPos cfn key node.objects
          node.objCount) []) > 0 then scanPos cfn key node.objects node.objCount + 1
          else scanPos cfn key node.objects node.objCount) = ctr1
        have hctr1 : ctr1 = scanPos cfn key node.objects node.objCount ∨
            ctr1 = scanPos cfn key node.objects node.objCount + 1 := by
          rw [← hc1]; split <;> simp
        have hcnt : (S.1.children.getD ctr1 default).objCount = t - 1 := by
          rcases hctr1 with h1 | h1 <;> rw [h1] <;> assumption
        have hlt : ctr1 < S.1.children.length := by
          rcases hctr1 with h1 | h1 <;> omega
        have hcs := hs1'.2.2.2 _ (getD_mem hlt)
        exact ih S.2 (S.1.children.getD ctr1 default) (h - 1) F hcs.2
          (by omega) (by omega) (ka.child hlt) (by omega) kf
      · simp only [hfull, if_false]
        have hcs := hkids _ (getD_mem hi)
        have hcs2 := hcs.2
        rw [shaped_iff] at hcs2
        exact ih fl (node.children.getD (scanPos cfn key node.objects
          node.objCount) default) (h - 1) f hcs.2 (by omega) (by omega) (ha.child hi) hfl hk

/-- The node that `_insertNonFull` returns is the node it was called on, at its page. -/
theorem insertNonFull_fpos (cfn : compareFn) (t ns : Nat) (key : DbObj) :
    ∀ (fuel fl : Nat) (node : TreeNode), (_insertNonFull cfn t ns fuel fl node key).1.fpos
      = node.fpos := by
  intro fuel fl node
  cases fuel with
  | zero => rfl
  | succ fuel =>
    simp only [_insertNonFull]
    split
    · simp
    · split <;> simp

/-- The root that `_insert` returns: the new node at the end of the file when the root was
full, and the old root otherwise. -/
theorem insert_fpos (cfn : compareFn) (t ns fl : Nat) (root : TreeNode) (key : DbObj) :
    (_insert cfn t ns fl root key).1.fpos =
      if root.objCount = t * 2 - 1 then fl else root.fpos := by
  simp only [_insert]
  split
  · rw [insertNonFull_fpos]
    simp [_allocateNode]
  · rw [insertNonFull_fpos]

/-- After `_insert` the root position in the header is the page of the new root. -/
theorem insert_rootAt (cfn : compareFn) {t : Nat} (ns fl : Nat) (key : DbObj) (ht2 : 2 ≤ t)
    {root : TreeNode} {h : Nat} {f : File} (hr : Shaped t root h)
    (ha : root.Above) (hfl : 32 ≤ fl) (hk : f.RootAt root.fpos) :
    (_insertFile cfn t ns fl root key f).RootAt (_insert cfn t ns fl root key).1.fpos := by
  have ht : 1 ≤ t := by omega
  have hh := hr.height_eq
  rw [insert_fpos]
  simp only [_insertFile]
  by_cases hfull : root.objCount = t * 2 - 1
  · simp only [hfull, if_true]
    have hnew : Shaped t (((_allocateNode ns fl).1.setIsLeaf false).setChildren
        [(root.setChildNo 0).setParent (some (_allocateNode ns fl).1.fpos)]) (h + 1) := by
      rw [shaped_iff]
      simp [_allocateNode, hr]
      omega
    have hnewA : (((_allocateNode ns fl).1.setIsLeaf false).setChildren
        [(root.setChildNo 0).setParent (some (_allocateNode ns fl).1.fpos)]).Above := by
      rw [above_setChildren]
      simp [_allocateNode, setIsLeaf, ha, hfl]
    have hsp := @split_shaped _ ns ((_allocateNode ns fl).2) _ 0 _ ht hnew
      (by simp) (by simp [_allocateNode]; omega) (by simp) (by simp; omega)
    have hal : (_allocateNode ns fl).2 = fl + ns := rfl
    have ka := (@split_kept t ns ((_allocateNode ns fl).2) _ 0 _ _ hnewA (by simp) (by omega)
      kept_zeros).1
    have kf := @split_stable _ (rootAt_stable root.fpos) t ns ((_allocateNode ns fl).2) _ 0
      (f.chsize (fl + ns)) hnewA (by simp) (by omega)
      ((rootAt_stable root.fpos).chsize _ _ (show 32 ≤ fl + ns by omega) hk)
    have hfl2 := split_fileLen t ns (_allocateNode ns fl).2
      (((_allocateNode ns fl).1.setIsLeaf false).setChildren
        [(root.setChildNo 0).setParent (some (_allocateNode ns fl).1.fpos)]) 0
      ((root.setChildNo 0).setParent (some (_allocateNode ns fl).1.fpos))
    simp only [children_setChildren, List.getD_cons_zero] at hsp ka kf
    generalize _splitFile t ns (_allocateNode ns fl).2
      (((_allocateNode ns fl).1.setIsLeaf false).setChildren
        [(root.setChildNo 0).setParent (some (_allocateNode ns fl).1.fpos)]) 0
      ((root.setChildNo 0).setParent (some (_allocateNode ns fl).1.fpos))
      (f.chsize (fl + ns)) = F at *
    generalize _split t ns (_allocateNode ns fl).2
      (((_allocateNode ns fl).1.setIsLeaf false).setChildren
        [(root.setChildNo 0).setParent (some (_allocateNode ns fl).1.fpos)]) 0
      ((root.setChildNo 0).setParent (some (_allocateNode ns fl).1.fpos)) = S at *
    have i3 := insertNonFull_stable (rootAt_stable root.fpos) cfn ns key ht (root.height + 1)
      S.2 S.1 (h + 1) F hsp.1 (by
        rw [hsp.2.1]
        simp [_allocateNode, objCount]
        omega) (by omega) ka (by omega) kf
    exact rootAt_set _ i3
  · simp only [hfull, if_false]
    have hr' := hr
    rw [shaped_iff] at hr'
    exact insertNonFull_stable (rootAt_stable root.fpos) cfn ns key ht root.height fl root h f hr
      (by omega) (by omega) ha hfl hk

/-- After `put` the root position in the header is the page of the root. -/
theorem put_rootAt (s : Store) (rec : DbObj) (ht : 2 ≤ s.db._minDegree)
    (hsh : s.db._root.ShapeInv s.db._minDegree) (ha : s.db._root.Above)
    (hfl : 32 ≤ s.db.fileLen) (hk : s.file.RootAt s.db._root.fpos) :
    (s.put rec).1.file.RootAt (s.put rec).1.db._root.fpos := by
  obtain ⟨h, hs⟩ := hsh
  have hins := @insert_rootAt s.db._compFunc _ s.db._nodeSize s.db.fileLen rec ht _ _ _ hs ha
    hfl hk
  simp only [Store.put, BTreeDB.put]
  split
  · exact hk
  · split
    · exact hins
    · rename_i a hloc
      split
      · exact hins
      · have hmem : a ∈ s.db._root.fposs :=
          search_mem _ _ _ _ _ a (_search s.db._compFunc s.db._root.height s.db._root rec none).2
            (by rw [← hloc])
        have hA : (s.db._root.storeObject a
            (_search s.db._compFunc s.db._root.height s.db._root rec none).2 rec).Above := by
          unfold Above
          rw [storeObject_fposs]
          exact ha
        obtain ⟨x, hx⟩ := findNode_isSome (s.db._root.storeObject a
          (_search s.db._compFunc s.db._root.height s.db._root rec none).2 rec) a
          (by rw [storeObject_fposs]; exact hmem)
        simp only [hx, Option.getD_some, storeObject_fpos]
        have := findNode_some _ _ _ hx
        exact stable_write (rootAt_stable _) _ (hA _ (mem_fposs_of_mem_nodes this.1)) hk

/-- The node that `_delete` returns is the node it was called on, at its page. -/
theorem delete_fpos (cfn : compareFn) (t : Nat) (key : DbObj) :
    ∀ (fuel : Nat) (node : TreeNode), (_delete cfn t fuel node key).1.fpos = node.fpos := by
  intro fuel node
  cases fuel with
  | zero => rfl
  | succ fuel =>
    simp only [_delete]
    repeat' split
    all_goals simp [_merge, borrowLeft, borrowRight, delFromLeaf, *]

theorem merge_stable {P : File → Prop} (hP : File.Stable P) {t : Nat} {p : TreeNode} {i : Nat}
    {f : File} (hp : p.Above) (hi : i + 1 < p.children.length) (hf : P f) :
    P (_mergeFile t p i f) := by
  obtain ⟨hA, hB, _⟩ := @merge_kept t p i _ _ hp hi kept_zeros
  simp only [_mergeFile]
  exact stable_write hP _ ((above_iff _).1 hA).1 (stable_write hP _ ((above_iff _).1 hB).1 hf)

mutual
theorem flush_stable {P : File → Prop} (hP : File.Stable P) : ∀ (n : TreeNode) (f : File),
    n.Above → P f → P (_flush n f).1
  | TreeNode.mk c l fp os cs p, f, hn, hf => by
    have h1 := (above_mk c l fp os cs p).1 hn
    simp only [_flush]
    have hw := stable_write hP (TreeNode.mk c l fp os cs p) h1.1 hf
    split
    · exact flushKids_stable hP cs _ h1.2 hw
    · exact hw
theorem flushKids_stable {P : File → Prop} (hP : File.Stable P) : ∀ (cs : List TreeNode)
    (f : File), (∀ c ∈ cs, c.Above) → P f → P (_flushKids cs f).1
  | [], f, _, hf => by simpa [_flushKids] using hf
  | c :: cs, f, hcs, hf => by
    simp only [_flushKids]
    have h1 := flush_stable hP c f (hcs c (by simp)) hf
    split
    · exact flushKids_stable hP cs _ (fun x hx => hcs x (by simp [hx])) h1
    · exact h1
end

theorem delete_stable {P : File → Prop} (hP : File.Stable P) (cfn : compareFn) {t : Nat}
    (ht : 1 ≤ t) :
    ∀ (fuel : Nat) (node : TreeNode) (key : DbObj) (h : Nat) (f : File), Shaped t node h →
      h < fuel → node.Above → P f → P (_deleteFile cfn t fuel node key f) := by
  intro fuel
  induction fuel with
  | zero => intro node key h f _ hf; omega
  | succ fuel ih =>
    intro node key h f hn hf ha hk
    have hn0 := hn
    rw [shaped_iff] at hn
    have descend : ∀ (q : TreeNode) (k : Nat) (key1 : DbObj) (g : File), Shaped t q h →
        q.isLeaf = false → q.Above → P g → k < q.children.length →
        P (_deleteFile cfn t fuel (q.children.getD k default) key1 g) := by
      intro q k key1 g hq hql hqa hg hk
      have hq' := hq
      rw [shaped_iff] at hq'
      simp only [hql, Bool.false_eq_true, if_false] at hq'
      have hc := hq'.2.2.2 _ (getD_mem hk)
      exact ih (q.children.getD k default) key1 (h - 1) g hc.2 (by omega) (hqa.child hk) hg
    by_cases hmax : (node.findPos key cfn).1 = SIZE_MAX
    · rw [deleteFile_sentinel _ _ _ _ _ _ hmax]
      exact hk
    generalize hop : node.findPos key cfn = op at hmax
    obtain ⟨i, pos⟩ := op
    simp only at hmax
    have hmerge : ∀ (hl0 : node.isLeaf = false), i < node.objCount →
        (node.children.getD i default).objCount = t - 1 →
        (node.children.getD (i + 1) default).objCount = t - 1 →
        P (_deleteFile cfn t fuel (_merge t node i).2 key (_mergeFile t node i f)) := by
      intro hl0 hi h1 h2
      obtain ⟨m1, m2, m3, m4, m5, m6⟩ := merge_shaped ht hn0 hl0 hi h1 h2
      have hlen := (hn0.kids hl0).1
      obtain ⟨k1, k2, _⟩ := @merge_kept t node i _ _ ha (by omega) kept_zeros
      have k3 := @merge_stable P hP t node i f ha (by omega) hk
      exact ih (_merge t node i).2 key (h - 1) _ m5 (by
        simp only [hl0, Bool.false_eq_true, if_false] at hn
        omega) k2 k3
    cases pos with
    | ECP_NONE =>
      rw [deleteFile_none _ _ _ _ _ _ (by rw [hop])]
      exact hk
    | ECP_INTHIS =>
      have hi : i < node.objCount := by
        have := @findPos_inthis node key cfn (by rw [hop])
        simpa [hop] using this
      by_cases hl : node.isLeaf = true
      · rw [deleteFile_case1 _ _ _ _ _ _ _ hop hmax hl]
        exact hk
      · have hl0 : node.isLeaf = false := by simpa using hl
        simp only [hl0, Bool.false_eq_true, if_false] at hn
        obtain ⟨hcnt, hlen, hh, hkids⟩ := hn
        by_cases h2a : t ≤ (node.children.getD i default).objCount
        · rw [deleteFile_case2a _ _ _ _ _ _ _ hop hmax hl0 h2a]
          exact descend node i _ f hn0 hl0 ha hk (by omega)
        · by_cases h2b : t ≤ (node.children.getD (i + 1) default).objCount
          · rw [deleteFile_case2b _ _ _ _ _ _ _ hop hmax hl0 h2a h2b]
            exact descend node (i + 1) _ f hn0 hl0 ha hk (by omega)
          · rw [deleteFile_case2c _ _ _ _ _ _ _ hop hmax hl0 h2a h2b]
            have c1 := hkids _ (getD_mem (show i < node.children.length by omega))
            have c2 := hkids _ (getD_mem (show i + 1 < node.children.length by omega))
            exact hmerge hl0 hi (by omega) (by omega)
    | ECP_INLEFT =>
      obtain ⟨hl0, hi⟩ : node.isLeaf = false ∧ i < node.objCount := by
        have := @findPos_inleft node key cfn (by rw [hop])
        simpa [hop] using this
      simp only [hl0, Bool.false_eq_true, if_false] at hn
      obtain ⟨hcnt, hlen, hh, hkids⟩ := hn
      have hpos : EChildPos.ECP_INLEFT = EChildPos.ECP_INLEFT ∨
        EChildPos.ECP_INLEFT = EChildPos.ECP_INRIGHT := Or.inl rfl
      have hki : i = if EChildPos.ECP_INLEFT = EChildPos.ECP_INLEFT then i else i + 1 := by simp
      have c1 := hkids _ (getD_mem (show i < node.children.length by omega))
      by_cases hc : t ≤ (node.children.getD i default).objCount
      · rw [deleteFile_case3 _ _ _ _ _ _ _ _ hop hmax hpos i hki hc]
        exact descend node i key f hn0 hl0 ha hk (by omega)
      · by_cases hleft : 0 < i ∧ t ≤ (node.children.getD (i - 1) default).objCount
        · rw [deleteFile_case3a_left _ _ _ _ _ _ _ _ hop hmax hpos i hki hc hleft.1 hleft.2]
          obtain ⟨b1, b2, b3, b4, b5⟩ := borrowLeft_shaped ht hn0 hl0 hleft.1 (by omega)
            (by omega) hleft.2
          exact descend _ i key f b1 b3 (borrowLeft_above hn0 hl0 ha hleft.1 (by omega)) hk b4
        · by_cases hright : i < node.objCount ∧ t ≤ (node.children.getD (i + 1) default).objCount
          · rw [deleteFile_case3a_right _ _ _ _ _ _ _ _ hop hmax hpos i hki hc hleft hright.1
                hright.2]
            obtain ⟨b1, b2, b3, b4, b5⟩ := borrowRight_shaped i ht hn0 hl0 (by omega)
              (by omega) hright.2
            exact descend _ i key f b1 b3 (borrowRight_above i hn0 hl0 ha (by omega)) hk b4
          · rw [deleteFile_case3b _ _ _ _ _ _ _ _ hop hmax hpos i hki hc hleft hright]
            have c2 := hkids _ (getD_mem (show i + 1 < node.children.length by omega))
            exact hmerge hl0 hi (by omega) (by
              have : ¬ t ≤ (node.children.getD (i + 1) default).objCount := fun h =>
                hright ⟨hi, h⟩
              omega)
    | ECP_INRIGHT =>
      obtain ⟨hl0, hi⟩ : node.isLeaf = false ∧ i = decr node.objCount := by
        have := @findPos_inright node key cfn (by rw [hop])
        simpa [hop] using this
      obtain ⟨hpos0, hdec⟩ := decr_ne_max (by rw [← hi]; exact hmax)
      have hi' : i = node.objCount - 1 := by rw [hi, hdec]
      simp only [hl0, Bool.false_eq_true, if_false] at hn
      obtain ⟨hcnt, hlen, hh, hkids⟩ := hn
      have hpos : EChildPos.ECP_INRIGHT = EChildPos.ECP_INLEFT ∨
        EChildPos.ECP_INRIGHT = EChildPos.ECP_INRIGHT := Or.inr rfl
      have hki : i + 1 = if EChildPos.ECP_INRIGHT = EChildPos.ECP_INLEFT then i else i + 1 := by
        simp
      have c1 := hkids _ (getD_mem (show i + 1 < node.children.length by omega))
      by_cases hc : t ≤ (node.children.getD (i + 1) default).objCount
      · rw [deleteFile_case3 _ _ _ _ _ _ _ _ hop hmax hpos (i + 1) hki hc]
        exact descend node (i + 1) key f hn0 hl0 ha hk (by omega)
      · by_cases hleft : 0 < i + 1 ∧ t ≤ (node.children.getD (i + 1 - 1) default).objCount
        · rw [deleteFile_case3a_left _ _ _ _ _ _ _ _ hop hmax hpos (i + 1) hki hc hleft.1 hleft.2]
          obtain ⟨b1, b2, b3, b4, b5⟩ := borrowLeft_shaped ht hn0 hl0 hleft.1 (by omega)
            (by omega) hleft.2
          exact descend _ (i + 1) key f b1 b3
            (borrowLeft_above hn0 hl0 ha hleft.1 (by omega)) hk b4
        · have hright : ¬ (i + 1 < node.objCount ∧
              t ≤ (node.children.getD (i + 1 + 1) default).objCount) := fun h => by omega
          rw [deleteFile_case3b _ _ _ _ _ _ _ _ hop hmax hpos (i + 1) hki hc hleft hright]
          have c0 := hkids _ (getD_mem (show i < node.children.length by omega))
          exact hmerge hl0 (by omega) (by
              have : ¬ t ≤ (node.children.getD i default).objCount := fun h =>
                hleft ⟨by omega, by simpa using h⟩
              omega) (by omega)

/-- After `del` the root position in the header is the page of the root. -/
theorem del_rootAt (s : Store) (key : DbObj) (ht : 1 ≤ s.db._minDegree)
    (hsh : s.db._root.ShapeInv s.db._minDegree) (ha : s.db._root.Above)
    (hk : s.file.RootAt s.db._root.fpos) :
    (s.del key).1.file.RootAt (s.del key).1.db._root.fpos := by
  obtain ⟨h, hs⟩ := hsh
  have d1 := (delete_kept s.db._compFunc ht _ s.db._root.height s.db._root key h _ hs
    (by rw [hs.height_eq]; omega) ha kept_zeros).1
  have d2 := delete_stable (rootAt_stable s.db._root.fpos) s.db._compFunc ht s.db._root.height
    s.db._root key h s.file hs (by rw [hs.height_eq]; omega) ha hk
  have dsh := (delete_shaped s.db._compFunc ht s.db._root.height s.db._root key h hs
    (by rw [hs.height_eq]; omega)).1
  simp only [Store.del, BTreeDB.del]
  split
  · exact hk
  · split
    · rename_i hc
      have hlen := (dsh.kids hc.2.2).1
      have hA := d1.child (show 0 < _ by omega)
      exact flush_stable (rootAt_stable _) _ _ hA (rootAt_set _ d2)
    · simp only [delete_fpos]
      exact d2

/-- The root position in the header follows the root through every sequence of operations. -/
theorem run_rootAt (t : Nat) (ht : 2 ≤ t) : ∀ (ops : List Op) (s : Store),
    s.db._minDegree = t → s.db._root.ShapeInv t → s.db._root.Above → 32 ≤ s.db.fileLen →
    s.file.RootAt s.db._root.fpos → (s.run ops).file.RootAt (s.run ops).db._root.fpos := by
  intro ops
  induction ops with
  | nil => intro s _ _ _ _ hk; exact hk
  | cons op ops ih =>
    intro s hm hsh ha hfl hk
    simp only [Store.run, List.foldl_cons]
    cases op with
    | put rec =>
      have h1 := put_shapeInv s.db rec (by omega) (by rw [hm]; exact hsh)
      obtain ⟨k1, k2, _⟩ := put_kept { db := s.db, file := List.replicate 32 0 } rec _
        (by simp only; omega) (by rw [hm]; exact hsh) ha hfl kept_zeros
      rw [Store.put_db, ← Store.put_db s] at k1 k2
      have k3 := put_rootAt s rec (by omega) (by rw [hm]; exact hsh) ha hfl hk
      rw [← Store.put_db, hm] at h1
      exact ih (s.put rec).1 h1.2 h1.1 k1 k2 k3
    | del key =>
      have h1 := del_shapeInv s.db key (by omega) (by rw [hm]; exact hsh)
      obtain ⟨k1, k2, _⟩ := del_kept { db := s.db, file := List.replicate 32 0 } key _
        (by simp only; omega) (by rw [hm]; exact hsh) ha kept_zeros
      rw [Store.del_db, ← Store.del_db s] at k1 k2
      have k3 := del_rootAt s key (by omega) (by rw [hm]; exact hsh) ha hk
      rw [← Store.del_db, hm] at h1
      exact ih (s.del key).1 h1.2 h1.1 k1 (by simp only at k2; omega) k3

/-- In the file that `open()` creates the root position in the header is the page of the root. -/
theorem create_rootAt (R K T : Nat) (cfn : Option compareFn) :
    (Store.create R K T cfn).file.RootAt (Store.create R K T cfn).db._root.fpos := by
  have h0 : File.RootAt 32 (File.pwrite [] 0 (headerImage sizeofHeader R K T)) := by
    rw [rootAt_iff]
    simp [File.pwrite, headerImage, sizeofHeader, sizeofLong, sizeofSizeT]
  have hf : (Store.create R K T cfn).db._root.fpos = 32 := by
    simp [Store.create, BTreeDB.create, _allocateNode, sizeofHeader, sizeofSizeT]
  rw [hf]
  simp only [Store.create]
  exact stable_write (rootAt_stable 32) _ (le_of_eq hf.symm) ((rootAt_stable 32).chsize _ _
    (by simp [sizeofHeader, sizeofSizeT]) h0)

/-- Value model of the agreement of header and root.  In the value model of the session
that `open()` starts by creating the file, after `open()` and after every
sequence of `Store.put` and `Store.del` (with a minimum degree of at least 2
as soon as there is a call), the file holds a whole header and the four bytes
of `rootPos` at its start are the bytes of the `fpos` of the root in memory;
when that `fpos` is a value of `long`, the `rootPos` that `open()` reads from
these bytes is that `fpos`.  The source follows the value model on sequences
of `put` calls, also with one `del` at the end; `rootPos_write_not_reached`
is a sequence on which it does not. -/
theorem rootPos_is_root_fpos (R K T : Nat) (cfn : Option compareFn) (ops : List Op)
    (hops : ops = [] ∨ 2 ≤ T) :
    sizeofHeader ≤ ((Store.create R K T cfn).run ops).file.length ∧
    ((Store.create R K T cfn).run ops).file.take sizeofLong
      = leBytes sizeofLong ((Store.create R K T cfn).run ops).db._root.fpos ∧
    (((Store.create R K T cfn).run ops).db._root.fpos < 2 ^ 31 →
      longValue (((Store.create R K T cfn).run ops).file.take sizeofLong)
        = (((Store.create R K T cfn).run ops).db._root.fpos : Int)) := by
  have hc := create_rootAt R K T cfn
  have key : ((Store.create R K T cfn).run ops).file.RootAt
      ((Store.create R K T cfn).run ops).db._root.fpos := by
    rcases hops with rfl | ht
    · exact hc
    · obtain ⟨_, c2, c3, c4, c5⟩ := create_kept R K T cfn
      exact run_rootAt T ht ops _ c4 c5 c2 c3 hc
  refine ⟨key.1, key.2, fun hlt => ?_⟩
  rw [key.2]
  simp only [longValue, leValue_leBytes, sizeofLong]
  have e : ((Store.create R K T cfn).run ops).db._root.fpos % 256 ^ 4
      = ((Store.create R K T cfn).run ops).db._root.fpos := Nat.mod_eq_of_lt (by omega)
  rw [e, if_pos hlt]

/-- An instance of the value model: the root position after a root growth (page 69) and after
a root collapse (page 32). -/
theorem rootPos_is_root_fpos_witness :
    ([Op.put (rec4 1), Op.put (rec4 2), Op.put (rec4 3), Op.put (rec4 4), Op.del (rec4 4),
        Op.del (rec4 3)] = [] ∨ 2 ≤ 2) ∧
    ((Store.create 4 4 2 none).run [Op.put (rec4 1), Op.put (rec4 2), Op.put (rec4 3),
        Op.put (rec4 4)]).db._root.fpos = 69 ∧
    ((Store.create 4 4 2 none).run [Op.put (rec4 1), Op.put (rec4 2), Op.put (rec4 3),
        Op.put (rec4 4), Op.del (rec4 4), Op.del (rec4 3)]).db._root.fpos = 32 ∧
    ((Store.create 4 4 2 none).run [Op.put (rec4 1), Op.put (rec4 2), Op.put (rec4 3),
        Op.put (rec4 4), Op.del (rec4 4), Op.del (rec4 3)]).file.take sizeofLong
      = leBytes sizeofLong ((Store.create 4 4 2 none).run [Op.put (rec4 1), Op.put (rec4 2),
        Op.put (rec4 3), Op.put (rec4 4), Op.del (rec4 4), Op.del (rec4 3)]).db._root.fpos :=
  ⟨Or.inr (le_refl 2), by decide, by decide,
    (rootPos_is_root_fpos 4 4 2 none [Op.put (rec4 1), Op.put (rec4 2), Op.put (rec4 3),
      Op.put (rec4 4), Op.del (rec4 4), Op.del (rec4 3)] (Or.inr (le_refl 2))).2.1⟩

/-! ## A page written and read back -/

/-- The bytes at the position of a write inside the file. -/
theorem pwrite_drop_self (f : File) (pos : Nat) (bs : List Nat) (h : pos ≤ f.length) :
    (f.pwrite pos bs).drop pos = bs ++ f.drop (pos + bs.length) := by
  have hl : (f.take pos).length = pos := by simp; omega
  simp only [File.pwrite, Nat.sub_eq_zero_of_le h, List.replicate_zero, List.append_nil,
    List.append_assoc]
  rw [List.drop_append_of_le_length (by omega), List.drop_eq_nil_of_le (by omega),
    List.nil_append]

/-- An item that stands at a position of the file is the item read there. -/
theorem readItem_of_drop {F : File} {p : Nat} {a b : List Nat} (h : F.drop p = a ++ b)
    (ha : 0 < a.length) : F.readItem p a.length = some a := by
  have hlen : F.length - p = a.length + b.length := by
    rw [← List.length_drop, h, List.length_append]
  simp only [File.readItem]
  rw [if_neg (by omega), h, List.take_left']
  rfl

theorem drop_of_drop {F : File} {p : Nat} {a b : List Nat} (h : F.drop p = a ++ b) :
    F.drop (p + a.length) = b := by
  rw [← List.drop_drop, h, List.drop_left]

/-- Records of a common size that are not empty are written one after the other. -/
theorem writeObjects_flatten (R : Nat) (hR : 0 < R) : ∀ (os : List DbObj),
    (∀ o ∈ os, o.length = R) → writeObjects os = (os.flatten, true) := by
  intro os
  induction os with
  | nil => intro _; rfl
  | cons o os ih =>
    intro h
    have ho := h o (by simp)
    have := ih (fun x hx => h x (by simp [hx]))
    simp only [writeObjects, this, List.flatten_cons]
    rw [if_neg (by omega)]

/-- Records that stand one after the other in the file are the records read. -/
theorem readObjects_of_drop (F : File) (R : Nat) (hR : 0 < R) : ∀ (os : List DbObj) (p : Nat)
    (rest : List Nat), (∀ o ∈ os, o.length = R) → F.drop p = os.flatten ++ rest →
    LNode.readObjects F R p os.length = (os, true) := by
  intro os
  induction os with
  | nil => intro p rest _ _; rfl
  | cons o os ih =>
    intro p rest h hd
    have ho := h o (by simp)
    rw [List.flatten_cons, List.append_assoc] at hd
    have h1 := readItem_of_drop hd (by omega)
    have h2 := drop_of_drop hd
    rw [ho] at h1 h2
    have := ih (p + R) rest (fun x hx => h x (by simp [hx])) h2
    simp only [List.length_cons, LNode.readObjects, h1, this]

theorem readChildren_length (F : File) (pos : Nat) : ∀ (n ctr : Nat),
    (LNode.readChildren F pos ctr n).length = n := by
  intro n
  induction n with
  | zero => intro _; rfl
  | succ n ih => intro ctr; simp [LNode.readChildren, ih]

theorem readChildren_getD (F : File) (pos : Nat) : ∀ (n ctr i : Nat), i < n →
    (LNode.readChildren F pos ctr n).getD i LNode.null =
      LNode.mk (ctr + i) 0 true false
        (longValue ((F.drop (pos + sizeofLong * (ctr + i))).take sizeofLong)) [] [] none := by
  intro n
  induction n with
  | zero => intro _ i h; omega
  | succ n ih =>
    intro ctr i h
    cases i with
    | zero => simp [LNode.readChildren]
    | succ i =>
      simp only [LNode.readChildren, List.getD_cons_succ]
      rw [ih (ctr + 1) i (by omega)]
      have : ctr + 1 + i = ctr + (i + 1) := by omega
      rw [this]

/-- A `long` written and read back. -/
theorem longValue_longBytes (v : Int) (h1 : -(2 ^ 31) ≤ v) (h2 : v < 2 ^ 31) :
    longValue (LNode.longBytes v) = v := by
  simp only [longValue, LNode.longBytes, leValue_leBytes, sizeofLong]
  have hm : (v % 2 ^ 32).toNat % 256 ^ 4 = (v % 2 ^ 32).toNat := by
    apply Nat.mod_eq_of_lt
    omega
  rw [hm]
  split <;> omega

@[simp] theorem longBytes_length (v : Int) : (LNode.longBytes v).length = 4 := by
  simp [LNode.longBytes, sizeofLong]

/-- Entry `i` of a run of four-byte items. -/
theorem flatten_chunk (g : LNode → List Nat) (hg : ∀ x, (g x).length = 4) :
    ∀ (cs : List LNode) (i : Nat) (rest : List Nat), i < cs.length →
    (((cs.map g).flatten ++ rest).drop (4 * i)).take 4 = g (cs.getD i LNode.null) := by
  intro cs
  induction cs with
  | nil => intro i _ h; simp at h
  | cons c cs ih =>
    intro i rest h
    cases i with
    | zero =>
      simp only [List.map_cons, List.flatten_cons, List.append_assoc, Nat.mul_zero, List.drop_zero,
        List.getD_cons_zero]
      rw [← hg c, List.take_left']
      rfl
    | succ i =>
      simp only [List.map_cons, List.flatten_cons, List.append_assoc, List.getD_cons_succ]
      have e : 4 * (i + 1) = (g c).length + 4 * i := by rw [hg]; omega
      rw [e, ← List.drop_drop, List.drop_left]
      exact ih i rest (by simpa using h)

/-- The array of child addresses of a node whose children are all there. -/
theorem childAddresses_full (oc : Nat) (cs : List LNode) (hlen : cs.length = oc + 1)
    (hnn : ∀ x ∈ cs, x ≠ LNode.null) :
    LNode.childAddresses oc cs = (cs.map (fun x => LNode.longBytes x.fpos)).flatten := by
  have hl : ∀ (l : List LNode), ((l.map (fun x => LNode.longBytes x.fpos)).flatten).length
      = 4 * l.length := by
    intro l
    induction l with
    | nil => rfl
    | cons a l ih => simp [ih]; omega
  have key : ∀ (F : LNode → List Nat), (∀ x ∈ cs, F x = LNode.longBytes x.fpos) →
      ((cs.map F).flatten ++ List.replicate (sizeofLong * (oc + 1) - (cs.map F).flatten.length)
        255).take (sizeofLong * (oc + 1)) = (cs.map (fun x => LNode.longBytes x.fpos)).flatten := by
    intro F hF
    rw [List.map_congr_left hF, hl, hlen]
    simp [sizeofLong, hl, hlen]
  unfold LNode.childAddresses
  apply key
  intro x hx
  cases x with
  | null => exact absurd rfl (hnn _ hx)
  | mk => rfl

/-- C31 (amended): node page round trip.  Take a record size `R > 0`, a loaded node with
`0 <= fpos` whose page of `nodeSize = sizeof(objCount) + (2t-1)*R + 2t*sizeof(long) + 1`
bytes lies inside the file, with `objCount <= 2t-1` records of `R` bytes each
and, when it is internal, `objCount + 1` children that are not null and whose
`fpos` are values of `long`.  Then `write` returns true, and `read` with `R`
on a new node with the same `fpos` returns true and leaves that node loaded
with the same `isLeaf`, the same `objCount` and the same records; for an
internal node with `objCount > 0` its children are `objCount + 1` new nodes
that are not loaded, child `i` with `childNo = i` and the `fpos` of the
written `children[i]`. -/
theorem page_round_trip (t R : Nat) (f : File) (c oc : Nat) (l : Bool) (fp : Int)
    (os : List DbObj) (cs : List LNode) (p : Option Int)
    (hR : 0 < R) (hfp : 0 ≤ fp)
    (hpage : fp.toNat + (sizeofSizeT + (2 * t - 1) * R + 2 * t * sizeofLong + 1) ≤ f.length)
    (hoc : os.length = oc) (hcnt : oc ≤ 2 * t - 1) (hmax : oc ≤ SIZE_MAX)
    (hrec : ∀ o ∈ os, o.length = R)
    (hkids : l = false → cs.length = oc + 1 ∧
      ∀ x ∈ cs, x ≠ LNode.null ∧ -(2 ^ 31) ≤ x.fpos ∧ x.fpos < 2 ^ 31) :
    ((LNode.mk c oc l true fp os cs p).write f).2 = true ∧
    ∃ kids, (LNode.mk SIZE_MAX 0 true false fp [] [] none).read
        ((LNode.mk c oc l true fp os cs p).write f).1 R
        = (LNode.mk SIZE_MAX oc l true fp os kids none, true) ∧
      (l = false → 0 < oc → kids.length = oc + 1 ∧
        ∀ i, i ≤ oc → kids.getD i LNode.null
          = LNode.mk i 0 true false (cs.getD i LNode.null).fpos [] [] none) := by
  have hS : sizeofSizeT = 8 := rfl
  have hL : sizeofLong = 4 := rfl
  have hw := writeObjects_flatten R hR os hrec
  have hfl : os.flatten.length = oc * R := by
    have := (writeObjects_length R os hrec).2 hR
    rw [hw, hoc] at this
    exact this.1
  have hmul : oc * R ≤ (2 * t - 1) * R := Nat.mul_le_mul_right R hcnt
  -- the bytes behind the records
  obtain ⟨tail, htail, hW⟩ : ∃ tail : List Nat,
      (tail = if 0 < oc ∧ l = false then LNode.childAddresses oc cs else []) ∧
      (LNode.mk c oc l true fp os cs p).write f
        = (f.pwrite fp.toNat ((if l then 1 else 0) ::
            (leBytes sizeofSizeT oc ++ (os.flatten ++ tail))), true) := by
    refine ⟨_, rfl, ?_⟩
    simp only [LNode.write, hw, Bool.true_eq_false, if_false, show ¬ fp < 0 by omega]
    split <;> simp
  have htl : tail.length ≤ sizeofLong * (oc + 1) := by
    rw [htail]
    split
    · simp [LNode.childAddresses]
    · simp
  rw [hW]
  refine ⟨rfl, ?_⟩
  simp only
  generalize hF : f.pwrite fp.toNat ((if l then 1 else 0) ::
    (leBytes sizeofSizeT oc ++ (os.flatten ++ tail))) = F
  have hlenF : F.length = f.length := by
    rw [← hF]
    apply pwrite_length
    simp only [List.length_cons, List.length_append, leBytes_length, hfl]
    by_cases h0 : 0 < oc
    · have : sizeofLong * (oc + 1) ≤ 2 * t * sizeofLong := by
        rw [Nat.mul_comm]; exact Nat.mul_le_mul_right _ (by omega)
      omega
    · have : tail = [] := by rw [htail, if_neg (fun h => h0 h.1)]
      rw [this]
      simp
      omega
  have hd0 : F.drop fp.toNat = [if l then 1 else 0] ++
      (leBytes sizeofSizeT oc ++ (os.flatten ++ (tail ++ f.drop (fp.toNat +
        ((if l then 1 else 0) :: (leBytes sizeofSizeT oc ++ (os.flatten ++ tail))).length)))) := by
    rw [← hF, pwrite_drop_self _ _ _ (by omega)]
    simp
  generalize f.drop (fp.toNat +
    ((if l then 1 else 0) :: (leBytes sizeofSizeT oc ++ (os.flatten ++ tail))).length) = rest
    at hd0
  have h1 : F.readItem fp.toNat 1 = some [if l then 1 else 0] := readItem_of_drop hd0 (by simp)
  have hd1 : F.drop (fp.toNat + 1) = leBytes sizeofSizeT oc ++ (os.flatten ++ (tail ++ rest)) :=
    drop_of_drop hd0
  have h2 : F.readItem (fp.toNat + 1) sizeofSizeT = some (leBytes sizeofSizeT oc) := by
    have := readItem_of_drop hd1 (by simp [sizeofSizeT])
    simpa using this
  have hd2 : F.drop (fp.toNat + 1 + sizeofSizeT) = os.flatten ++ (tail ++ rest) := by
    have := drop_of_drop hd1
    simpa using this
  have hv : leValue (leBytes sizeofSizeT oc) = oc := by
    rw [leValue_leBytes]
    apply Nat.mod_eq_of_lt
    have : SIZE_MAX < 256 ^ sizeofSizeT := by decide
    omega
  have h3 : LNode.readObjects F R (fp.toNat + 1 + sizeofSizeT) oc = (os, true) := by
    have := readObjects_of_drop F R hR os _ _ hrec hd2
    rwa [hoc] at this
  have hd3 : F.drop (fp.toNat + 1 + sizeofSizeT + oc * R) = tail ++ rest := by
    have := drop_of_drop hd2
    rwa [hfl] at this
  have hflag : decide ([if l then 1 else 0] = [1]) = l := by cases l <;> rfl
  simp only [LNode.read, show ¬ fp < 0 by omega, if_false, h1, h2, hv, h3, hflag,
    Bool.true_eq_false]
  by_cases h0 : 0 < oc
  · have hlong : ¬ F.length < fp.toNat + 1 + sizeofSizeT + oc * R + sizeofLong * (oc + 1) := by
      have : sizeofLong * (oc + 1) ≤ 2 * t * sizeofLong := by
        rw [Nat.mul_comm]; exact Nat.mul_le_mul_right _ (by omega)
      omega
    simp only [h0, if_true, hlong, if_false]
    refine ⟨_, rfl, fun hl _ => ⟨readChildren_length _ _ _ _, fun i hi => ?_⟩⟩
    obtain ⟨k1, k2⟩ := hkids hl
    rw [readChildren_getD _ _ _ _ _ (by omega), Nat.zero_add]
    have htl2 : tail = (cs.map (fun x => LNode.longBytes x.fpos)).flatten := by
      rw [htail, if_pos ⟨h0, hl⟩]
      exact childAddresses_full oc cs k1 (fun x hx => (k2 x hx).1)
    have hch := flatten_chunk (fun x => LNode.longBytes x.fpos) (fun x => longBytes_length _)
      cs i rest (by omega)
    rw [← htl2, ← hd3, List.drop_drop] at hch
    rw [hL, hch]
    have hm := k2 (cs.getD i LNode.null) (by
      rw [List.getD_eq_getElem _ _ (show i < cs.length by omega)]
      exact List.getElem_mem _)
    rw [longValue_longBytes _ hm.2.1 hm.2.2]
  · simp only [h0, if_false]
    exact ⟨_, rfl, fun _ h => h.elim⟩

/-- Witness for C31 (amended): the internal node with the record 2 at page 69 over the pages
32 and 106, minimum degree 2 and four-byte records, in a file of 200 bytes. -/
theorem page_round_trip_witness :
    (0 < 4 ∧ (0 : Int) ≤ 69 ∧
      (69 : Int).toNat + (sizeofSizeT + (2 * 2 - 1) * 4 + 2 * 2 * sizeofLong + 1)
        ≤ (List.replicate 200 0).length) ∧
    ((LNode.mk SIZE_MAX 1 false true 69 [rec4 2]
        [LNode.mk 0 0 true false 32 [] [] none, LNode.mk 1 0 true false 106 [] [] none]
        none).write (List.replicate 200 0)).2 = true ∧
    ∃ kids, (LNode.mk SIZE_MAX 0 true false 69 [] [] none).read
        ((LNode.mk SIZE_MAX 1 false true 69 [rec4 2]
          [LNode.mk 0 0 true false 32 [] [] none, LNode.mk 1 0 true false 106 [] [] none]
          none).write (List.replicate 200 0)).1 4
        = (LNode.mk SIZE_MAX 1 false true 69 [rec4 2] kids none, true) ∧
      (false = false → 0 < 1 → kids.length = 1 + 1 ∧
        ∀ i, i ≤ 1 → kids.getD i LNode.null
          = LNode.mk i 0 true false
            (([LNode.mk 0 0 true false 32 [] [] none,
              LNode.mk 1 0 true false 106 [] [] none] : List LNode).getD i LNode.null).fpos
            [] [] none) :=
  ⟨⟨by decide, by decide, by decide⟩,
    page_round_trip 2 4 (List.replicate 200 0) SIZE_MAX 1 false 69 [rec4 2]
      [LNode.mk 0 0 true false 32 [] [] none, LNode.mk 1 0 true false 106 [] [] none] none
      (by decide) (by decide) (by decide) rfl (by decide) (by decide) (by decide)
      (fun _ => ⟨rfl, fun x hx => by
        simp only [List.mem_cons, List.mem_singleton, List.not_mem_nil, or_false] at hx
        rcases hx with rfl | rfl
        · exact ⟨fun h => LNode.noConfusion h, by decide, by decide⟩
        · exact ⟨fun h => LNode.noConfusion h, by decide, by decide⟩⟩)⟩

/-- C31, counterexample: a leaf with one four-byte record, written at position 0 of an empty
file, which does not hold the page.  `write` returns true and leaves 13 bytes;
`read` on a new node with the same `fpos` takes the leaf flag, `objCount = 1`
and the record, then asks for two child addresses, which `write` stores for
internal nodes only, finds no bytes, returns false and leaves the node not
loaded.  And with the record size 0, a leaf with one record of no bytes in a
file that holds its page: `write` and `read` both return false. -/
theorem page_round_trip_fails :
    ((LNode.mk SIZE_MAX 1 true true 0 [rec4 7] [] none).write []) =
      ([1, 1, 0, 0, 0, 0, 0, 0, 0, 7, 0, 0, 0], true) ∧
    ((LNode.mk SIZE_MAX 0 true false 0 [] [] none).read
      ((LNode.mk SIZE_MAX 1 true true 0 [rec4 7] [] none).write []).1 4).2 = false ∧
    ((LNode.mk SIZE_MAX 0 true false 0 [] [] none).read
      ((LNode.mk SIZE_MAX 1 true true 0 [rec4 7] [] none).write []).1 4).1.loaded = false ∧
    ((LNode.mk SIZE_MAX 1 true true 32 [[]] [] none).write (List.replicate 100 0)).2 = false ∧
    ((LNode.mk SIZE_MAX 0 true false 32 [] [] none).read
      ((LNode.mk SIZE_MAX 1 true true 32 [[]] [] none).write (List.replicate 100 0)).1 0).2
      = false := by
  decide

/-! ## The calls of `_merge` that `_delete` makes -/

section DeleteMergesCases
variable (cfn : compareFn) (t fuel : Nat) (node : TreeNode) (key : DbObj) (i : Nat)

theorem deleteMerges_sentinel (h : (node.findPos key cfn).1 = SIZE_MAX) :
    _deleteMerges cfn t (fuel + 1) node key = [] := by
  simp [_deleteMerges, h]

theorem deleteMerges_none (h : (node.findPos key cfn).2 = EChildPos.ECP_NONE) :
    _deleteMerges cfn t (fuel + 1) node key = [] := by
  simp only [_deleteMerges, h]
  split <;> rfl

theorem deleteMerges_case1 (hop : node.findPos key cfn = (i, EChildPos.ECP_INTHIS))
    (hi : i ≠ SIZE_MAX) (hl : node.isLeaf = true) :
    _deleteMerges cfn t (fuel + 1) node key = [] := by
  simp only [_deleteMerges, hop, hi, hl, ↓reduceIte]

theorem deleteMerges_case2a (hop : node.findPos key cfn = (i, EChildPos.ECP_INTHIS))
    (hi : i ≠ SIZE_MAX) (hl : node.isLeaf = false)
    (ha : t ≤ (node.children.getD i default).objCount) :
    _deleteMerges cfn t (fuel + 1) node key =
      _deleteMerges cfn t fuel (node.children.getD i default)
        ((_findPred fuel (node.children.getD i default)).1.objects.getD
          (_findPred fuel (node.children.getD i default)).2 []) := by
  simp only [_deleteMerges, hop, hi, hl, ha, ↓reduceIte, Bool.false_eq_true]

theorem deleteMerges_case2b (hop : node.findPos key cfn = (i, EChildPos.ECP_INTHIS))
    (hi : i ≠ SIZE_MAX) (hl : node.isLeaf = false)
    (ha : ¬ t ≤ (node.children.getD i default).objCount)
    (hb : t ≤ (node.children.getD (i + 1) default).objCount) :
    _deleteMerges cfn t (fuel + 1) node key =
      _deleteMerges cfn t fuel (node.children.getD (i + 1) default)
        ((_findSucc fuel (node.children.getD (i + 1) default)).1.objects.getD
          (_findSucc fuel (node.children.getD (i + 1) default)).2 []) := by
  simp only [_deleteMerges, hop, hi, hl, ha, hb, ↓reduceIte, Bool.false_eq_true]

theorem deleteMerges_case2c (hop : node.findPos key cfn = (i, EChildPos.ECP_INTHIS))
    (hi : i ≠ SIZE_MAX) (hl : node.isLeaf = false)
    (ha : ¬ t ≤ (node.children.getD i default).objCount)
    (hb : ¬ t ≤ (node.children.getD (i + 1) default).objCount) :
    _deleteMerges cfn t (fuel + 1) node key =
      (node, i) :: _deleteMerges cfn t fuel (_merge t node i).2 key := by
  simp only [_deleteMerges, hop, hi, hl, ha, hb, ↓reduceIte, Bool.false_eq_true]

theorem deleteMerges_case3 (pos : EChildPos) (hop : node.findPos key cfn = (i, pos))
    (hi : i ≠ SIZE_MAX) (hpos : pos = EChildPos.ECP_INLEFT ∨ pos = EChildPos.ECP_INRIGHT)
    (k : Nat) (hk : k = if pos = EChildPos.ECP_INLEFT then i else i + 1)
    (hc : t ≤ (node.children.getD k default).objCount) :
    _deleteMerges cfn t (fuel + 1) node key =
      _deleteMerges cfn t fuel (node.children.getD k default) key := by
  subst hk
  rcases hpos with rfl | rfl
  · simp only [↓reduceIte] at hc
    simp only [_deleteMerges, hop, hi, hc, ↓reduceIte]
  · simp only [reduceCtorEq, ↓reduceIte] at hc
    simp only [_deleteMerges, hop, hi, hc, ↓reduceIte, reduceCtorEq]

theorem deleteMerges_case3a_left (pos : EChildPos) (hop : node.findPos key cfn = (i, pos))
    (hi : i ≠ SIZE_MAX) (hpos : pos = EChildPos.ECP_INLEFT ∨ pos = EChildPos.ECP_INRIGHT)
    (k : Nat) (hk : k = if pos = EChildPos.ECP_INLEFT then i else i + 1)
    (hc : ¬ t ≤ (node.children.getD k default).objCount)
    (hk0 : 0 < k) (hleft : t ≤ (node.children.getD (k - 1) default).objCount) :
    _deleteMerges cfn t (fuel + 1) node key =
      _deleteMerges cfn t fuel ((borrowLeft t node k).children.getD k default) key := by
  subst hk
  rcases hpos with rfl | rfl
  · simp only [↓reduceIte] at hc hk0 hleft
    simp only [_deleteMerges, hop, hi, hc, hk0, hleft, ↓reduceIte, true_or]
  · simp only [reduceCtorEq, ↓reduceIte] at hc hk0 hleft
    simp only [Nat.add_sub_cancel] at hleft
    simp only [_deleteMerges, hop, hi, hc, hleft, ↓reduceIte, reduceCtorEq, true_or,
      Nat.add_sub_cancel, Nat.zero_lt_succ]

theorem deleteMerges_case3a_right (pos : EChildPos) (hop : node.findPos key cfn = (i, pos))
    (hi : i ≠ SIZE_MAX) (hpos : pos = EChildPos.ECP_INLEFT ∨ pos = EChildPos.ECP_INRIGHT)
    (k : Nat) (hk : k = if pos = EChildPos.ECP_INLEFT then i else i + 1)
    (hc : ¬ t ≤ (node.children.getD k default).objCount)
    (hleft : ¬ (0 < k ∧ t ≤ (node.children.getD (k - 1) default).objCount))
    (hkr : k < node.objCount) (hright : t ≤ (node.children.getD (k + 1) default).objCount) :
    _deleteMerges cfn t (fuel + 1) node key =
      _deleteMerges cfn t fuel ((borrowRight t node k i).children.getD k default) key := by
  have hl2 : ¬ t ≤ (if 0 < k then (node.children.getD (k - 1) default).objCount else 0) := by
    intro h
    by_cases h0 : 0 < k
    · rw [if_pos h0] at h
      exact hleft ⟨h0, h⟩
    · rw [if_neg h0] at h
      exact hc (le_trans h (Nat.zero_le _))
  subst hk
  rcases hpos with rfl | rfl
  · simp only [↓reduceIte] at hc hl2 hkr hright
    simp only [_deleteMerges, hop, hi, hc, hl2, hkr, hright, ↓reduceIte, or_true, false_or]
  · simp only [reduceCtorEq, ↓reduceIte] at hc hl2 hkr hright
    simp only [_deleteMerges, hop, hi, hc, hl2, hkr, hright, ↓reduceIte, reduceCtorEq, or_true,
      false_or]

theorem deleteMerges_case3b (pos : EChildPos) (hop : node.findPos key cfn = (i, pos))
    (hi : i ≠ SIZE_MAX) (hpos : pos = EChildPos.ECP_INLEFT ∨ pos = EChildPos.ECP_INRIGHT)
    (k : Nat) (hk : k = if pos = EChildPos.ECP_INLEFT then i else i + 1)
    (hc : ¬ t ≤ (node.children.getD k default).objCount)
    (hleft : ¬ (0 < k ∧ t ≤ (node.children.getD (k - 1) default).objCount))
    (hright : ¬ (k < node.objCount ∧ t ≤ (node.children.getD (k + 1) default).objCount)) :
    _deleteMerges cfn t (fuel + 1) node key =
      (node, i) :: _deleteMerges cfn t fuel (_merge t node i).2 key := by
  have hl2 : ¬ t ≤ (if 0 < k then (node.children.getD (k - 1) default).objCount else 0) := by
    intro h
    by_cases h0 : 0 < k
    · rw [if_pos h0] at h
      exact hleft ⟨h0, h⟩
    · rw [if_neg h0] at h
      exact hc (le_trans h (Nat.zero_le _))
  have hr2 : ¬ t ≤ (if k < node.objCount then (node.children.getD (k + 1) default).objCount
      else 0) := by
    intro h
    by_cases h0 : k < node.objCount
    · rw [if_pos h0] at h
      exact hright ⟨h0, h⟩
    · rw [if_neg h0] at h
      exact hc (le_trans h (Nat.zero_le _))
  subst hk
  rcases hpos with rfl | rfl
  · simp only [↓reduceIte] at hc hl2 hr2
    simp only [_deleteMerges, hop, hi, hc, hl2, hr2, ↓reduceIte, or_self]
  · simp only [reduceCtorEq, ↓reduceIte] at hc hl2 hr2
    simp only [_deleteMerges, hop, hi, hc, hl2, hr2, ↓reduceIte, reduceCtorEq, or_self]

end DeleteMergesCases

/-- In a session where every node is loaded, every call `_merge(node, i)` that `_delete` makes
on a subtree of the shape of a B-tree meets the precondition of `_merge`: record
`i` and the children `i` and `i + 1` are there and both children hold `t - 1`
records. -/
theorem delete_merges_ready (cfn : compareFn) {t : Nat} (ht : 1 ≤ t) :
    ∀ (fuel : Nat) (node : TreeNode) (key : DbObj) (h : Nat), Shaped t node h → h < fuel →
      ∀ c ∈ _deleteMerges cfn t fuel node key, c.1.MergeReady t c.2 := by
  intro fuel
  induction fuel with
  | zero => intro node key h _ hf; omega
  | succ fuel ih =>
    intro node key h hn hf
    have hn0 := hn
    rw [shaped_iff] at hn
    have descend : ∀ (q : TreeNode) (k : Nat) (key1 : DbObj), Shaped t q h →
        q.isLeaf = false → k < q.children.length →
        ∀ c ∈ _deleteMerges cfn t fuel (q.children.getD k default) key1,
          c.1.MergeReady t c.2 := by
      intro q k key1 hq hql hk
      have hq' := hq
      rw [shaped_iff] at hq'
      simp only [hql, Bool.false_eq_true, if_false] at hq'
      have hc := hq'.2.2.2 _ (getD_mem hk)
      exact ih (q.children.getD k default) key1 (h - 1) hc.2 (by omega)
    by_cases hmax : (node.findPos key cfn).1 = SIZE_MAX
    · rw [deleteMerges_sentinel _ _ _ _ _ hmax]
      simp
    generalize hop : node.findPos key cfn = op at hmax
    obtain ⟨i, pos⟩ := op
    simp only at hmax
    have hmerge : ∀ (hl0 : node.isLeaf = false), i < node.objCount →
        (node.children.getD i default).objCount = t - 1 →
        (node.children.getD (i + 1) default).objCount = t - 1 →
        ∀ c ∈ (node, i) :: _deleteMerges cfn t fuel (_merge t node i).2 key,
          c.1.MergeReady t c.2 := by
      intro hl0 hi h1 h2 c hc
      obtain ⟨m1, m2, m3, m4, m5, m6⟩ := merge_shaped ht hn0 hl0 hi h1 h2
      have hlen := (hn0.kids hl0).1
      rcases List.mem_cons.1 hc with rfl | hc
      · exact ⟨hi, (show i + 1 < node.children.length by omega), h1, h2⟩
      · exact ih (_merge t node i).2 key (h - 1) m5 (by
          simp only [hl0, Bool.false_eq_true, if_false] at hn
          omega) c hc
    cases pos with
    | ECP_NONE =>
      rw [deleteMerges_none _ _ _ _ _ (by rw [hop])]
      simp
    | ECP_INTHIS =>
      have hi : i < node.objCount := by
        have := @findPos_inthis node key cfn (by rw [hop])
        simpa [hop] using this
      by_cases hl : node.isLeaf = true
      · rw [deleteMerges_case1 _ _ _ _ _ _ hop hmax hl]
        simp
      · have hl0 : node.isLeaf = false := by simpa using hl
        simp only [hl0, Bool.false_eq_true, if_false] at hn
        obtain ⟨hcnt, hlen, hh, hkids⟩ := hn
        by_cases h2a : t ≤ (node.children.getD i default).objCount
        · rw [deleteMerges_case2a _ _ _ _ _ _ hop hmax hl0 h2a]
          exact descend node i _ hn0 hl0 (by omega)
        · by_cases h2b : t ≤ (node.children.getD (i + 1) default).objCount
          · rw [deleteMerges_case2b _ _ _ _ _ _ hop hmax hl0 h2a h2b]
            exact descend node (i + 1) _ hn0 hl0 (by omega)
          · rw [deleteMerges_case2c _ _ _ _ _ _ hop hmax hl0 h2a h2b]
            have c1 := hkids _ (getD_mem (show i < node.children.length by omega))
            have c2 := hkids _ (getD_mem (show i + 1 < node.children.length by omega))
            exact hmerge hl0 hi (by omega) (by omega)
    | ECP_INLEFT =>
      obtain ⟨hl0, hi⟩ : node.isLeaf = false ∧ i < node.objCount := by
        have := @findPos_inleft node key cfn (by rw [hop])
        simpa [hop] using this
      simp only [hl0, Bool.false_eq_true, if_false] at hn
      obtain ⟨hcnt, hlen, hh, hkids⟩ := hn
      have hpos : EChildPos.ECP_INLEFT = EChildPos.ECP_INLEFT ∨
        EChildPos.ECP_INLEFT = EChildPos.ECP_INRIGHT := Or.inl rfl
      have hki : i = if EChildPos.ECP_INLEFT = EChildPos.ECP_INLEFT then i else i + 1 := by simp
      have c1 := hkids _ (getD_mem (show i < node.children.length by omega))
      by_cases hc : t ≤ (node.children.getD i default).objCount
      · rw [deleteMerges_case3 _ _ _ _ _ _ _ hop hmax hpos i hki hc]
        exact descend node i key hn0 hl0 (by omega)
      · by_cases hleft : 0 < i ∧ t ≤ (node.children.getD (i - 1) default).objCount
        · rw [deleteMerges_case3a_left _ _ _ _ _ _ _ hop hmax hpos i hki hc hleft.1 hleft.2]
          obtain ⟨b1, b2, b3, b4, b5⟩ := borrowLeft_shaped ht hn0 hl0 hleft.1 (by omega)
            (by omega) hleft.2
          exact descend _ i key b1 b3 b4
        · by_cases hright : i < node.objCount ∧ t ≤ (node.children.getD (i + 1) default).objCount
          · rw [deleteMerges_case3a_right _ _ _ _ _ _ _ hop hmax hpos i hki hc hleft hright.1
                hright.2]
            obtain ⟨b1, b2, b3, b4, b5⟩ := borrowRight_shaped i ht hn0 hl0 (by omega)
              (by omega) hright.2
            exact descend _ i key b1 b3 b4
          · rw [deleteMerges_case3b _ _ _ _ _ _ _ hop hmax hpos i hki hc hleft hright]
            have c2 := hkids _ (getD_mem (show i + 1 < node.children.length by omega))
            exact hmerge hl0 hi (by omega) (by
              have : ¬ t ≤ (node.children.getD (i + 1) default).objCount := fun h =>
                hright ⟨hi, h⟩
              omega)
    | ECP_INRIGHT =>
      obtain ⟨hl0, hi⟩ : node.isLeaf = false ∧ i = decr node.objCount := by
        have := @findPos_inright node key cfn (by rw [hop])
        simpa [hop] using this
      obtain ⟨hpos0, hdec⟩ := decr_ne_max (by rw [← hi]; exact hmax)
      have hi' : i = node.objCount - 1 := by rw [hi, hdec]
      simp only [hl0, Bool.false_eq_true, if_false] at hn
      obtain ⟨hcnt, hlen, hh, hkids⟩ := hn
      have hpos : EChildPos.ECP_INRIGHT = EChildPos.ECP_INLEFT ∨
        EChildPos.ECP_INRIGHT = EChildPos.ECP_INRIGHT := Or.inr rfl
      have hki : i + 1 = if EChildPos.ECP_INRIGHT = EChildPos.ECP_INLEFT then i else i + 1 := by
        simp
      have c1 := hkids _ (getD_mem (show i + 1 < node.children.length by omega))
      by_cases hc : t ≤ (node.children.getD (i + 1) default).objCount
      · rw [deleteMerges_case3 _ _ _ _ _ _ _ hop hmax hpos (i + 1) hki hc]
        exact descend node (i + 1) key hn0 hl0 (by omega)
      · by_cases hleft : 0 < i + 1 ∧ t ≤ (node.children.getD (i + 1 - 1) default).objCount
        · rw [deleteMerges_case3a_left _ _ _ _ _ _ _ hop hmax hpos (i + 1) hki hc hleft.1 hleft.2]
          obtain ⟨b1, b2, b3, b4, b5⟩ := borrowLeft_shaped ht hn0 hl0 hleft.1 (by omega)
            (by omega) hleft.2
          exact descend _ (i + 1) key b1 b3 b4
        · have hright : ¬ (i + 1 < node.objCount ∧
              t ≤ (node.children.getD (i + 1 + 1) default).objCount) := fun h => by omega
          rw [deleteMerges_case3b _ _ _ _ _ _ _ hop hmax hpos (i + 1) hki hc hleft hright]
          have c0 := hkids _ (getD_mem (show i < node.children.length by omega))
          exact hmerge hl0 (by omega) (by
              have : ¬ t ≤ (node.children.getD i default).objCount := fun h =>
                hleft ⟨by omega, by simpa using h⟩
              omega) (by omega)

/-- C33: in a database that has just been re-opened, `_delete` calls `_merge` on children that
are not loaded.  The file holds the tree that the puts of 1, 2, 3, 4 leave
for minimum degree 2: the root with the record 2 at page 69 over the leaf 1 at
page 32 and the leaf 3, 4 at page 106.  After `open()` the root is loaded and
its two children are new nodes with `loaded == false`, `objCount == 0` and no
records.  `del` of the record 2 finds it in the root, an internal node; case 2
reads `children[0]->objCount` and `children[1]->objCount`, both 0, without a
`loadChild` (the page of `children[1]` holds two records, so case 2b was the
case to take), and calls `_merge(root, 0)` with both children not loaded: the
precondition of `_merge` fails, and with `t - 1 = 1` its loop reads
`c2->objects[0]` in a vector without elements. -/
theorem reopened_delete_merges_unloaded :
    ((dbOpen (some ((Store.create 4 4 2 none).run [Op.put (rec4 1), Op.put (rec4 2),
        Op.put (rec4 3), Op.put (rec4 4)]).close) 4 4 2 none).reopened?.map
      (fun r => (r._minDegree, r._root.loaded, r._root.isLeaf)))
      = some (2, true, false) ∧
    ((dbOpen (some ((Store.create 4 4 2 none).run [Op.put (rec4 1), Op.put (rec4 2),
        Op.put (rec4 3), Op.put (rec4 4)]).close) 4 4 2 none).reopened?.map
      (fun r => (r._root.objects, r._root.children.map LNode.loaded,
        r._root.children.map LNode.objCount)))
      = some ([rec4 2], [false, false], [0, 0]) ∧
    ((dbOpen (some ((Store.create 4 4 2 none).run [Op.put (rec4 1), Op.put (rec4 2),
        Op.put (rec4 3), Op.put (rec4 4)]).close) 4 4 2 none).reopened?.map
      (fun r => (r._root.children.map LNode.fpos,
        (r._root.loadChild 1 r.file r._recSize).2.objects)))
      = some ([32, 106], [rec4 3, rec4 4]) ∧
    ((dbOpen (some ((Store.create 4 4 2 none).run [Op.put (rec4 1), Op.put (rec4 2),
        Op.put (rec4 3), Op.put (rec4 4)]).close) 4 4 2 none).reopened?.bind
      (fun r => (_deleteCall r._compFunc r._minDegree r.file r._recSize r._root
        (rec4 2)).mergeArgs?)).map
      (fun a => (a.2, (a.1.children.getD a.2 LNode.null).loaded,
        (a.1.children.getD a.2 LNode.null).objects))
      = some (0, false, []) ∧
    ((dbOpen (some ((Store.create 4 4 2 none).run [Op.put (rec4 1), Op.put (rec4 2),
        Op.put (rec4 3), Op.put (rec4 4)]).close) 4 4 2 none).reopened?.bind
      (fun r => (_deleteCall r._compFunc r._minDegree r.file r._recSize r._root
        (rec4 2)).mergeArgs?)).map
      (fun a => ((a.1.children.getD (a.2 + 1) LNode.null).loaded,
        (a.1.children.getD (a.2 + 1) LNode.null).objects,
        decide (LNode.MergeReady 2 a.1 a.2)))
      = some (false, [], false) := by
  refine ⟨?_, ?_, ?_, ?_, ?_⟩ <;> decide

set_option maxRecDepth 1000000

/-! ## Runs of the session with its reference counts -/

/-- C1: `put` of a new record in a valid tree runs into undefined behaviour.  A database of
four-byte records with minimum degree 2 receives `put 1, 2, 3, 4`, `del 4`,
`del 3` and `put 3`; every call returns true and the root is a loaded leaf with
the records 1, 2, 3.  The `del` of 3 has made this leaf (cell 0) the root in
place of the internal root (cell 1), which stays alive, because the `parent`
of the leaf still points to it, and still lists the leaf as its child.  In
`put 4`, `_insert` assigns `oldRoot->parent = _root`; this releases the last
reference to the old root, whose destructor unloads the leaf, and `_split`
then reads `child->objects[2]` in a vector without elements. -/
theorem put_faults_after_root_collapse :
    Mem.outcome (Mem.session 4 4 2 none (putAll [1, 2, 3, 4] ++ delAll [4, 3] ++ putAll [3])
        ((fun r => (r.isLeaf, r.loaded)) <$> Mem.rootNode))
      = Sum.inr ([true, true, true, true, true, true, true], (true, true)) ∧
    Mem.outcome (Mem.session 4 4 2 none (putAll [1, 2, 3, 4] ++ delAll [4, 3] ++ putAll [3])
        Mem.visited)
      = Sum.inr ([true, true, true, true, true, true, true], [rec4 1, rec4 2, rec4 3]) ∧
    Mem.outcome (Mem.session 4 4 2 none (putAll [1, 2, 3, 4] ++ delAll [4, 3] ++ putAll [3])
        ((fun r => (r.parent, r.refs)) <$> Mem.rootNode))
      = Sum.inr ([true, true, true, true, true, true, true], (some 1, 2)) ∧
    Mem.outcome (Mem.session 4 4 2 none (putAll [1, 2, 3, 4] ++ delAll [4, 3] ++ putAll [3])
        ((fun c => (c.refs, c.children)) <$> Mem.cell 1))
      = Sum.inr ([true, true, true, true, true, true, true], (1, [some 0])) ∧
    Mem.outcome (Mem.session 4 4 2 none (putAll [1, 2, 3, 4] ++ delAll [4, 3] ++ putAll [3])
        (Mem.put (rec4 4))) = Sum.inl Mem.Fault.outOfRange := by
  refine ⟨?_, ?_, ?_, ?_, ?_⟩ <;> decide!

/-- C3: a `del` that returns true loses another record.  After `put 1, ..., 13` and
`del 5, 6, 3` the traversal visits 1, 2, 4, 7, 8, 9, 10, 11, 12, 13.  Then
`del 9` returns true, and the traversal visits 1, 2, 4, 7, 9, 10, 11, 12, 13:
the record 8 is gone and the record 9 is still there. -/
theorem del_loses_another_record :
    Mem.outcome (Mem.session 4 4 2 none
        (putAll [1, 2, 3, 4, 5, 6, 7, 8, 9, 10, 11, 12, 13] ++ delAll [5, 6, 3]) Mem.visited)
      = Sum.inr ([true, true, true, true, true, true, true, true, true, true, true, true, true,
          true, true, true],
        [rec4 1, rec4 2, rec4 4, rec4 7, rec4 8, rec4 9, rec4 10, rec4 11, rec4 12, rec4 13]) ∧
    Mem.outcome (Mem.session 4 4 2 none
        (putAll [1, 2, 3, 4, 5, 6, 7, 8, 9, 10, 11, 12, 13] ++ delAll [5, 6, 3, 9]) Mem.visited)
      = Sum.inr ([true, true, true, true, true, true, true, true, true, true, true, true, true,
          true, true, true, true],
        [rec4 1, rec4 2, rec4 4, rec4 7, rec4 9, rec4 10, rec4 11, rec4 12, rec4 13]) := by
  refine ⟨?_, ?_⟩ <;> decide!

/-- C6: a sequence of `put` and `del` runs into undefined behaviour.  On a fresh database of
four-byte records with minimum degree 2 the calls `put 1, 2, 3, 4`, `del 4`,
`del 3`, `put 3` return true and leave a leaf root with three records; the
call `put 4` that follows has to split that root, and the run ends in `_split`
with a read behind the end of the vector `objects` of the root, which the
destructor of the former root has unloaded. -/
theorem run_of_put_and_del_faults :
    Mem.outcome (Mem.session 4 4 2 none (putAll [1, 2, 3, 4] ++ delAll [4, 3] ++ putAll [3])
        (Mem.traverse ([] : List (DbObj × Nat)) (some logVisit)))
      = Sum.inr ([true, true, true, true, true, true, true],
          [(rec4 1, 0), (rec4 2, 0), (rec4 3, 0)]) ∧
    Mem.outcome (Mem.session 4 4 2 none
        (putAll [1, 2, 3, 4] ++ delAll [4, 3] ++ putAll [3, 4]) (pure ()))
      = Sum.inl Mem.Fault.outOfRange := by
  refine ⟨?_, ?_⟩ <;> decide!

/-- C17: thirteen records are put and each is deleted once, and a `del` returns false and the
tree does not end empty.  After `put 1, ..., 13` the calls `del 5, 6, 3, 9`
return true, `del 8` returns false, the eight calls that delete the other keys
return true, and the traversal then visits the record 9. -/
theorem delete_all_leaves_a_record :
    Mem.outcome (Mem.session 4 4 2 none
        (putAll [1, 2, 3, 4, 5, 6, 7, 8, 9, 10, 11, 12, 13]
          ++ delAll [5, 6, 3, 9, 8, 1, 2, 4, 7, 10, 11, 12, 13]) Mem.visited)
      = Sum.inr ([true, true, true, true, true, true, true, true, true, true, true, true, true,
          true, true, true, true, false, true, true, true, true, true, true, true, true],
        [rec4 9]) := by
  decide!

/-- C28: `_split` within its precondition changes the in-order sequence.  After
`put 1, ..., 13` and `del 9` the root holds one record, its child 1 holds the
three records 6, 8, 11, and the traversal visits 1, ..., 8, 10, 11, 12, 13.
The call `_split(root, 1, child)`, which `put 14` makes, moves the two upper
children of the child to the new node and assigns their `parent`; these were
the last references to a node that `_merge` had emptied in `del 9` and that
still lists the two as its children, so its destructor unloads both.  The
traversal after the call visits 1, ..., 8, 9, 11, 11, 12, 13. -/
theorem split_changes_inorder :
    Mem.outcome (Mem.session 4 4 2 none
        (putAll [1, 2, 3, 4, 5, 6, 7, 8, 9, 10, 11, 12, 13] ++ delAll [9])
        ((fun r => r.objCount) <$> Mem.rootNode))
      = Sum.inr ([true, true, true, true, true, true, true, true, true, true, true, true, true,
          true], 1) ∧
    Mem.outcome (Mem.session 4 4 2 none
        (putAll [1, 2, 3, 4, 5, 6, 7, 8, 9, 10, 11, 12, 13] ++ delAll [9])
        ((fun c => (c.objCount, c.objects)) <$> Mem.childOfRoot 1))
      = Sum.inr ([true, true, true, true, true, true, true, true, true, true, true, true, true,
          true], (3, [some (rec4 6), some (rec4 8), some (rec4 11)])) ∧
    Mem.outcome (Mem.session 4 4 2 none
        (putAll [1, 2, 3, 4, 5, 6, 7, 8, 9, 10, 11, 12, 13] ++ delAll [9]) Mem.visited)
      = Sum.inr ([true, true, true, true, true, true, true, true, true, true, true, true, true,
          true],
        [rec4 1, rec4 2, rec4 3, rec4 4, rec4 5, rec4 6, rec4 7, rec4 8, rec4 10, rec4 11,
          rec4 12, rec4 13]) ∧
    Mem.outcome (Mem.session 4 4 2 none
        (putAll [1, 2, 3, 4, 5, 6, 7, 8, 9, 10, 11, 12, 13] ++ delAll [9])
        (do
          Mem.splitUnderRoot 1
          Mem.visited))
      = Sum.inr ([true, true, true, true, true, true, true, true, true, true, true, true, true,
          true],
        [rec4 1, rec4 2, rec4 3, rec4 4, rec4 5, rec4 6, rec4 7, rec4 8, rec4 9, rec4 11,
          rec4 11, rec4 12, rec4 13]) := by
  refine ⟨?_, ?_, ?_, ?_⟩ <;> decide!

/-- C29: `_merge` within its precondition changes the in-order sequence.  After
`put 1, ..., 13` and `del 5, 9, 3` the children 0 and 1 of the root hold one
record each, and the traversal visits 1, 2, 4, 6, 7, 8, 10, 11, 12, 13.  The
call `_merge(root, 0)`, which `del 7` makes, leaves `c1` with the records
2, 7, 10, and at its return the local `c2` is the last reference to the right
child, whose destructor unloads the two children that it still lists and that
now belong to `c1`.  The traversal after the call visits
1, 2, 4, 6, 7, 9, 10, 11, 12, 13. -/
theorem merge_changes_inorder :
    Mem.outcome (Mem.session 4 4 2 none
        (putAll [1, 2, 3, 4, 5, 6, 7, 8, 9, 10, 11, 12, 13] ++ delAll [5, 9, 3])
        ((fun c => (c.objCount, c.loaded)) <$> Mem.childOfRoot 0))
      = Sum.inr ([true, true, true, true, true, true, true, true, true, true, true, true, true,
          true, true, true], (1, true)) ∧
    Mem.outcome (Mem.session 4 4 2 none
        (putAll [1, 2, 3, 4, 5, 6, 7, 8, 9, 10, 11, 12, 13] ++ delAll [5, 9, 3])
        ((fun c => (c.objCount, c.loaded)) <$> Mem.childOfRoot 1))
      = Sum.inr ([true, true, true, true, true, true, true, true, true, true, true, true, true,
          true, true, true], (1, true)) ∧
    Mem.outcome (Mem.session 4 4 2 none
        (putAll [1, 2, 3, 4, 5, 6, 7, 8, 9, 10, 11, 12, 13] ++ delAll [5, 9, 3]) Mem.visited)
      = Sum.inr ([true, true, true, true, true, true, true, true, true, true, true, true, true,
          true, true, true],
        [rec4 1, rec4 2, rec4 4, rec4 6, rec4 7, rec4 8, rec4 10, rec4 11, rec4 12, rec4 13]) ∧
    Mem.outcome (Mem.session 4 4 2 none
        (putAll [1, 2, 3, 4, 5, 6, 7, 8, 9, 10, 11, 12, 13] ++ delAll [5, 9, 3])
        (do
          Mem.mergeUnderRoot 0
          (fun c => c.objects) <$> Mem.childOfRoot 0))
      = Sum.inr ([true, true, true, true, true, true, true, true, true, true, true, true, true,
          true, true, true], [some (rec4 2), some (rec4 7), some (rec4 10)]) ∧
    Mem.outcome (Mem.session 4 4 2 none
        (putAll [1, 2, 3, 4, 5, 6, 7, 8, 9, 10, 11, 12, 13] ++ delAll [5, 9, 3])
        (do
          Mem.mergeUnderRoot 0
          Mem.visited))
      = Sum.inr ([true, true, true, true, true, true, true, true, true, true, true, true, true,
          true, true, true],
        [rec4 1, rec4 2, rec4 4, rec4 6, rec4 7, rec4 9, rec4 10, rec4 11, rec4 12, rec4 13]) := by
  refine ⟨?_, ?_, ?_, ?_, ?_⟩ <;> decide!

/-- C32: the agreement of `rootPos` with the root ends in undefined behaviour.  After the root
growth of `put 1, 2, 3, 4` the first four bytes of the file and the `fpos` of
the root are both 69, and after the root collapse of `del 4`, `del 3` both are
32, also after `put 3`.  The next root growth, in `put 4`, does not reach the
`fwrite` of `_insert` that stores the position of the new root: the run ends
before it, in `_split`, with a read behind the end of a vector. -/
theorem rootPos_write_not_reached :
    Mem.outcome (Mem.session 4 4 2 none (putAll [1, 2, 3, 4]) Mem.rootPosBytes)
      = Sum.inr ([true, true, true, true], ([69, 0, 0, 0], [69, 0, 0, 0])) ∧
    Mem.outcome (Mem.session 4 4 2 none (putAll [1, 2, 3, 4] ++ delAll [4, 3])
        Mem.rootPosBytes)
      = Sum.inr ([true, true, true, true, true, true], ([32, 0, 0, 0], [32, 0, 0, 0])) ∧
    Mem.outcome (Mem.session 4 4 2 none (putAll [1, 2, 3, 4] ++ delAll [4, 3] ++ putAll [3])
        Mem.rootPosBytes)
      = Sum.inr ([true, true, true, true, true, true, true], ([32, 0, 0, 0], [32, 0, 0, 0])) ∧
    Mem.outcome (Mem.session 4 4 2 none
        (putAll [1, 2, 3, 4] ++ delAll [4, 3] ++ putAll [3, 4]) Mem.rootPosBytes)
      = Sum.inl Mem.Fault.outOfRange := by
  refine ⟨?_, ?_, ?_, ?_⟩ <;> decide!

/-- The session with its reference counts and the value model on a run of `put` calls:
after `put 1, ..., 13` both have returned the same flags, visit the same
records at the same depths and hold the same file. -/
theorem counted_session_agrees_on_puts :
    Mem.outcome (Mem.session 4 4 2 none
        (putAll [1, 2, 3, 4, 5, 6, 7, 8, 9, 10, 11, 12, 13])
        (Mem.traverse ([] : List (DbObj × Nat)) (some logVisit)))
      = Sum.inr ((BTreeDB.create 4 4 2 none).flags
          (putAll [1, 2, 3, 4, 5, 6, 7, 8, 9, 10, 11, 12, 13]),
        ((BTreeDB.create 4 4 2 none).run
          (putAll [1, 2, 3, 4, 5, 6, 7, 8, 9, 10, 11, 12, 13])).traverse
            ([] : List (DbObj × Nat)) (some logVisit)) ∧
    Mem.outcome (Mem.session 4 4 2 none
        (putAll [1, 2, 3, 4, 5, 6, 7, 8, 9, 10, 11, 12, 13])
        ((fun s => s.file) <$> Mem.state))
      = Sum.inr ((BTreeDB.create 4 4 2 none).flags
          (putAll [1, 2, 3, 4, 5, 6, 7, 8, 9, 10, 11, 12, 13]),
        ((Store.create 4 4 2 none).run
          (putAll [1, 2, 3, 4, 5, 6, 7, 8, 9, 10, 11, 12, 13])).file) := by
  refine ⟨?_, ?_⟩ <;> decide!

/-- The session with its reference counts and the value model on a `del` behind `put`
calls, and on the call after it: after `put 1, ..., 13` and `del 9` both have
returned the same flags, visit the same records at the same depths and hold
the same file; after the `put 14` that follows, the value model visits
1, ..., 8, 10, ..., 14 and the session with its counts visits
1, ..., 9, 11, 11, 12, 13, 14. -/
theorem counted_session_agrees_on_one_del :
    Mem.outcome (Mem.session 4 4 2 none
        (putAll [1, 2, 3, 4, 5, 6, 7, 8, 9, 10, 11, 12, 13] ++ delAll [9])
        (Mem.traverse ([] : List (DbObj × Nat)) (some logVisit)))
      = Sum.inr ((BTreeDB.create 4 4 2 none).flags
          (putAll [1, 2, 3, 4, 5, 6, 7, 8, 9, 10, 11, 12, 13] ++ delAll [9]),
        ((BTreeDB.create 4 4 2 none).run
          (putAll [1, 2, 3, 4, 5, 6, 7, 8, 9, 10, 11, 12, 13] ++ delAll [9])).traverse
            ([] : List (DbObj × Nat)) (some logVisit)) ∧
    Mem.outcome (Mem.session 4 4 2 none
        (putAll [1, 2, 3, 4, 5, 6, 7, 8, 9, 10, 11, 12, 13] ++ delAll [9])
        ((fun s => s.file) <$> Mem.state))
      = Sum.inr ((BTreeDB.create 4 4 2 none).flags
          (putAll [1, 2, 3, 4, 5, 6, 7, 8, 9, 10, 11, 12, 13] ++ delAll [9]),
        ((Store.create 4 4 2 none).run
          (putAll [1, 2, 3, 4, 5, 6, 7, 8, 9, 10, 11, 12, 13] ++ delAll [9])).file) ∧
    ((BTreeDB.create 4 4 2 none).run
        (putAll [1, 2, 3, 4, 5, 6, 7, 8, 9, 10, 11, 12, 13] ++ delAll [9]
          ++ putAll [14])).records
      = [rec4 1, rec4 2, rec4 3, rec4 4, rec4 5, rec4 6, rec4 7, rec4 8, rec4 10, rec4 11,
          rec4 12, rec4 13, rec4 14] ∧
    Mem.outcome (Mem.session 4 4 2 none
        (putAll [1, 2, 3, 4, 5, 6, 7, 8, 9, 10, 11, 12, 13] ++ delAll [9] ++ putAll [14])
        Mem.visited)
      = Sum.inr ([true, true, true, true, true, true, true, true, true, true, true, true, true,
          true, true],
        [rec4 1, rec4 2, rec4 3, rec4 4, rec4 5, rec4 6, rec4 7, rec4 8, rec4 9, rec4 11,
          rec4 11, rec4 12, rec4 13, rec4 14]) := by
  refine ⟨?_, ?_, ?_, ?_⟩ <;> decide!

/-! ## Runs of `put` calls, and one `del` behind them

In a run of `put` calls no node is deleted, and in a `del` that follows such a
run the only nodes deleted are leaves, which list no child; on these runs the
value model is the session of the source. -/

/-- A run of `put` calls keeps a sound state sound and keeps the parameters. -/
theorem run_puts_keeps_sound (recs : List DbObj) : ∀ (db : BTreeDB), db.Sound →
    (db.run (recs.map Op.put)).Sound ∧
    (db.run (recs.map Op.put))._compFunc = db._compFunc ∧
    (db.run (recs.map Op.put))._recSize = db._recSize ∧
    (db.run (recs.map Op.put))._minDegree = db._minDegree := by
  induction recs with
  | nil =>
    intro db hs
    exact ⟨hs, rfl, rfl, rfl⟩
  | cons r recs ih =>
    intro db hs
    obtain ⟨p1, p2, p3, _⟩ := put_params db r
    obtain ⟨q1, q2, q3, q4⟩ := ih (db.put r).1 (put_sound db r hs)
    have hrun : db.run ((r :: recs).map Op.put) = (db.put r).1.run (recs.map Op.put) := by
      simp [BTreeDB.run, BTreeDB.step]
    rw [hrun]
    exact ⟨q1, q2.trans p1, q3.trans p2, q4.trans p3⟩

/-- Method `put` after `put` calls: a freshly created database (`t ≥ 2`, the capacity
`2t - 1` a value of `size_t`, the comparator a total order on records of
`recSize` bytes) has received any list of `put` calls.  Then `put` of a record
of `recSize` bytes that compares unequal to every stored record returns true,
and the in-order sequence afterwards is the previous one with the record
inserted at its sorted position. -/
theorem put_after_puts_inserts_at_sorted_position (recSize keySize t : Nat)
    (cfn : Option compareFn) (recs : List DbObj) (rec : DbObj) (ht : 2 ≤ t)
    (hfit : 2 * t - 1 ≤ SIZE_MAX)
    (ho : TotalOrderOn (fun r => r.length = recSize) (cfn.getD _defaultCompare))
    (hsize : rec.length = recSize)
    (hne : ∀ s ∈ ((BTreeDB.create recSize keySize t cfn).run (recs.map Op.put)).records,
      (cfn.getD _defaultCompare) rec s ≠ 0) :
    (((BTreeDB.create recSize keySize t cfn).run (recs.map Op.put)).put rec).2 = true ∧
    ∃ l1 l2, ((BTreeDB.create recSize keySize t cfn).run (recs.map Op.put)).records = l1 ++ l2 ∧
      (((BTreeDB.create recSize keySize t cfn).run (recs.map Op.put)).put rec).1.records
        = l1 ++ rec :: l2 ∧
      (∀ a ∈ l1, (cfn.getD _defaultCompare) a rec < 0) ∧
      (∀ b ∈ l2, (cfn.getD _defaultCompare) rec b < 0) := by
  obtain ⟨hs, e1, e2, _⟩ := run_puts_keeps_sound recs _
    (create_sound recSize keySize t cfn ht hfit ho)
  generalize (BTreeDB.create recSize keySize t cfn).run (recs.map Op.put) = db at hs e1 e2 hne
  have c1 : db._compFunc = cfn.getD _defaultCompare := e1
  have c2 : db._recSize = recSize := e2
  rw [← c1] at hne ⊢
  rw [← c2] at hsize
  have hsearch : _search db._compFunc db._root.height db._root rec none = (none, SIZE_MAX) :=
    search_none db._compFunc rec _ _ none hne
      (fun r hr => hne r (mem_inorder_of_mem_objects hr))
  obtain ⟨h, hsh⟩ := hs.shape
  have hins := insert_inorder hs.order db._nodeSize db.fileLen rec hs.degree hsize hsh
    hs.asc (fun r hr => ⟨hs.sizes r hr, hne r hr⟩)
  simp only [BTreeDB.put, BTreeDB.getRecSize, hsize, ne_eq, not_true_eq_false, if_false,
    hsearch, BTreeDB.records]
  exact ⟨trivial, hins⟩

/-- An instance of `put` after `put` calls: the records 1, 2, 3, 4, 6 and then 5. -/
theorem put_after_puts_inserts_at_sorted_position_witness :
    (((BTreeDB.create 4 4 2 none).run ([rec4 1, rec4 2, rec4 3, rec4 4, rec4 6].map Op.put)).put
      (rec4 5)).2 = true :=
  (put_after_puts_inserts_at_sorted_position 4 4 2 none
    [rec4 1, rec4 2, rec4 3, rec4 4, rec4 6] (rec4 5) (by decide) (by decide)
    (defaultCompare_totalOrder 4) rfl (by decide)).1

/-- Method `del` after `put` calls: a freshly created database (`t ≥ 2`, the capacity
`2t - 1` a value of `size_t`, the comparator a total order on records of
`recSize` bytes) has received any list of `put` calls.  Then `del` of a key of
`recSize` bytes that compares equal to a stored record returns true, and the
in-order sequence afterwards is the previous one with exactly that record
removed. -/
theorem del_after_puts_removes_exactly_that_record (recSize keySize t : Nat)
    (cfn : Option compareFn) (recs : List DbObj) (key : DbObj) (ht : 2 ≤ t)
    (hfit : 2 * t - 1 ≤ SIZE_MAX)
    (ho : TotalOrderOn (fun r => r.length = recSize) (cfn.getD _defaultCompare))
    (hsize : key.length = recSize)
    (hex : ∃ r ∈ ((BTreeDB.create recSize keySize t cfn).run (recs.map Op.put)).records,
      (cfn.getD _defaultCompare) key r = 0) :
    (((BTreeDB.create recSize keySize t cfn).run (recs.map Op.put)).del key).2 = true ∧
    ∃ l1 x l2,
      ((BTreeDB.create recSize keySize t cfn).run (recs.map Op.put)).records = l1 ++ x :: l2 ∧
      (cfn.getD _defaultCompare) key x = 0 ∧
      (((BTreeDB.create recSize keySize t cfn).run (recs.map Op.put)).del key).1.records
        = l1 ++ l2 := by
  obtain ⟨hs, e1, e2, _⟩ := run_puts_keeps_sound recs _
    (create_sound recSize keySize t cfn ht hfit ho)
  generalize (BTreeDB.create recSize keySize t cfn).run (recs.map Op.put) = db at hs e1 e2 hex
  have c1 : db._compFunc = cfn.getD _defaultCompare := e1
  have c2 : db._recSize = recSize := e2
  rw [← c1] at hex ⊢
  rw [← c2] at hsize
  obtain ⟨d1, _, d3⟩ := del_ordered db key hs.ordered hsize hex
  exact ⟨d1, d3⟩

/-- An instance of `del` after `put` calls: the records 1, 2, 3, 4, 5 and then the key 3. -/
theorem del_after_puts_removes_exactly_that_record_witness :
    (((BTreeDB.create 4 4 2 none).run ([rec4 1, rec4 2, rec4 3, rec4 4, rec4 5].map Op.put)).del
      (rec4 3)).2 = true :=
  (del_after_puts_removes_exactly_that_record 4 4 2 none
    [rec4 1, rec4 2, rec4 3, rec4 4, rec4 5] (rec4 3) (by decide) (by decide)
    (defaultCompare_totalOrder 4) rfl ⟨rec4 3, by decide, by decide⟩).1

/-- Shape invariant after `put` calls and one more call: on a freshly created database with
minimum degree `t ≥ 2`, after any list of `put` calls followed by one `put` or
`del`, the root holds at most `2t-1` records, every node below the root holds
between `t-1` and `2t-1` records, and all leaves are at one depth. -/
theorem shape_invariant_after_puts (recSize keySize t : Nat) (cfn : Option compareFn)
    (ht : 2 ≤ t) (recs : List DbObj) (op : Op) :
    ((BTreeDB.create recSize keySize t cfn).run (recs.map Op.put ++ [op]))._root.objCount
      ≤ 2 * t - 1 ∧
    (∀ m ∈ nodesList
        ((BTreeDB.create recSize keySize t cfn).run (recs.map Op.put ++ [op]))._root.children,
      t - 1 ≤ m.objCount ∧ m.objCount ≤ 2 * t - 1) ∧
    (∃ depth, ∀ x ∈
        ((BTreeDB.create recSize keySize t cfn).run (recs.map Op.put ++ [op]))._root.leafDepths 0,
      x = depth) := by
  obtain ⟨⟨h, hs⟩, _⟩ := run_shapeInv recSize keySize t cfn ht (recs.map Op.put ++ [op])
  have := hs.flat
  exact ⟨this.1, this.2.1, ⟨0 + h, this.2.2 0⟩⟩

/-- An instance of the shape invariant: thirteen records and the `del` of one of them. -/
theorem shape_invariant_after_puts_witness :
    ((BTreeDB.create 4 4 2 none).run
      ([rec4 1, rec4 2, rec4 3, rec4 4, rec4 5, rec4 6, rec4 7, rec4 8, rec4 9, rec4 10,
        rec4 11, rec4 12, rec4 13].map Op.put ++ [Op.del (rec4 9)]))._root.objCount
      ≤ 2 * 2 - 1 :=
  (shape_invariant_after_puts 4 4 2 none (le_refl 2)
    [rec4 1, rec4 2, rec4 3, rec4 4, rec4 5, rec4 6, rec4 7, rec4 8, rec4 9, rec4 10,
      rec4 11, rec4 12, rec4 13] (Op.del (rec4 9))).1

/-- Agreement of header and root after `put` calls and one more call: in the session that
`open()` starts by creating the file with a minimum degree of at least 2,
after any list of `put` calls followed by one `put` or `del`, the file holds a
whole header and the four bytes of `rootPos` at its start are the bytes of the
`fpos` of the root in memory. -/
theorem rootPos_is_root_fpos_after_puts (R K T : Nat) (cfn : Option compareFn) (ht : 2 ≤ T)
    (recs : List DbObj) (op : Op) :
    sizeofHeader ≤ ((Store.create R K T cfn).run (recs.map Op.put ++ [op])).file.length ∧
    ((Store.create R K T cfn).run (recs.map Op.put ++ [op])).file.take sizeofLong
      = leBytes sizeofLong
          ((Store.create R K T cfn).run (recs.map Op.put ++ [op])).db._root.fpos := by
  obtain ⟨_, c2, c3, c4, c5⟩ := create_kept R K T cfn
  have key := run_rootAt T ht (recs.map Op.put ++ [op]) _ c4 c5 c2 c3 (create_rootAt R K T cfn)
  exact ⟨key.1, key.2⟩

/-- An instance of the agreement of header and root: the root grows in the fourth `put`. -/
theorem rootPos_is_root_fpos_after_puts_witness :
    ((Store.create 4 4 2 none).run
      ([rec4 1, rec4 2, rec4 3].map Op.put ++ [Op.put (rec4 4)])).file.take sizeofLong
      = leBytes sizeofLong ((Store.create 4 4 2 none).run
          ([rec4 1, rec4 2, rec4 3].map Op.put ++ [Op.put (rec4 4)])).db._root.fpos :=
  (rootPos_is_root_fpos_after_puts 4 4 2 none (le_refl 2) [rec4 1, rec4 2, rec4 3]
    (Op.put (rec4 4))).2

/-! ## Concrete runs -/

/-- C4: after `put 1, 2, 3, 4; del 4` the root holds one record over two leaves of
one record each.  `del 5` (not stored) returns false, yet it merges the two
leaves, leaves the root internal with no record, and from then on `get`
finds none of the stored records. -/
theorem del_missing_key_hides_records :
    (scenario [Op.put (rec4 1), Op.put (rec4 2), Op.put (rec4 3), Op.put (rec4 4),
        Op.del (rec4 4)]).get (rec4 1) = some (rec4 1) ∧
    ((scenario [Op.put (rec4 1), Op.put (rec4 2), Op.put (rec4 3), Op.put (rec4 4),
        Op.del (rec4 4)]).del (rec4 5)).2 = false ∧
    ((scenario [Op.put (rec4 1), Op.put (rec4 2), Op.put (rec4 3), Op.put (rec4 4),
        Op.del (rec4 4)]).del (rec4 5)).1.records = [rec4 1, rec4 2, rec4 3] ∧
    ((scenario [Op.put (rec4 1), Op.put (rec4 2), Op.put (rec4 3), Op.put (rec4 4),
        Op.del (rec4 4)]).del (rec4 5)).1.get (rec4 1) = none ∧
    ((scenario [Op.put (rec4 1), Op.put (rec4 2), Op.put (rec4 3), Op.put (rec4 4),
        Op.del (rec4 4)]).del (rec4 5)).1.search (rec4 1) none = (none, SIZE_MAX) := by
  decide

/-- C5: in the state left by `put 1, 2, 3, 4; del 4; del 5` the record `2` is
stored, and `put 2` returns true but adds a second copy instead of replacing
the stored one: the number of records grows from 3 to 4. -/
theorem put_existing_key_duplicates :
    (scenario [Op.put (rec4 1), Op.put (rec4 2), Op.put (rec4 3), Op.put (rec4 4),
        Op.del (rec4 4), Op.del (rec4 5)]).records = [rec4 1, rec4 2, rec4 3] ∧
    ((scenario [Op.put (rec4 1), Op.put (rec4 2), Op.put (rec4 3), Op.put (rec4 4),
        Op.del (rec4 4), Op.del (rec4 5)]).put (rec4 2)).2 = true ∧
    ((scenario [Op.put (rec4 1), Op.put (rec4 2), Op.put (rec4 3), Op.put (rec4 4),
        Op.del (rec4 4), Op.del (rec4 5)]).put (rec4 2)).1.records =
      [rec4 1, rec4 2, rec4 2, rec4 3] := by
  decide

/-- C7: after `put 1, 2, 3, 4; del 4; del 5; put 2` the root holds the record `2`
and its first child holds `1, 2`, so the order invariant fails at the root. -/
theorem order_inv_fails_after_failed_del :
    ¬ (scenario [Op.put (rec4 1), Op.put (rec4 2), Op.put (rec4 3), Op.put (rec4 4),
        Op.del (rec4 4), Op.del (rec4 5), Op.put (rec4 2)])._root.OrderInv _defaultCompare := by
  intro h
  have h1 := (h _ (TreeNode.mem_nodes_self _) (by decide) 0 (by decide)).1 (rec4 2) (by decide)
  revert h1
  decide

/-- C8: after `put 1, 2, 3, 4, 5, 6, 0; del 3` (a borrow from the left sibling, which
sets the `childNo` of the middle leaf to 2) the tree holds `0, 1, 2, 4, 5, 6`,
but the forward cursor emits `0, 1, 2` and then reports end-of-sequence. -/
theorem seq_forward_stops_early_after_borrow :
    (scenario [Op.put (rec4 1), Op.put (rec4 2), Op.put (rec4 3), Op.put (rec4 4),
        Op.put (rec4 5), Op.put (rec4 6), Op.put (rec4 0), Op.del (rec4 3)]).records =
      [rec4 0, rec4 1, rec4 2, rec4 4, rec4 5, rec4 6] ∧
    ((scenario [Op.put (rec4 1), Op.put (rec4 2), Op.put (rec4 3), Op.put (rec4 4),
        Op.put (rec4 5), Op.put (rec4 6), Op.put (rec4 0), Op.del (rec4 3)]).seqCalls
        ESeqDirection.ESD_FORWARD 7 (none, SIZE_MAX)).map SeqResult.rec? =
      [some (rec4 0), some (rec4 1), some (rec4 2), none] ∧
    ((scenario [Op.put (rec4 1), Op.put (rec4 2), Op.put (rec4 3), Op.put (rec4 4),
        Op.put (rec4 5), Op.put (rec4 6), Op.put (rec4 0), Op.del (rec4 3)]).seqCalls
        ESeqDirection.ESD_FORWARD 7 (none, SIZE_MAX)).getLast? = some SeqResult.done := by
  decide

/-- C9: after `put 1, 2, 3, 4` the root holds `2` over the leaves `1` and `3, 4`.
The backward cursor emits `4, 3` and then reports end-of-sequence: at slot 0
of the right leaf (`childNo = 1`) the climb tests `childNo >= objCount`,
leaves the root and never emits `2` or `1`. -/
theorem seq_backward_skips_ancestor :
    (scenario [Op.put (rec4 1), Op.put (rec4 2), Op.put (rec4 3), Op.put (rec4 4)]).records =
      [rec4 1, rec4 2, rec4 3, rec4 4] ∧
    ((scenario [Op.put (rec4 1), Op.put (rec4 2), Op.put (rec4 3), Op.put (rec4 4)]).seqCalls
        ESeqDirection.ESD_BACKWARD 5 (none, SIZE_MAX)).map SeqResult.rec? =
      [some (rec4 4), some (rec4 3), none] ∧
    ((scenario [Op.put (rec4 1), Op.put (rec4 2), Op.put (rec4 3), Op.put (rec4 4)]).seqCalls
        ESeqDirection.ESD_BACKWARD 5 (none, SIZE_MAX)).getLast? = some SeqResult.done := by
  decide

end Database
